import Mathlib

/-!
A shallow embedding of `include/rapidjson/schema.h`.

The file embeds the schema compiler (`BaseSchema::BaseSchema`), the schema node
event interface (`BaseSchema::Null` .. `BaseSchema::EndArray`, `BeginValue`,
`EndValue`) and the streaming validator (`GenericSchemaValidator`) as pure Lean
functions with explicit state passing, and proves properties of them.

Conventions.

* A string of `Ch` code units is a Lean `String`, one `Char` per code unit, so
  `String.length` is the `length` argument of the `String` and `Key` events.
* `SizeType` is `unsigned`: a natural number below `2 ^ 32`; the counters that
  the code increments wrap modulo `2 ^ 32`.
* `double` is the type `Dbl`: the two infinities, NaN and the finite values, the
  finite values being rational numbers (every finite double is one).
* A pointer that may be null is an `Option`; a pointer to an immutable schema
  node is the node itself.
* Undefined behaviour (reading the top of an empty stack, indexing a null
  array, a failed `RAPIDJSON_ASSERT`) and running out of fuel are `none`.
* The three methods and events whose C++ names are names of Lean types are
  written `Bool_`, `Int_` and `String_`.
-/

namespace RapidJson

/-! ## Doubles -/

/-- The values of a C++ `double`: NaN, the two infinities and the finite values. -/
inductive Dbl where
  | nan
  | ninf
  | pinf
  | fin (q : ℚ)
  deriving DecidableEq

namespace Dbl

/-- The comparison `a < b` of two doubles (false when either is NaN). -/
def lt : Dbl → Dbl → Bool
  | nan, _ => false
  | _, nan => false
  | ninf, ninf => false
  | ninf, _ => true
  | _, ninf => false
  | pinf, _ => false
  | fin _, pinf => true
  | fin a, fin b => decide (a < b)

/-- The comparison `a <= b` of two doubles (false when either is NaN). -/
def le : Dbl → Dbl → Bool
  | nan, _ => false
  | _, nan => false
  | ninf, _ => true
  | _, pinf => true
  | pinf, _ => false
  | fin _, ninf => false
  | fin a, fin b => decide (a ≤ b)

/-- The comparison `a > b`. -/
def gt (a b : Dbl) : Bool := lt b a

/-- The comparison `a >= b`. -/
def ge (a b : Dbl) : Bool := le b a

/-- The comparison `a != b` of two doubles (true when either is NaN). -/
def ne : Dbl → Dbl → Bool
  | nan, _ => true
  | _, nan => true
  | ninf, ninf => false
  | pinf, pinf => false
  | fin a, fin b => decide (a.num * b.den ≠ b.num * a.den)
  | _, _ => true

/-- The function `std::fmod(x, y)`: NaN when `x` is infinite or `y` is zero or
either is NaN, `x` when `y` is infinite, and otherwise the exact remainder
`x - y * trunc (x / y)`, which for `x = a / b` and `y = c / d` is
`tmod (a * d) (b * c) / (b * d)`. -/
def fmod : Dbl → Dbl → Dbl
  | nan, _ => nan
  | _, nan => nan
  | ninf, _ => nan
  | pinf, _ => nan
  | fin x, ninf => fin x
  | fin x, pinf => fin x
  | fin x, fin y =>
    if y.num = 0 then nan
    else fin (mkRat (Int.tmod (x.num * y.den) (x.den * y.num)) (x.den * y.den))

/-- The number of low bits a natural number has beyond a 53-bit significand:
the least `e` with `a / 2 ^ e < 2 ^ 53` (the first argument bounds the search). -/
def excessBits : Nat → Nat → Nat
  | 0, _ => 0
  | k + 1, a => if a < 2 ^ 53 then 0 else excessBits k (a / 2) + 1

/-- The integer nearest to `i` that has a 53-bit significand, ties to even: the
value of the conversion of a 64-bit integer to `double`. -/
def roundToDouble (i : Int) : Int :=
  let a := i.natAbs
  if a < 2 ^ 53 then i
  else
    let e := excessBits a a
    let q := a / 2 ^ e
    let r := a % 2 ^ e
    let half := 2 ^ (e - 1)
    let q1 := if half < r ∨ (r = half ∧ q % 2 = 1) then q + 1 else q
    if i < 0 then -((q1 * 2 ^ e : Nat) : Int) else ((q1 * 2 ^ e : Nat) : Int)

/-- The implicit conversion of an `int`, `unsigned`, `int64_t` or `uint64_t` to
`double`. -/
def ofInt (i : Int) : Dbl := fin (roundToDouble i)

end Dbl

/-! ## JSON values (`GenericValue`) -/

/-- A parsed JSON value: the `GenericValue` the schema compiler reads. A number
is an integer (the `Int`, `Uint`, `Int64` and `Uint64` flags, according to its
range) or a double. -/
inductive Json where
  | null
  | bool (b : Bool)
  | int (i : Int)
  | double (d : Dbl)
  | str (s : String)
  | arr (elems : List Json)
  | obj (members : List (String × Json))

namespace Json

/-- The test `IsObject()`. -/
def IsObject : Json → Bool
  | obj _ => true
  | _ => false

/-- The test `IsArray()`. -/
def IsArray : Json → Bool
  | arr _ => true
  | _ => false

/-- The test `IsString()`. -/
def IsString : Json → Bool
  | str _ => true
  | _ => false

/-- The test `IsBool()`. -/
def IsBool : Json → Bool
  | bool _ => true
  | _ => false

/-- The test `IsNumber()`. -/
def IsNumber : Json → Bool
  | int _ => true
  | double _ => true
  | _ => false

/-- The test `IsUint64()`: an integer in the range of `uint64_t`. -/
def IsUint64 : Json → Bool
  | int i => decide (0 ≤ i ∧ i < 2 ^ 64)
  | _ => false

/-- The accessor `GetDouble()` of a number, converting from an integer. -/
def GetDouble : Json → Dbl
  | int i => Dbl.ofInt i
  | double d => d
  | _ => Dbl.nan

/-- The elements `Begin() .. End()` of an array (no element for another value). -/
def elements : Json → List Json
  | arr xs => xs
  | _ => []

mutual
/-- Modelled from the spec: `GenericValue::operator==` of `document.h`, which is
not under `src/`; the spec calls it JSON structural equality. Two values are
equal when they are of the same kind and: two numbers have the same value (two
integers exactly, otherwise as doubles); two strings have the same code units;
two arrays have the same length and equal elements in order; two objects have
the same number of members and every member of the first has a member of the
same name and an equal value in the second. -/
def eq : Json → Json → Bool
  | null, null => true
  | bool a, bool b => a == b
  | int a, int b => a == b
  | int a, double b => Dbl.le (Dbl.ofInt a) b && Dbl.ge (Dbl.ofInt a) b
  | double a, int b => Dbl.le a (Dbl.ofInt b) && Dbl.ge a (Dbl.ofInt b)
  | double a, double b => Dbl.le a b && Dbl.ge a b
  | str a, str b => a == b
  | arr xs, arr ys => eqList xs ys
  | obj ms, obj ns => ms.length == ns.length && eqMembers ms ns
  | _, _ => false
/-- Equality of two element lists, position by position. -/
def eqList : List Json → List Json → Bool
  | [], [] => true
  | x :: xs, y :: ys => eq x y && eqList xs ys
  | _, _ => false
/-- Every member of the first list has an equal member of the same name in the
second (`FindMember` returns the first member of that name). -/
def eqMembers : List (String × Json) → List (String × Json) → Bool
  | [], _ => true
  | (k, v) :: ms, ns =>
    (match ns.lookup k with
      | some w => eq v w
      | none => false) && eqMembers ms ns
end

end Json

/-- The lookup `GetMember(value, name)` in the members of an object: the value
of the first member of that name, `none` for the null pointer. -/
def GetMember : List (String × Json) → String → Option Json
  | [], _ => none
  | (k, v) :: rest, name => if k = name then some v else GetMember rest name

/-! ## Schema nodes (`BaseSchema`) -/

/-- The largest `SizeType`, `SizeType(~0)`. -/
def SizeTypeMax : Nat := 2 ^ 32 - 1

/-- The increment `x++` of a `SizeType`. -/
def SizeType.succ (x : Nat) : Nat := (x + 1) % 2 ^ 32

/-- The enumeration `SchemaType`. -/
def kNullSchemaType : Nat := 0
/-- The enumerator `kBooleanSchemaType`. -/
def kBooleanSchemaType : Nat := 1
/-- The enumerator `kObjectSchemaType`. -/
def kObjectSchemaType : Nat := 2
/-- The enumerator `kArraySchemaType`. -/
def kArraySchemaType : Nat := 3
/-- The enumerator `kStringSchemaType`. -/
def kStringSchemaType : Nat := 4
/-- The enumerator `kNumberSchemaType`. -/
def kNumberSchemaType : Nat := 5
/-- The enumerator `kIntegerSchemaType`. -/
def kIntegerSchemaType : Nat := 6
/-- The enumerator `kTotalSchemaType`. -/
def kTotalSchemaType : Nat := 7

/-- A compiled `std::basic_regex<Ch>`, known by what `std::regex_search` answers
on a string (`IsPatternMatch`). -/
structure Pattern where
  search : String → Bool

/-- The constructor of `std::basic_regex<Ch>` with the ECMAScript grammar, a
library outside the repository: the compiled pattern, or `none` when it throws
`std::regex_error`. -/
abbrev RegexEngine := String → Option Pattern

/-- The struct `Property`: a named property, its schema, its dependency bits
(a null pointer until a `dependencies` member names the property) and its
required flag. -/
structure Property (σ : Type) where
  name : String
  schema : σ
  dependencies : Option (List Bool) := none
  required : Bool := false

/-- The struct `PatternProperty`. -/
structure PatternProperty (σ : Type) where
  schema : σ
  pattern : Option Pattern

/-- The class `BaseSchema`, one compiled schema node. A `BaseSchemaArray` is the
`Option` of its list (`schemas` null or not, `count` the length);
`propertyCount_`, `patternPropertyCount_` and `itemsTupleCount_` are the lengths
of the lists. -/
structure BaseSchema where
  enum_ : Json
  allOf_ : Option (List BaseSchema)
  anyOf_ : Option (List BaseSchema)
  oneOf_ : Option (List BaseSchema)
  not_ : Option BaseSchema
  type_ : Nat
  properties_ : List (Property BaseSchema)
  additionalPropertySchema_ : Option BaseSchema
  patternProperties_ : Option (List (PatternProperty BaseSchema))
  requiredCount_ : Nat
  minProperties_ : Nat
  maxProperties_ : Nat
  additionalProperty_ : Bool
  hasDependencies_ : Bool
  itemsList_ : Option BaseSchema
  itemsTuple_ : Option (List BaseSchema)
  minItems_ : Nat
  maxItems_ : Nat
  additionalItems_ : Bool
  pattern_ : Option Pattern
  minLength_ : Nat
  maxLength_ : Nat
  minimum_ : Dbl
  maximum_ : Dbl
  multipleOf_ : Dbl
  hasMultipleOf_ : Bool
  exclusiveMinimum_ : Bool
  exclusiveMaximum_ : Bool

/-- The member initialisers of the constructor `BaseSchema::BaseSchema`: the
node of a value that is not an object, and of the empty object, which is what
`GetTypeless()` returns. -/
def typeless : BaseSchema where
  enum_ := Json.null
  allOf_ := none
  anyOf_ := none
  oneOf_ := none
  not_ := none
  type_ := (1 <<< kTotalSchemaType) - 1
  properties_ := []
  additionalPropertySchema_ := none
  patternProperties_ := none
  requiredCount_ := 0
  minProperties_ := 0
  maxProperties_ := SizeTypeMax
  additionalProperty_ := true
  hasDependencies_ := false
  itemsList_ := none
  itemsTuple_ := none
  minItems_ := 0
  maxItems_ := SizeTypeMax
  additionalItems_ := true
  pattern_ := none
  minLength_ := 0
  maxLength_ := SizeTypeMax
  minimum_ := Dbl.ninf
  maximum_ := Dbl.pinf
  multipleOf_ := Dbl.fin 0
  hasMultipleOf_ := false
  exclusiveMinimum_ := false
  exclusiveMaximum_ := false

/-- The member `propertyCount_`. -/
def BaseSchema.propertyCount_ (s : BaseSchema) : Nat := s.properties_.length

/-- The method `AddType`, on the mask so far. -/
def AddType (type_ : Nat) (type : Json) : Nat :=
  if Json.eq type (.str "null") then type_ ||| (1 <<< kNullSchemaType)
  else if Json.eq type (.str "boolean") then type_ ||| (1 <<< kBooleanSchemaType)
  else if Json.eq type (.str "object") then type_ ||| (1 <<< kObjectSchemaType)
  else if Json.eq type (.str "array") then type_ ||| (1 <<< kArraySchemaType)
  else if Json.eq type (.str "string") then type_ ||| (1 <<< kStringSchemaType)
  else if Json.eq type (.str "integer") then type_ ||| (1 <<< kIntegerSchemaType)
  else if Json.eq type (.str "number") then
    type_ ||| ((1 <<< kNumberSchemaType) ||| (1 <<< kIntegerSchemaType))
  else type_

/-- The mask the `type` member gives: lines 161-168 of the constructor. -/
def typeMask (ms : List (String × Json)) : Nat :=
  match GetMember ms "type" with
  | none => typeless.type_
  | some v =>
    if v.IsString then AddType 0 v
    else if v.IsArray then v.elements.foldl AddType 0
    else 0

/-- The copy `enum_.CopyFrom(*v, allocator_)` of a non-empty `enum` array. -/
def enumOf (ms : List (String × Json)) : Json :=
  match GetMember ms "enum" with
  | some (.arr (x :: xs)) => .arr (x :: xs)
  | _ => Json.null

/-- The overload `AssignIfExist(bool&, value, name)`. -/
def AssignIfExistBool (out : Bool) (ms : List (String × Json)) (name : String) : Bool :=
  match GetMember ms name with
  | some (.bool b) => b
  | _ => out

/-- The overload `AssignIfExist(SizeType&, value, name)`. -/
def AssignIfExistSize (out : Nat) (ms : List (String × Json)) (name : String) : Nat :=
  match GetMember ms name with
  | some (.int i) => if (Json.int i).IsUint64 ∧ i.toNat ≤ SizeTypeMax then i.toNat else out
  | _ => out

/-- The function `CreatePattern`. -/
def CreatePattern (rx : RegexEngine) : Json → Option Pattern
  | .str s => rx s
  | _ => none

/-- The template `FindPropertyIndex(const ValueType& name, SizeType*)`, from
index `index` on: the first property whose name equals the value. -/
def FindPropertyIndexFrom {σ : Type} (name : Json) : List (Property σ) → Nat → Option Nat
  | [], _ => none
  | p :: ps, index =>
    if Json.eq (.str p.name) name then some index else FindPropertyIndexFrom name ps (index + 1)

/-- The template `FindPropertyIndex(const ValueType& name, SizeType*)`. -/
def FindPropertyIndexValue {σ : Type} (properties_ : List (Property σ)) (name : Json) :
    Option Nat :=
  FindPropertyIndexFrom name properties_ 0

/-- The assignment `properties_[index].required = true`. -/
def setRequired {σ : Type} : List (Property σ) → Nat → List (Property σ)
  | [], _ => []
  | p :: ps, 0 => { p with required := true } :: ps
  | p :: ps, index + 1 => p :: setRequired ps index

/-- The loop over the `required` array, lines 208-215, on the properties and
the count so far. -/
def markRequired {σ : Type} :
    List (Property σ) → Nat → List Json → List (Property σ) × Nat
  | properties_, requiredCount_, [] => (properties_, requiredCount_)
  | properties_, requiredCount_, x :: xs =>
    if x.IsString then
      match FindPropertyIndexValue properties_ x with
      | some index =>
        markRequired (setRequired properties_ index) (SizeType.succ requiredCount_) xs
      | none => markRequired properties_ requiredCount_ xs
    else markRequired properties_ requiredCount_ xs

/-- The assignment `dependencies[targetIndex] = true`. -/
def setBit : List Bool → Nat → List Bool
  | [], _ => []
  | _ :: bs, 0 => true :: bs
  | b :: bs, index + 1 => b :: setBit bs index

/-- The inner loop over the targets of one dependency, lines 226-230. -/
def markTargets {σ : Type} (properties_ : List (Property σ)) : List Bool → List Json → List Bool
  | dependencies, [] => dependencies
  | dependencies, x :: xs =>
    match FindPropertyIndexValue properties_ x with
    | some targetIndex => markTargets properties_ (setBit dependencies targetIndex) xs
    | none => markTargets properties_ dependencies xs

/-- The assignment to `properties_[sourceIndex].dependencies`. -/
def setDependencies {σ : Type} (d : List Bool) : List (Property σ) → Nat → List (Property σ)
  | [], _ => []
  | p :: ps, 0 => { p with dependencies := some d } :: ps
  | p :: ps, index + 1 => p :: setDependencies d ps index

/-- The loop over the members of `dependencies`, lines 220-236. An object-valued
dependency is left out (`// TODO` in the source). -/
def markDependencies {σ : Type} : List (Property σ) → List (String × Json) → List (Property σ)
  | properties_, [] => properties_
  | properties_, (name, value) :: rest =>
    match FindPropertyIndexValue properties_ (.str name) with
    | some sourceIndex =>
      match value with
      | .arr targets =>
        markDependencies
          (setDependencies
            (markTargets properties_ (List.replicate properties_.length false) targets)
            properties_ sourceIndex) rest
      | _ => markDependencies properties_ rest
    | none => markDependencies properties_ rest

mutual
/-- The constructor `BaseSchema::BaseSchema(const ValueType& value)`, the schema
compiler. It is `none` when the constructor runs into a failed assertion of
`document.h`: `MemberCount()` and `MemberBegin()` on a `patternProperties`
member that is not an object (line 195 has no `IsObject` test).
The recursive calls `new BaseSchema(...)` on a member found by `GetMember` are
made by the functions `makeAt`, `makeElementsAt` and `makeMembersAt` below, which
walk the members as `FindMember` does. -/
def BaseSchema.make (rx : RegexEngine) : Json → Option BaseSchema
  | .obj ms => do
    let allOf_ ← makeElementsAt rx "allOf" ms
    let anyOf_ ← makeElementsAt rx "anyOf" ms
    let oneOf_ ← makeElementsAt rx "oneOf" ms
    let not_ ← makeAt rx "not" ms
    let properties ← makeMembersAt rx "properties" ms
    let patternProperties_ ←
      match GetMember ms "patternProperties" with
      | none => some none
      | some v =>
        if v.IsObject then makeMembersAt rx "patternProperties" ms
        else none
    let additionalPropertySchema_ ←
      match GetMember ms "additionalProperties" with
      | some (.obj _) => makeAt rx "additionalProperties" ms
      | _ => some none
    let itemsList_ ←
      match GetMember ms "items" with
      | some (.obj _) => makeAt rx "items" ms
      | _ => some none
    let itemsTuple_ ← makeElementsAt rx "items" ms
    let properties0 : List (Property BaseSchema) :=
      (properties.getD []).map (fun kv => { name := kv.1, schema := kv.2 })
    let required :=
      match GetMember ms "required" with
      | some (.arr xs) => markRequired properties0 0 xs
      | _ => (properties0, 0)
    let withDependencies :=
      match GetMember ms "dependencies" with
      | some (.obj ds) => (markDependencies required.1 ds, true)
      | _ => (required.1, false)
    pure {
      enum_ := enumOf ms
      allOf_ := allOf_.bind (fun l => if l.isEmpty then none else some l)
      anyOf_ := anyOf_.bind (fun l => if l.isEmpty then none else some l)
      oneOf_ := oneOf_.bind (fun l => if l.isEmpty then none else some l)
      not_ := not_
      type_ := typeMask ms
      properties_ := withDependencies.1
      additionalPropertySchema_ := additionalPropertySchema_
      patternProperties_ := patternProperties_.map
        (List.map (fun kv => { schema := kv.2, pattern := CreatePattern rx (.str kv.1) }))
      requiredCount_ := required.2
      minProperties_ := AssignIfExistSize typeless.minProperties_ ms "minProperties"
      maxProperties_ := AssignIfExistSize typeless.maxProperties_ ms "maxProperties"
      additionalProperty_ := AssignIfExistBool typeless.additionalProperty_ ms "additionalProperties"
      hasDependencies_ := withDependencies.2
      itemsList_ := itemsList_
      itemsTuple_ := itemsTuple_
      minItems_ := AssignIfExistSize typeless.minItems_ ms "minItems"
      maxItems_ := AssignIfExistSize typeless.maxItems_ ms "maxItems"
      additionalItems_ := AssignIfExistBool typeless.additionalItems_ ms "additionalItems"
      pattern_ := (GetMember ms "pattern").bind (CreatePattern rx)
      minLength_ := AssignIfExistSize typeless.minLength_ ms "minLength"
      maxLength_ := AssignIfExistSize typeless.maxLength_ ms "maxLength"
      minimum_ :=
        match GetMember ms "minimum" with
        | some v => if v.IsNumber then v.GetDouble else typeless.minimum_
        | none => typeless.minimum_
      maximum_ :=
        match GetMember ms "maximum" with
        | some v => if v.IsNumber then v.GetDouble else typeless.maximum_
        | none => typeless.maximum_
      multipleOf_ :=
        match GetMember ms "multipleOf" with
        | some v => if v.IsNumber then v.GetDouble else typeless.multipleOf_
        | none => typeless.multipleOf_
      hasMultipleOf_ :=
        match GetMember ms "multipleOf" with
        | some v => v.IsNumber
        | none => false
      exclusiveMinimum_ := AssignIfExistBool typeless.exclusiveMinimum_ ms "exclusiveMinimum"
      exclusiveMaximum_ := AssignIfExistBool typeless.exclusiveMaximum_ ms "exclusiveMaximum" }
  | _ => some typeless
/-- The nodes `new BaseSchema(x)` of the elements of an array, in order. -/
def makeList (rx : RegexEngine) : List Json → Option (List BaseSchema)
  | [] => some []
  | x :: xs => do
    let s ← BaseSchema.make rx x
    let ss ← makeList rx xs
    pure (s :: ss)
/-- The nodes `new BaseSchema(itr->value)` of the members of an object, each
with the member's name, in order. -/
def makeMembers (rx : RegexEngine) : List (String × Json) → Option (List (String × BaseSchema))
  | [] => some []
  | (k, v) :: rest => do
    let s ← BaseSchema.make rx v
    let ss ← makeMembers rx rest
    pure ((k, s) :: ss)
/-- The node `new BaseSchema(*v)` for `v = GetMember(value, name)`; the inner
`none` when there is no such member. -/
def makeAt (rx : RegexEngine) (name : String) : List (String × Json) → Option (Option BaseSchema)
  | [] => some none
  | (k, v) :: rest =>
    if k = name then (BaseSchema.make rx v).map some else makeAt rx name rest
/-- The nodes of the elements of `v = GetMember(value, name)` when `v` is an
array; the inner `none` when there is no such member or it is not an array. -/
def makeElementsAt (rx : RegexEngine) (name : String) :
    List (String × Json) → Option (Option (List BaseSchema))
  | [] => some none
  | (k, .arr xs) :: rest =>
    if k = name then (makeList rx xs).map some else makeElementsAt rx name rest
  | (k, _) :: rest =>
    if k = name then some none else makeElementsAt rx name rest
/-- The nodes of the members of `v = GetMember(value, name)` when `v` is an
object; the inner `none` when there is no such member or it is not an object. -/
def makeMembersAt (rx : RegexEngine) (name : String) :
    List (String × Json) → Option (Option (List (String × BaseSchema)))
  | [] => some none
  | (k, .obj ms) :: rest =>
    if k = name then (makeMembers rx ms).map some else makeMembersAt rx name rest
  | (k, _) :: rest =>
    if k = name then some none else makeMembersAt rx name rest
end

/-- The constructor of `GenericSchema`: the compiled root node of a schema
document. -/
def GenericSchema.make (rx : RegexEngine) (document : Json) : Option BaseSchema :=
  BaseSchema.make rx document

/-! ## Events, output handlers, contexts and validators -/

/-- A SAX event: one call of an event method of `GenericSchemaValidator`, or of
an output handler, with its arguments. The `length` argument of `String` and
`Key` is the length of the string. -/
inductive Event where
  | Null
  | Bool_ (b : Bool)
  | Int_ (i : Int)
  | Uint (u : Nat)
  | Int64 (i : Int)
  | Uint64 (u : Nat)
  | Double (d : Dbl)
  | String_ (str : String) (copy : Bool)
  | StartObject
  | Key (str : String) (copy : Bool)
  | EndObject (memberCount : Nat)
  | StartArray
  | EndArray (elementCount : Nat)
  deriving DecidableEq

/-- An output handler (the template parameter `OutputHandler`): an object whose
answer to an event may depend on the events it received before. -/
structure OutputHandler where
  answer : List Event → Event → Bool
  received : List Event

/-- A call `outputHandler_.method arg2`: the handler afterwards and the answer. -/
def OutputHandler.call (h : OutputHandler) (e : Event) : OutputHandler × Bool :=
  ({ h with received := h.received ++ [e] }, h.answer h.received e)

/-- Modelled from the spec: the member `nullOutputHandler_`, a
`BaseReaderHandler<Encoding>` of `reader.h`, which is not under `src/`: a sink
that accepts every event. -/
def nullOutputHandler_ : OutputHandler where
  answer := fun _ _ => true
  received := []

/-- The struct `SchemaValidationContext`, over the type of the validators it
owns. A `SchemaValidatorArray` is the `Option` of its list. The two counters,
which the constructor leaves uninitialised, start at 0. -/
structure SchemaValidationContext (ν : Type) where
  schema : BaseSchema
  valueSchema : Option BaseSchema
  multiTypeSchema : Option BaseSchema
  allOfValidators : Option (List ν)
  anyOfValidators : Option (List ν)
  oneOfValidators : Option (List ν)
  notValidator : Option ν
  objectRequiredCount : Nat
  arrayElementIndex : Nat
  objectDependencies : Option (List Bool)
  inArray : Bool

/-- The class `GenericSchemaValidator`. The stack `schemaStack_` is a list whose
head is the top. -/
structure GenericSchemaValidator where
  root_ : BaseSchema
  outputHandler_ : OutputHandler
  schemaStack_ : List (SchemaValidationContext GenericSchemaValidator)
  valid_ : Bool

/-- The type `BaseSchema::Context`. -/
abbrev Context := SchemaValidationContext GenericSchemaValidator

/-- The constructor `SchemaValidationContext(const BaseSchema* s)`. -/
def Context.make (s : BaseSchema) : Context where
  schema := s
  valueSchema := none
  multiTypeSchema := none
  allOfValidators := none
  anyOfValidators := none
  oneOfValidators := none
  notValidator := none
  objectRequiredCount := 0
  arrayElementIndex := 0
  objectDependencies := none
  inArray := false

/-- The public constructor `GenericSchemaValidator(schema, outputHandler)`. -/
def GenericSchemaValidator.make (root : BaseSchema) (outputHandler : OutputHandler) :
    GenericSchemaValidator where
  root_ := root
  outputHandler_ := outputHandler
  schemaStack_ := []
  valid_ := true

/-- The private constructor `GenericSchemaValidator(const BaseSchemaType& root)`,
and the public one without an output handler: the handler is
`nullOutputHandler_`. -/
def GenericSchemaValidator.ofRoot (root : BaseSchema) : GenericSchemaValidator :=
  GenericSchemaValidator.make root nullOutputHandler_

/-- The method `IsValid`. -/
def GenericSchemaValidator.IsValid (v : GenericSchemaValidator) : Bool := v.valid_

/-- The method `Reset`: every context is popped, the flag is set. -/
def GenericSchemaValidator.Reset (v : GenericSchemaValidator) : GenericSchemaValidator :=
  { v with schemaStack_ := [], valid_ := true }

/-! ## The event interface of a schema node -/

/-- The test `type_ & (1 << t)`. -/
def BaseSchema.hasType (s : BaseSchema) (t : Nat) : Bool := s.type_ &&& (1 <<< t) != 0

/-- The method `CreateSchemaValidators`. -/
def CreateSchemaValidators (validators : Option (List GenericSchemaValidator))
    (schemas : List BaseSchema) : Option (List GenericSchemaValidator) :=
  match validators with
  | none => some (schemas.map GenericSchemaValidator.ofRoot)
  | some vs => some vs

/-- The method `CreateLogicValidators`. -/
def BaseSchema.CreateLogicValidators (s : BaseSchema) (context : Context) : Context :=
  { context with
    allOfValidators :=
      match s.allOf_ with
      | some schemas => CreateSchemaValidators context.allOfValidators schemas
      | none => context.allOfValidators
    anyOfValidators :=
      match s.anyOf_ with
      | some schemas => CreateSchemaValidators context.anyOfValidators schemas
      | none => context.anyOfValidators
    oneOfValidators :=
      match s.oneOf_ with
      | some schemas => CreateSchemaValidators context.oneOfValidators schemas
      | none => context.oneOfValidators
    notValidator :=
      match s.not_, context.notValidator with
      | some n, none => some (GenericSchemaValidator.ofRoot n)
      | _, w => w }

/-- The method `CheckEnum`. -/
def BaseSchema.CheckEnum (s : BaseSchema) (v : Json) : Bool :=
  s.enum_.elements.any (fun x => Json.eq v x)

/-- The method `CheckDouble`. -/
def BaseSchema.CheckDouble (s : BaseSchema) (d : Dbl) : Bool :=
  if (if s.exclusiveMinimum_ then Dbl.le d s.minimum_ else Dbl.lt d s.minimum_) then false
  else if (if s.exclusiveMaximum_ then Dbl.ge d s.maximum_ else Dbl.gt d s.maximum_) then false
  else if s.hasMultipleOf_ && Dbl.ne (Dbl.fmod d s.multipleOf_) (Dbl.fin 0) then false
  else true

/-- The overload `FindPropertyIndex(const Ch* str, SizeType length, SizeType*)`,
from index `index` on. -/
def FindPropertyIndexStrFrom {σ : Type} (str : String) : List (Property σ) → Nat → Option Nat
  | [], _ => none
  | p :: ps, index =>
    if p.name.length = str.length ∧ p.name = str then some index
    else FindPropertyIndexStrFrom str ps (index + 1)

/-- The overload `FindPropertyIndex(const Ch* str, SizeType length, SizeType*)`. -/
def BaseSchema.FindPropertyIndex (s : BaseSchema) (str : String) : Option Nat :=
  FindPropertyIndexStrFrom str s.properties_ 0

/-- The method `BeginValue` of a schema node. -/
def BaseSchema.BeginValue (s : BaseSchema) (context : Context) : Context × Bool :=
  if context.inArray then
    match s.itemsList_, s.itemsTuple_ with
    | some itemsList, _ =>
      ({ context with valueSchema := some itemsList,
                      arrayElementIndex := SizeType.succ context.arrayElementIndex }, true)
    | none, some itemsTuple =>
      if context.arrayElementIndex < itemsTuple.length then
        ({ context with valueSchema := itemsTuple[context.arrayElementIndex]?,
                        arrayElementIndex := SizeType.succ context.arrayElementIndex }, true)
      else if s.additionalItems_ then
        ({ context with valueSchema := some typeless,
                        arrayElementIndex := SizeType.succ context.arrayElementIndex }, true)
      else (context, false)
    | none, none =>
      ({ context with valueSchema := some typeless,
                      arrayElementIndex := SizeType.succ context.arrayElementIndex }, true)
  else (context, true)

/-- The loop of lines 334-336 over the `count - i` indices from `i` on:
`some false` is `return false`, `none` a read through a null or short array. -/
def allOfLoop (validators : Option (List GenericSchemaValidator)) : Nat → Nat → Option Bool
  | 0, _ => some true
  | remaining + 1, i =>
    match validators.bind (fun vs => vs[i]?) with
    | none => none
    | some v => if !v.IsValid then some false else allOfLoop validators remaining (i + 1)

/-- The loop of lines 339-342: `some true` is `goto foundAny`, `some false` the
`return false` after the loop. -/
def anyOfLoop (validators : Option (List GenericSchemaValidator)) : Nat → Nat → Option Bool
  | 0, _ => some false
  | remaining + 1, i =>
    match validators.bind (fun vs => vs[i]?) with
    | none => none
    | some v => if v.IsValid then some true else anyOfLoop validators remaining (i + 1)

/-- The loop of lines 347-356 with the flag `oneValid`: `some false` is a
`return false`. -/
def oneOfLoop (validators : Option (List GenericSchemaValidator)) :
    Nat → Nat → Bool → Option Bool
  | 0, _, oneValid => some oneValid
  | remaining + 1, i, oneValid =>
    match validators.bind (fun vs => vs[i]?) with
    | none => none
    | some v =>
      if v.IsValid then
        if oneValid then some false else oneOfLoop validators remaining (i + 1) true
      else oneOfLoop validators remaining (i + 1) oneValid

/-- The `allOf` statement of `EndValue`, lines 333-336. -/
def BaseSchema.EndValueAllOf (s : BaseSchema) (context : Context) : Option Bool :=
  match s.allOf_ with
  | some schemas => allOfLoop context.allOfValidators schemas.length 0
  | none => some true

/-- The `anyOf` statement of `EndValue`, lines 338-344. -/
def BaseSchema.EndValueAnyOf (s : BaseSchema) (context : Context) : Option Bool :=
  match s.anyOf_ with
  | some schemas => anyOfLoop context.anyOfValidators schemas.length 0
  | none => some true

/-- The `oneOf` statement of `EndValue`, lines 346-357. -/
def BaseSchema.EndValueOneOf (s : BaseSchema) (context : Context) : Option Bool :=
  match s.oneOf_ with
  | some schemas => oneOfLoop context.oneOfValidators schemas.length 0 false
  | none => some true

/-- The last statement of `EndValue`, line 359:
`return !not_ || !context.notValidator->IsValid()`. -/
def BaseSchema.EndValueNot (s : BaseSchema) (context : Context) : Option Bool :=
  match s.not_ with
  | none => some true
  | some _ =>
    match context.notValidator with
    | none => none
    | some v => some (!v.IsValid)

/-- A statement that may `return false`, followed by the rest of the function:
the rest is not run after a `return false` (`some false`) or after undefined
behaviour (`none`). -/
def orReturnFalse (statement rest : Option Bool) : Option Bool :=
  match statement with
  | none => none
  | some false => some false
  | some true => rest

/-- The method `EndValue` of a schema node; `none` when it reads a validator
that was not created. -/
def BaseSchema.EndValue (s : BaseSchema) (context : Context) : Option Bool :=
  orReturnFalse (s.EndValueAllOf context)
    (orReturnFalse (s.EndValueAnyOf context)
      (orReturnFalse (s.EndValueOneOf context) (s.EndValueNot context)))

/-- The method `Null` of a schema node. -/
def BaseSchema.Null (s : BaseSchema) (context : Context) : Context × Bool :=
  (s.CreateLogicValidators context,
    s.hasType kNullSchemaType && (!s.enum_.IsArray || s.CheckEnum Json.null))

/-- The method `Bool` of a schema node. -/
def BaseSchema.Bool_ (s : BaseSchema) (context : Context) (b : Bool) : Context × Bool :=
  (s.CreateLogicValidators context,
    s.hasType kBooleanSchemaType && (!s.enum_.IsArray || s.CheckEnum (Json.bool b)))

/-- The body shared by the methods `Int`, `Uint`, `Int64` and `Uint64` of a
schema node, which differ in the C++ type of the argument only. -/
def BaseSchema.Integer (s : BaseSchema) (context : Context) (i : Int) : Context × Bool :=
  let context := s.CreateLogicValidators context
  if s.type_ &&& ((1 <<< kIntegerSchemaType) ||| (1 <<< kNumberSchemaType)) == 0 then
    (context, false)
  else
    (context, s.CheckDouble (Dbl.ofInt i) && (!s.enum_.IsArray || s.CheckEnum (Json.int i)))

/-- The method `Int` of a schema node. -/
def BaseSchema.Int_ (s : BaseSchema) (context : Context) (i : Int) : Context × Bool :=
  s.Integer context i

/-- The method `Uint` of a schema node. -/
def BaseSchema.Uint (s : BaseSchema) (context : Context) (u : Nat) : Context × Bool :=
  s.Integer context u

/-- The method `Int64` of a schema node. -/
def BaseSchema.Int64 (s : BaseSchema) (context : Context) (i : Int) : Context × Bool :=
  s.Integer context i

/-- The method `Uint64` of a schema node. -/
def BaseSchema.Uint64 (s : BaseSchema) (context : Context) (u : Nat) : Context × Bool :=
  s.Integer context u

/-- The method `Double` of a schema node. -/
def BaseSchema.Double (s : BaseSchema) (context : Context) (d : Dbl) : Context × Bool :=
  let context := s.CreateLogicValidators context
  if s.type_ &&& (1 <<< kNumberSchemaType) == 0 then (context, false)
  else (context, s.CheckDouble d && (!s.enum_.IsArray || s.CheckEnum (Json.double d)))

/-- The method `String` of a schema node. -/
def BaseSchema.String_ (s : BaseSchema) (context : Context) (str : String) : Context × Bool :=
  let context := s.CreateLogicValidators context
  if s.type_ &&& (1 <<< kStringSchemaType) == 0 then (context, false)
  else if str.length < s.minLength_ ∨ str.length > s.maxLength_ then (context, false)
  else
    match s.pattern_ with
    | some pattern =>
      if !pattern.search str then (context, false)
      else (context, !s.enum_.IsArray || s.CheckEnum (Json.str str))
    | none => (context, !s.enum_.IsArray || s.CheckEnum (Json.str str))

/-- The method `StartObject` of a schema node. -/
def BaseSchema.StartObject (s : BaseSchema) (context : Context) : Context × Bool :=
  let context := s.CreateLogicValidators context
  if s.type_ &&& (1 <<< kObjectSchemaType) == 0 then (context, false)
  else
    ({ context with
        objectRequiredCount := 0
        objectDependencies :=
          if s.hasDependencies_ then some (List.replicate s.propertyCount_ false)
          else context.objectDependencies }, true)

/-- The first pattern property whose pattern is not null and is found in the
string: the loop of lines 466-470. -/
def findPatternProperty (str : String) :
    List (PatternProperty BaseSchema) → Option BaseSchema
  | [] => none
  | p :: ps =>
    match p.pattern with
    | some pattern => if pattern.search str then some p.schema else findPatternProperty str ps
    | none => findPatternProperty str ps

/-- The tail of the method `Key`, lines 464-482: pattern properties, then the
additional-property policy. -/
def BaseSchema.KeyOther (s : BaseSchema) (context : Context) (str : String) : Context × Bool :=
  match s.patternProperties_.bind (findPatternProperty str) with
  | some schema => ({ context with valueSchema := some schema }, true)
  | none =>
    match s.additionalPropertySchema_ with
    | some schema => ({ context with valueSchema := some schema }, true)
    | none =>
      if s.additionalProperty_ then ({ context with valueSchema := some typeless }, true)
      else (context, false)

/-- The method `Key` of a schema node; `none` when it writes through the
pointer `context.objectDependencies` and that is null or is not an array of
`propertyCount_` bits. -/
def BaseSchema.Key (s : BaseSchema) (context : Context) (str : String) :
    Option (Context × Bool) :=
  let context := s.CreateLogicValidators context
  if s.type_ &&& (1 <<< kObjectSchemaType) == 0 then some (context, false)
  else
    match s.FindPropertyIndex str with
    | some index =>
      match s.properties_[index]? with
      | none => none
      | some property =>
        let context := { context with valueSchema := some property.schema }
        let context :=
          if property.required then
            { context with objectRequiredCount := SizeType.succ context.objectRequiredCount }
          else context
        if s.hasDependencies_ then
          match context.objectDependencies with
          | none => none
          | some seen =>
            if seen.length = s.propertyCount_ then
              some ({ context with objectDependencies := some (setBit seen index) }, true)
            else none
        else some (context, true)
    | none => some (s.KeyOther context str)

/-- The loop over `targetIndex` of lines 496-498: whether some target of the
dependency bits has not been seen. -/
def missingTarget : List Bool → List Bool → Bool
  | d :: ds, b :: bs => (d && !b) || missingTarget ds bs
  | _, _ => false

/-- The loop over `sourceIndex` of lines 494-498, on the properties from
`sourceIndex` on and their seen bits: whether it reaches `return false`. -/
def dependencyFails (seen : List Bool) :
    List (Property BaseSchema) → List Bool → Bool
  | p :: ps, b :: bs =>
    (b && (match p.dependencies with
            | some d => missingTarget d seen
            | none => false)) || dependencyFails seen ps bs
  | _, _ => false

/-- The method `EndObject` of a schema node; `none` when it reads through the
pointer `context.objectDependencies` and that is null or is not an array of
`propertyCount_` bits. -/
def BaseSchema.EndObject (s : BaseSchema) (context : Context) (memberCount : Nat) :
    Option (Context × Bool) :=
  let context := s.CreateLogicValidators context
  if s.type_ &&& (1 <<< kObjectSchemaType) == 0 then some (context, false)
  else if context.objectRequiredCount ≠ s.requiredCount_ ∨ memberCount < s.minProperties_
      ∨ memberCount > s.maxProperties_ then some (context, false)
  else if s.hasDependencies_ then
    match context.objectDependencies with
    | none => if s.propertyCount_ = 0 then some (context, true) else none
    | some seen =>
      if seen.length = s.propertyCount_ then
        some (context, !dependencyFails seen s.properties_ seen)
      else none
  else some (context, true)

/-- The method `StartArray` of a schema node. -/
def BaseSchema.StartArray (s : BaseSchema) (context : Context) : Context × Bool :=
  let context := s.CreateLogicValidators context
  if s.type_ &&& (1 <<< kArraySchemaType) == 0 then (context, false)
  else ({ context with arrayElementIndex := 0, inArray := true }, true)

/-- The method `EndArray` of a schema node. -/
def BaseSchema.EndArray (s : BaseSchema) (context : Context) (elementCount : Nat) :
    Context × Bool :=
  let context := s.CreateLogicValidators context
  if s.type_ &&& (1 <<< kArraySchemaType) == 0 then (context, false)
  else ({ context with inArray := false },
    decide (elementCount ≥ s.minItems_) && decide (elementCount ≤ s.maxItems_))

/-- The call `CurrentSchema().method arg1` of the schema method of an event. -/
def BaseSchema.method (s : BaseSchema) (context : Context) : Event → Option (Context × Bool)
  | .Null => some (s.Null context)
  | .Bool_ b => some (s.Bool_ context b)
  | .Int_ i => some (s.Int_ context i)
  | .Uint u => some (s.Uint context u)
  | .Int64 i => some (s.Int64 context i)
  | .Uint64 u => some (s.Uint64 context u)
  | .Double d => some (s.Double context d)
  | .String_ str _ => some (s.String_ context str)
  | .StartObject => some (s.StartObject context)
  | .Key str _ => s.Key context str
  | .EndObject memberCount => s.EndObject context memberCount
  | .StartArray => some (s.StartArray context)
  | .EndArray elementCount => some (s.EndArray context elementCount)

/-! ## The streaming validator -/

namespace GenericSchemaValidator

/-- The method `PushSchema`. -/
def PushSchema (v : GenericSchemaValidator) (schema : BaseSchema) : GenericSchemaValidator :=
  { v with schemaStack_ := Context.make schema :: v.schemaStack_ }

/-- The method `BeginValue` of the validator. -/
def BeginValue (v : GenericSchemaValidator) : GenericSchemaValidator × Bool :=
  match v.schemaStack_ with
  | [] => (v.PushSchema v.root_, true)
  | context :: rest =>
    let r := context.schema.BeginValue context
    let v := { v with schemaStack_ := r.1 :: rest }
    if !r.2 then (v, false)
    else
      match r.1.valueSchema with
      | some schema => (v.PushSchema schema, true)
      | none => (v, true)

/-- The method `EndValue` of the validator; `none` when the stack is empty or
the schema's `EndValue` reads a validator that was not created. -/
def EndValue (v : GenericSchemaValidator) : Option (GenericSchemaValidator × Bool) :=
  match v.schemaStack_ with
  | [] => none
  | context :: rest =>
    match context.schema.EndValue context with
    | none => none
    | some false => some (v, false)
    | some true =>
      match rest with
      | [] => some ({ v with schemaStack_ := [] }, true)
      | parent :: rest1 =>
        if parent.multiTypeSchema.isSome then some ({ v with schemaStack_ := rest1 }, true)
        else some ({ v with schemaStack_ := parent :: rest1 }, true)

/-- The call `validators[i_]->method arg2` for every validator of a list, `sub`
being the call on one validator. -/
def stepAll (sub : GenericSchemaValidator → Option GenericSchemaValidator) :
    List GenericSchemaValidator → Option (List GenericSchemaValidator)
  | [] => some []
  | w :: ws =>
    match sub w, stepAll sub ws with
    | some w1, some ws1 => some (w1 :: ws1)
    | _, _ => none

/-- The loop over one `SchemaValidatorArray`, skipped when `validators` is null. -/
def stepArray (sub : GenericSchemaValidator → Option GenericSchemaValidator) :
    Option (List GenericSchemaValidator) → Option (Option (List GenericSchemaValidator))
  | none => some none
  | some ws => (stepAll sub ws).map some

/-- The call `context->notValidator->method arg2`, skipped when the pointer is
null. -/
def stepNot (sub : GenericSchemaValidator → Option GenericSchemaValidator) :
    Option GenericSchemaValidator → Option (Option GenericSchemaValidator)
  | none => some none
  | some w => (sub w).map some

/-- The body of the loop of `RAPIDJSON_SCHEMA_HANDLE_LOGIC_` for one context. -/
def stepContext (sub : GenericSchemaValidator → Option GenericSchemaValidator)
    (context : Context) : Option Context :=
  match stepArray sub context.allOfValidators, stepArray sub context.anyOfValidators,
      stepArray sub context.oneOfValidators, stepNot sub context.notValidator with
  | some allOf, some anyOf, some oneOf, some not =>
    some { context with allOfValidators := allOf, anyOfValidators := anyOf,
                        oneOfValidators := oneOf, notValidator := not }
  | _, _, _, _ => none

/-- The macro `RAPIDJSON_SCHEMA_HANDLE_LOGIC_`: the event is sent to every
validator of every context of the stack. The validators do not see each other,
so the order of the calls does not show in the outcome. -/
def stepStack (sub : GenericSchemaValidator → Option GenericSchemaValidator) :
    List Context → Option (List Context)
  | [] => some []
  | context :: rest =>
    match stepContext sub context, stepStack sub rest with
    | some context1, some rest1 => some (context1 :: rest1)
    | _, _ => none

/-- The macro `RAPIDJSON_SCHEMA_HANDLE_BEGIN_` after its test of `valid_`: the
second component is false when the macro returns with `valid_ = false`. -/
def HANDLE_BEGIN_ (v : GenericSchemaValidator) (e : Event) :
    Option (GenericSchemaValidator × Bool) :=
  let r := v.BeginValue
  if !r.2 then some ({ r.1 with valid_ := false }, false)
  else
    match r.1.schemaStack_ with
    | [] => none
    | context :: rest =>
      match context.schema.method context e with
      | none => none
      | some (context1, true) => some ({ r.1 with schemaStack_ := context1 :: rest }, true)
      | some (context1, false) =>
        some ({ r.1 with schemaStack_ := context1 :: rest, valid_ := false }, false)

/-- The first statements of `Key`, `EndObject` and `EndArray` after the test of
`valid_`: the schema method on the current context, without `BeginValue`. -/
def HANDLE_CURRENT_ (v : GenericSchemaValidator) (e : Event) :
    Option (GenericSchemaValidator × Bool) :=
  match v.schemaStack_ with
  | [] => none
  | context :: rest =>
    match context.schema.method context e with
    | none => none
    | some (context1, true) => some ({ v with schemaStack_ := context1 :: rest }, true)
    | some (context1, false) =>
      some ({ v with schemaStack_ := context1 :: rest, valid_ := false }, false)

/-- The macro `RAPIDJSON_SCHEMA_HANDLE_LOGIC_` on the validator. -/
def HANDLE_LOGIC_ (sub : GenericSchemaValidator → Event → Option GenericSchemaValidator)
    (v : GenericSchemaValidator) (e : Event) : Option GenericSchemaValidator :=
  (stepStack (fun w => sub w e) v.schemaStack_).map (fun stack => { v with schemaStack_ := stack })

/-- The statement `return valid_ = outputHandler_.method arg2`. -/
def HANDLE_OUTPUT_ (v : GenericSchemaValidator) (e : Event) : GenericSchemaValidator × Bool :=
  let r := v.outputHandler_.call e
  ({ v with outputHandler_ := r.1, valid_ := r.2 }, r.2)

/-- The macro `RAPIDJSON_SCHEMA_HANDLE_END_`:
`return valid_ = EndValue() && outputHandler_.method arg2`. -/
def HANDLE_END_ (v : GenericSchemaValidator) (e : Event) :
    Option (GenericSchemaValidator × Bool) :=
  match v.EndValue with
  | none => none
  | some (v1, false) => some ({ v1 with valid_ := false }, false)
  | some (v1, true) => some (v1.HANDLE_OUTPUT_ e)

/-- The macro `RAPIDJSON_SCHEMA_HANDLE_VALUE_`, the body of the eight scalar
event methods. -/
def HANDLE_VALUE_ (sub : GenericSchemaValidator → Event → Option GenericSchemaValidator)
    (v : GenericSchemaValidator) (e : Event) : Option (GenericSchemaValidator × Bool) :=
  if !v.valid_ then some (v, false)
  else
    match v.HANDLE_BEGIN_ e with
    | none => none
    | some (v1, false) => some (v1, false)
    | some (v1, true) =>
      match HANDLE_LOGIC_ sub v1 e with
      | none => none
      | some v2 => v2.HANDLE_END_ e

/-- The body of the event methods `StartObject` and `StartArray`. -/
def HANDLE_START_ (sub : GenericSchemaValidator → Event → Option GenericSchemaValidator)
    (v : GenericSchemaValidator) (e : Event) : Option (GenericSchemaValidator × Bool) :=
  if !v.valid_ then some (v, false)
  else
    match v.HANDLE_BEGIN_ e with
    | none => none
    | some (v1, false) => some (v1, false)
    | some (v1, true) =>
      match HANDLE_LOGIC_ sub v1 e with
      | none => none
      | some v2 => some (v2.HANDLE_OUTPUT_ e)

/-- The event method `Key` of the validator. -/
def Key (sub : GenericSchemaValidator → Event → Option GenericSchemaValidator)
    (v : GenericSchemaValidator) (str : String) (copy : Bool) :
    Option (GenericSchemaValidator × Bool) :=
  if !v.valid_ then some (v, false)
  else
    match v.HANDLE_CURRENT_ (.Key str copy) with
    | none => none
    | some (v1, false) => some (v1, false)
    | some (v1, true) =>
      match HANDLE_LOGIC_ sub v1 (.Key str copy) with
      | none => none
      | some v2 => some (v2.HANDLE_OUTPUT_ (.Key str copy))

/-- The body of the event methods `EndObject` and `EndArray`. -/
def HANDLE_CLOSE_ (sub : GenericSchemaValidator → Event → Option GenericSchemaValidator)
    (v : GenericSchemaValidator) (e : Event) : Option (GenericSchemaValidator × Bool) :=
  if !v.valid_ then some (v, false)
  else
    match v.HANDLE_CURRENT_ e with
    | none => none
    | some (v1, false) => some (v1, false)
    | some (v1, true) =>
      match HANDLE_LOGIC_ sub v1 e with
      | none => none
      | some v2 => v2.HANDLE_END_ e

/-- The event methods of the validator, by event: the validator afterwards and
the value returned. The calls on the validators owned by the contexts are made
by `sub`. -/
def handleWith (sub : GenericSchemaValidator → Event → Option GenericSchemaValidator)
    (v : GenericSchemaValidator) : Event → Option (GenericSchemaValidator × Bool)
  | .StartObject => HANDLE_START_ sub v .StartObject
  | .StartArray => HANDLE_START_ sub v .StartArray
  | .Key str copy => Key sub v str copy
  | .EndObject memberCount => HANDLE_CLOSE_ sub v (.EndObject memberCount)
  | .EndArray elementCount => HANDLE_CLOSE_ sub v (.EndArray elementCount)
  | e => HANDLE_VALUE_ sub v e

/-- The event method call on a validator owned by a context, when the validators
it owns in turn own validators to a depth below `fuel`; `none` when the depth is
larger or the call has undefined behaviour. The value the call returns is
dropped, as `RAPIDJSON_SCHEMA_HANDLE_LOGIC_` drops it. -/
def subAt : Nat → GenericSchemaValidator → Event → Option GenericSchemaValidator
  | 0, _, _ => none
  | fuel + 1, w, e => (handleWith (subAt fuel) w e).map Prod.fst

/-- An event method call on a validator whose contexts own validators to a
depth of at most `fuel`: the validator afterwards and the value returned;
`none` when the depth is larger or the call has undefined behaviour. -/
def handle (fuel : Nat) (v : GenericSchemaValidator) (e : Event) :
    Option (GenericSchemaValidator × Bool) :=
  handleWith (subAt fuel) v e

/-- A sequence of event method calls: the validator afterwards and the values
returned, in order. -/
def feedWith (sub : GenericSchemaValidator → Event → Option GenericSchemaValidator) :
    GenericSchemaValidator → List Event → Option (GenericSchemaValidator × List Bool)
  | v, [] => some (v, [])
  | v, e :: es =>
    match handleWith sub v e with
    | none => none
    | some (v1, r) =>
      match feedWith sub v1 es with
      | none => none
      | some (v2, rs) => some (v2, r :: rs)

/-- A sequence of event method calls on a validator whose contexts own
validators to a depth of at most `fuel`. -/
def feed (fuel : Nat) (v : GenericSchemaValidator) (es : List Event) :
    Option (GenericSchemaValidator × List Bool) :=
  feedWith (subAt fuel) v es

end GenericSchemaValidator

/-! ## Documents and their event streams -/

/-- A well-formed document as the tree of the events a SAX parser emits for it:
a scalar event, or the members (key, copy flag of the key, value) of an object,
or the elements of an array. -/
inductive Doc where
  | Null
  | Bool_ (b : Bool)
  | Int_ (i : Int)
  | Uint (u : Nat)
  | Int64 (i : Int)
  | Uint64 (u : Nat)
  | Double (d : Dbl)
  | String_ (str : String) (copy : Bool)
  | Object (members : List ((String × Bool) × Doc))
  | Array (elements : List Doc)

namespace Doc

mutual
/-- The event stream of a document. -/
def events : Doc → List Event
  | Null => [.Null]
  | Bool_ b => [.Bool_ b]
  | Int_ i => [.Int_ i]
  | Uint u => [.Uint u]
  | Int64 i => [.Int64 i]
  | Uint64 u => [.Uint64 u]
  | Double d => [.Double d]
  | String_ str copy => [.String_ str copy]
  | Object members => .StartObject :: (memberEvents members ++ [.EndObject members.length])
  | Array elements => .StartArray :: (elementEvents elements ++ [.EndArray elements.length])
/-- The events of the members of an object: a key, then its value. -/
def memberEvents : List ((String × Bool) × Doc) → List Event
  | [] => []
  | (k, d) :: rest => .Key k.1 k.2 :: (events d ++ memberEvents rest)
/-- The events of the elements of an array. -/
def elementEvents : List Doc → List Event
  | [] => []
  | d :: rest => events d ++ elementEvents rest
end

mutual
/-- Whether every length and count of the document is a `SizeType`: the
strings and keys have at most `2 ^ 32 - 1` code units, the objects and arrays
at most `2 ^ 32 - 1` members and elements. -/
def fits : Doc → Bool
  | String_ str _ => decide (str.length ≤ SizeTypeMax)
  | Object members => decide (members.length ≤ SizeTypeMax) && membersFit members
  | Array elements => decide (elements.length ≤ SizeTypeMax) && elementsFit elements
  | _ => true
/-- The members of an object fit. -/
def membersFit : List ((String × Bool) × Doc) → Bool
  | [] => true
  | (k, d) :: rest => decide (k.1.length ≤ SizeTypeMax) && fits d && membersFit rest
/-- The elements of an array fit. -/
def elementsFit : List Doc → Bool
  | [] => true
  | d :: rest => fits d && elementsFit rest
end

mutual
/-- The JSON value a document denotes. -/
def value : Doc → Json
  | Null => .null
  | Bool_ b => .bool b
  | Int_ i => .int i
  | Uint u => .int u
  | Int64 i => .int i
  | Uint64 u => .int u
  | Double d => .double d
  | String_ str _ => .str str
  | Object members => .obj (memberValues members)
  | Array elements => .arr (elementValues elements)
/-- The members of the value of an object. -/
def memberValues : List ((String × Bool) × Doc) → List (String × Json)
  | [] => []
  | (k, d) :: rest => (k.1, value d) :: memberValues rest
/-- The elements of the value of an array. -/
def elementValues : List Doc → List Json
  | [] => []
  | d :: rest => value d :: elementValues rest
end

end Doc

/-- The verdict of a fresh validator with the given output handler on a
document: `IsValid()` after the last event. -/
def validateWith (fuel : Nat) (root : BaseSchema) (outputHandler : OutputHandler) (d : Doc) :
    Option Bool :=
  (GenericSchemaValidator.feed fuel (GenericSchemaValidator.make root outputHandler)
    d.events).map (fun r => r.1.IsValid)

/-- The verdict of a fresh validator without an output handler on a document. -/
def validate (fuel : Nat) (root : BaseSchema) (d : Doc) : Option Bool :=
  validateWith fuel root nullOutputHandler_ d

/-! ## Definitions for the statements -/

/-- The handler after it received the events `es`. -/
def OutputHandler.receive (h : OutputHandler) (es : List Event) : OutputHandler :=
  { h with received := h.received ++ es }

namespace GenericSchemaValidator

/-- A sequence of events sent to one owned validator. -/
def subAll (sub : GenericSchemaValidator → Event → Option GenericSchemaValidator) :
    List Event → GenericSchemaValidator → Option GenericSchemaValidator
  | [], w => some w
  | e :: es, w =>
    match sub w e with
    | none => none
    | some w1 => subAll sub es w1

/-- A sequence of events sent to the validators of the contexts of a stack. -/
def stepStackAll (sub : GenericSchemaValidator → Event → Option GenericSchemaValidator) :
    List Event → List Context → Option (List Context)
  | [], stack => some stack
  | e :: es, stack =>
    match stepStack (fun w => sub w e) stack with
    | none => none
    | some stack1 => stepStackAll sub es stack1

end GenericSchemaValidator

/-- The context owns no validator. -/
def Context.NoSubs (c : Context) : Prop :=
  c.allOfValidators = none ∧ c.anyOfValidators = none ∧ c.oneOfValidators = none ∧
    c.notValidator = none

/-- The context with other owned validators. -/
def Context.withSubs (c : Context) (a b o : Option (List GenericSchemaValidator))
    (n : Option GenericSchemaValidator) : Context :=
  { c with allOfValidators := a, anyOfValidators := b, oneOfValidators := o, notValidator := n }

/-- A change of a context that does not read or write the validators it owns. -/
def LocalUpdate (g : Context → Context) : Prop :=
  ∀ c a b o n, g (c.withSubs a b o n) = (g c).withSubs a b o n

/-- The context after the schema's `BeginValue`. -/
def Context.bump (c : Context) : Context := (c.schema.BeginValue c).1

/-- The context after a `Key` that selects the typeless schema. -/
def Context.keyed (c : Context) : Context := { c with valueSchema := some typeless }

/-- The node with the given type mask and combinators and nothing else: every
other member has the value the constructor's initialisers give it. -/
def logicSchema (type_ : Nat) (allOf_ anyOf_ oneOf_ : Option (List BaseSchema))
    (not_ : Option BaseSchema) : BaseSchema :=
  { typeless with type_ := type_, allOf_ := allOf_, anyOf_ := anyOf_, oneOf_ := oneOf_,
                  not_ := not_ }

/-- The validators the schema's combinators ask for have been created. -/
def Context.Created (c : Context) : Prop :=
  (c.schema.allOf_.isSome → c.allOfValidators.isSome) ∧
  (c.schema.anyOf_.isSome → c.anyOfValidators.isSome) ∧
  (c.schema.oneOf_.isSome → c.oneOfValidators.isSome) ∧
  (c.schema.not_.isSome → c.notValidator.isSome)

/-- The next value of the context gets the typeless schema: in an array the
schema has no `items`, in an object the last `Key` selected the typeless
schema. -/
def Context.Free (c : Context) : Prop :=
  (c.inArray = true → c.schema.itemsList_ = none ∧ c.schema.itemsTuple_ = none) ∧
  (c.inArray = false → c.valueSchema = some typeless)

/-- The context of an array whose schema is typeless, as `StartArray` leaves it. -/
def arrayContext : Context := { Context.make typeless with inArray := true }

/-- The scalar events. -/
def Event.isScalar : Event → Bool
  | .StartObject => false
  | .Key _ _ => false
  | .EndObject _ => false
  | .StartArray => false
  | .EndArray _ => false
  | _ => true

/-- The lengths and counts of an event are `SizeType`s. -/
def Event.fits : Event → Bool
  | .String_ str _ => decide (str.length ≤ SizeTypeMax)
  | .Key str _ => decide (str.length ≤ SizeTypeMax)
  | .EndObject n => decide (n ≤ SizeTypeMax)
  | .EndArray n => decide (n ≤ SizeTypeMax)
  | _ => true

/-- The type test of the schema method of an event: whether the mask admits
the kind of the event. -/
def BaseSchema.admits (s : BaseSchema) : Event → Bool
  | .Null => s.hasType kNullSchemaType
  | .Bool_ _ => s.hasType kBooleanSchemaType
  | .Int_ _ => s.type_ &&& ((1 <<< kIntegerSchemaType) ||| (1 <<< kNumberSchemaType)) != 0
  | .Uint _ => s.type_ &&& ((1 <<< kIntegerSchemaType) ||| (1 <<< kNumberSchemaType)) != 0
  | .Int64 _ => s.type_ &&& ((1 <<< kIntegerSchemaType) ||| (1 <<< kNumberSchemaType)) != 0
  | .Uint64 _ => s.type_ &&& ((1 <<< kIntegerSchemaType) ||| (1 <<< kNumberSchemaType)) != 0
  | .Double _ => s.hasType kNumberSchemaType
  | .String_ _ _ => s.hasType kStringSchemaType
  | .StartObject => s.hasType kObjectSchemaType
  | .Key _ _ => s.hasType kObjectSchemaType
  | .EndObject _ => s.hasType kObjectSchemaType
  | .StartArray => s.hasType kArraySchemaType
  | .EndArray _ => s.hasType kArraySchemaType

/-- The context after a `StartArray` that the schema admits. -/
def Context.startArray (c : Context) : Context :=
  { c with arrayElementIndex := 0, inArray := true }

/-- The context after an `EndArray` that the schema admits. -/
def Context.endArray (c : Context) : Context := { c with inArray := false }

/-- The context of an object after its members so far: after a `Key`, unless no
member was seen. -/
def Context.keyedIf (b : Bool) (c : Context) : Context := if b = true then c else c.keyed

/-- The outcome of `BaseSchema::EndValue` in the spec's words, from the verdicts
of the validators of the combinators: every validator of `allOf` reports valid,
at least one of `anyOf`, exactly one of `oneOf`, and the one of `not` reports
not valid. -/
def combine (all any one : Option (List Bool)) (not : Option Bool) : Bool :=
  (match all with
    | some l => l.all id
    | none => true) &&
  (match any with
    | some l => l.any id
    | none => true) &&
  (match one with
    | some l => l.count true == 1
    | none => true) &&
  (match not with
    | some b => !b
    | none => true)

/-- Whether a fresh validator of the schema, on its own, reports the document
valid. -/
def verdictOf (fuel : Nat) (d : Doc) (s : BaseSchema) : Bool := validate fuel s d == some true

/-- The first event of a document. -/
def Doc.first : Doc → Event
  | .Null => .Null
  | .Bool_ b => .Bool_ b
  | .Int_ i => .Int_ i
  | .Uint u => .Uint u
  | .Int64 i => .Int64 i
  | .Uint64 u => .Uint64 u
  | .Double d => .Double d
  | .String_ str copy => .String_ str copy
  | .Object _ => .StartObject
  | .Array _ => .StartArray

/-- The root context of a fresh validator after the schema method of the first
event has created the validators of the combinators. -/
def rootContext (root : BaseSchema) : Context :=
  root.CreateLogicValidators (Context.make root)

/-- The kinds of value the names of a `type` keyword admit, in the spec's
words: a null, boolean, object, array or string is admitted when its name is
listed, an integer event when `integer` or `number` is listed, a double when
`number` is listed. -/
def admitsNames (names : List String) : Event → Bool
  | .Null => decide ("null" ∈ names)
  | .Bool_ _ => decide ("boolean" ∈ names)
  | .Int_ _ => decide ("integer" ∈ names) || decide ("number" ∈ names)
  | .Uint _ => decide ("integer" ∈ names) || decide ("number" ∈ names)
  | .Int64 _ => decide ("integer" ∈ names) || decide ("number" ∈ names)
  | .Uint64 _ => decide ("integer" ∈ names) || decide ("number" ∈ names)
  | .Double _ => decide ("number" ∈ names)
  | .String_ _ _ => decide ("string" ∈ names)
  | .StartObject => decide ("object" ∈ names)
  | .StartArray => decide ("array" ∈ names)
  | _ => false

/-- Whether the names listed by a `type` keyword set bit `k` of the mask. -/
def namesSetBit (names : List String) : Nat → Bool
  | 0 => decide ("null" ∈ names)
  | 1 => decide ("boolean" ∈ names)
  | 2 => decide ("object" ∈ names)
  | 3 => decide ("array" ∈ names)
  | 4 => decide ("string" ∈ names)
  | 5 => decide ("number" ∈ names)
  | _ => decide ("integer" ∈ names) || decide ("number" ∈ names)

/-- Every context of the list owns no validator. -/
def AllNoSubs (low : List Context) : Prop := ∀ c ∈ low, Context.NoSubs c

/-- No context of the list has a multi-type schema. -/
def NoMulti (st : List Context) : Prop := ∀ c ∈ st, c.multiTypeSchema = none

/-- The validator with the root `root`, the output handler `out` and the
contexts `low` below the contexts of `w`. -/
def GenericSchemaValidator.over (root : BaseSchema) (out : OutputHandler) (low : List Context)
    (w : GenericSchemaValidator) : GenericSchemaValidator :=
  ⟨root, out, w.schemaStack_ ++ low, w.valid_⟩

/-- The statements of an event method after `BeginValue`: the schema method on
the current context, `RAPIDJSON_SCHEMA_HANDLE_LOGIC_`, and then
`RAPIDJSON_SCHEMA_HANDLE_END_` (`close`) or the call of the output handler. -/
def GenericSchemaValidator.afterBegin
    (sub : GenericSchemaValidator → Event → Option GenericSchemaValidator) (close : Bool)
    (v : GenericSchemaValidator) (e : Event) : Option (GenericSchemaValidator × Bool) :=
  match v.HANDLE_CURRENT_ e with
  | none => none
  | some (v1, false) => some (v1, false)
  | some (v1, true) =>
    match GenericSchemaValidator.HANDLE_LOGIC_ sub v1 e with
    | none => none
    | some v2 => if close then v2.HANDLE_END_ e else some (v2.HANDLE_OUTPUT_ e)

/-- The events that begin a value: the scalars, `StartObject` and `StartArray`. -/
def Event.isBegin : Event → Bool
  | .Key _ _ => false
  | .EndObject _ => false
  | .EndArray _ => false
  | _ => true

/-- The events whose method ends with `RAPIDJSON_SCHEMA_HANDLE_END_`: the
scalars, `EndObject` and `EndArray`. -/
def Event.isClose : Event → Bool
  | .StartObject => false
  | .StartArray => false
  | .Key _ _ => false
  | _ => true

/-- What a context keeps while the value it is the context of is validated: its
schema, whether it is the context of an array, and its multi-type schema. -/
def Context.shape (c : Context) : BaseSchema × Bool × Option BaseSchema :=
  (c.schema, c.inArray, c.multiTypeSchema)

/-- Two stacks of the same height whose contexts have the same shape. -/
def SameShape (st st1 : List Context) : Prop := st1.map Context.shape = st.map Context.shape

/-- The context selects a schema for the next value: it is the context of an
array, or a `Key` has set its value schema. -/
def Context.Ready (t : Context) : Prop := t.inArray = true ∨ t.valueSchema.isSome = true

/-- While the validator is valid its stack is not empty, its current context
satisfies `p`, and no context has a multi-type schema. -/
def GenericSchemaValidator.TopIs (p : Context → Prop) (w : GenericSchemaValidator) : Prop :=
  w.valid_ = true → ∃ t tail, w.schemaStack_ = t :: tail ∧ p t ∧ NoMulti (t :: tail)

/-- The events `es` take the validator `w` to `w1` with the results `rs`, and so
they do when the contexts `low` lie below the contexts of `w`, whatever
accepting output handler that validator has. -/
def GenericSchemaValidator.Over
    (sub : GenericSchemaValidator → Event → Option GenericSchemaValidator) (root : BaseSchema)
    (low : List Context) (es : List Event) (w w1 : GenericSchemaValidator) (rs : List Bool) :
    Prop :=
  ∀ out : OutputHandler, (∀ h e, out.answer h e = true) →
    ∃ out1 : OutputHandler, (∀ h e, out1.answer h e = true) ∧
      GenericSchemaValidator.feedWith sub (GenericSchemaValidator.over root out low w) es
        = some (GenericSchemaValidator.over root out1 low w1, rs)

/-- Every run of the events `es` from a validator whose current context
satisfies `p` is also a run under the contexts `low`, and when it ends valid the
stacks before and after are related by `R`. -/
def GenericSchemaValidator.Run
    (sub : GenericSchemaValidator → Event → Option GenericSchemaValidator) (root : BaseSchema)
    (low : List Context) (es : List Event) (p : Context → Prop)
    (R : List Context → List Context → Prop) : Prop :=
  ∀ (w w1 : GenericSchemaValidator) (rs : List Bool),
    GenericSchemaValidator.TopIs p w → (∀ h e, w.outputHandler_.answer h e = true) →
    GenericSchemaValidator.feedWith sub w es = some (w1, rs) →
    (∀ h e, w1.outputHandler_.answer h e = true) ∧
      GenericSchemaValidator.Over sub root low es w w1 rs ∧
      (w1.valid_ = true → R w.schemaStack_ w1.schemaStack_)

/-- The second stack is the first with one more context on top, of an array
(`arr`) or not. -/
def Pushed (arr : Bool) (st st1 : List Context) : Prop :=
  ∃ (c2 : Context) (rest1 : List Context), st1 = c2 :: rest1 ∧ c2.inArray = arr ∧
    c2.multiTypeSchema = none ∧ SameShape st rest1

/-- The second stack is the first without its top. -/
def Popped (st st1 : List Context) : Prop :=
  ∀ (t : Context) (tail : List Context), st = t :: tail → SameShape tail st1

/-- The second stack is the first after a `Key`: its top has a value schema. -/
def Keyed (st st1 : List Context) : Prop :=
  SameShape st st1 ∧
    ∃ (t1 : Context) (tl : List Context), st1 = t1 :: tl ∧ t1.valueSchema.isSome = true

/-- The schema has no combinator: no `allOf`, `anyOf`, `oneOf` or `not`. -/
def BaseSchema.Plain (s : BaseSchema) : Prop :=
  s.allOf_ = none ∧ s.anyOf_ = none ∧ s.oneOf_ = none ∧ s.not_ = none

/-- The validation of the members of an object by a schema without combinators,
from the context of the object: the context after the last `Key` and whether
every key was accepted and every value is valid for the schema its key
selected, by the verdict of a fresh validator; `none` when a `Key` has undefined
behaviour. -/
def membersFold (fuel : Nat) (R : BaseSchema) :
    Context → List ((String × Bool) × Doc) → Option (Context × Bool)
  | c, [] => some (c, true)
  | c, (k, d) :: ms =>
    match R.Key c k.1 with
    | none => none
    | some (c1, false) => some (c1, false)
    | some (c1, true) =>
      match c1.valueSchema with
      | none => none
      | some S => if verdictOf fuel d S then membersFold fuel R c1 ms else some (c1, false)

/-- The validation of the elements of an array by a schema without combinators,
from the context of the array: the context after the last `BeginValue` and
whether every element was admitted and is valid for the schema `BeginValue`
selected, by the verdict of a fresh validator. -/
def elementsFold (fuel : Nat) (A : BaseSchema) : Context → List Doc → Context × Bool
  | c, [] => (c, true)
  | c, d :: ds =>
    if (A.BeginValue c).2 then
      match (A.BeginValue c).1.valueSchema with
      | none => ((A.BeginValue c).1, false)
      | some S =>
        if verdictOf fuel d S then elementsFold fuel A (A.BeginValue c).1 ds
        else ((A.BeginValue c).1, false)
    else ((A.BeginValue c).1, false)

/-- The context of an object, as `StartObject` leaves the context of a schema
that admits objects. -/
def Context.startObject (s : BaseSchema) (c : Context) : Context :=
  { c with
    objectRequiredCount := 0
    objectDependencies :=
      if s.hasDependencies_ then some (List.replicate s.propertyCount_ false)
      else c.objectDependencies }

/-- The node with a list-item schema (or none) and bounds on the number of
elements, and nothing else. -/
def listSchema (S : Option BaseSchema) (a b : Nat) : BaseSchema :=
  { typeless with itemsList_ := S, minItems_ := a, maxItems_ := b }

/-- Whether a fresh validator of the schema, if there is one, reports the
document valid. -/
def verdictIf (fuel : Nat) (S : Option BaseSchema) (d : Doc) : Bool :=
  match S with
  | some S0 => verdictOf fuel d S0
  | none => true

/-- The keywords the constructor of a schema node reads. -/
def keywords : List String :=
  ["type", "enum", "allOf", "anyOf", "oneOf", "not", "properties", "patternProperties",
   "required", "dependencies", "additionalProperties", "minProperties", "maxProperties",
   "items", "minItems", "maxItems", "additionalItems", "minLength", "maxLength", "pattern",
   "minimum", "maximum", "exclusiveMinimum", "exclusiveMaximum", "multipleOf"]

/-- The members of a schema object use no keyword but the allowed ones. -/
def onlyKeywords (allowed : List String) (ms : List (String × Json)) : Bool :=
  keywords.all (fun k => allowed.contains k || (GetMember ms k).isNone)

/-- The `patternProperties` statement of the constructor, lines 194-203. -/
def patternPart (rx : RegexEngine) (ms : List (String × Json)) :
    Option (Option (List (String × BaseSchema))) :=
  match GetMember ms "patternProperties" with
  | none => some none
  | some v => if v.IsObject then makeMembersAt rx "patternProperties" ms else none

/-- The schema of an object-valued `additionalProperties`, lines 242-243. -/
def additionalPart (rx : RegexEngine) (ms : List (String × Json)) : Option (Option BaseSchema) :=
  match GetMember ms "additionalProperties" with
  | some (.obj _) => makeAt rx "additionalProperties" ms
  | _ => some none

/-- The schema of an object-valued `items`, lines 251-252. -/
def itemsPart (rx : RegexEngine) (ms : List (String × Json)) : Option (Option BaseSchema) :=
  match GetMember ms "items" with
  | some (.obj _) => makeAt rx "items" ms
  | _ => some none

/-- The properties after the `required` statement, and the count. -/
def requiredPart (ms : List (String × Json)) (properties : Option (List (String × BaseSchema))) :
    List (Property BaseSchema) × Nat :=
  match GetMember ms "required" with
  | some (.arr xs) =>
    markRequired ((properties.getD []).map (fun kv => { name := kv.1, schema := kv.2 })) 0 xs
  | _ => ((properties.getD []).map (fun kv => { name := kv.1, schema := kv.2 }), 0)

/-- The properties after the `dependencies` statement, and `hasDependencies_`. -/
def dependenciesPart (ms : List (String × Json))
    (properties : Option (List (String × BaseSchema))) : List (Property BaseSchema) × Bool :=
  match GetMember ms "dependencies" with
  | some (.obj ds) => (markDependencies (requiredPart ms properties).1 ds, true)
  | _ => ((requiredPart ms properties).1, false)

/-- The value of a numeric keyword, or the default. -/
def numberOr (ms : List (String × Json)) (name : String) (default : Dbl) : Dbl :=
  match GetMember ms name with
  | some v => if v.IsNumber then v.GetDouble else default
  | none => default

/-- The node the constructor leaves for an object with the members `ms`, from
the nodes of its children. -/
def nodeOf (rx : RegexEngine) (ms : List (String × Json))
    (allOf_ anyOf_ oneOf_ : Option (List BaseSchema)) (not_ : Option BaseSchema)
    (properties patternProperties_ : Option (List (String × BaseSchema)))
    (additionalPropertySchema_ itemsList_ : Option BaseSchema)
    (itemsTuple_ : Option (List BaseSchema)) : BaseSchema where
  enum_ := enumOf ms
  allOf_ := allOf_.bind (fun l => if l.isEmpty then none else some l)
  anyOf_ := anyOf_.bind (fun l => if l.isEmpty then none else some l)
  oneOf_ := oneOf_.bind (fun l => if l.isEmpty then none else some l)
  not_ := not_
  type_ := typeMask ms
  properties_ := (dependenciesPart ms properties).1
  additionalPropertySchema_ := additionalPropertySchema_
  patternProperties_ := patternProperties_.map
    (List.map (fun kv => { schema := kv.2, pattern := CreatePattern rx (.str kv.1) }))
  requiredCount_ := (requiredPart ms properties).2
  minProperties_ := AssignIfExistSize typeless.minProperties_ ms "minProperties"
  maxProperties_ := AssignIfExistSize typeless.maxProperties_ ms "maxProperties"
  additionalProperty_ := AssignIfExistBool typeless.additionalProperty_ ms "additionalProperties"
  hasDependencies_ := (dependenciesPart ms properties).2
  itemsList_ := itemsList_
  itemsTuple_ := itemsTuple_
  minItems_ := AssignIfExistSize typeless.minItems_ ms "minItems"
  maxItems_ := AssignIfExistSize typeless.maxItems_ ms "maxItems"
  additionalItems_ := AssignIfExistBool typeless.additionalItems_ ms "additionalItems"
  pattern_ := (GetMember ms "pattern").bind (CreatePattern rx)
  minLength_ := AssignIfExistSize typeless.minLength_ ms "minLength"
  maxLength_ := AssignIfExistSize typeless.maxLength_ ms "maxLength"
  minimum_ := numberOr ms "minimum" typeless.minimum_
  maximum_ := numberOr ms "maximum" typeless.maximum_
  multipleOf_ := numberOr ms "multipleOf" typeless.multipleOf_
  hasMultipleOf_ :=
    match GetMember ms "multipleOf" with
    | some v => v.IsNumber
    | none => false
  exclusiveMinimum_ := AssignIfExistBool typeless.exclusiveMinimum_ ms "exclusiveMinimum"
  exclusiveMaximum_ := AssignIfExistBool typeless.exclusiveMaximum_ ms "exclusiveMaximum"

/-- The node of a schema object that may be absent: the inner `none` when it
is absent. -/
def compileOptional (rx : RegexEngine) (items : Option (List (String × Json))) :
    Option (Option BaseSchema) :=
  match items with
  | some sm => (GenericSchema.make rx (.obj sm)).map some
  | none => some none

/-- The JSON number of a size. -/
def sizeJson (n : Nat) : Json := .int n

/-- The node with tuple-item schemas and an additional-items policy, and
nothing else. -/
def tupleSchema (Ss : List BaseSchema) (add : Bool) : BaseSchema :=
  { typeless with itemsTuple_ := some Ss, additionalItems_ := add }

/-- The policy a value of the keyword `additionalItems` gives: forbidden for
the boolean `false`, allowed otherwise. -/
def additionalAllowed (extra : Option Json) : Bool :=
  match extra with
  | some (.bool b) => b
  | _ => true

/-- Whether each of the first elements is valid for the tuple schema at its
position, by the verdict of a fresh validator. -/
def tupleVerdicts (fuel : Nat) (ds : List Doc) (Ss : List BaseSchema) : List Bool :=
  List.zipWith (fun d S => verdictOf fuel d S) ds Ss

/-- The property of a name and a schema, as the `properties` statement of the
constructor makes it. -/
def propertyOf (kv : String × BaseSchema) : Property BaseSchema :=
  { name := kv.1, schema := kv.2 }

/-- The node with a type mask, named properties and an additional-property
policy, and nothing else. -/
def objectSchema (T : Nat) (props : List (String × BaseSchema)) (addS : Option BaseSchema)
    (addB : Bool) : BaseSchema :=
  { typeless with type_ := T, properties_ := props.map propertyOf,
                  additionalPropertySchema_ := addS, additionalProperty_ := addB }

/-- The schema for the value of a member, in the spec's words: the schema of
the property of that name when one is declared; otherwise the
additional-property schema when there is one; otherwise the typeless schema
when additional properties are allowed; otherwise none, the key is refused. -/
def selected (props : List (String × BaseSchema)) (addS : Option BaseSchema) (addB : Bool)
    (k : String) : Option BaseSchema :=
  match props.lookup k with
  | some S => some S
  | none =>
    match addS with
    | some A => some A
    | none => if addB then some typeless else none

/-- Whether a member is accepted: its key selects a schema and a fresh
validator of that schema reports the value valid. -/
def memberVerdict (fuel : Nat) (props : List (String × BaseSchema)) (addS : Option BaseSchema)
    (addB : Bool) (m : (String × Bool) × Doc) : Bool :=
  match selected props addS addB m.1.1 with
  | some S => verdictOf fuel m.2 S
  | none => false

/-- Whether a count is within an upper bound that may be absent. -/
def withinBound (b : Option Nat) (n : Nat) : Bool :=
  match b with
  | some m => decide (n ≤ m)
  | none => true

/-- The type names the method `AddType` recognises. -/
def typeNames : List String :=
  ["null", "boolean", "object", "array", "string", "integer", "number"]

/-- Whether a value of the `type` keyword names a recognised type: it is the
string of a recognised name, or an array with such a string among its
elements. -/
def namesRecognisedType : Json → Bool
  | .str s => typeNames.contains s
  | .arr xs => xs.any (fun x =>
      match x with
      | .str s => typeNames.contains s
      | _ => false)
  | _ => false

/-- The names a schema object declares with its `properties` keyword. -/
def declaredNames (ms : List (String × Json)) : List String :=
  match GetMember ms "properties" with
  | some (.obj pj) => pj.map Prod.fst
  | _ => []

/-- The double of an integer keyword that may be absent, or the default. -/
def numberOf (a : Option Int) (default : Dbl) : Dbl :=
  match a with
  | some n => Dbl.ofInt n
  | none => default

/-- The node with a type mask and the numeric keywords, and nothing else. -/
def numericSchema (T : Nat) (a b : Option Int) (x y : Bool) (k : Option Int) : BaseSchema :=
  { typeless with
    type_ := T
    minimum_ := numberOf a typeless.minimum_
    maximum_ := numberOf b typeless.maximum_
    exclusiveMinimum_ := x
    exclusiveMaximum_ := y
    multipleOf_ := numberOf k typeless.multipleOf_
    hasMultipleOf_ := k.isSome }

/-- Whether an integer is above a minimum that may be absent, strictly when
the minimum is exclusive. -/
def aboveMinimum (a : Option Int) (x : Bool) (i : Int) : Bool :=
  match a with
  | some n => if x then decide (n < i) else decide (n ≤ i)
  | none => true

/-- Whether an integer is below a maximum that may be absent, strictly when
the maximum is exclusive. -/
def belowMaximum (b : Option Int) (y : Bool) (i : Int) : Bool :=
  match b with
  | some n => if y then decide (i < n) else decide (i ≤ n)
  | none => true

/-- Whether an integer is a multiple of a `multipleOf` that may be absent. -/
def isMultiple (k : Option Int) (i : Int) : Bool :=
  match k with
  | some n => decide (n ∣ i)
  | none => true

/-- The numeric check on an integer, in the spec's words: above the minimum
(strictly when it is exclusive), below the maximum (strictly when it is
exclusive), and a multiple of `multipleOf` when that is given. -/
def integerInRange (a b : Option Int) (x y : Bool) (k : Option Int) (i : Int) : Bool :=
  aboveMinimum a x i && belowMaximum b y i && isMultiple k i

/-- The dependency bits of a list of target names: one bit for each declared
name, set when the name is a target. -/
def bitsOf (names : List String) (ts : List String) : List Bool :=
  names.map (fun x => decide (x ∈ ts))

/-- The property of a declared name with the empty schema and the dependency
bits of its targets, when it has a dependency. -/
def dependentProperty (names : List String) (D : String → Option (List String))
    (nm : String) : Property BaseSchema :=
  { name := nm, schema := typeless, dependencies := (D nm).map (bitsOf names) }

/-- The node with properties of empty schemas and dependencies between them,
and nothing else. -/
def dependenciesSchema (names : List String) (deps : List (String × List String)) :
    BaseSchema :=
  { typeless with
    properties_ := names.map (dependentProperty names (fun nm => deps.lookup nm))
    hasDependencies_ := true }

/-- The members of a `dependencies` object that maps names to arrays of
names. -/
def dependenciesJson (deps : List (String × List String)) : List (String × Json) :=
  deps.map (fun d => (d.1, Json.arr (d.2.map Json.str)))

/-- The members of a `properties` object that declares names with the empty
schema. -/
def emptyProperties (names : List String) : List (String × Json) :=
  names.map (fun nm => (nm, Json.obj []))

/-- The six size keywords. -/
def sizeKeywords : List String :=
  ["minProperties", "maxProperties", "minItems", "maxItems", "minLength", "maxLength"]

/-- The bound a size keyword gives, in the spec's words: the value when it is
a non-negative integer not exceeding the largest `SizeType`, the default for
every other value and without the keyword. -/
def boundOf (default : Nat) (v : Option Json) : Nat :=
  match v with
  | some (.int i) => if 0 ≤ i ∧ i ≤ 2 ^ 32 - 1 then i.toNat else default
  | _ => default

/-- Whether a value of a size keyword is in range: a non-negative integer not
exceeding the largest `SizeType`. -/
def inSizeRange : Json → Bool
  | .int i => decide (0 ≤ i ∧ i ≤ 2 ^ 32 - 1)
  | _ => false

/-- The members of a schema object without the members of one name. -/
def withoutMember (name : String) (ms : List (String × Json)) : List (String × Json) :=
  ms.filter (fun m => m.1 != name)

/-- The node of a string schema: the type `string`, bounds on the length and a
compiled pattern (or none), and nothing else. -/
def stringNode (a b : Nat) (p : Option Pattern) : BaseSchema :=
  { typeless with type_ := 1 <<< kStringSchemaType, minLength_ := a, maxLength_ := b,
                  pattern_ := p }

/-- Whether a compiled pattern, when there is one, is found in the string. -/
def patternAccepts (p : Option Pattern) (s : String) : Bool :=
  match p with
  | some pattern => pattern.search s
  | none => true

/-- The property of a name and a schema, required when the name is listed. -/
def requiredProperty (req : List String) (kv : String × BaseSchema) : Property BaseSchema :=
  { name := kv.1, schema := kv.2, required := decide (kv.1 ∈ req) }

/-- The node with named properties, of which the listed ones are required, and
nothing else; `requiredCount_` counts the listed names that are declared. -/
def requiredSchema (props : List (String × BaseSchema)) (req : List String) : BaseSchema :=
  { typeless with
    properties_ := props.map (requiredProperty req)
    requiredCount_ := (req.filter (fun r => decide (r ∈ props.map Prod.fst))).length }

/-- Whether a key is the name of a required property: declared and listed. -/
def isRequiredKey (props : List (String × BaseSchema)) (req : List String) (k : String) : Bool :=
  decide (k ∈ props.map Prod.fst) && decide (k ∈ req)

/-- The validator with another output handler. -/
def GenericSchemaValidator.withOutput (v : GenericSchemaValidator) (o : OutputHandler) :
    GenericSchemaValidator :=
  { v with outputHandler_ := o }

/-- What a run of events shows: the values the event methods returned and
`IsValid()` afterwards. -/
def GenericSchemaValidator.observed (p : GenericSchemaValidator × List Bool) : List Bool × Bool :=
  (p.2, p.1.IsValid)

/-- What is open before the next event of a well-formed stream: an array, an
object that expects a key or its end, or an object that expects the value of
its last key. -/
inductive Frame where
  | arr
  | key
  | val
  deriving DecidableEq, Repr

/-- The open containers when a value begins: nothing is open, or an array, or
an object after a key, which then expects a key again. -/
def Frame.ready : List Frame → Option (List Frame)
  | [] => some []
  | .arr :: r => some (.arr :: r)
  | .val :: r => some (.key :: r)
  | .key :: _ => none

/-- The open containers after an event of a well-formed stream, the innermost
first; `none` when the event cannot come next. -/
def Frame.track (fs : List Frame) : Event → Option (List Frame)
  | .StartObject => (Frame.ready fs).map (fun r => .key :: r)
  | .StartArray => (Frame.ready fs).map (fun r => .arr :: r)
  | .Key _ _ =>
    match fs with
    | .key :: r => some (.val :: r)
    | _ => none
  | .EndObject _ =>
    match fs with
    | .key :: r => some r
    | _ => none
  | .EndArray _ =>
    match fs with
    | .arr :: r => some r
    | _ => none
  | _ => Frame.ready fs

/-- The open containers after a sequence of events. -/
def Frame.trackAll : List Frame → List Event → Option (List Frame)
  | fs, [] => some fs
  | fs, e :: es => (Frame.track fs e).bind (fun fs1 => Frame.trackAll fs1 es)

/-- The events that open a container. -/
def Event.opens : Event → Bool
  | .StartObject => true
  | .StartArray => true
  | _ => false

/-- The events that close a container. -/
def Event.closes : Event → Bool
  | .EndObject _ => true
  | .EndArray _ => true
  | _ => false

/-- The number of objects and arrays that are open after the events: those
opened and not yet closed. -/
def openContainers (es : List Event) : Nat :=
  (es.filter Event.opens).length - (es.filter Event.closes).length

/-- The validators the context owns for `allOf`, `anyOf` and `oneOf`, where
there are any, are as many as the schemas of the keyword. -/
def Context.Sized (c : Context) : Prop :=
  (∀ L ws, c.schema.allOf_ = some L → c.allOfValidators = some ws → ws.length = L.length) ∧
  (∀ L ws, c.schema.anyOf_ = some L → c.anyOfValidators = some ws → ws.length = L.length) ∧
  (∀ L ws, c.schema.oneOf_ = some L → c.oneOfValidators = some ws → ws.length = L.length)

/-- The validators the schema's combinators ask for have been created, for
`allOf`, `anyOf` and `oneOf` exactly as many as the schemas of the keyword. -/
def Context.CreatedSized (c : Context) : Prop :=
  (∀ L, c.schema.allOf_ = some L → ∃ ws, c.allOfValidators = some ws ∧ ws.length = L.length) ∧
  (∀ L, c.schema.anyOf_ = some L → ∃ ws, c.anyOfValidators = some ws ∧ ws.length = L.length) ∧
  (∀ L, c.schema.oneOf_ = some L → ∃ ws, c.oneOfValidators = some ws ∧ ws.length = L.length) ∧
  (c.schema.not_.isSome = true → c.notValidator.isSome = true)

/-- The context is the context of the container of the frame. -/
def Frame.holds : Frame → Context → Prop
  | .arr, c => c.inArray = true
  | .key, c => c.inArray = false
  | .val, c => c.inArray = false ∧ c.valueSchema.isSome = true

/-- The context of an open container between two events: it has no multi-type
schema, its validators are created, and it is the context of that container. -/
def FrameOK (f : Frame) (c : Context) : Prop :=
  c.multiTypeSchema = none ∧ c.CreatedSized ∧ f.holds c

/-- The stack of contexts has one context for every open container, in order. -/
def Tracks (fs : List Frame) (st : List Context) : Prop := List.Forall₂ FrameOK fs st

/-- The validator on which the event method of `e` calls `EndValue`, when the
call gets there: the validator after `BeginValue`, the schema method and
`RAPIDJSON_SCHEMA_HANDLE_LOGIC_`, for the events whose method ends with
`RAPIDJSON_SCHEMA_HANDLE_END_`. -/
def GenericSchemaValidator.atEndValue
    (sub : GenericSchemaValidator → Event → Option GenericSchemaValidator)
    (v : GenericSchemaValidator) (e : Event) : Option GenericSchemaValidator :=
  if !v.valid_ || !e.isClose then none
  else
    match (if e.isBegin then v.HANDLE_BEGIN_ e else v.HANDLE_CURRENT_ e) with
    | some (v1, true) => GenericSchemaValidator.HANDLE_LOGIC_ sub v1 e
    | _ => none

/-- The validators a context owns. -/
def Context.owned (c : Context) : List GenericSchemaValidator :=
  c.allOfValidators.getD [] ++ c.anyOfValidators.getD [] ++ c.oneOfValidators.getD [] ++
    c.notValidator.toList

/-- Every validator owned by a context of the stack satisfies `Q` with the
containers that were opened since the value of that context began: for the
context at position `i` from the top, the `i + 1` innermost open containers. -/
def OwnedAll (Q : List Frame → GenericSchemaValidator → Prop) (fs : List Frame)
    (st : List Context) : Prop :=
  ∀ (i : Nat) (c : Context), st[i]? = some c → ∀ x ∈ c.owned, Q (fs.take (i + 1)) x

/-- The validator is safe to the depth `n` with the open containers `fs`: while
it is valid, its stack has one context for every open container, each with the
validators of its schema created, and every validator it owns is safe to the
depth `n - 1` with the containers opened since the value of its context
began. -/
def SafeAt : Nat → List Frame → GenericSchemaValidator → Prop
  | 0, _, _ => True
  | n + 1, fs, v =>
    v.valid_ = true → Tracks fs v.schemaStack_ ∧ OwnedAll (SafeAt n) fs v.schemaStack_

/-- The validators that receive the events delivered to a validator, to the
depth `n`: the validator itself and, while it is valid, the validators owned by
the contexts of its stack, with the validators these own, and so on. -/
def GenericSchemaValidator.within : Nat → GenericSchemaValidator → List GenericSchemaValidator
  | 0, v => [v]
  | n + 1, v =>
    v :: (if v.valid_ then
      v.schemaStack_.flatMap
        (fun c => (Context.owned c).flatMap (GenericSchemaValidator.within n))
    else [])

/-- The type names a value of the `type` keyword gives: the string itself, or
the strings among the elements of an array; any other value gives none. -/
def namesGiven : Json → List String
  | .str s => [s]
  | .arr xs => xs.filterMap (fun x =>
      match x with
      | .str s => some s
      | _ => none)
  | _ => []

/-- The bits of a type name, in the spec's words: a kind's own bit for `null`,
`boolean`, `object`, `array`, `string` and `integer`, the bits of `number` and
of `integer` for `number`, and no bit for any other name. -/
def nameBits (s : String) : Nat :=
  if s = "null" then 1 <<< kNullSchemaType
  else if s = "boolean" then 1 <<< kBooleanSchemaType
  else if s = "object" then 1 <<< kObjectSchemaType
  else if s = "array" then 1 <<< kArraySchemaType
  else if s = "string" then 1 <<< kStringSchemaType
  else if s = "integer" then 1 <<< kIntegerSchemaType
  else if s = "number" then (1 <<< kNumberSchemaType) ||| (1 <<< kIntegerSchemaType)
  else 0

/-- The union of the bits of a list of type names. -/
def maskOfNames (names : List String) : Nat :=
  names.foldl (fun (m : Nat) (s : String) => m ||| nameBits s) 0

/-! ## Concrete schemas, documents and states -/

/-- A regular-expression library that compiles no pattern. -/
def noRegex : RegexEngine := fun _ => none

/-- The node of the schema `{"type":"integer"}`. -/
def integerSchema : BaseSchema := logicSchema (1 <<< kIntegerSchemaType) none none none none

/-- The node of the schema `{"type":"number"}`. -/
def numberSchema : BaseSchema :=
  logicSchema ((1 <<< kNumberSchemaType) ||| (1 <<< kIntegerSchemaType)) none none none none

/-- The node of the schema `{"type":"string"}`. -/
def stringSchema : BaseSchema := logicSchema (1 <<< kStringSchemaType) none none none none

/-- The validator of `{"type":"integer"}` after the event `String("x")`. -/
def failedValidator : GenericSchemaValidator :=
  ⟨integerSchema, nullOutputHandler_, [Context.make integerSchema], false⟩

/-- The document `[1, {"a": null}, "x"]`. -/
def sampleDocument : Doc :=
  .Array [.Int_ 1, .Object [(("a", false), .Null)], .String_ "x" true]

/-- The schema `{"enum":[1]}`. -/
def enumOneSchema : Json := .obj [("enum", .arr [.int 1])]

/-- The schema `{"properties":{"a":{},"b":{}},"required":["a","b"]}`. -/
def requiredABSchema : Json :=
  .obj [("properties", .obj [("a", .obj []), ("b", .obj [])]),
        ("required", .arr [.str "a", .str "b"])]

/-- The schema `{"properties":{"a":{}},"required":["a"]}`. -/
def requiredASchema : Json :=
  .obj [("properties", .obj [("a", .obj [])]), ("required", .arr [.str "a"])]

/-- The schema `{"properties":{"a":{}},"required":["a","a"]}`. -/
def requiredAASchema : Json :=
  .obj [("properties", .obj [("a", .obj [])]), ("required", .arr [.str "a", .str "a"])]

/-- The document `{"a":1,"a":2}`, whose key occurs twice. -/
def duplicateKeyDocument : Doc :=
  .Object [(("a", false), .Uint 1), (("a", false), .Uint 2)]

/-- The document `{"a":1}`. -/
def singleKeyDocument : Doc := .Object [(("a", false), .Uint 1)]

/-- The schemas `{"type":"integer"}` and `{"type":"number"}`, as JSON values. -/
def integerNumberJson : List Json :=
  [.obj [("type", .str "integer")], .obj [("type", .str "number")]]

/-- The nodes of the schemas `{"type":"integer"}` and `{"type":"number"}`. -/
def integerNumberSchemas : List BaseSchema := [integerSchema, numberSchema]

/-- The schema `{"items":{"type":"integer"},"minItems":1,"maxItems":2}`. -/
def listItemsJson : List (String × Json) :=
  [("items", .obj [("type", .str "integer")]), ("minItems", .int 1), ("maxItems", .int 2)]

/-- The schema `{"items":[{"type":"integer"},{"type":"string"}],"additionalItems":false}`. -/
def tupleItemsJson : List (String × Json) :=
  [("items", .arr [.obj [("type", .str "integer")], .obj [("type", .str "string")]]),
   ("additionalItems", .bool false)]

/-- The schema `{"properties":{"a":{"type":"string"}}}`. -/
def namedPropertyJson : List (String × Json) :=
  [("properties", .obj [("a", .obj [("type", .str "string")])])]

/-- The schema `{"type":["string","foo"]}`. -/
def stringFooJson : Json := .obj [("type", .arr [.str "string", .str "foo"])]

/-- A regular-expression library for patterns without special characters: the
pattern is found in a string when it occurs in it. -/
def literalRegex : RegexEngine :=
  fun pat => some ⟨fun str => decide (pat.toList <:+: str.toList)⟩

/-- The schema `{"properties":{"a":{"type":"string"}},
"patternProperties":{"a":{"type":"integer"}}}`. -/
def precedenceJson : Json :=
  .obj [("properties", .obj [("a", .obj [("type", .str "string")])]),
        ("patternProperties", .obj [("a", .obj [("type", .str "integer")])])]

/-- The node of `precedenceJson`, compiled with `literalRegex`. -/
def precedenceSchema : BaseSchema :=
  { typeless with
    properties_ := [{ name := "a", schema := stringSchema }]
    patternProperties_ := some [{ schema := integerSchema, pattern := literalRegex "a" }] }

/-- The schema `{"type":"object","properties":{"a":{}},
"additionalProperties":false}`. -/
def closedObjectJson : List (String × Json) :=
  [("type", .str "object"), ("properties", .obj [("a", .obj [])]),
   ("additionalProperties", .bool false)]

/-- The node of `closedObjectJson`. -/
def closedObjectSchema : BaseSchema :=
  objectSchema (1 <<< kObjectSchemaType) [("a", typeless)] none false

/-- The schema `{"type":"integer","minimum":0,"maximum":10}`. -/
def zeroToTenJson : List (String × Json) :=
  [("type", .str "integer"), ("minimum", .int 0), ("maximum", .int 10)]

/-- The schema `{"minimum":3,"exclusiveMinimum":true}`. -/
def aboveThreeJson : List (String × Json) :=
  [("minimum", .int 3), ("exclusiveMinimum", .bool true)]

/-- The schema `{"properties":{"a":{},"b":{}},"dependencies":{"a":["b"]}}`. -/
def dependencyABJson : List (String × Json) :=
  [("properties", .obj (emptyProperties ["a", "b"])),
   ("dependencies", .obj (dependenciesJson [("a", ["b"])]))]

/-- The schema `{"minItems":-1,"maxItems":4294967296,"minLength":1.5}`, with
`items` absent. -/
def outOfRangeJson : List (String × Json) :=
  [("minItems", .int (-1)), ("maxItems", .int 4294967296), ("minLength", .double (Dbl.fin (3 / 2)))]

/-- A regular-expression library for the patterns `^x`, with `x` free of
special characters, which are found in the strings that start with `x`, and for
the patterns free of special characters, which are found in the strings they
occur in. -/
def caretRegex : RegexEngine :=
  fun pat =>
    match pat.toList with
    | '^' :: rest => some ⟨fun str => decide (rest <+: str.toList)⟩
    | l => some ⟨fun str => decide (l <:+: str.toList)⟩

/-- The schema `{"type":"string","pattern":"^f","minLength":2}`. -/
def startsWithFJson : List (String × Json) :=
  [("type", .str "string"), ("pattern", .str "^f"), ("minLength", .int 2)]

/-- The schema `{"patternProperties":{"(":{"type":"string"},"a":{"type":"integer"},
"b":{"type":"string"}}}`. -/
def patternOrderJson : List (String × Json) :=
  [("patternProperties", .obj [("(", .obj [("type", .str "string")]),
    ("a", .obj [("type", .str "integer")]), ("b", .obj [("type", .str "string")])])]

/-- A regular-expression library that compiles the patterns free of special
characters, which are found in the strings they occur in, and throws on the
pattern `(`. -/
def strictRegex : RegexEngine :=
  fun pat => if pat = "(" then none else some ⟨fun str => decide (pat.toList <:+: str.toList)⟩

/-- The node of `patternOrderJson`, compiled with `strictRegex`. -/
def patternOrderSchema : BaseSchema :=
  { typeless with
    patternProperties_ := some [{ schema := stringSchema, pattern := strictRegex "(" },
      { schema := integerSchema, pattern := strictRegex "a" },
      { schema := stringSchema, pattern := strictRegex "b" }] }

/-- The schema `{"properties":{"a":{},"b":{}},"required":["a","c"]}`. -/
def requiredACJson : List (String × Json) :=
  [("properties", .obj [("a", .obj []), ("b", .obj [])]),
   ("required", .arr [.str "a", .str "c"])]

/-- The node of the schema `{"allOf":[{}]}`. -/
def allOfAnySchema : BaseSchema := logicSchema 127 (some [typeless]) none none none

/-! ## Lemmas -/

namespace GenericSchemaValidator

theorem handleWith_of_invalid
    (sub : GenericSchemaValidator → Event → Option GenericSchemaValidator)
    (v : GenericSchemaValidator) (e : Event) (h : v.valid_ = false) :
    handleWith sub v e = some (v, false) := by
  cases e <;> simp [handleWith, HANDLE_VALUE_, HANDLE_START_, Key, HANDLE_CLOSE_, h]

theorem feedWith_of_invalid
    (sub : GenericSchemaValidator → Event → Option GenericSchemaValidator)
    (v : GenericSchemaValidator) (h : v.valid_ = false)
    (es : List Event) : feedWith sub v es = some (v, List.replicate es.length false) := by
  induction es with
  | nil => rfl
  | cons e es ih => simp [feedWith, handleWith_of_invalid sub v e h, ih, List.replicate_succ]

theorem stepContext_of_noSubs
    (f : GenericSchemaValidator → Option GenericSchemaValidator)
    (c : Context) (h : c.NoSubs) : stepContext f c = some c := by
  obtain ⟨h1, h2, h3, h4⟩ := h
  cases c
  simp_all [stepContext, stepArray, stepNot]

theorem stepStack_cons_noSubs
    (f : GenericSchemaValidator → Option GenericSchemaValidator)
    (t : Context) (h : t.NoSubs) (st : List Context) :
    stepStack f (t :: st) = (stepStack f st).map (fun st1 => t :: st1) := by
  simp only [stepStack, stepContext_of_noSubs f t h]
  cases stepStack f st <;> rfl

theorem stepStackAll_cons_noSubs
    (sub : GenericSchemaValidator → Event → Option GenericSchemaValidator)
    (t : Context) (h : t.NoSubs) (es : List Event) :
    ∀ st, stepStackAll sub es (t :: st) = (stepStackAll sub es st).map (fun st1 => t :: st1) := by
  induction es with
  | nil => intro st; rfl
  | cons e es ih =>
    intro st
    simp only [stepStackAll, stepStack_cons_noSubs _ t h]
    cases stepStack (fun w => sub w e) st with
    | none => rfl
    | some st1 => simpa using ih st1

theorem stepStackAll_append
    (sub : GenericSchemaValidator → Event → Option GenericSchemaValidator)
    (es1 es2 : List Event) :
    ∀ st, stepStackAll sub (es1 ++ es2) st
      = (stepStackAll sub es1 st).bind (stepStackAll sub es2) := by
  induction es1 with
  | nil => intro st; rfl
  | cons e es ih =>
    intro st
    simp only [List.cons_append, stepStackAll]
    cases stepStack (fun w => sub w e) st with
    | none => rfl
    | some st1 => simpa using ih st1

theorem stepArray_isSome
    (f : GenericSchemaValidator → Option GenericSchemaValidator)
    (x a : Option (List GenericSchemaValidator))
    (h : stepArray f x = some a) : a.isSome = x.isSome := by
  cases x with
  | none => simp [stepArray] at h; subst h; rfl
  | some ws =>
    simp only [stepArray, Option.map_eq_some'] at h
    obtain ⟨ws1, _, h2⟩ := h
    subst h2; rfl

theorem stepNot_isSome
    (f : GenericSchemaValidator → Option GenericSchemaValidator)
    (x a : Option GenericSchemaValidator)
    (h : stepNot f x = some a) : a.isSome = x.isSome := by
  cases x with
  | none => simp [stepNot] at h; subst h; rfl
  | some ws =>
    simp only [stepNot, Option.map_eq_some'] at h
    obtain ⟨ws1, _, h2⟩ := h
    subst h2; rfl

theorem stepContext_eq_withSubs
    (f : GenericSchemaValidator → Option GenericSchemaValidator)
    (c c1 : Context) (h : stepContext f c = some c1) :
    ∃ a b o n, c1 = c.withSubs a b o n ∧
      stepArray f c.allOfValidators = some a ∧ stepArray f c.anyOfValidators = some b ∧
      stepArray f c.oneOfValidators = some o ∧ stepNot f c.notValidator = some n := by
  unfold stepContext at h
  split at h
  · rename_i a b o n ha hb ho hn
    injection h with h
    exact ⟨a, b, o, n, h.symm, ha, hb, ho, hn⟩
  · cases h

theorem withSubs_self (c : Context) :
    c.withSubs c.allOfValidators c.anyOfValidators c.oneOfValidators c.notValidator = c := by
  cases c; rfl

theorem localUpdate_subs {g : Context → Context} (hg : LocalUpdate g) (c : Context) :
    (g c).allOfValidators = c.allOfValidators ∧ (g c).anyOfValidators = c.anyOfValidators ∧
    (g c).oneOfValidators = c.oneOfValidators ∧ (g c).notValidator = c.notValidator := by
  have h := hg c c.allOfValidators c.anyOfValidators c.oneOfValidators c.notValidator
  rw [withSubs_self] at h
  refine ⟨?_, ?_, ?_, ?_⟩
  · conv_lhs => rw [h]
    rfl
  · conv_lhs => rw [h]
    rfl
  · conv_lhs => rw [h]
    rfl
  · conv_lhs => rw [h]
    rfl

theorem stepContext_local
    (f : GenericSchemaValidator → Option GenericSchemaValidator)
    {g : Context → Context} (hg : LocalUpdate g) (c : Context) :
    stepContext f (g c) = (stepContext f c).map g := by
  obtain ⟨h1, h2, h3, h4⟩ := localUpdate_subs hg c
  unfold stepContext
  rw [h1, h2, h3, h4]
  cases stepArray f c.allOfValidators <;> cases stepArray f c.anyOfValidators <;>
    cases stepArray f c.oneOfValidators <;> cases stepNot f c.notValidator <;>
    simp
  rename_i a b o n
  exact (hg c a b o n).symm

theorem stepStack_local
    (f : GenericSchemaValidator → Option GenericSchemaValidator)
    {g : Context → Context} (hg : LocalUpdate g) (c : Context)
    (rest : List Context) :
    stepStack f (g c :: rest) = (stepStack f (c :: rest)).map (List.modifyHead g) := by
  simp only [stepStack, stepContext_local f hg]
  cases stepContext f c <;> cases stepStack f rest <;> simp

theorem stepStack_cons_some
    (f : GenericSchemaValidator → Option GenericSchemaValidator)
    (c : Context) (rest st : List Context)
    (h : stepStack f (c :: rest) = some st) :
    ∃ c1 rest1, st = c1 :: rest1 ∧ stepContext f c = some c1 ∧ stepStack f rest = some rest1 := by
  simp only [stepStack] at h
  split at h
  · rename_i c1 rest1 h1 h2
    injection h with h
    exact ⟨c1, rest1, h.symm, h1, h2⟩
  · cases h

theorem stepStackAll_local
    (sub : GenericSchemaValidator → Event → Option GenericSchemaValidator)
    {g : Context → Context} (hg : LocalUpdate g) (es : List Event) :
    ∀ (c : Context) (rest : List Context),
      stepStackAll sub es (g c :: rest)
        = (stepStackAll sub es (c :: rest)).map (List.modifyHead g) := by
  induction es with
  | nil => intro c rest; simp [stepStackAll]
  | cons e es ih =>
    intro c rest
    simp only [stepStackAll, stepStack_local _ hg]
    cases h : stepStack (fun w => sub w e) (c :: rest) with
    | none => rfl
    | some st =>
      obtain ⟨c1, rest1, rfl, -, -⟩ := stepStack_cons_some _ _ _ _ h
      simpa using ih c1 rest1

theorem stepStackAll_cons_some
    (sub : GenericSchemaValidator → Event → Option GenericSchemaValidator)
    (es : List Event) :
    ∀ (c : Context) (rest st : List Context), stepStackAll sub es (c :: rest) = some st →
    ∃ c1 rest1, st = c1 :: rest1 ∧ stepStackAll sub es rest = some rest1 ∧
      ∃ a b o n, c1 = c.withSubs a b o n ∧
        (a.isSome = c.allOfValidators.isSome) ∧ (b.isSome = c.anyOfValidators.isSome) ∧
        (o.isSome = c.oneOfValidators.isSome) ∧ (n.isSome = c.notValidator.isSome) := by
  induction es with
  | nil =>
    intro c rest st h
    simp only [stepStackAll, Option.some.injEq] at h
    subst h
    exact ⟨c, rest, rfl, rfl, _, _, _, _, (withSubs_self c).symm, rfl, rfl, rfl, rfl⟩
  | cons e es ih =>
    intro c rest st h
    simp only [stepStackAll] at h
    split at h
    · cases h
    · rename_i st1 h1
      obtain ⟨c1, rest1, rfl, hc, hr⟩ := stepStack_cons_some _ _ _ _ h1
      obtain ⟨c2, rest2, rfl, hr2, a, b, o, n, rfl, ha, hb, ho, hn⟩ := ih c1 rest1 st h
      obtain ⟨a1, b1, o1, n1, rfl, ha1, hb1, ho1, hn1⟩ := stepContext_eq_withSubs _ _ _ hc
      refine ⟨_, rest2, rfl, ?_, a, b, o, n, rfl, ?_, ?_, ?_, ?_⟩
      · simp [stepStackAll, hr, hr2]
      · rw [ha]; exact stepArray_isSome _ _ _ ha1
      · rw [hb]; exact stepArray_isSome _ _ _ hb1
      · rw [ho]; exact stepArray_isSome _ _ _ ho1
      · rw [hn]; exact stepNot_isSome _ _ _ hn1

theorem localUpdate_bump : LocalUpdate Context.bump := by
  intro c a b o n
  cases c
  simp only [Context.bump, BaseSchema.BeginValue, Context.withSubs]
  split
  · split
    · rfl
    · split <;> [rfl; (split <;> rfl)]
    · rfl
  · rfl

theorem localUpdate_keyed : LocalUpdate Context.keyed := by
  intro c a b o n
  rfl

theorem localUpdate_iterate {g : Context → Context} (hg : LocalUpdate g) (k : Nat) :
    LocalUpdate (g^[k]) := by
  induction k with
  | zero => intro c a b o n; rfl
  | succ k ih =>
    intro c a b o n
    simp only [Function.iterate_succ, Function.comp_apply]
    rw [hg, ih]

theorem created_eq (c : Context) (h : c.Created) : c.schema.CreateLogicValidators c = c := by
  obtain ⟨h1, h2, h3, h4⟩ := h
  cases c with
  | mk schema vs mt a b o n rc ai od ia =>
    simp only [BaseSchema.CreateLogicValidators]
    simp only at h1 h2 h3 h4
    congr
    · cases ha : schema.allOf_ <;> simp_all [CreateSchemaValidators]
      cases a <;> simp_all
    · cases ha : schema.anyOf_ <;> simp_all [CreateSchemaValidators]
      cases b <;> simp_all
    · cases ha : schema.oneOf_ <;> simp_all [CreateSchemaValidators]
      cases o <;> simp_all
    · cases ha : schema.not_ <;> simp_all
      cases n <;> simp_all

theorem typeless_create (c : Context) : typeless.CreateLogicValidators c = c := by
  cases c; rfl

theorem Dbl_lt_ninf (d : Dbl) : Dbl.lt d Dbl.ninf = false := by
  cases d <;> rfl

theorem Dbl_lt_pinf (d : Dbl) : Dbl.lt Dbl.pinf d = false := by
  cases d <;> rfl

@[simp]
theorem logicSchema_enum_ (T : Nat) (A B O : Option (List BaseSchema)) (N : Option BaseSchema) :
    (logicSchema T A B O N).enum_ = Json.null := rfl

@[simp]
theorem logicSchema_allOf_ (T : Nat) (A B O : Option (List BaseSchema)) (N : Option BaseSchema) :
    (logicSchema T A B O N).allOf_ = A := rfl

@[simp]
theorem logicSchema_anyOf_ (T : Nat) (A B O : Option (List BaseSchema)) (N : Option BaseSchema) :
    (logicSchema T A B O N).anyOf_ = B := rfl

@[simp]
theorem logicSchema_oneOf_ (T : Nat) (A B O : Option (List BaseSchema)) (N : Option BaseSchema) :
    (logicSchema T A B O N).oneOf_ = O := rfl

@[simp]
theorem logicSchema_not_ (T : Nat) (A B O : Option (List BaseSchema)) (N : Option BaseSchema) :
    (logicSchema T A B O N).not_ = N := rfl

@[simp]
theorem logicSchema_type_ (T : Nat) (A B O : Option (List BaseSchema)) (N : Option BaseSchema) :
    (logicSchema T A B O N).type_ = T := rfl

@[simp]
theorem logicSchema_properties_ (T : Nat) (A B O : Option (List BaseSchema)) (N : Option BaseSchema) :
    (logicSchema T A B O N).properties_ = [] := rfl

@[simp]
theorem logicSchema_additionalPropertySchema_ (T : Nat) (A B O : Option (List BaseSchema)) (N : Option BaseSchema) :
    (logicSchema T A B O N).additionalPropertySchema_ = none := rfl

@[simp]
theorem logicSchema_patternProperties_ (T : Nat) (A B O : Option (List BaseSchema)) (N : Option BaseSchema) :
    (logicSchema T A B O N).patternProperties_ = none := rfl

@[simp]
theorem logicSchema_requiredCount_ (T : Nat) (A B O : Option (List BaseSchema)) (N : Option BaseSchema) :
    (logicSchema T A B O N).requiredCount_ = 0 := rfl

@[simp]
theorem logicSchema_minProperties_ (T : Nat) (A B O : Option (List BaseSchema)) (N : Option BaseSchema) :
    (logicSchema T A B O N).minProperties_ = 0 := rfl

@[simp]
theorem logicSchema_maxProperties_ (T : Nat) (A B O : Option (List BaseSchema)) (N : Option BaseSchema) :
    (logicSchema T A B O N).maxProperties_ = SizeTypeMax := rfl

@[simp]
theorem logicSchema_additionalProperty_ (T : Nat) (A B O : Option (List BaseSchema)) (N : Option BaseSchema) :
    (logicSchema T A B O N).additionalProperty_ = true := rfl

@[simp]
theorem logicSchema_hasDependencies_ (T : Nat) (A B O : Option (List BaseSchema)) (N : Option BaseSchema) :
    (logicSchema T A B O N).hasDependencies_ = false := rfl

@[simp]
theorem logicSchema_itemsList_ (T : Nat) (A B O : Option (List BaseSchema)) (N : Option BaseSchema) :
    (logicSchema T A B O N).itemsList_ = none := rfl

@[simp]
theorem logicSchema_itemsTuple_ (T : Nat) (A B O : Option (List BaseSchema)) (N : Option BaseSchema) :
    (logicSchema T A B O N).itemsTuple_ = none := rfl

@[simp]
theorem logicSchema_minItems_ (T : Nat) (A B O : Option (List BaseSchema)) (N : Option BaseSchema) :
    (logicSchema T A B O N).minItems_ = 0 := rfl

@[simp]
theorem logicSchema_maxItems_ (T : Nat) (A B O : Option (List BaseSchema)) (N : Option BaseSchema) :
    (logicSchema T A B O N).maxItems_ = SizeTypeMax := rfl

@[simp]
theorem logicSchema_additionalItems_ (T : Nat) (A B O : Option (List BaseSchema)) (N : Option BaseSchema) :
    (logicSchema T A B O N).additionalItems_ = true := rfl

@[simp]
theorem logicSchema_pattern_ (T : Nat) (A B O : Option (List BaseSchema)) (N : Option BaseSchema) :
    (logicSchema T A B O N).pattern_ = none := rfl

@[simp]
theorem logicSchema_minLength_ (T : Nat) (A B O : Option (List BaseSchema)) (N : Option BaseSchema) :
    (logicSchema T A B O N).minLength_ = 0 := rfl

@[simp]
theorem logicSchema_maxLength_ (T : Nat) (A B O : Option (List BaseSchema)) (N : Option BaseSchema) :
    (logicSchema T A B O N).maxLength_ = SizeTypeMax := rfl

@[simp]
theorem logicSchema_hasMultipleOf_ (T : Nat) (A B O : Option (List BaseSchema)) (N : Option BaseSchema) :
    (logicSchema T A B O N).hasMultipleOf_ = false := rfl

@[simp]
theorem logicSchema_propertyCount_ (T : Nat) (A B O : Option (List BaseSchema))
    (N : Option BaseSchema) : (logicSchema T A B O N).propertyCount_ = 0 := rfl

theorem logic_checkDouble (T : Nat) (A B O : Option (List BaseSchema)) (N : Option BaseSchema)
    (d : Dbl) : (logicSchema T A B O N).CheckDouble d = true := by
  simp [BaseSchema.CheckDouble, logicSchema, typeless, Dbl.gt, Dbl_lt_ninf, Dbl_lt_pinf]

theorem logic_method_scalar (T : Nat) (A B O : Option (List BaseSchema)) (N : Option BaseSchema)
    (c : Context) (e : Event) (he : e.isScalar = true) (hf : e.fits = true) :
    (logicSchema T A B O N).method c e
      = some ((logicSchema T A B O N).CreateLogicValidators c, (logicSchema T A B O N).admits e) := by
  cases e <;> simp [Event.isScalar] at he <;>
    simp [BaseSchema.method, BaseSchema.Null, BaseSchema.Bool_, BaseSchema.Int_, BaseSchema.Uint,
      BaseSchema.Int64, BaseSchema.Uint64, BaseSchema.Integer, BaseSchema.Double,
      BaseSchema.String_, logic_checkDouble, BaseSchema.admits, BaseSchema.hasType, Json.IsArray]
  all_goals (split <;> simp_all [Event.fits, Nat.not_lt.mpr])

theorem typeless_eq : typeless = logicSchema 127 none none none none := rfl

theorem bump_of_free (c : Context) (h : c.Free) :
    c.schema.BeginValue c = (c.bump, true) ∧ c.bump.valueSchema = some typeless ∧
      c.bump.multiTypeSchema = c.multiTypeSchema ∧ c.bump.schema = c.schema ∧
      c.bump.inArray = c.inArray ∧ c.bump.objectRequiredCount = c.objectRequiredCount := by
  obtain ⟨h1, h2⟩ := h
  cases hc : c.inArray with
  | true =>
    obtain ⟨h3, h4⟩ := h1 hc
    simp [Context.bump, BaseSchema.BeginValue, hc, h3, h4]
  | false =>
    have h3 := h2 hc
    simp [Context.bump, BaseSchema.BeginValue, hc, h3]

theorem free_bump (c : Context) (h : c.Free) : c.bump.Free := by
  obtain ⟨h0, h1, h2, h3, h4, h5⟩ := bump_of_free c h
  constructor
  · intro hi
    rw [h3]
    exact h.1 (h4 ▸ hi)
  · intro _
    exact h1

theorem beginValue_free (root : BaseSchema) (out : OutputHandler) (c : Context)
    (rest : List Context) (h : c.Free) :
    BeginValue ⟨root, out, c :: rest, true⟩
      = (⟨root, out, Context.make typeless :: c.bump :: rest, true⟩, true) := by
  obtain ⟨h0, h1, -⟩ := bump_of_free c h
  simp [BeginValue, h0, h1, PushSchema]

theorem typeless_endValue (t : Context) : typeless.EndValue t = some true := by
  rfl

theorem call_eq (out : OutputHandler) (hout : ∀ h e, out.answer h e = true) (e : Event) :
    out.call e = (out.receive [e], true) := by
  simp [OutputHandler.call, OutputHandler.receive, hout]

theorem receive_answer (out : OutputHandler) (hout : ∀ h e, out.answer h e = true)
    (es : List Event) : ∀ h e, (out.receive es).answer h e = true := hout

theorem receive_receive (out : OutputHandler) (es1 es2 : List Event) :
    (out.receive es1).receive es2 = out.receive (es1 ++ es2) := by
  simp [OutputHandler.receive]

@[simp]
theorem make_schema (s : BaseSchema) : (Context.make s).schema = s := rfl

theorem endValue_typeless_top (root : BaseSchema) (out : OutputHandler) (t p : Context)
    (rest : List Context) (ht : t.schema = typeless) (hp : p.multiTypeSchema = none) :
    EndValue ⟨root, out, t :: p :: rest, true⟩ = some (⟨root, out, p :: rest, true⟩, true) := by
  simp [EndValue, ht, typeless_endValue, hp]

theorem handle_end_typeless_top (root : BaseSchema) (out : OutputHandler) (t p : Context)
    (rest : List Context) (e : Event) (hout : ∀ h e, out.answer h e = true)
    (ht : t.schema = typeless) (hp : p.multiTypeSchema = none) :
    HANDLE_END_ ⟨root, out, t :: p :: rest, true⟩ e
      = some (⟨root, out.receive [e], p :: rest, true⟩, true) := by
  simp [HANDLE_END_, endValue_typeless_top _ _ _ _ _ ht hp, HANDLE_OUTPUT_, call_eq _ hout]

theorem handle_scalar_free
    (sub : GenericSchemaValidator → Event → Option GenericSchemaValidator)
    (root : BaseSchema) (out : OutputHandler) (c : Context)
    (rest st : List Context) (e : Event) (hout : ∀ h e, out.answer h e = true)
    (hc : c.Free) (hm : c.multiTypeSchema = none) (he : e.isScalar = true) (hf : e.fits = true)
    (hs : stepStack (fun w => sub w e) (c.bump :: rest) = some st) :
    handleWith sub ⟨root, out, c :: rest, true⟩ e
      = some (⟨root, out.receive [e], st, true⟩, true) := by
  have hmeth := logic_method_scalar 127 none none none none (Context.make typeless) e he hf
  rw [← typeless_eq, typeless_create] at hmeth
  have hadm : typeless.admits e = true := by cases e <;> rfl
  rw [hadm] at hmeth
  obtain ⟨c1, rest1, rfl, hc1, hr1⟩ := stepStack_cons_some _ _ _ _ hs
  obtain ⟨a, b, o, n, rfl, -⟩ := stepContext_eq_withSubs _ _ _ hc1
  have hm1 : (c.bump.withSubs a b o n).multiTypeSchema = none := by
    have := (bump_of_free c hc).2.2.1
    simp [Context.withSubs, this, hm]
  have hL : stepStack (fun w => sub w e) (Context.make typeless :: c.bump :: rest)
      = some (Context.make typeless :: c.bump.withSubs a b o n :: rest1) := by
    rw [stepStack_cons_noSubs _ _ ⟨rfl, rfl, rfl, rfl⟩, hs]; rfl
  have key : HANDLE_VALUE_ sub ⟨root, out, c :: rest, true⟩ e
      = some (⟨root, out.receive [e], c.bump.withSubs a b o n :: rest1, true⟩, true) := by
    simp only [HANDLE_VALUE_, HANDLE_BEGIN_, beginValue_free _ _ _ _ hc, Bool.not_true,
      Bool.false_eq_true, if_false, make_schema, hmeth, HANDLE_LOGIC_, hL, Option.map_some']
    exact handle_end_typeless_top _ _ _ _ _ _ hout rfl hm1
  cases e <;> first | exact key | simp [Event.isScalar] at he

theorem logic_method_startObject (T : Nat) (A B O : Option (List BaseSchema))
    (N : Option BaseSchema) (c : Context)
    (h : (logicSchema T A B O N).hasType kObjectSchemaType = true) :
    (logicSchema T A B O N).method c .StartObject
      = some ({ (logicSchema T A B O N).CreateLogicValidators c with objectRequiredCount := 0 },
          true) := by
  simp only [BaseSchema.hasType, bne_iff_ne, ne_eq, logicSchema_type_] at h
  simp [BaseSchema.method, BaseSchema.StartObject, h]

theorem logic_method_startArray (T : Nat) (A B O : Option (List BaseSchema))
    (N : Option BaseSchema) (c : Context)
    (h : (logicSchema T A B O N).hasType kArraySchemaType = true) :
    (logicSchema T A B O N).method c .StartArray
      = some ({ (logicSchema T A B O N).CreateLogicValidators c with
                  arrayElementIndex := 0, inArray := true }, true) := by
  simp only [BaseSchema.hasType, bne_iff_ne, ne_eq, logicSchema_type_] at h
  simp [BaseSchema.method, BaseSchema.StartArray, h]

theorem logic_method_key (T : Nat) (A B O : Option (List BaseSchema))
    (N : Option BaseSchema) (c : Context) (str : String) (copy : Bool)
    (h : (logicSchema T A B O N).hasType kObjectSchemaType = true) :
    (logicSchema T A B O N).method c (.Key str copy)
      = some (((logicSchema T A B O N).CreateLogicValidators c).keyed, true) := by
  simp only [BaseSchema.hasType, bne_iff_ne, ne_eq, logicSchema_type_] at h
  simp [BaseSchema.method, BaseSchema.Key, h, BaseSchema.FindPropertyIndex,
    FindPropertyIndexStrFrom, BaseSchema.KeyOther, Context.keyed]

theorem logic_method_endObject (T : Nat) (A B O : Option (List BaseSchema))
    (N : Option BaseSchema) (c : Context) (n : Nat)
    (h : (logicSchema T A B O N).hasType kObjectSchemaType = true)
    (hr : ((logicSchema T A B O N).CreateLogicValidators c).objectRequiredCount = 0)
    (hn : n ≤ SizeTypeMax) :
    (logicSchema T A B O N).method c (.EndObject n)
      = some ((logicSchema T A B O N).CreateLogicValidators c, true) := by
  simp only [BaseSchema.hasType, bne_iff_ne, ne_eq, logicSchema_type_] at h
  simp [BaseSchema.method, BaseSchema.EndObject, h, hr, Nat.not_lt.mpr hn]

theorem logic_method_endArray (T : Nat) (A B O : Option (List BaseSchema))
    (N : Option BaseSchema) (c : Context) (n : Nat)
    (h : (logicSchema T A B O N).hasType kArraySchemaType = true)
    (hn : n ≤ SizeTypeMax) :
    (logicSchema T A B O N).method c (.EndArray n)
      = some ({ (logicSchema T A B O N).CreateLogicValidators c with inArray := false },
          true) := by
  simp only [BaseSchema.hasType, bne_iff_ne, ne_eq, logicSchema_type_] at h
  simp [BaseSchema.method, BaseSchema.EndArray, h, hn]

theorem typeless_hasType (t : Nat) (h : t < 7) : typeless.hasType t = true := by
  interval_cases t <;> rfl

theorem handle_startObject_free
    (sub : GenericSchemaValidator → Event → Option GenericSchemaValidator)
    (root : BaseSchema) (out : OutputHandler) (c : Context)
    (rest st : List Context) (hout : ∀ h e, out.answer h e = true) (hc : c.Free)
    (hs : stepStack (fun w => sub w .StartObject) (c.bump :: rest) = some st) :
    handleWith sub ⟨root, out, c :: rest, true⟩ .StartObject
      = some (⟨root, out.receive [.StartObject], Context.make typeless :: st, true⟩, true) := by
  have hmeth : typeless.method (Context.make typeless) .StartObject
      = some (Context.make typeless, true) := rfl
  have hL : stepStack (fun w => sub w .StartObject) (Context.make typeless :: c.bump :: rest)
      = some (Context.make typeless :: st) := by
    rw [stepStack_cons_noSubs _ _ ⟨rfl, rfl, rfl, rfl⟩, hs]; rfl
  simp only [handleWith, HANDLE_START_, HANDLE_BEGIN_, beginValue_free _ _ _ _ hc, Bool.not_true,
    Bool.false_eq_true, if_false, make_schema, hmeth, HANDLE_LOGIC_, Option.map_some',
    HANDLE_OUTPUT_, call_eq _ hout, hL]

theorem handle_startArray_free
    (sub : GenericSchemaValidator → Event → Option GenericSchemaValidator)
    (root : BaseSchema) (out : OutputHandler) (c : Context)
    (rest st : List Context) (hout : ∀ h e, out.answer h e = true) (hc : c.Free)
    (hs : stepStack (fun w => sub w .StartArray) (c.bump :: rest) = some st) :
    handleWith sub ⟨root, out, c :: rest, true⟩ .StartArray
      = some (⟨root, out.receive [.StartArray], arrayContext :: st, true⟩, true) := by
  have hmeth : typeless.method (Context.make typeless) .StartArray
      = some (arrayContext, true) := rfl
  have hL : stepStack (fun w => sub w .StartArray) (arrayContext :: c.bump :: rest)
      = some (arrayContext :: st) := by
    rw [stepStack_cons_noSubs _ _ ⟨rfl, rfl, rfl, rfl⟩, hs]; rfl
  simp only [handleWith, HANDLE_START_, HANDLE_BEGIN_, beginValue_free _ _ _ _ hc, Bool.not_true,
    Bool.false_eq_true, if_false, make_schema, hmeth, HANDLE_LOGIC_, Option.map_some',
    HANDLE_OUTPUT_, call_eq _ hout, hL]

theorem handle_key_logic
    (sub : GenericSchemaValidator → Event → Option GenericSchemaValidator)
    (root : BaseSchema) (out : OutputHandler) (c : Context)
    (rest st : List Context) (str : String) (copy : Bool)
    (T : Nat) (A B O : Option (List BaseSchema)) (N : Option BaseSchema)
    (hout : ∀ h e, out.answer h e = true)
    (hsch : c.schema = logicSchema T A B O N)
    (hT : (logicSchema T A B O N).hasType kObjectSchemaType = true) (hcr : c.Created)
    (hs : stepStack (fun w => sub w (.Key str copy)) (c.keyed :: rest) = some st) :
    handleWith sub ⟨root, out, c :: rest, true⟩ (.Key str copy)
      = some (⟨root, out.receive [.Key str copy], st, true⟩, true) := by
  have hmeth := logic_method_key T A B O N c str copy hT
  rw [← hsch, created_eq c hcr] at hmeth
  simp only [handleWith, Key, HANDLE_CURRENT_, Bool.not_true, Bool.false_eq_true, if_false,
    hmeth, HANDLE_LOGIC_, hs, Option.map_some', HANDLE_OUTPUT_, call_eq _ hout]

theorem handle_endObject_typeless
    (sub : GenericSchemaValidator → Event → Option GenericSchemaValidator)
    (root : BaseSchema) (out : OutputHandler) (t p : Context)
    (rest st : List Context) (n : Nat) (hout : ∀ h e, out.answer h e = true)
    (ht : t.schema = typeless) (hns : t.NoSubs) (hr : t.objectRequiredCount = 0)
    (hn : n ≤ SizeTypeMax) (hp : p.multiTypeSchema = none)
    (hs : stepStack (fun w => sub w (.EndObject n)) (p :: rest) = some st) :
    handleWith sub ⟨root, out, t :: p :: rest, true⟩ (.EndObject n)
      = some (⟨root, out.receive [.EndObject n], st, true⟩, true) := by
  have hmeth := logic_method_endObject 127 none none none none t n
    (typeless_hasType _ (by decide)) (by rw [← typeless_eq, typeless_create]; exact hr) hn
  rw [← typeless_eq, typeless_create, ← ht] at hmeth
  obtain ⟨c1, rest1, rfl, hc1, hr1⟩ := stepStack_cons_some _ _ _ _ hs
  obtain ⟨a, b, o, k, rfl, -⟩ := stepContext_eq_withSubs _ _ _ hc1
  have hL : stepStack (fun w => sub w (.EndObject n)) (t :: p :: rest)
      = some (t :: p.withSubs a b o k :: rest1) := by
    rw [stepStack_cons_noSubs _ _ hns, hs]; rfl
  simp only [handleWith, HANDLE_CLOSE_, HANDLE_CURRENT_, Bool.not_true, Bool.false_eq_true,
    if_false, hmeth, HANDLE_LOGIC_, hL, Option.map_some']
  exact handle_end_typeless_top _ _ _ _ _ _ hout ht (by simpa [Context.withSubs] using hp)

theorem handle_endArray_typeless
    (sub : GenericSchemaValidator → Event → Option GenericSchemaValidator)
    (root : BaseSchema) (out : OutputHandler) (t p : Context)
    (rest st : List Context) (n : Nat) (hout : ∀ h e, out.answer h e = true)
    (ht : t.schema = typeless) (hns : t.NoSubs)
    (hn : n ≤ SizeTypeMax) (hp : p.multiTypeSchema = none)
    (hs : stepStack (fun w => sub w (.EndArray n)) (p :: rest) = some st) :
    handleWith sub ⟨root, out, t :: p :: rest, true⟩ (.EndArray n)
      = some (⟨root, out.receive [.EndArray n], st, true⟩, true) := by
  have hmeth := logic_method_endArray 127 none none none none t n
    (typeless_hasType _ (by decide)) hn
  rw [← typeless_eq, typeless_create, ← ht] at hmeth
  obtain ⟨c1, rest1, rfl, hc1, hr1⟩ := stepStack_cons_some _ _ _ _ hs
  obtain ⟨a, b, o, k, rfl, -⟩ := stepContext_eq_withSubs _ _ _ hc1
  have hns2 : Context.NoSubs { t with inArray := false } := hns
  have hL : stepStack (fun w => sub w (.EndArray n)) ({ t with inArray := false } :: p :: rest)
      = some ({ t with inArray := false } :: p.withSubs a b o k :: rest1) := by
    rw [stepStack_cons_noSubs _ _ hns2, hs]; rfl
  simp only [handleWith, HANDLE_CLOSE_, HANDLE_CURRENT_, Bool.not_true, Bool.false_eq_true,
    if_false, hmeth, HANDLE_LOGIC_, hL, Option.map_some']
  exact handle_end_typeless_top _ _ _ _ _ _ hout ht (by simpa [Context.withSubs] using hp)

theorem feedWith_cons_some
    (sub : GenericSchemaValidator → Event → Option GenericSchemaValidator)
    (v v1 v2 : GenericSchemaValidator) (e : Event) (es : List Event)
    (r : Bool) (rs : List Bool) (h1 : handleWith sub v e = some (v1, r))
    (h2 : feedWith sub v1 es = some (v2, rs)) :
    feedWith sub v (e :: es) = some (v2, r :: rs) := by
  simp [feedWith, h1, h2]

theorem feedWith_append_some
    (sub : GenericSchemaValidator → Event → Option GenericSchemaValidator)
    (es1 es2 : List Event) :
    ∀ (v v1 v2 : GenericSchemaValidator) (rs1 rs2 : List Bool),
      feedWith sub v es1 = some (v1, rs1) → feedWith sub v1 es2 = some (v2, rs2) →
      feedWith sub v (es1 ++ es2) = some (v2, rs1 ++ rs2) := by
  induction es1 with
  | nil =>
    intro v v1 v2 rs1 rs2 h1 h2
    simp only [feedWith, Option.some.injEq, Prod.mk.injEq] at h1
    obtain ⟨rfl, rfl⟩ := h1
    simpa using h2
  | cons e es ih =>
    intro v v1 v2 rs1 rs2 h1 h2
    simp only [feedWith] at h1
    split at h1
    · cases h1
    · rename_i w r hw
      split at h1
      · cases h1
      · rename_i w2 rs hw2
        simp only [Option.some.injEq, Prod.mk.injEq] at h1
        obtain ⟨rfl, rfl⟩ := h1
        have := ih w w2 v2 rs rs2 hw2 h2
        simp [feedWith, hw, this]

theorem stepStackAll_cons_inv
    (sub : GenericSchemaValidator → Event → Option GenericSchemaValidator)
    (e : Event) (es : List Event) (stack st : List Context)
    (h : stepStackAll sub (e :: es) stack = some st) :
    ∃ st1, stepStack (fun w => sub w e) stack = some st1 ∧ stepStackAll sub es st1 = some st := by
  simp only [stepStackAll] at h
  split at h
  · cases h
  · rename_i st1 h1
    exact ⟨st1, h1, h⟩

theorem stepStackAll_append_inv
    (sub : GenericSchemaValidator → Event → Option GenericSchemaValidator)
    (es1 es2 : List Event) (stack st : List Context)
    (h : stepStackAll sub (es1 ++ es2) stack = some st) :
    ∃ st1, stepStackAll sub es1 stack = some st1 ∧ stepStackAll sub es2 st1 = some st := by
  rw [stepStackAll_append] at h
  cases h1 : stepStackAll sub es1 stack with
  | none => simp [h1] at h
  | some st1 => exact ⟨st1, rfl, by simpa [h1] using h⟩

theorem stepStackAll_singleton
    (sub : GenericSchemaValidator → Event → Option GenericSchemaValidator)
    (e : Event) (stack : List Context) :
    stepStackAll sub [e] stack = stepStack (fun w => sub w e) stack := by
  simp only [stepStackAll]
  cases stepStack (fun w => sub w e) stack <;> rfl

theorem bump_of_not_inArray (c : Context) (h : c.inArray = false) : c.bump = c := by
  simp [Context.bump, BaseSchema.BeginValue, h]

theorem keyed_of_valueSchema (c : Context) (h : c.valueSchema = some typeless) : c.keyed = c := by
  cases c
  simp only at h
  simp [Context.keyed, h]

theorem created_withSubs (c : Context) (a b o : Option (List GenericSchemaValidator))
    (n : Option GenericSchemaValidator) (hc : c.Created)
    (ha : a.isSome = c.allOfValidators.isSome) (hb : b.isSome = c.anyOfValidators.isSome)
    (ho : o.isSome = c.oneOfValidators.isSome) (hn : n.isSome = c.notValidator.isSome) :
    (c.withSubs a b o n).Created := by
  obtain ⟨h1, h2, h3, h4⟩ := hc
  refine ⟨?_, ?_, ?_, ?_⟩
  · intro h; show a.isSome = true; rw [ha]; exact h1 h
  · intro h; show b.isSome = true; rw [hb]; exact h2 h
  · intro h; show o.isSome = true; rw [ho]; exact h3 h
  · intro h; show n.isSome = true; rw [hn]; exact h4 h

theorem replicate_wrap (n : Nat) :
    true :: (List.replicate n true ++ [true]) = List.replicate (n + 1 + 1) true := by
  rw [← List.replicate_succ', ← List.replicate_succ]

mutual
theorem value_free
    (sub : GenericSchemaValidator → Event → Option GenericSchemaValidator) : ∀ (d : Doc), d.fits = true →
    ∀ (root : BaseSchema) (out : OutputHandler) (c : Context) (rest st : List Context),
    (∀ h e, out.answer h e = true) → c.Free → c.multiTypeSchema = none →
    stepStackAll sub d.events (c.bump :: rest) = some st →
    feedWith sub ⟨root, out, c :: rest, true⟩ d.events
      = some (⟨root, out.receive d.events, st, true⟩, List.replicate d.events.length true)
  | .Object ms, hd, root, out, c, rest, st, hout, hc, hm, hs => by
    simp only [Doc.fits, Bool.and_eq_true, decide_eq_true_eq] at hd
    simp only [Doc.events] at hs ⊢
    obtain ⟨st1, hs1, hs⟩ := stepStackAll_cons_inv _ _ _ _ _ hs
    obtain ⟨st2, hs2, hs3⟩ := stepStackAll_append_inv _ _ _ _ _ hs
    rw [stepStackAll_singleton] at hs3
    obtain ⟨c1, rest1, rfl, hr1, a1, b1, o1, n1, rfl, -⟩ :=
      stepStackAll_cons_some sub [.StartObject] _ _ _ (by rw [stepStackAll_singleton]; exact hs1)
    obtain ⟨c2, rest2, rfl, hr2, a2, b2, o2, n2, rfl, -⟩ := stepStackAll_cons_some sub _ _ _ _ hs2
    have hm2 : ((c.bump.withSubs a1 b1 o1 n1).withSubs a2 b2 o2 n2).multiTypeSchema = none := by
      have := (bump_of_free c hc).2.2.1
      simp [Context.withSubs, this, hm]
    have h1 := handle_startObject_free sub root out c rest _ hout hc hs1
    have hmem : stepStackAll sub (Doc.memberEvents ms)
        ((if ms.isEmpty then Context.make typeless else (Context.make typeless).keyed)
          :: c.bump.withSubs a1 b1 o1 n1 :: rest1)
        = some ((if ms.isEmpty then Context.make typeless else (Context.make typeless).keyed)
          :: (c.bump.withSubs a1 b1 o1 n1).withSubs a2 b2 o2 n2 :: rest2) := by
      rw [stepStackAll_cons_noSubs sub _ (by split <;> exact ⟨rfl, rfl, rfl, rfl⟩), hs2]
      rfl
    have h2 := members_free sub ms hd.2 root (out.receive [.StartObject]) (Context.make typeless)
      _ _ 127 none none none none (receive_answer _ hout _) typeless_eq
      (typeless_hasType _ (by decide)) ⟨by simp [typeless], by simp [typeless], by simp [typeless],
        by simp [typeless]⟩ rfl rfl hmem
    have h3 := handle_endObject_typeless sub root
      ((out.receive [.StartObject]).receive (Doc.memberEvents ms))
      (if ms.isEmpty then Context.make typeless else (Context.make typeless).keyed)
      _ _ st ms.length (receive_answer _ (receive_answer _ hout _) _)
      (by split <;> rfl) (by split <;> exact ⟨rfl, rfl, rfl, rfl⟩) (by split <;> rfl) hd.1 hm2 hs3
    have h4 := feedWith_append_some sub _ _ _ _ _ _ _ h2
      (feedWith_cons_some sub _ _ _ _ [] _ [] h3 rfl)
    have h5 := feedWith_cons_some sub _ _ _ _ _ _ _ h1 h4
    rw [h5]
    simp [receive_receive, replicate_wrap]
  | .Array ds, hd, root, out, c, rest, st, hout, hc, hm, hs => by
    simp only [Doc.fits, Bool.and_eq_true, decide_eq_true_eq] at hd
    simp only [Doc.events] at hs ⊢
    obtain ⟨st1, hs1, hs⟩ := stepStackAll_cons_inv _ _ _ _ _ hs
    obtain ⟨st2, hs2, hs3⟩ := stepStackAll_append_inv _ _ _ _ _ hs
    rw [stepStackAll_singleton] at hs3
    obtain ⟨c1, rest1, rfl, hr1, a1, b1, o1, n1, rfl, -⟩ :=
      stepStackAll_cons_some sub [.StartArray] _ _ _ (by rw [stepStackAll_singleton]; exact hs1)
    obtain ⟨c2, rest2, rfl, hr2, a2, b2, o2, n2, rfl, -⟩ := stepStackAll_cons_some sub _ _ _ _ hs2
    have hm2 : ((c.bump.withSubs a1 b1 o1 n1).withSubs a2 b2 o2 n2).multiTypeSchema = none := by
      have := (bump_of_free c hc).2.2.1
      simp [Context.withSubs, this, hm]
    have h1 := handle_startArray_free sub root out c rest _ hout hc hs1
    have hns : ∀ k, Context.NoSubs (Context.bump^[k] arrayContext) := by
      intro k
      obtain ⟨q1, q2, q3, q4⟩ := localUpdate_subs (localUpdate_iterate localUpdate_bump k)
        arrayContext
      exact ⟨q1, q2, q3, q4⟩
    have hel : stepStackAll sub (Doc.elementEvents ds)
        (Context.bump^[ds.length] arrayContext :: c.bump.withSubs a1 b1 o1 n1 :: rest1)
        = some (Context.bump^[ds.length] arrayContext
          :: (c.bump.withSubs a1 b1 o1 n1).withSubs a2 b2 o2 n2 :: rest2) := by
      rw [stepStackAll_cons_noSubs sub _ (hns _), hs2]
      rfl
    have h2 := elements_free sub ds hd.2 root (out.receive [.StartArray]) arrayContext
      _ _ (receive_answer _ hout _) rfl rfl rfl rfl hel
    have hsch : ∀ k, (Context.bump^[k] arrayContext).schema = typeless := by
      intro k
      induction k with
      | zero => rfl
      | succ k ih =>
        rw [Function.iterate_succ_apply']
        simp only [Context.bump, BaseSchema.BeginValue]
        split
        · split
          · exact ih
          · split <;> [exact ih; (split <;> exact ih)]
          · exact ih
        · exact ih
    have h3 := handle_endArray_typeless sub root
      ((out.receive [.StartArray]).receive (Doc.elementEvents ds))
      (Context.bump^[ds.length] arrayContext)
      _ _ st ds.length (receive_answer _ (receive_answer _ hout _) _)
      (hsch _) (hns _) hd.1 hm2 hs3
    have h4 := feedWith_append_some sub _ _ _ _ _ _ _ h2
      (feedWith_cons_some sub _ _ _ _ [] _ [] h3 rfl)
    have h5 := feedWith_cons_some sub _ _ _ _ _ _ _ h1 h4
    rw [h5]
    simp [receive_receive, replicate_wrap]
  | .Null, hd, root, out, c, rest, st, hout, hc, hm, hs => by
    rw [Doc.events, stepStackAll_singleton] at hs
    exact feedWith_cons_some sub _ _ _ _ [] _ []
      (handle_scalar_free sub root out c rest st _ hout hc hm rfl rfl hs) rfl
  | .Bool_ b, hd, root, out, c, rest, st, hout, hc, hm, hs => by
    rw [Doc.events, stepStackAll_singleton] at hs
    exact feedWith_cons_some sub _ _ _ _ [] _ []
      (handle_scalar_free sub root out c rest st _ hout hc hm rfl rfl hs) rfl
  | .Int_ i, hd, root, out, c, rest, st, hout, hc, hm, hs => by
    rw [Doc.events, stepStackAll_singleton] at hs
    exact feedWith_cons_some sub _ _ _ _ [] _ []
      (handle_scalar_free sub root out c rest st _ hout hc hm rfl rfl hs) rfl
  | .Uint u, hd, root, out, c, rest, st, hout, hc, hm, hs => by
    rw [Doc.events, stepStackAll_singleton] at hs
    exact feedWith_cons_some sub _ _ _ _ [] _ []
      (handle_scalar_free sub root out c rest st _ hout hc hm rfl rfl hs) rfl
  | .Int64 i, hd, root, out, c, rest, st, hout, hc, hm, hs => by
    rw [Doc.events, stepStackAll_singleton] at hs
    exact feedWith_cons_some sub _ _ _ _ [] _ []
      (handle_scalar_free sub root out c rest st _ hout hc hm rfl rfl hs) rfl
  | .Uint64 u, hd, root, out, c, rest, st, hout, hc, hm, hs => by
    rw [Doc.events, stepStackAll_singleton] at hs
    exact feedWith_cons_some sub _ _ _ _ [] _ []
      (handle_scalar_free sub root out c rest st _ hout hc hm rfl rfl hs) rfl
  | .Double x, hd, root, out, c, rest, st, hout, hc, hm, hs => by
    rw [Doc.events, stepStackAll_singleton] at hs
    exact feedWith_cons_some sub _ _ _ _ [] _ []
      (handle_scalar_free sub root out c rest st _ hout hc hm rfl rfl hs) rfl
  | .String_ str cp, hd, root, out, c, rest, st, hout, hc, hm, hs => by
    rw [Doc.events, stepStackAll_singleton] at hs
    exact feedWith_cons_some sub _ _ _ _ [] _ []
      (handle_scalar_free sub root out c rest st _ hout hc hm rfl
        (by simpa [Doc.fits, Event.fits] using hd) hs) rfl
theorem members_free
    (sub : GenericSchemaValidator → Event → Option GenericSchemaValidator) : ∀ (ms : List ((String × Bool) × Doc)), Doc.membersFit ms = true →
    ∀ (root : BaseSchema) (out : OutputHandler) (c : Context) (rest st : List Context)
      (T : Nat) (A B O : Option (List BaseSchema)) (N : Option BaseSchema),
    (∀ h e, out.answer h e = true) → c.schema = logicSchema T A B O N →
    (logicSchema T A B O N).hasType kObjectSchemaType = true → c.Created →
    c.inArray = false → c.multiTypeSchema = none →
    stepStackAll sub (Doc.memberEvents ms) ((if ms.isEmpty then c else c.keyed) :: rest) = some st →
    feedWith sub ⟨root, out, c :: rest, true⟩ (Doc.memberEvents ms)
      = some (⟨root, out.receive (Doc.memberEvents ms), st, true⟩,
          List.replicate (Doc.memberEvents ms).length true)
  | [], _, root, out, c, rest, st, _, _, _, _, _, _, _, _, _, _, _, hs => by
    simp only [Doc.memberEvents, stepStackAll, List.isEmpty_nil, if_true, Option.some.injEq]
      at hs
    subst hs
    simp [Doc.memberEvents, feedWith, OutputHandler.receive]
  | (k, d) :: ms, hd, root, out, c, rest, st, T, A, B, O, N, hout, hsch, hT, hcr, hia, hm, hs => by
    simp only [Doc.membersFit, Bool.and_eq_true, decide_eq_true_eq] at hd
    simp only [Doc.memberEvents, List.isEmpty_cons, Bool.false_eq_true, if_false] at hs ⊢
    obtain ⟨st1, hs1, hs⟩ := stepStackAll_cons_inv _ _ _ _ _ hs
    obtain ⟨st2, hs2, hs3⟩ := stepStackAll_append_inv _ _ _ _ _ hs
    obtain ⟨c1, rest1, rfl, hr1, a1, b1, o1, n1, rfl, ha1, hb1, ho1, hn1⟩ :=
      stepStackAll_cons_some sub [.Key k.1 k.2] _ _ _ (by rw [stepStackAll_singleton]; exact hs1)
    have hia1 : (c.keyed.withSubs a1 b1 o1 n1).inArray = false := hia
    have hs2b : stepStackAll sub d.events ((c.keyed.withSubs a1 b1 o1 n1).bump :: rest1)
        = some st2 := by
      rw [bump_of_not_inArray _ hia1]; exact hs2
    obtain ⟨c2, rest2, rfl, hr2, a2, b2, o2, n2, rfl, ha2, hb2, ho2, hn2⟩ :=
      stepStackAll_cons_some sub _ _ _ _ hs2
    have h1 := handle_key_logic sub root out c rest _ k.1 k.2 T A B O N hout hsch hT hcr hs1
    have h2 := value_free sub d hd.1.2 root (out.receive [.Key k.1 k.2])
      (c.keyed.withSubs a1 b1 o1 n1) rest1 _
      (receive_answer _ hout _) ⟨fun h => (by rw [hia1] at h; cases h), fun _ => rfl⟩
      (show (c.keyed.withSubs a1 b1 o1 n1).multiTypeSchema = none from hm) hs2b
    have hkeyed : ((c.keyed.withSubs a1 b1 o1 n1).withSubs a2 b2 o2 n2).keyed
        = (c.keyed.withSubs a1 b1 o1 n1).withSubs a2 b2 o2 n2 := keyed_of_valueSchema _ rfl
    have h3 := members_free sub ms hd.2 root
      ((out.receive [.Key k.1 k.2]).receive d.events)
      ((c.keyed.withSubs a1 b1 o1 n1).withSubs a2 b2 o2 n2) rest2 st T A B O N
      (receive_answer _ (receive_answer _ hout _) _) hsch hT
      (created_withSubs _ _ _ _ _ (created_withSubs _ _ _ _ _ hcr ha1 hb1 ho1 hn1)
        ha2 hb2 ho2 hn2) hia hm
      (by rw [hkeyed, ite_self]; exact hs3)
    have h4 := feedWith_append_some sub _ _ _ _ _ _ _ h2 h3
    have h5 := feedWith_cons_some sub _ _ _ _ _ _ _ h1 h4
    rw [h5]
    simp [receive_receive, List.append_replicate_replicate, List.replicate_succ]
theorem elements_free
    (sub : GenericSchemaValidator → Event → Option GenericSchemaValidator) : ∀ (ds : List Doc), Doc.elementsFit ds = true →
    ∀ (root : BaseSchema) (out : OutputHandler) (c : Context) (rest st : List Context),
    (∀ h e, out.answer h e = true) → c.inArray = true → c.schema.itemsList_ = none →
    c.schema.itemsTuple_ = none → c.multiTypeSchema = none →
    stepStackAll sub (Doc.elementEvents ds) (Context.bump^[ds.length] c :: rest) = some st →
    feedWith sub ⟨root, out, c :: rest, true⟩ (Doc.elementEvents ds)
      = some (⟨root, out.receive (Doc.elementEvents ds), st, true⟩,
          List.replicate (Doc.elementEvents ds).length true)
  | [], _, root, out, c, rest, st, _, _, _, _, _, hs => by
    simp only [Doc.elementEvents, stepStackAll, List.length_nil, Function.iterate_zero, id_eq,
      Option.some.injEq] at hs
    subst hs
    simp [Doc.elementEvents, feedWith, OutputHandler.receive]
  | d :: ds, hd, root, out, c, rest, st, hout, hia, hl, ht, hm, hs => by
    simp only [Doc.elementsFit, Bool.and_eq_true] at hd
    simp only [Doc.elementEvents, List.length_cons, Function.iterate_succ_apply] at hs ⊢
    obtain ⟨st1b, hs1b, hs2⟩ := stepStackAll_append_inv _ _ _ _ _ hs
    rw [stepStackAll_local sub (localUpdate_iterate localUpdate_bump ds.length)] at hs1b
    have hfree : c.Free := ⟨fun _ => ⟨hl, ht⟩, fun h => by rw [hia] at h; cases h⟩
    obtain ⟨hb0, hb1, hb2, hb3, hb4, hb5⟩ := bump_of_free c hfree
    cases hs1 : stepStackAll sub d.events (c.bump :: rest) with
    | none => simp [hs1] at hs1b
    | some st1 =>
      obtain ⟨c1, rest1, rfl, hr1, a1, b1, o1, n1, rfl, -⟩ :=
        stepStackAll_cons_some sub _ _ _ _ hs1
      simp only [hs1, Option.map_some', List.modifyHead, Option.some.injEq] at hs1b
      subst hs1b
      have h1 := value_free sub d hd.1 root out c rest _ hout hfree hm hs1
      have h2 := elements_free sub ds hd.2 root (out.receive d.events)
        (c.bump.withSubs a1 b1 o1 n1) rest1 st (receive_answer _ hout _)
        (by show c.bump.inArray = true; rw [hb4]; exact hia)
        (by show c.bump.schema.itemsList_ = none; rw [hb3]; exact hl)
        (by show c.bump.schema.itemsTuple_ = none; rw [hb3]; exact ht)
        (by show c.bump.multiTypeSchema = none; rw [hb2]; exact hm) hs2
      have h4 := feedWith_append_some sub _ _ _ _ _ _ _ h1 h2
      rw [h4]
      simp [receive_receive, List.append_replicate_replicate]
end

theorem stepStackAll_nil
    (sub : GenericSchemaValidator → Event → Option GenericSchemaValidator)
    (es : List Event) : stepStackAll sub es [] = some [] := by
  induction es with
  | nil => rfl
  | cons e es ih => simpa [stepStackAll, stepStack] using ih

theorem stepStackAll_single_some
    (sub : GenericSchemaValidator → Event → Option GenericSchemaValidator)
    (es : List Event) (c : Context) (st : List Context)
    (h : stepStackAll sub es [c] = some st) :
    ∃ a b o n, st = [c.withSubs a b o n] ∧
        (a.isSome = c.allOfValidators.isSome) ∧ (b.isSome = c.anyOfValidators.isSome) ∧
        (o.isSome = c.oneOfValidators.isSome) ∧ (n.isSome = c.notValidator.isSome) := by
  obtain ⟨c1, rest1, rfl, hr, a, b, o, n, rfl, h1⟩ := stepStackAll_cons_some sub es c [] st h
  rw [stepStackAll_nil] at hr
  injection hr with hr
  subst hr
  exact ⟨a, b, o, n, rfl, h1⟩

theorem endValue_withSubs_congr (s : BaseSchema) (c c1 : Context)
    (h1 : c1.allOfValidators = c.allOfValidators) (h2 : c1.anyOfValidators = c.anyOfValidators)
    (h3 : c1.oneOfValidators = c.oneOfValidators) (h4 : c1.notValidator = c.notValidator) :
    s.EndValue c1 = s.EndValue c := by
  simp only [BaseSchema.EndValue, BaseSchema.EndValueAllOf, BaseSchema.EndValueAnyOf,
    BaseSchema.EndValueOneOf, BaseSchema.EndValueNot, h1, h2, h3, h4]

theorem endValue_local {g : Context → Context} (hg : LocalUpdate g) (s : BaseSchema)
    (c : Context) : s.EndValue (g c) = s.EndValue c := by
  obtain ⟨h1, h2, h3, h4⟩ := localUpdate_subs hg c
  exact endValue_withSubs_congr s c (g c) h1 h2 h3 h4

theorem created_rootContext (root : BaseSchema) : (rootContext root).Created := by
  refine ⟨?_, ?_, ?_, ?_⟩
  · intro h
    simp only [rootContext, BaseSchema.CreateLogicValidators, make_schema] at h ⊢
    cases hA : root.allOf_ <;> simp_all [CreateSchemaValidators, Context.make]
  · intro h
    simp only [rootContext, BaseSchema.CreateLogicValidators, make_schema] at h ⊢
    cases hA : root.anyOf_ <;> simp_all [CreateSchemaValidators, Context.make]
  · intro h
    simp only [rootContext, BaseSchema.CreateLogicValidators, make_schema] at h ⊢
    cases hA : root.oneOf_ <;> simp_all [CreateSchemaValidators, Context.make]
  · intro h
    simp only [rootContext, BaseSchema.CreateLogicValidators, make_schema] at h ⊢
    cases hA : root.not_ <;> simp_all [Context.make]

theorem handle_end_root (root : BaseSchema) (out : OutputHandler) (c : Context) (e : Event)
    (r : Bool) (hout : ∀ h e, out.answer h e = true) (hr : c.schema.EndValue c = some r) :
    HANDLE_END_ ⟨root, out, [c], true⟩ e
      = some (if r then ⟨root, out.receive [e], [], true⟩ else ⟨root, out, [c], false⟩, r) := by
  cases r <;> simp [HANDLE_END_, EndValue, hr, HANDLE_OUTPUT_, call_eq _ hout]

theorem events_eq_first_cons (d : Doc) : ∃ tl, d.events = d.first :: tl := by
  cases d <;> simp [Doc.events, Doc.first]

theorem logic_method_reject (T : Nat) (A B O : Option (List BaseSchema))
    (N : Option BaseSchema) (c : Context) (d : Doc) (hd : d.fits = true)
    (hadm : (logicSchema T A B O N).admits d.first = false) :
    (logicSchema T A B O N).method c d.first
      = some ((logicSchema T A B O N).CreateLogicValidators c, false) := by
  cases d
  case Object ms =>
    simp only [Doc.first, BaseSchema.admits, BaseSchema.hasType, logicSchema_type_] at hadm
    simp only [bne_eq_false_iff_eq] at hadm
    simp [Doc.first, BaseSchema.method, BaseSchema.StartObject, hadm]
  case Array ds =>
    simp only [Doc.first, BaseSchema.admits, BaseSchema.hasType, logicSchema_type_] at hadm
    simp only [bne_eq_false_iff_eq] at hadm
    simp [Doc.first, BaseSchema.method, BaseSchema.StartArray, hadm]
  all_goals
    rw [← hadm]
    exact logic_method_scalar T A B O N c _ rfl
      (by first | rfl | simpa [Doc.fits, Event.fits, Doc.first] using hd)

theorem root_reject
    (sub : GenericSchemaValidator → Event → Option GenericSchemaValidator)
    (d : Doc) (hd : d.fits = true) (T : Nat) (A B O : Option (List BaseSchema))
    (N : Option BaseSchema) (out : OutputHandler)
    (hadm : (logicSchema T A B O N).admits d.first = false) :
    feedWith sub (GenericSchemaValidator.make (logicSchema T A B O N) out) d.events
      = some (⟨logicSchema T A B O N, out, [rootContext (logicSchema T A B O N)], false⟩,
          List.replicate d.events.length false) := by
  obtain ⟨tl, htl⟩ := events_eq_first_cons d
  have hmeth := logic_method_reject T A B O N (Context.make (logicSchema T A B O N)) d hd hadm
  have h1 : handleWith sub (GenericSchemaValidator.make (logicSchema T A B O N) out) d.first
      = some (⟨logicSchema T A B O N, out, [rootContext (logicSchema T A B O N)], false⟩,
          false) := by
    cases d <;>
      simp only [Doc.first, handleWith, HANDLE_VALUE_, HANDLE_START_, HANDLE_BEGIN_, BeginValue,
        GenericSchemaValidator.make, PushSchema, Bool.not_true, Bool.false_eq_true, if_false,
        make_schema] <;>
      simp only [Doc.first] at hmeth <;>
      rw [hmeth] <;> rfl
  rw [htl]
  exact feedWith_cons_some sub _ _ _ _ _ _ _ h1 (feedWith_of_invalid sub _ rfl tl)

theorem localUpdate_startArray : LocalUpdate Context.startArray := fun _ _ _ _ _ => rfl

theorem localUpdate_endArray : LocalUpdate Context.endArray := fun _ _ _ _ _ => rfl

theorem localUpdate_comp {g1 g2 : Context → Context} (h1 : LocalUpdate g1)
    (h2 : LocalUpdate g2) : LocalUpdate (fun c => g1 (g2 c)) := by
  intro c a b o n
  show g1 (g2 (c.withSubs a b o n)) = (g1 (g2 c)).withSubs a b o n
  rw [h2, h1]

theorem localUpdate_id : LocalUpdate (fun c => c) := fun _ _ _ _ _ => rfl

theorem handle_root_scalar
    (sub : GenericSchemaValidator → Event → Option GenericSchemaValidator)
    (T : Nat) (A B O : Option (List BaseSchema))
    (N : Option BaseSchema) (out : OutputHandler) (e : Event) (cF : Context) (r : Bool)
    (hout : ∀ h e, out.answer h e = true) (he : e.isScalar = true) (hf : e.fits = true)
    (hadm : (logicSchema T A B O N).admits e = true)
    (hs : stepStack (fun w => sub w e) [rootContext (logicSchema T A B O N)] = some [cF])
    (hr : (logicSchema T A B O N).EndValue cF = some r) :
    handleWith sub (GenericSchemaValidator.make (logicSchema T A B O N) out) e
      = some (if r then ⟨logicSchema T A B O N, out.receive [e], [], true⟩
              else ⟨logicSchema T A B O N, out, [cF], false⟩, r) := by
  have hmeth := logic_method_scalar T A B O N (Context.make (logicSchema T A B O N)) e he hf
  rw [hadm] at hmeth
  obtain ⟨c1, rest1, h1, hc1, -⟩ := stepStack_cons_some _ _ _ _ hs
  obtain ⟨a, b, o, n, rfl, -⟩ := stepContext_eq_withSubs _ _ _ hc1
  simp only [List.cons.injEq] at h1
  obtain ⟨rfl, -⟩ := h1
  have key : HANDLE_VALUE_ sub (GenericSchemaValidator.make (logicSchema T A B O N) out) e
      = some (if r then ⟨logicSchema T A B O N, out.receive [e], [], true⟩
              else ⟨logicSchema T A B O N, out,
                [(rootContext (logicSchema T A B O N)).withSubs a b o n], false⟩, r) := by
    simp only [HANDLE_VALUE_, HANDLE_BEGIN_, BeginValue, GenericSchemaValidator.make, PushSchema,
      Bool.not_true, Bool.false_eq_true, if_false, make_schema, hmeth, HANDLE_LOGIC_]
    rw [show (logicSchema T A B O N).CreateLogicValidators (Context.make (logicSchema T A B O N))
      = rootContext (logicSchema T A B O N) from rfl, hs]
    exact handle_end_root _ _ _ _ _ hout hr
  cases e <;> first | exact key | simp [Event.isScalar] at he

theorem handle_root_startObject
    (sub : GenericSchemaValidator → Event → Option GenericSchemaValidator)
    (T : Nat) (A B O : Option (List BaseSchema))
    (N : Option BaseSchema) (out : OutputHandler) (st : List Context)
    (hout : ∀ h e, out.answer h e = true)
    (hadm : (logicSchema T A B O N).hasType kObjectSchemaType = true)
    (hs : stepStack (fun w => sub w .StartObject) [rootContext (logicSchema T A B O N)]
      = some st) :
    handleWith sub (GenericSchemaValidator.make (logicSchema T A B O N) out) .StartObject
      = some (⟨logicSchema T A B O N, out.receive [.StartObject], st, true⟩, true) := by
  have hmeth := logic_method_startObject T A B O N (Context.make (logicSchema T A B O N)) hadm
  simp only [handleWith, HANDLE_START_, HANDLE_BEGIN_, BeginValue, GenericSchemaValidator.make,
    PushSchema, Bool.not_true, Bool.false_eq_true, if_false, make_schema, hmeth, HANDLE_LOGIC_]
  rw [show ({ (logicSchema T A B O N).CreateLogicValidators
      (Context.make (logicSchema T A B O N)) with objectRequiredCount := 0 } : Context)
      = rootContext (logicSchema T A B O N) from rfl, hs]
  simp [HANDLE_OUTPUT_, call_eq _ hout]

theorem handle_root_startArray
    (sub : GenericSchemaValidator → Event → Option GenericSchemaValidator)
    (T : Nat) (A B O : Option (List BaseSchema))
    (N : Option BaseSchema) (out : OutputHandler) (st : List Context)
    (hout : ∀ h e, out.answer h e = true)
    (hadm : (logicSchema T A B O N).hasType kArraySchemaType = true)
    (hs : stepStack (fun w => sub w .StartArray)
      [(rootContext (logicSchema T A B O N)).startArray] = some st) :
    handleWith sub (GenericSchemaValidator.make (logicSchema T A B O N) out) .StartArray
      = some (⟨logicSchema T A B O N, out.receive [.StartArray], st, true⟩, true) := by
  have hmeth := logic_method_startArray T A B O N (Context.make (logicSchema T A B O N)) hadm
  simp only [handleWith, HANDLE_START_, HANDLE_BEGIN_, BeginValue, GenericSchemaValidator.make,
    PushSchema, Bool.not_true, Bool.false_eq_true, if_false, make_schema, hmeth, HANDLE_LOGIC_]
  rw [show ({ (logicSchema T A B O N).CreateLogicValidators
      (Context.make (logicSchema T A B O N)) with arrayElementIndex := 0, inArray := true }
        : Context)
      = (rootContext (logicSchema T A B O N)).startArray from rfl, hs]
  simp [HANDLE_OUTPUT_, call_eq _ hout]

theorem handle_root_endObject
    (sub : GenericSchemaValidator → Event → Option GenericSchemaValidator)
    (T : Nat) (A B O : Option (List BaseSchema))
    (N : Option BaseSchema) (out : OutputHandler) (c cF : Context) (n : Nat) (r : Bool)
    (hout : ∀ h e, out.answer h e = true)
    (hadm : (logicSchema T A B O N).hasType kObjectSchemaType = true)
    (hsch : c.schema = logicSchema T A B O N) (hcr : c.Created)
    (hrc : c.objectRequiredCount = 0) (hn : n ≤ SizeTypeMax)
    (hs : stepStack (fun w => sub w (.EndObject n)) [c] = some [cF])
    (hr : (logicSchema T A B O N).EndValue cF = some r) :
    handleWith sub ⟨logicSchema T A B O N, out, [c], true⟩ (.EndObject n)
      = some (if r then ⟨logicSchema T A B O N, out.receive [.EndObject n], [], true⟩
              else ⟨logicSchema T A B O N, out, [cF], false⟩, r) := by
  have hce := created_eq c hcr
  rw [hsch] at hce
  have hmeth := logic_method_endObject T A B O N c n hadm (by rw [hce]; exact hrc) hn
  rw [hce, ← hsch] at hmeth
  obtain ⟨c1, rest1, h1, hc1, -⟩ := stepStack_cons_some _ _ _ _ hs
  obtain ⟨a, b, o, k, rfl, -⟩ := stepContext_eq_withSubs _ _ _ hc1
  simp only [List.cons.injEq] at h1
  obtain ⟨rfl, -⟩ := h1
  have hr2 : (c.withSubs a b o k).schema.EndValue (c.withSubs a b o k) = some r := by
    rw [show (c.withSubs a b o k).schema = c.schema from rfl, hsch]
    exact hr
  simp only [handleWith, HANDLE_CLOSE_, HANDLE_CURRENT_, Bool.not_true, Bool.false_eq_true,
    if_false, hmeth, HANDLE_LOGIC_, hs, Option.map_some']
  exact handle_end_root _ _ _ _ _ hout hr2

theorem handle_root_endArray
    (sub : GenericSchemaValidator → Event → Option GenericSchemaValidator)
    (T : Nat) (A B O : Option (List BaseSchema))
    (N : Option BaseSchema) (out : OutputHandler) (c cF : Context) (n : Nat) (r : Bool)
    (hout : ∀ h e, out.answer h e = true)
    (hadm : (logicSchema T A B O N).hasType kArraySchemaType = true)
    (hsch : c.schema = logicSchema T A B O N) (hcr : c.Created) (hn : n ≤ SizeTypeMax)
    (hs : stepStack (fun w => sub w (.EndArray n)) [c.endArray] = some [cF])
    (hr : (logicSchema T A B O N).EndValue cF = some r) :
    handleWith sub ⟨logicSchema T A B O N, out, [c], true⟩ (.EndArray n)
      = some (if r then ⟨logicSchema T A B O N, out.receive [.EndArray n], [], true⟩
              else ⟨logicSchema T A B O N, out, [cF], false⟩, r) := by
  have hce := created_eq c hcr
  rw [hsch] at hce
  have hmeth : c.schema.method c (.EndArray n) = some (c.endArray, true) := by
    have := logic_method_endArray T A B O N c n hadm hn
    rw [hce, ← hsch] at this
    exact this
  obtain ⟨c1, rest1, h1, hc1, -⟩ := stepStack_cons_some _ _ _ _ hs
  obtain ⟨a, b, o, k, rfl, -⟩ := stepContext_eq_withSubs _ _ _ hc1
  simp only [List.cons.injEq] at h1
  obtain ⟨rfl, -⟩ := h1
  have hr2 : (c.endArray.withSubs a b o k).schema.EndValue (c.endArray.withSubs a b o k)
      = some r := by
    rw [show (c.endArray.withSubs a b o k).schema = c.schema from rfl, hsch]
    exact hr
  simp only [handleWith, HANDLE_CLOSE_, HANDLE_CURRENT_, Bool.not_true, Bool.false_eq_true,
    if_false, hmeth, HANDLE_LOGIC_, hs, Option.map_some']
  exact handle_end_root _ _ _ _ _ hout hr2

theorem localUpdate_keyedIf (b : Bool) : LocalUpdate (Context.keyedIf b) := by
  cases b
  · exact localUpdate_keyed
  · exact localUpdate_id

theorem bump_schema (c : Context) : c.bump.schema = c.schema := by
  simp only [Context.bump, BaseSchema.BeginValue]
  split
  · split
    · rfl
    · split <;> [rfl; (split <;> rfl)]
    · rfl
  · rfl

theorem iterate_bump_schema (k : Nat) (c : Context) : (Context.bump^[k] c).schema = c.schema := by
  induction k generalizing c with
  | zero => rfl
  | succ k ih => rw [Function.iterate_succ_apply, ih, bump_schema]

theorem bump_inArray (c : Context) : c.bump.inArray = c.inArray := by
  simp only [Context.bump, BaseSchema.BeginValue]
  split
  · split
    · rfl
    · split <;> [rfl; (split <;> rfl)]
    · rfl
  · rfl

theorem bump_multiTypeSchema (c : Context) : c.bump.multiTypeSchema = c.multiTypeSchema := by
  simp only [Context.bump, BaseSchema.BeginValue]
  split
  · split
    · rfl
    · split <;> [rfl; (split <;> rfl)]
    · rfl
  · rfl

theorem created_local {g : Context → Context} (hg : LocalUpdate g) (c : Context)
    (hs : (g c).schema = c.schema) (hc : c.Created) : (g c).Created := by
  obtain ⟨h1, h2, h3, h4⟩ := localUpdate_subs hg c
  obtain ⟨q1, q2, q3, q4⟩ := hc
  refine ⟨?_, ?_, ?_, ?_⟩
  · rw [hs, h1]; exact q1
  · rw [hs, h2]; exact q2
  · rw [hs, h3]; exact q3
  · rw [hs, h4]; exact q4

theorem stepStackAll_single_local
    (sub : GenericSchemaValidator → Event → Option GenericSchemaValidator)
    {g : Context → Context} (hg : LocalUpdate g)
    (es : List Event) (c c1 : Context) (h : stepStackAll sub es [c] = some [c1]) :
    stepStackAll sub es [g c] = some [g c1] := by
  rw [stepStackAll_local sub hg, h]
  rfl

theorem stepStack_single_local
    (sub : GenericSchemaValidator → Event → Option GenericSchemaValidator)
    {g : Context → Context} (hg : LocalUpdate g)
    (e : Event) (c c1 : Context) (h : stepStack (fun w => sub w e) [c] = some [c1]) :
    stepStack (fun w => sub w e) [g c] = some [g c1] := by
  rw [stepStack_local _ hg, h]
  rfl

theorem root_run
    (sub : GenericSchemaValidator → Event → Option GenericSchemaValidator)
    (d : Doc) (hd : d.fits = true) (T : Nat) (A B O : Option (List BaseSchema))
    (N : Option BaseSchema) (out : OutputHandler) (cF : Context) (r : Bool)
    (hout : ∀ h e, out.answer h e = true)
    (hadm : (logicSchema T A B O N).admits d.first = true)
    (hsubs : stepStackAll sub d.events [rootContext (logicSchema T A B O N)] = some [cF])
    (hend : (logicSchema T A B O N).EndValue cF = some r) :
    ∃ vF, feedWith sub (GenericSchemaValidator.make (logicSchema T A B O N) out) d.events
        = some (vF, List.replicate (d.events.length - 1) true ++ [r]) ∧ vF.valid_ = r ∧
      (r = true → vF = ⟨logicSchema T A B O N, out.receive d.events, [], true⟩) := by
  have scalar : ∀ e : Event, e.isScalar = true → e.fits = true → d.events = [e] →
      d.first = e → ∃ vF,
      feedWith sub (GenericSchemaValidator.make (logicSchema T A B O N) out) d.events
        = some (vF, List.replicate (d.events.length - 1) true ++ [r]) ∧ vF.valid_ = r ∧
      (r = true → vF = ⟨logicSchema T A B O N, out.receive d.events, [], true⟩) := by
    intro e he hf hev hfirst
    rw [hev] at hsubs ⊢
    rw [stepStackAll_singleton] at hsubs
    rw [hfirst] at hadm
    have h1 := handle_root_scalar sub T A B O N out e cF r hout he hf hadm hsubs hend
    refine ⟨_, feedWith_cons_some sub _ _ _ _ [] _ [] h1 rfl, ?_, ?_⟩
    · cases r <;> rfl
    · intro hr; subst hr; rfl
  cases d
  case Object ms =>
    simp only [Doc.fits, Bool.and_eq_true, decide_eq_true_eq] at hd
    simp only [Doc.events] at hsubs ⊢
    have hT : (logicSchema T A B O N).hasType kObjectSchemaType = true := hadm
    obtain ⟨st1, hs1, hs⟩ := stepStackAll_cons_inv _ _ _ _ _ hsubs
    obtain ⟨a1, b1, o1, n1, rfl, ha1, hb1, ho1, hn1⟩ :=
      stepStackAll_single_some sub [.StartObject] _ _ (by rw [stepStackAll_singleton]; exact hs1)
    obtain ⟨st2, hs2, hs3⟩ := stepStackAll_append_inv _ _ _ _ _ hs
    obtain ⟨a2, b2, o2, n2, rfl, ha2, hb2, ho2, hn2⟩ := stepStackAll_single_some sub _ _ _ hs2
    rw [stepStackAll_singleton] at hs3
    have hcr1 := created_withSubs _ a1 b1 o1 n1 (created_rootContext (logicSchema T A B O N))
      ha1 hb1 ho1 hn1
    have hcr2 := created_withSubs _ a2 b2 o2 n2 hcr1 ha2 hb2 ho2 hn2
    have hg := localUpdate_keyedIf ms.isEmpty
    have h1 := handle_root_startObject sub T A B O N out _ hout hT hs1
    have h2 := members_free sub ms hd.2 (logicSchema T A B O N) (out.receive [.StartObject])
      ((rootContext (logicSchema T A B O N)).withSubs a1 b1 o1 n1) [] _ T A B O N
      (receive_answer _ hout _) rfl hT hcr1 rfl rfl
      (stepStackAll_single_local sub hg _ _ _ hs2)
    have hgs : ∀ c : Context, (Context.keyedIf ms.isEmpty c).schema = c.schema := by
      intro c; cases ms.isEmpty <;> rfl
    have hgr : ∀ c : Context,
        (Context.keyedIf ms.isEmpty c).objectRequiredCount = c.objectRequiredCount := by
      intro c; cases ms.isEmpty <;> rfl
    have h3 := handle_root_endObject sub T A B O N
      ((out.receive [.StartObject]).receive (Doc.memberEvents ms))
      (Context.keyedIf ms.isEmpty
        (((rootContext (logicSchema T A B O N)).withSubs a1 b1 o1 n1).withSubs a2 b2 o2 n2))
      (Context.keyedIf ms.isEmpty cF) ms.length r
      (receive_answer _ (receive_answer _ hout _) _) hT
      (by rw [hgs]; rfl) (created_local hg _ (hgs _) hcr2) (by rw [hgr]; rfl) hd.1
      (stepStack_single_local sub hg _ _ _ hs3) (by rw [endValue_local hg]; exact hend)
    have h4 := feedWith_append_some sub _ _ _ _ _ _ _ h2
      (feedWith_cons_some sub _ _ _ _ [] _ [] h3 rfl)
    have h5 := feedWith_cons_some sub _ _ _ _ _ _ _ h1 h4
    have hl : (true :: (List.replicate (Doc.memberEvents ms).length true ++ [r]))
        = List.replicate ((Event.StartObject :: (Doc.memberEvents ms ++ [Event.EndObject ms.length])).length - 1)
            true ++ [r] := by
      simp [List.replicate_succ]
    rw [hl] at h5
    exact ⟨_, h5, by cases r <;> rfl, by intro hr; subst hr; simp [receive_receive]⟩
  case Array ds =>
    simp only [Doc.fits, Bool.and_eq_true, decide_eq_true_eq] at hd
    simp only [Doc.events] at hsubs ⊢
    have hT : (logicSchema T A B O N).hasType kArraySchemaType = true := hadm
    obtain ⟨st1, hs1, hs⟩ := stepStackAll_cons_inv _ _ _ _ _ hsubs
    obtain ⟨a1, b1, o1, n1, rfl, ha1, hb1, ho1, hn1⟩ :=
      stepStackAll_single_some sub [.StartArray] _ _ (by rw [stepStackAll_singleton]; exact hs1)
    obtain ⟨st2, hs2, hs3⟩ := stepStackAll_append_inv _ _ _ _ _ hs
    obtain ⟨a2, b2, o2, n2, rfl, ha2, hb2, ho2, hn2⟩ := stepStackAll_single_some sub _ _ _ hs2
    rw [stepStackAll_singleton] at hs3
    have hcr1 := created_withSubs _ a1 b1 o1 n1 (created_rootContext (logicSchema T A B O N))
      ha1 hb1 ho1 hn1
    have hcr2 := created_withSubs _ a2 b2 o2 n2 hcr1 ha2 hb2 ho2 hn2
    have hg1 := localUpdate_startArray
    have hg2 := localUpdate_iterate localUpdate_bump ds.length
    have hg := localUpdate_comp hg2 hg1
    have h1 := handle_root_startArray sub T A B O N out _ hout hT
      (stepStack_single_local sub hg1 _ _ _ hs1)
    have h2 := elements_free sub ds hd.2 (logicSchema T A B O N) (out.receive [.StartArray])
      ((rootContext (logicSchema T A B O N)).withSubs a1 b1 o1 n1).startArray [] _
      (receive_answer _ hout _) rfl rfl rfl rfl
      (stepStackAll_single_local sub hg2 _ _ _ (stepStackAll_single_local sub hg1 _ _ _ hs2))
    have hgs : ∀ c : Context, (Context.bump^[ds.length] c.startArray).schema = c.schema := by
      intro c; rw [iterate_bump_schema]; rfl
    have h3 := handle_root_endArray sub T A B O N
      ((out.receive [.StartArray]).receive (Doc.elementEvents ds))
      (Context.bump^[ds.length]
        (((rootContext (logicSchema T A B O N)).withSubs a1 b1 o1 n1).withSubs
          a2 b2 o2 n2).startArray)
      (Context.bump^[ds.length] cF.startArray).endArray ds.length r
      (receive_answer _ (receive_answer _ hout _) _) hT
      (by rw [hgs]; rfl) (created_local hg _ (hgs _) hcr2) hd.1
      (stepStack_single_local sub (localUpdate_comp localUpdate_endArray hg) _ _ _ hs3)
      (by rw [endValue_local (localUpdate_comp localUpdate_endArray hg)]; exact hend)
    have h4 := feedWith_append_some sub _ _ _ _ _ _ _ h2
      (feedWith_cons_some sub _ _ _ _ [] _ [] h3 rfl)
    have h5 := feedWith_cons_some sub _ _ _ _ _ _ _ h1 h4
    have hl : (true :: (List.replicate (Doc.elementEvents ds).length true ++ [r]))
        = List.replicate ((Event.StartArray :: (Doc.elementEvents ds ++ [Event.EndArray ds.length])).length - 1)
            true ++ [r] := by
      simp [List.replicate_succ]
    rw [hl] at h5
    exact ⟨_, h5, by cases r <;> rfl, by intro hr; subst hr; simp [receive_receive]⟩
  case Null => exact scalar .Null rfl rfl rfl rfl
  case Bool_ b => exact scalar (.Bool_ b) rfl rfl rfl rfl
  case Int_ i => exact scalar (.Int_ i) rfl rfl rfl rfl
  case Uint u => exact scalar (.Uint u) rfl rfl rfl rfl
  case Int64 i => exact scalar (.Int64 i) rfl rfl rfl rfl
  case Uint64 u => exact scalar (.Uint64 u) rfl rfl rfl rfl
  case Double x => exact scalar (.Double x) rfl rfl rfl rfl
  case String_ str cp =>
    exact scalar (.String_ str cp) rfl (by simpa [Doc.fits, Event.fits] using hd) rfl rfl

theorem stepAll_id (ws : List GenericSchemaValidator) : stepAll (fun w => some w) ws = some ws := by
  induction ws with
  | nil => rfl
  | cons w ws ih => simp [stepAll, ih]

theorem stepAll_bind (f g : GenericSchemaValidator → Option GenericSchemaValidator)
    (ws : List GenericSchemaValidator) :
    (stepAll f ws).bind (stepAll g) = stepAll (fun w => (f w).bind g) ws := by
  induction ws with
  | nil => rfl
  | cons w ws ih =>
    simp only [stepAll, ← ih]
    cases hf : f w with
    | none => rfl
    | some w1 =>
      cases hfs : stepAll f ws with
      | none =>
        simp only [Option.some_bind, Option.none_bind]
        cases g w1 <;> rfl
      | some ws1 => simp [stepAll]

theorem subAll_cons
    (sub : GenericSchemaValidator → Event → Option GenericSchemaValidator)
    (e : Event) (es : List Event) (w : GenericSchemaValidator) :
    subAll sub (e :: es) w = (sub w e).bind (subAll sub es) := by
  simp only [subAll]
  cases sub w e <;> rfl

theorem stepArray_bind (f g : GenericSchemaValidator → Option GenericSchemaValidator)
    (x : Option (List GenericSchemaValidator)) :
    (stepArray f x).bind (stepArray g) = stepArray (fun w => (f w).bind g) x := by
  cases x with
  | none => rfl
  | some ws =>
    simp only [stepArray, ← stepAll_bind]
    cases stepAll f ws <;> rfl

theorem stepNot_bind (f g : GenericSchemaValidator → Option GenericSchemaValidator)
    (x : Option GenericSchemaValidator) :
    (stepNot f x).bind (stepNot g) = stepNot (fun w => (f w).bind g) x := by
  cases x with
  | none => rfl
  | some w =>
    simp only [stepNot]
    cases f w <;> rfl

theorem stepContext_bind (f g : GenericSchemaValidator → Option GenericSchemaValidator)
    (c : Context) :
    (stepContext f c).bind (stepContext g) = stepContext (fun w => (f w).bind g) c := by
  cases c with
  | mk schema vs mt a b o n rc ai od ia =>
    simp only [stepContext, ← stepArray_bind, ← stepNot_bind]
    cases stepArray f a <;> cases stepArray f b <;> cases stepArray f o <;>
      cases stepNot f n <;> simp [stepContext]

theorem stepContext_id (c : Context) : stepContext (fun w => some w) c = some c := by
  cases c with
  | mk schema vs mt a b o n rc ai od ia =>
    cases a <;> cases b <;> cases o <;> cases n <;>
      simp [stepContext, stepArray, stepNot, stepAll_id]

theorem stepStack_single (f : GenericSchemaValidator → Option GenericSchemaValidator)
    (c : Context) : stepStack f [c] = (stepContext f c).map (fun c1 => [c1]) := by
  simp only [stepStack]
  cases stepContext f c <;> rfl

theorem stepStackAll_single
    (sub : GenericSchemaValidator → Event → Option GenericSchemaValidator)
    (es : List Event) :
    ∀ c : Context, stepStackAll sub es [c]
      = (stepContext (subAll sub es) c).map (fun c1 => [c1]) := by
  induction es with
  | nil =>
    intro c
    show some [c] = (stepContext (fun w => some w) c).map (fun c1 => [c1])
    rw [stepContext_id]; rfl
  | cons e es ih =>
    intro c
    have hf : subAll sub (e :: es) = fun w => (sub w e).bind (subAll sub es) := by
      funext w; exact subAll_cons sub e es w
    rw [hf, ← stepContext_bind]
    simp only [stepStackAll, stepStack_single]
    cases stepContext (fun w => sub w e) c with
    | none => rfl
    | some c1 => simpa using ih c1

theorem subAll_subAt (fuel : Nat) (es : List Event) :
    ∀ w : GenericSchemaValidator,
      subAll (subAt (fuel + 1)) es w = (feed fuel w es).map Prod.fst := by
  induction es with
  | nil => intro w; rfl
  | cons e es ih =>
    intro w
    rw [subAll_cons]
    show ((handleWith (subAt fuel) w e).map Prod.fst).bind (subAll (subAt (fuel + 1)) es) = _
    simp only [feed, feedWith]
    cases h : handleWith (subAt fuel) w e with
    | none => rfl
    | some p =>
      obtain ⟨w1, r⟩ := p
      simp only [Option.map_some', Option.some_bind]
      rw [ih w1]
      simp only [feed]
      cases feedWith (subAt fuel) w1 es with
      | none => rfl
      | some q => rfl

theorem allOfLoop_eq (ws : List GenericSchemaValidator) :
    ∀ pre : List GenericSchemaValidator,
      allOfLoop (some (pre ++ ws)) ws.length pre.length = some (ws.all (fun w => w.IsValid)) := by
  induction ws with
  | nil => intro pre; rfl
  | cons w ws ih =>
    intro pre
    have := ih (pre ++ [w])
    simp only [List.append_assoc, List.singleton_append, List.length_append, List.length_singleton]
      at this
    simp only [List.length_cons, allOfLoop, Option.some_bind, List.getElem?_append_right
      (Nat.le_refl _), Nat.sub_self, List.getElem?_cons_zero, this]
    rcases hw : w.IsValid with _ | _ <;> simp [hw]

theorem anyOfLoop_eq (ws : List GenericSchemaValidator) :
    ∀ pre : List GenericSchemaValidator,
      anyOfLoop (some (pre ++ ws)) ws.length pre.length = some (ws.any (fun w => w.IsValid)) := by
  induction ws with
  | nil => intro pre; rfl
  | cons w ws ih =>
    intro pre
    have := ih (pre ++ [w])
    simp only [List.append_assoc, List.singleton_append, List.length_append, List.length_singleton]
      at this
    simp only [List.length_cons, anyOfLoop, Option.some_bind, List.getElem?_append_right
      (Nat.le_refl _), Nat.sub_self, List.getElem?_cons_zero, this]
    rcases hw : w.IsValid with _ | _ <;> simp [hw]

theorem oneOfLoop_eq (ws : List GenericSchemaValidator) :
    ∀ (pre : List GenericSchemaValidator) (oneValid : Bool),
      oneOfLoop (some (pre ++ ws)) ws.length pre.length oneValid
        = some (((ws.map (fun w => w.IsValid)).count true + oneValid.toNat) == 1) := by
  induction ws with
  | nil => intro pre oneValid; cases oneValid <;> rfl
  | cons w ws ih =>
    intro pre oneValid
    have := fun b => ih (pre ++ [w]) b
    simp only [List.append_assoc, List.singleton_append, List.length_append, List.length_singleton]
      at this
    simp only [List.length_cons, oneOfLoop, Option.some_bind, List.getElem?_append_right
      (Nat.le_refl _), Nat.sub_self, List.getElem?_cons_zero, this]
    rcases hw : w.IsValid with _ | _ <;> cases oneValid <;>
      simp [hw, List.count_cons]

theorem all_map_id {α : Type} (f : α → Bool) (l : List α) : (l.map f).all id = l.all f := by
  induction l with
  | nil => rfl
  | cons x xs ih => simp [List.all_cons, ih]

theorem any_map_id {α : Type} (f : α → Bool) (l : List α) : (l.map f).any id = l.any f := by
  induction l with
  | nil => rfl
  | cons x xs ih => simp [List.any_cons, ih]

theorem stepAll_ofRoot (f : GenericSchemaValidator → Option GenericSchemaValidator)
    (Ss : List BaseSchema) (h : ∀ S ∈ Ss, (f (ofRoot S)).isSome = true) :
    ∃ ws, stepAll f (Ss.map ofRoot) = some ws ∧ ws.length = Ss.length ∧
      ws.map (fun w => w.IsValid)
        = Ss.map (fun S => (f (ofRoot S)).map (fun w => w.IsValid) == some true) := by
  induction Ss with
  | nil => exact ⟨[], rfl, rfl, rfl⟩
  | cons S Ss ih =>
    obtain ⟨ws, h1, h2, h3⟩ := ih (fun S hS => h S (List.mem_cons_of_mem _ hS))
    have hS := h S (List.mem_cons_self _ _)
    cases hf : f (ofRoot S) with
    | none => simp [hf] at hS
    | some w =>
      refine ⟨w :: ws, ?_, ?_, ?_⟩
      · simp [stepAll, hf, h1]
      · simp [h2]
      · simp [hf, h3]

theorem stepArray_ofRoot (f : GenericSchemaValidator → Option GenericSchemaValidator)
    (X : Option (List BaseSchema))
    (h : ∀ Ss, X = some Ss → ∀ S ∈ Ss, (f (ofRoot S)).isSome = true) :
    ∃ x, stepArray f (X.map (List.map ofRoot)) = some x ∧
      (X = none → x = none) ∧
      (∀ Ss, X = some Ss → ∃ ws, x = some ws ∧ ws.length = Ss.length ∧
        ws.map (fun w => w.IsValid)
          = Ss.map (fun S => (f (ofRoot S)).map (fun w => w.IsValid) == some true)) := by
  cases X with
  | none => exact ⟨none, rfl, fun _ => rfl, fun _ h => by cases h⟩
  | some Ss =>
    obtain ⟨ws, h1, h2, h3⟩ := stepAll_ofRoot f Ss (h Ss rfl)
    refine ⟨some ws, (by simp [stepArray, h1]), (fun h => by cases h), ?_⟩
    intro Ss1 hS
    cases hS
    exact ⟨ws, rfl, h2, h3⟩

theorem stepNot_ofRoot (f : GenericSchemaValidator → Option GenericSchemaValidator)
    (X : Option BaseSchema) (h : ∀ S, X = some S → (f (ofRoot S)).isSome = true) :
    ∃ x, stepNot f (X.map ofRoot) = some x ∧ (X = none → x = none) ∧
      (∀ S, X = some S → ∃ w, x = some w ∧
        w.IsValid = ((f (ofRoot S)).map (fun w => w.IsValid) == some true)) := by
  cases X with
  | none => exact ⟨none, rfl, fun _ => rfl, fun _ h => by cases h⟩
  | some S =>
    have hS := h S rfl
    cases hf : f (ofRoot S) with
    | none => simp [hf] at hS
    | some w =>
      refine ⟨some w, (by simp [stepNot, hf]), (fun h => by cases h), ?_⟩
      intro S1 hS1
      cases hS1
      exact ⟨w, rfl, by simp [hf]⟩

theorem rootContext_logic (T : Nat) (A B O : Option (List BaseSchema))
    (N : Option BaseSchema) :
    rootContext (logicSchema T A B O N)
      = (Context.make (logicSchema T A B O N)).withSubs (A.map (List.map ofRoot))
          (B.map (List.map ofRoot)) (O.map (List.map ofRoot)) (N.map ofRoot) := by
  cases A <;> cases B <;> cases O <;> cases N <;> rfl

theorem feed_verdict (fuel : Nat) (d : Doc) (S : BaseSchema) :
    ((subAll (subAt (fuel + 1)) d.events (ofRoot S)).map (fun w => w.IsValid) == some true)
      = verdictOf fuel d S := by
  rw [subAll_subAt]
  simp only [verdictOf, validate, validateWith, ofRoot, Option.map_map]
  rfl

theorem combinators_run (fuel : Nat) (d : Doc) (T : Nat) (A B O : Option (List BaseSchema))
    (N : Option BaseSchema)
    (hA : ∀ Ss, A = some Ss → ∀ S ∈ Ss, (feed fuel (ofRoot S) d.events).isSome = true)
    (hB : ∀ Ss, B = some Ss → ∀ S ∈ Ss, (feed fuel (ofRoot S) d.events).isSome = true)
    (hO : ∀ Ss, O = some Ss → ∀ S ∈ Ss, (feed fuel (ofRoot S) d.events).isSome = true)
    (hN : ∀ S, N = some S → (feed fuel (ofRoot S) d.events).isSome = true) :
    ∃ cF, stepStackAll (subAt (fuel + 1)) d.events [rootContext (logicSchema T A B O N)]
        = some [cF] ∧
      (logicSchema T A B O N).EndValue cF
        = some (combine (A.map (List.map (verdictOf fuel d))) (B.map (List.map (verdictOf fuel d)))
            (O.map (List.map (verdictOf fuel d))) (N.map (verdictOf fuel d))) := by
  have hsome : ∀ S, (feed fuel (ofRoot S) d.events).isSome = true →
      (subAll (subAt (fuel + 1)) d.events (ofRoot S)).isSome = true := by
    intro S h
    rw [subAll_subAt]
    simpa using h
  obtain ⟨xa, ha1, ha2, ha3⟩ := stepArray_ofRoot (subAll (subAt (fuel + 1)) d.events) A
    (fun Ss h S hS => hsome S (hA Ss h S hS))
  obtain ⟨xb, hb1, hb2, hb3⟩ := stepArray_ofRoot (subAll (subAt (fuel + 1)) d.events) B
    (fun Ss h S hS => hsome S (hB Ss h S hS))
  obtain ⟨xo, ho1, ho2, ho3⟩ := stepArray_ofRoot (subAll (subAt (fuel + 1)) d.events) O
    (fun Ss h S hS => hsome S (hO Ss h S hS))
  obtain ⟨xn, hn1, hn2, hn3⟩ := stepNot_ofRoot (subAll (subAt (fuel + 1)) d.events) N
    (fun S h => hsome S (hN S h))
  refine ⟨(Context.make (logicSchema T A B O N)).withSubs xa xb xo xn, ?_, ?_⟩
  · rw [stepStackAll_single, rootContext_logic]
    simp [stepContext, Context.withSubs, Context.make, ha1, hb1, ho1, hn1]
  · simp only [feed_verdict] at ha3 hb3 ho3 hn3
    have eA : (logicSchema T A B O N).EndValueAllOf
        ((Context.make (logicSchema T A B O N)).withSubs xa xb xo xn)
        = some (match A.map (List.map (verdictOf fuel d)) with
          | some l => l.all id
          | none => true) := by
      cases A with
      | none => rfl
      | some Ss =>
        obtain ⟨ws, rfl, hl, hv⟩ := ha3 Ss rfl
        have := allOfLoop_eq ws []
        simp only [List.nil_append, List.length_nil] at this
        simp only [BaseSchema.EndValueAllOf, logicSchema_allOf_, Context.withSubs, ← hl, this,
          Option.map_some', ← hv, all_map_id]
    have eB : (logicSchema T A B O N).EndValueAnyOf
        ((Context.make (logicSchema T A B O N)).withSubs xa xb xo xn)
        = some (match B.map (List.map (verdictOf fuel d)) with
          | some l => l.any id
          | none => true) := by
      cases B with
      | none => rfl
      | some Ss =>
        obtain ⟨ws, rfl, hl, hv⟩ := hb3 Ss rfl
        have := anyOfLoop_eq ws []
        simp only [List.nil_append, List.length_nil] at this
        simp only [BaseSchema.EndValueAnyOf, logicSchema_anyOf_, Context.withSubs, ← hl, this,
          Option.map_some', ← hv, any_map_id]
    have eO : (logicSchema T A B O N).EndValueOneOf
        ((Context.make (logicSchema T A B O N)).withSubs xa xb xo xn)
        = some (match O.map (List.map (verdictOf fuel d)) with
          | some l => l.count true == 1
          | none => true) := by
      cases O with
      | none => rfl
      | some Ss =>
        obtain ⟨ws, rfl, hl, hv⟩ := ho3 Ss rfl
        have := oneOfLoop_eq ws [] false
        simp only [List.nil_append, List.length_nil] at this
        simp only [BaseSchema.EndValueOneOf, logicSchema_oneOf_, Context.withSubs, ← hl, this,
          Option.map_some', ← hv]
        rfl
    have eN : (logicSchema T A B O N).EndValueNot
        ((Context.make (logicSchema T A B O N)).withSubs xa xb xo xn)
        = some (match N.map (verdictOf fuel d) with
          | some b => !b
          | none => true) := by
      cases N with
      | none => rfl
      | some S =>
        obtain ⟨w, rfl, hv⟩ := hn3 S rfl
        simp only [BaseSchema.EndValueNot, logicSchema_not_, Context.withSubs, Option.map_some',
          hv]
    simp only [BaseSchema.EndValue, eA, eB, eO, eN, combine]
    generalize (match A.map (List.map (verdictOf fuel d)) with
      | some l => l.all id
      | none => true) = x1
    generalize (match B.map (List.map (verdictOf fuel d)) with
      | some l => l.any id
      | none => true) = x2
    generalize (match O.map (List.map (verdictOf fuel d)) with
      | some l => l.count true == 1
      | none => true) = x3
    cases x1 <;> cases x2 <;> cases x3 <;> rfl

theorem stepStackAll_rootContext_noSubs
    (sub : GenericSchemaValidator → Event → Option GenericSchemaValidator) (T : Nat)
    (es : List Event) :
    stepStackAll sub es [rootContext (logicSchema T none none none none)]
      = some [rootContext (logicSchema T none none none none)] := by
  rw [stepStackAll_cons_noSubs sub _ ⟨rfl, rfl, rfl, rfl⟩, stepStackAll_nil]
  rfl

/-- The run of a fresh validator of a schema that has a type mask and nothing
else. -/
theorem type_run (sub : GenericSchemaValidator → Event → Option GenericSchemaValidator)
    (d : Doc) (hd : d.fits = true) (T : Nat) (out : OutputHandler)
    (hout : ∀ h e, out.answer h e = true) :
    ∃ vF rs, feedWith sub (GenericSchemaValidator.make (logicSchema T none none none none) out)
        d.events = some (vF, rs) ∧
      vF.valid_ = (logicSchema T none none none none).admits d.first ∧
      (vF.valid_ = true → vF = ⟨logicSchema T none none none none, out.receive d.events, [], true⟩
        ∧ rs = List.replicate d.events.length true) := by
  cases hadm : (logicSchema T none none none none).admits d.first with
  | false =>
    exact ⟨_, _, root_reject sub d hd T none none none none out hadm, rfl,
      fun h => by cases h⟩
  | true =>
    obtain ⟨vF, h1, h2, h3⟩ := root_run sub d hd T none none none none out _ true hout hadm
      (stepStackAll_rootContext_noSubs sub T d.events) rfl
    refine ⟨vF, _, h1, h2, fun _ => ⟨h3 rfl, ?_⟩⟩
    obtain ⟨tl, htl⟩ := events_eq_first_cons d
    rw [htl]
    simp [List.replicate_succ']

/-- The verdict of a fresh validator of a schema that has a type mask,
combinators and nothing else, when the validators of the combinators, each on
its own, come to a verdict on the document. -/
theorem logic_validate (fuel : Nat) (d : Doc) (hd : d.fits = true) (T : Nat)
    (A B O : Option (List BaseSchema)) (N : Option BaseSchema) (out : OutputHandler)
    (hout : ∀ h e, out.answer h e = true)
    (hA : ∀ Ss, A = some Ss → ∀ S ∈ Ss, (validate fuel S d).isSome = true)
    (hB : ∀ Ss, B = some Ss → ∀ S ∈ Ss, (validate fuel S d).isSome = true)
    (hO : ∀ Ss, O = some Ss → ∀ S ∈ Ss, (validate fuel S d).isSome = true)
    (hN : ∀ S, N = some S → (validate fuel S d).isSome = true) :
    validateWith (fuel + 1) (logicSchema T A B O N) out d
      = some ((logicSchema T A B O N).admits d.first &&
          combine (A.map (List.map (verdictOf fuel d))) (B.map (List.map (verdictOf fuel d)))
            (O.map (List.map (verdictOf fuel d))) (N.map (verdictOf fuel d))) := by
  have conv : ∀ S, (validate fuel S d).isSome = true →
      (feed fuel (ofRoot S) d.events).isSome = true := by
    intro S h
    simpa [validate, validateWith, ofRoot] using h
  cases hadm : (logicSchema T A B O N).admits d.first with
  | false =>
    simp [validateWith, feed, root_reject (subAt (fuel + 1)) d hd T A B O N out hadm, IsValid]
  | true =>
    obtain ⟨cF, hs, he⟩ := combinators_run fuel d T A B O N
      (fun Ss h S hS => conv S (hA Ss h S hS)) (fun Ss h S hS => conv S (hB Ss h S hS))
      (fun Ss h S hS => conv S (hO Ss h S hS)) (fun S h => conv S (hN S h))
    obtain ⟨vF, h1, h2, -⟩ := root_run (subAt (fuel + 1)) d hd T A B O N out cF _ hout hadm hs he
    simp [validateWith, feed, h1, IsValid, h2]

end GenericSchemaValidator

theorem make_empty (rx : RegexEngine) : BaseSchema.make rx (.obj []) = some typeless := rfl

theorem make_nonObject (rx : RegexEngine) (j : Json) (h : j.IsObject = false) :
    BaseSchema.make rx j = some typeless := by
  cases j <;> first | rfl | simp [Json.IsObject] at h

theorem make_allOf (rx : RegexEngine) (js : List Json) :
    BaseSchema.make rx (.obj [("allOf", .arr js)])
      = (makeList rx js).map (fun Ss =>
          logicSchema 127 (if Ss.isEmpty then none else some Ss) none none none) := by
  simp only [BaseSchema.make, makeElementsAt, makeAt, makeMembersAt, GetMember]
  cases makeList rx js with
  | none => rfl
  | some Ss => rfl

theorem make_anyOf (rx : RegexEngine) (js : List Json) :
    BaseSchema.make rx (.obj [("anyOf", .arr js)])
      = (makeList rx js).map (fun Ss =>
          logicSchema 127 none (if Ss.isEmpty then none else some Ss) none none) := by
  simp only [BaseSchema.make, makeElementsAt, makeAt, makeMembersAt, GetMember]
  cases makeList rx js with
  | none => rfl
  | some Ss => rfl

theorem make_oneOf (rx : RegexEngine) (js : List Json) :
    BaseSchema.make rx (.obj [("oneOf", .arr js)])
      = (makeList rx js).map (fun Ss =>
          logicSchema 127 none none (if Ss.isEmpty then none else some Ss) none) := by
  simp only [BaseSchema.make, makeElementsAt, makeAt, makeMembersAt, GetMember]
  cases makeList rx js with
  | none => rfl
  | some Ss => rfl

theorem make_not (rx : RegexEngine) (j : Json) :
    BaseSchema.make rx (.obj [("not", j)])
      = (BaseSchema.make rx j).map (fun S => logicSchema 127 none none none (some S)) := by
  simp only [BaseSchema.make, makeElementsAt, makeAt, makeMembersAt, GetMember]
  cases BaseSchema.make rx j with
  | none => cases j <;> rfl
  | some S => cases j <;> rfl

theorem make_type (rx : RegexEngine) (v : Json) :
    BaseSchema.make rx (.obj [("type", v)])
      = some (logicSchema (typeMask [("type", v)]) none none none none) := by
  cases v <;> rfl

theorem makeList_length (rx : RegexEngine) :
    ∀ (js : List Json) (Ss : List BaseSchema), makeList rx js = some Ss → Ss.length = js.length
  | [], Ss, h => by
    simp only [makeList, Option.some.injEq] at h
    subst h; rfl
  | j :: js, Ss, h => by
    simp only [makeList, Option.bind_eq_bind, Option.pure_def] at h
    cases h1 : BaseSchema.make rx j with
    | none => simp [h1] at h
    | some S =>
      cases h2 : makeList rx js with
      | none => simp [h1, h2] at h
      | some Ss1 =>
        simp only [h1, h2, Option.some_bind, Option.some.injEq] at h
        subst h
        simp [makeList_length rx js Ss1 h2]

theorem and_bit_ne_zero (x k : Nat) : (x &&& (1 <<< k) != 0) = x.testBit k := by
  rw [Nat.one_shiftLeft]
  cases h : x.testBit k with
  | true =>
    have : (x &&& 2 ^ k).testBit k = true := by simp [h, Nat.testBit_two_pow_self]
    have hne : x &&& 2 ^ k ≠ 0 := by
      intro h0
      rw [h0] at this
      simp at this
    simpa using hne
  | false =>
    have : x &&& 2 ^ k = 0 := by
      apply Nat.eq_of_testBit_eq
      intro i
      simp only [Nat.testBit_and, Nat.zero_testBit, Nat.testBit_two_pow]
      by_cases hi : k = i
      · subst hi; simp [h]
      · simp [hi]
    simp [this]

theorem or_ne_zero (a b : Nat) : (a ||| b != 0) = (a != 0 || b != 0) := by
  have key : a ||| b = 0 ↔ a = 0 ∧ b = 0 := by
    constructor
    · intro h
      constructor
      · apply Nat.eq_of_testBit_eq
        intro i
        have := congrArg (fun n => n.testBit i) h
        simp only [Nat.testBit_or, Nat.zero_testBit, Bool.or_eq_false_iff] at this
        simpa using this.1
      · apply Nat.eq_of_testBit_eq
        intro i
        have := congrArg (fun n => n.testBit i) h
        simp only [Nat.testBit_or, Nat.zero_testBit, Bool.or_eq_false_iff] at this
        simpa using this.2
    · rintro ⟨rfl, rfl⟩
      rfl
  by_cases h : a ||| b = 0
  · obtain ⟨rfl, rfl⟩ := key.mp h
    rfl
  · have h2 : ¬ (a = 0 ∧ b = 0) := fun q => h (key.mpr q)
    by_cases ha : a = 0
    · have hb : b ≠ 0 := fun q => h2 ⟨ha, q⟩
      have e1 : (a ||| b != 0) = true := by simpa using h
      have e2 : (b != 0) = true := by simpa using hb
      rw [e1, e2, Bool.or_true]
    · have e1 : (a ||| b != 0) = true := by simpa using h
      have e2 : (a != 0) = true := by simpa using ha
      rw [e1, e2, Bool.true_or]

theorem and_two_bits_ne_zero (x j k : Nat) :
    (x &&& ((1 <<< j) ||| (1 <<< k)) != 0) = (x.testBit j || x.testBit k) := by
  rw [Nat.and_or_distrib_left, or_ne_zero, and_bit_ne_zero, and_bit_ne_zero]

theorem AddType_or (m : Nat) (x : Json) : AddType m x = m ||| AddType 0 x := by
  simp only [AddType]
  split_ifs <;> simp

theorem testBit_foldl_AddType (k : Nat) :
    ∀ (L : List Json) (m : Nat),
      (L.foldl AddType m).testBit k = (m.testBit k || L.any (fun x => (AddType 0 x).testBit k))
  | [], m => by simp
  | x :: L, m => by
    rw [List.foldl_cons, testBit_foldl_AddType k L, AddType_or, Nat.testBit_or, List.any_cons,
      Bool.or_assoc]

theorem AddType_str (s : String) :
    AddType 0 (.str s) =
      if s = "null" then 1 else if s = "boolean" then 2 else if s = "object" then 4
      else if s = "array" then 8 else if s = "string" then 16 else if s = "integer" then 64
      else if s = "number" then 96 else 0 := by
  simp only [AddType, Json.eq, beq_iff_eq]
  split_ifs <;> rfl

theorem AddType_str_testBit (s : String) (k : Nat) (hk : k < 7) :
    (AddType 0 (.str s)).testBit k = namesSetBit [s] k := by
  rw [AddType_str]
  interval_cases k <;> simp only [namesSetBit, List.mem_singleton] <;>
    split_ifs with h1 h2 h3 h4 h5 h6 h7 <;>
    first
    | (subst h1; decide)
    | (subst h2; decide)
    | (subst h3; decide)
    | (subst h4; decide)
    | (subst h5; decide)
    | (subst h6; decide)
    | (subst h7; decide)
    | simp [eq_comm, *]

theorem namesSetBit_cons (s : String) (names : List String) (k : Nat) :
    namesSetBit (s :: names) k = (namesSetBit [s] k || namesSetBit names k) := by
  have e : ∀ name : String, decide (name ∈ s :: names)
      = (decide (name ∈ [s]) || decide (name ∈ names)) := by
    intro name
    by_cases h : name = s
    · subst h; simp
    · simp [h]
  unfold namesSetBit
  split <;> simp only [e]
  generalize decide ("integer" ∈ [s]) = a
  generalize decide ("number" ∈ [s]) = b
  generalize decide ("integer" ∈ names) = c
  generalize decide ("number" ∈ names) = e
  cases a <;> cases b <;> cases c <;> cases e <;> rfl

theorem any_AddType_testBit (names : List String) (k : Nat) (hk : k < 7) :
    (names.map Json.str).any (fun x => (AddType 0 x).testBit k) = namesSetBit names k := by
  induction names with
  | nil => interval_cases k <;> rfl
  | cons s names ih =>
    rw [List.map_cons, List.any_cons, ih, AddType_str_testBit s k hk, ← namesSetBit_cons]

theorem typeMask_testBit (names : List String) (k : Nat) (hk : k < 7) :
    (typeMask [("type", .arr (names.map Json.str))]).testBit k = namesSetBit names k := by
  have : typeMask [("type", .arr (names.map Json.str))]
      = (names.map Json.str).foldl AddType 0 := rfl
  rw [this, testBit_foldl_AddType, Nat.zero_testBit, Bool.false_or, any_AddType_testBit names k hk]

theorem typeMask_str (name : String) :
    typeMask [("type", .str name)] = typeMask [("type", .arr ([name].map Json.str))] := rfl

theorem admits_typeMask (names : List String) (e : Event)
    (he : e.isScalar = true ∨ e = .StartObject ∨ e = .StartArray) :
    (logicSchema (typeMask [("type", .arr (names.map Json.str))]) none none none none).admits e
      = admitsNames names e := by
  have h := fun k hk => typeMask_testBit names k hk
  cases e <;>
    simp only [BaseSchema.admits, BaseSchema.hasType, GenericSchemaValidator.logicSchema_type_,
      and_bit_ne_zero, and_two_bits_ne_zero, admitsNames, kNullSchemaType, kBooleanSchemaType,
      kObjectSchemaType, kArraySchemaType, kStringSchemaType, kNumberSchemaType,
      kIntegerSchemaType] <;>
    first
    | (rw [h _ (by decide)]; rfl)
    | (rw [h _ (by decide), h _ (by decide)]
       simp only [namesSetBit]
       generalize decide ("integer" ∈ names) = a
       generalize decide ("number" ∈ names) = b
       cases a <;> cases b <;> rfl)
    | (simp [Event.isScalar] at he)

/-- The mask with every bit set admits every event. -/
theorem admits_full (A B O : Option (List BaseSchema)) (N : Option BaseSchema) (e : Event) :
    (logicSchema 127 A B O N).admits e = true := by
  cases e <;>
    simp only [BaseSchema.admits, BaseSchema.hasType, GenericSchemaValidator.logicSchema_type_] <;>
    rfl

namespace GenericSchemaValidator


theorem HANDLE_OUTPUT_valid (v : GenericSchemaValidator) (e : Event) :
    (v.HANDLE_OUTPUT_ e).1.valid_ = (v.HANDLE_OUTPUT_ e).2 := rfl

theorem HANDLE_END_valid (v : GenericSchemaValidator) (e : Event) (v1 : GenericSchemaValidator)
    (r : Bool) (h : v.HANDLE_END_ e = some (v1, r)) : v1.valid_ = r := by
  unfold HANDLE_END_ at h
  split at h
  · cases h
  · cases h; rfl
  · cases h; rfl

theorem HANDLE_BEGIN_valid (v : GenericSchemaValidator) (e : Event) (v1 : GenericSchemaValidator)
    (h : v.HANDLE_BEGIN_ e = some (v1, false)) : v1.valid_ = false := by
  unfold HANDLE_BEGIN_ at h
  simp only at h
  split at h
  · cases h; rfl
  · split at h
    · cases h
    · split at h
      · cases h
      · cases h
      · cases h; rfl

theorem HANDLE_CURRENT_valid (v : GenericSchemaValidator) (e : Event) (v1 : GenericSchemaValidator)
    (h : v.HANDLE_CURRENT_ e = some (v1, false)) : v1.valid_ = false := by
  unfold HANDLE_CURRENT_ at h
  split at h
  · cases h
  · split at h
    · cases h
    · cases h
    · cases h; rfl

/-- The value an event method returns is the flag `valid_` it leaves. -/
theorem handleWith_valid (sub : GenericSchemaValidator → Event → Option GenericSchemaValidator)
    (v : GenericSchemaValidator) (e : Event) (v1 : GenericSchemaValidator) (r : Bool)
    (h : handleWith sub v e = some (v1, r)) : v1.valid_ = r := by
  rcases hv : v.valid_ with _ | _
  · rw [handleWith_of_invalid sub v e hv] at h
    cases h; exact hv
  · have hval : HANDLE_VALUE_ sub v e = some (v1, r) → v1.valid_ = r := by
      intro h
      simp only [HANDLE_VALUE_, hv, Bool.not_true, Bool.false_eq_true, if_false] at h
      split at h
      · cases h
      · next v2 hb => cases h; exact HANDLE_BEGIN_valid v e _ hb
      · split at h
        · cases h
        · exact HANDLE_END_valid _ e _ _ h
    have hstart : HANDLE_START_ sub v e = some (v1, r) → v1.valid_ = r := by
      intro h
      simp only [HANDLE_START_, hv, Bool.not_true, Bool.false_eq_true, if_false] at h
      split at h
      · cases h
      · next v2 hb => cases h; exact HANDLE_BEGIN_valid v e _ hb
      · split at h
        · cases h
        · cases h; rfl
    have hclose : HANDLE_CLOSE_ sub v e = some (v1, r) → v1.valid_ = r := by
      intro h
      simp only [HANDLE_CLOSE_, hv, Bool.not_true, Bool.false_eq_true, if_false] at h
      split at h
      · cases h
      · next v2 hb => cases h; exact HANDLE_CURRENT_valid v e _ hb
      · split at h
        · cases h
        · exact HANDLE_END_valid _ e _ _ h
    cases e with
    | Key str copy =>
      simp only [handleWith, Key, hv, Bool.not_true, Bool.false_eq_true, if_false] at h
      split at h
      · cases h
      · next v2 hb => cases h; exact HANDLE_CURRENT_valid v _ _ hb
      · split at h
        · cases h
        · cases h; rfl
    | StartObject => exact hstart h
    | StartArray => exact hstart h
    | EndObject n => exact hclose h
    | EndArray n => exact hclose h
    | _ => exact hval h


theorem stepStack_allNoSubs (f : GenericSchemaValidator → Option GenericSchemaValidator) :
    ∀ (low : List Context), AllNoSubs low → stepStack f low = some low
  | [], _ => rfl
  | c :: low, h => by
    rw [stepStack_cons_noSubs f c (h c (List.mem_cons_self _ _)),
      stepStack_allNoSubs f low (fun x hx => h x (List.mem_cons_of_mem _ hx))]
    rfl

theorem stepStack_append_noSubs (f : GenericSchemaValidator → Option GenericSchemaValidator)
    (low : List Context) (hlow : AllNoSubs low) :
    ∀ (st : List Context), stepStack f (st ++ low) = (stepStack f st).map (fun st1 => st1 ++ low)
  | [] => by simp [stepStack_allNoSubs f low hlow, stepStack]
  | c :: st => by
    have hcons : ∀ l, stepStack f (c :: l)
        = match stepContext f c, stepStack f l with
          | some context1, some rest1 => some (context1 :: rest1)
          | _, _ => none := fun _ => rfl
    rw [List.cons_append, hcons, hcons, stepStack_append_noSubs f low hlow st]
    cases stepContext f c <;> cases stepStack f st <;> rfl

theorem HANDLE_BEGIN_eq (v : GenericSchemaValidator) (e : Event) :
    v.HANDLE_BEGIN_ e
      = if !v.BeginValue.2 then some ({ v.BeginValue.1 with valid_ := false }, false)
        else v.BeginValue.1.HANDLE_CURRENT_ e := rfl

theorem BeginValue_over (root : BaseSchema) (out : OutputHandler) (low : List Context)
    (w : GenericSchemaValidator) (hw : w.schemaStack_ ≠ []) :
    (over root out low w).BeginValue = (over root out low w.BeginValue.1, w.BeginValue.2) := by
  obtain ⟨rW, oW, st, x⟩ := w
  cases st with
  | nil => exact absurd rfl hw
  | cons t tail =>
    simp only [over, BeginValue, List.cons_append, PushSchema]
    split
    · rfl
    · split <;> rfl

theorem HANDLE_CURRENT_over (root : BaseSchema) (out : OutputHandler) (low : List Context)
    (w : GenericSchemaValidator) (e : Event) (hw : w.schemaStack_ ≠ []) :
    (over root out low w).HANDLE_CURRENT_ e
      = (w.HANDLE_CURRENT_ e).map (fun p => (over root out low p.1, p.2)) := by
  obtain ⟨rW, oW, st, x⟩ := w
  cases st with
  | nil => exact absurd rfl hw
  | cons t tail =>
    simp only [over, HANDLE_CURRENT_, List.cons_append]
    rcases t.schema.method t e with _ | ⟨c1, _ | _⟩ <;> rfl

theorem HANDLE_LOGIC_over (sub : GenericSchemaValidator → Event → Option GenericSchemaValidator)
    (root : BaseSchema) (out : OutputHandler) (low : List Context) (hlow : AllNoSubs low)
    (w : GenericSchemaValidator) (e : Event) :
    HANDLE_LOGIC_ sub (over root out low w) e
      = (HANDLE_LOGIC_ sub w e).map (over root out low) := by
  simp only [HANDLE_LOGIC_, over, stepStack_append_noSubs _ low hlow]
  cases stepStack (fun w => sub w e) w.schemaStack_ <;> rfl

theorem EndValue_over (root : BaseSchema) (out : OutputHandler) (low : List Context)
    (hlow : NoMulti low) (w : GenericSchemaValidator) (hw : w.schemaStack_ ≠ []) :
    (over root out low w).EndValue
      = w.EndValue.map (fun p => (over root out low p.1, p.2)) := by
  obtain ⟨rW, oW, st, x⟩ := w
  cases st with
  | nil => exact absurd rfl hw
  | cons t tail =>
    simp only [over, EndValue, List.cons_append]
    rcases t.schema.EndValue t with _ | _ | _
    · rfl
    · rfl
    · cases tail with
      | nil =>
        cases low with
        | nil => rfl
        | cons p low1 =>
          simp [hlow p (List.mem_cons_self _ _)]
      | cons p tail1 =>
        simp only [List.cons_append]
        split <;> rfl

theorem HANDLE_OUTPUT_over (root : BaseSchema) (out : OutputHandler) (low : List Context)
    (w : GenericSchemaValidator) (e : Event) (hout : ∀ h e, out.answer h e = true)
    (hw : ∀ h e, w.outputHandler_.answer h e = true) :
    (over root out low w).HANDLE_OUTPUT_ e
      = (over root (out.receive [e]) low (w.HANDLE_OUTPUT_ e).1, (w.HANDLE_OUTPUT_ e).2) := by
  simp [HANDLE_OUTPUT_, over, call_eq _ hout, call_eq _ hw]

theorem HANDLE_END_over (root : BaseSchema) (out : OutputHandler) (low : List Context)
    (hlow : NoMulti low) (w : GenericSchemaValidator) (e : Event) (hw : w.schemaStack_ ≠ [])
    (hout : ∀ h e, out.answer h e = true) (hwo : ∀ h e, w.outputHandler_.answer h e = true)
    (w1 : GenericSchemaValidator) (r : Bool) (h : w.HANDLE_END_ e = some (w1, r)) :
    ∃ out1, (∀ h e, out1.answer h e = true) ∧
      (over root out low w).HANDLE_END_ e = some (over root out1 low w1, r) := by
  unfold HANDLE_END_ at h ⊢
  rw [EndValue_over root out low hlow w hw]
  rcases hE : w.EndValue with _ | ⟨w2, _ | _⟩
  · simp [hE] at h
  · simp only [hE] at h
    cases h
    exact ⟨out, hout, rfl⟩
  · simp only [hE] at h
    cases h
    refine ⟨out.receive [e], receive_answer out hout [e], ?_⟩
    have hw2 : ∀ h e, w2.outputHandler_.answer h e = true := by
      unfold EndValue at hE
      split at hE
      · cases hE
      · split at hE
        · cases hE
        · cases hE
        · split at hE
          · cases hE; exact hwo
          · split at hE <;> (cases hE; exact hwo)
    simp only [Option.map_some']
    rw [HANDLE_OUTPUT_over root out low w2 e hout hw2]
    rfl


theorem handleWith_eq (sub : GenericSchemaValidator → Event → Option GenericSchemaValidator)
    (v : GenericSchemaValidator) (e : Event) (hv : v.valid_ = true) :
    handleWith sub v e
      = if e.isBegin then
          (if !v.BeginValue.2 then some ({ v.BeginValue.1 with valid_ := false }, false)
           else afterBegin sub e.isClose v.BeginValue.1 e)
        else afterBegin sub e.isClose v e := by
  rcases hb : v.BeginValue.2 with _ | _ <;> cases e <;>
    simp only [handleWith, HANDLE_VALUE_, HANDLE_START_, HANDLE_CLOSE_, Key, hv, Event.isBegin,
      Event.isClose, afterBegin, HANDLE_BEGIN_eq, Bool.not_true, Bool.not_false,
      Bool.false_eq_true, if_false, if_true, hb]


theorem sameShape_refl (st : List Context) : SameShape st st := rfl

theorem sameShape_trans {a b c : List Context} (h1 : SameShape a b) (h2 : SameShape b c) :
    SameShape a c := by
  unfold SameShape at *
  rw [h2, h1]

theorem sameShape_cons {c c1 : Context} {st st1 : List Context} (hc : c1.shape = c.shape)
    (h : SameShape st st1) : SameShape (c :: st) (c1 :: st1) := by
  unfold SameShape at *
  simp [hc, h]

theorem sameShape_cons_inv {c : Context} {st st1 : List Context} (h : SameShape (c :: st) st1) :
    ∃ c1 tl, st1 = c1 :: tl ∧ c1.shape = c.shape ∧ SameShape st tl := by
  unfold SameShape at h
  cases st1 with
  | nil => simp at h
  | cons c1 tl =>
    simp only [List.map_cons, List.cons.injEq] at h
    exact ⟨c1, tl, rfl, h.1, h.2⟩

theorem sameShape_nil_inv {st1 : List Context} (h : SameShape [] st1) : st1 = [] := by
  unfold SameShape at h
  simpa using h

theorem sameShape_noMulti {st st1 : List Context} (h : SameShape st st1) (hn : NoMulti st) :
    NoMulti st1 := by
  induction st generalizing st1 with
  | nil => rw [sameShape_nil_inv h]; intro c hc; cases hc
  | cons c st ih =>
    obtain ⟨c1, tl, rfl, hc, htl⟩ := sameShape_cons_inv h
    intro x hx
    rcases List.mem_cons.mp hx with rfl | hx
    · have := hn c (List.mem_cons_self _ _)
      simp only [Context.shape, Prod.mk.injEq] at hc
      rw [hc.2.2, this]
    · exact ih htl (fun y hy => hn y (List.mem_cons_of_mem _ hy)) x hx

theorem stepContext_shape (f : GenericSchemaValidator → Option GenericSchemaValidator)
    (c c1 : Context) (h : stepContext f c = some c1) :
    c1.shape = c.shape ∧ c1.valueSchema = c.valueSchema := by
  unfold stepContext at h
  split at h
  · cases h; exact ⟨rfl, rfl⟩
  · cases h

theorem stepStack_shape (f : GenericSchemaValidator → Option GenericSchemaValidator) :
    ∀ (st st1 : List Context), stepStack f st = some st1 → SameShape st st1
  | [], st1, h => by
    simp only [stepStack, Option.some.injEq] at h
    subst h; rfl
  | c :: st, st1, h => by
    have hcons : stepStack f (c :: st)
        = match stepContext f c, stepStack f st with
          | some context1, some rest1 => some (context1 :: rest1)
          | _, _ => none := rfl
    rw [hcons] at h
    rcases hc : stepContext f c with _ | c1
    · simp [hc] at h
    · rcases hs : stepStack f st with _ | tl
      · simp [hc, hs] at h
      · simp only [hc, hs, Option.some.injEq] at h
        subst h
        exact sameShape_cons (stepContext_shape f c c1 hc).1 (stepStack_shape f st tl hs)

theorem stepStack_head (f : GenericSchemaValidator → Option GenericSchemaValidator)
    (c : Context) (st st1 : List Context) (h : stepStack f (c :: st) = some st1) :
    ∃ c1 tl, st1 = c1 :: tl ∧ c1.shape = c.shape ∧ c1.valueSchema = c.valueSchema ∧
      SameShape st tl := by
  have hcons : stepStack f (c :: st)
      = match stepContext f c, stepStack f st with
        | some context1, some rest1 => some (context1 :: rest1)
        | _, _ => none := rfl
  rw [hcons] at h
  rcases hc : stepContext f c with _ | c1
  · simp [hc] at h
  · rcases hs : stepStack f st with _ | tl
    · simp [hc, hs] at h
    · simp only [hc, hs, Option.some.injEq] at h
      subst h
      exact ⟨c1, tl, rfl, (stepContext_shape f c c1 hc).1, (stepContext_shape f c c1 hc).2,
        stepStack_shape f st tl hs⟩


theorem create_shape (s : BaseSchema) (c : Context) :
    (s.CreateLogicValidators c).schema = c.schema ∧
    (s.CreateLogicValidators c).multiTypeSchema = c.multiTypeSchema ∧
    (s.CreateLogicValidators c).inArray = c.inArray ∧
    (s.CreateLogicValidators c).valueSchema = c.valueSchema := ⟨rfl, rfl, rfl, rfl⟩

theorem key_fields (s : BaseSchema) (c c1 : Context) (k : String) (b : Bool)
    (h : s.Key c k = some (c1, b)) :
    c1.schema = c.schema ∧ c1.multiTypeSchema = c.multiTypeSchema ∧ c1.inArray = c.inArray ∧
      (b = true → c1.valueSchema.isSome = true) := by
  unfold BaseSchema.Key at h
  simp only at h
  split at h
  · cases h; exact ⟨rfl, rfl, rfl, fun h => by cases h⟩
  · split at h
    · split at h
      · cases h
      · split at h
        · split at h
          · cases h
          · split at h
            · cases h
              split <;> exact ⟨rfl, rfl, rfl, fun _ => rfl⟩
            · cases h
        · cases h
          split <;> exact ⟨rfl, rfl, rfl, fun _ => rfl⟩
    · simp only [BaseSchema.KeyOther, Option.some.injEq] at h
      split at h
      · cases h; exact ⟨rfl, rfl, rfl, fun _ => rfl⟩
      · split at h
        · cases h; exact ⟨rfl, rfl, rfl, fun _ => rfl⟩
        · split at h
          · cases h; exact ⟨rfl, rfl, rfl, fun _ => rfl⟩
          · cases h; exact ⟨rfl, rfl, rfl, fun h => by cases h⟩

theorem endObject_fields (s : BaseSchema) (c c1 : Context) (n : Nat) (b : Bool)
    (h : s.EndObject c n = some (c1, b)) :
    c1.schema = c.schema ∧ c1.multiTypeSchema = c.multiTypeSchema := by
  unfold BaseSchema.EndObject at h
  simp only at h
  repeat' split at h
  all_goals first | cases h; exact ⟨rfl, rfl⟩ | cases h

theorem method_fields (s : BaseSchema) (c c1 : Context) (e : Event) (b : Bool)
    (h : s.method c e = some (c1, b)) :
    c1.schema = c.schema ∧ c1.multiTypeSchema = c.multiTypeSchema := by
  cases e with
  | Key k cp => exact ⟨(key_fields s c c1 k b h).1, (key_fields s c c1 k b h).2.1⟩
  | EndObject n => exact endObject_fields s c c1 n b h
  | Null =>
    simp only [BaseSchema.method, BaseSchema.Null, Option.some.injEq, Prod.mk.injEq] at h
    obtain ⟨rfl, -⟩ := h; exact ⟨rfl, rfl⟩
  | Bool_ x =>
    simp only [BaseSchema.method, BaseSchema.Bool_, Option.some.injEq, Prod.mk.injEq] at h
    obtain ⟨rfl, -⟩ := h; exact ⟨rfl, rfl⟩
  | Int_ x =>
    simp only [BaseSchema.method, BaseSchema.Int_, BaseSchema.Integer, Option.some.injEq] at h
    split at h <;> (cases h; exact ⟨rfl, rfl⟩)
  | Uint x =>
    simp only [BaseSchema.method, BaseSchema.Uint, BaseSchema.Integer, Option.some.injEq] at h
    split at h <;> (cases h; exact ⟨rfl, rfl⟩)
  | Int64 x =>
    simp only [BaseSchema.method, BaseSchema.Int64, BaseSchema.Integer, Option.some.injEq] at h
    split at h <;> (cases h; exact ⟨rfl, rfl⟩)
  | Uint64 x =>
    simp only [BaseSchema.method, BaseSchema.Uint64, BaseSchema.Integer, Option.some.injEq] at h
    split at h <;> (cases h; exact ⟨rfl, rfl⟩)
  | Double x =>
    simp only [BaseSchema.method, BaseSchema.Double, Option.some.injEq] at h
    split at h <;> (cases h; exact ⟨rfl, rfl⟩)
  | String_ x cp =>
    simp only [BaseSchema.method, BaseSchema.String_, Option.some.injEq] at h
    repeat' split at h
    all_goals (cases h; exact ⟨rfl, rfl⟩)
  | StartObject =>
    simp only [BaseSchema.method, BaseSchema.StartObject, Option.some.injEq] at h
    split at h <;> (cases h; exact ⟨rfl, rfl⟩)
  | StartArray =>
    simp only [BaseSchema.method, BaseSchema.StartArray, Option.some.injEq] at h
    split at h <;> (cases h; exact ⟨rfl, rfl⟩)
  | EndArray n =>
    simp only [BaseSchema.method, BaseSchema.EndArray, Option.some.injEq] at h
    split at h <;> (cases h; exact ⟨rfl, rfl⟩)

theorem startObject_inArray (s : BaseSchema) (c c1 : Context) (b : Bool)
    (h : s.method c .StartObject = some (c1, b)) : c1.inArray = c.inArray := by
  simp only [BaseSchema.method, BaseSchema.StartObject, Option.some.injEq] at h
  split at h <;> (cases h; rfl)

theorem startArray_inArray (s : BaseSchema) (c c1 : Context)
    (h : s.method c .StartArray = some (c1, true)) : c1.inArray = true := by
  simp only [BaseSchema.method, BaseSchema.StartArray, Option.some.injEq] at h
  split at h <;> cases h <;> rfl


theorem HANDLE_CURRENT_inv (w w1 : GenericSchemaValidator) (e : Event) (r : Bool)
    (h : w.HANDLE_CURRENT_ e = some (w1, r)) :
    ∃ c rest c1, w.schemaStack_ = c :: rest ∧ c.schema.method c e = some (c1, r) ∧
      w1.schemaStack_ = c1 :: rest ∧ w1.outputHandler_ = w.outputHandler_ ∧
      w1.root_ = w.root_ ∧ (r = true → w1.valid_ = w.valid_) := by
  unfold HANDLE_CURRENT_ at h
  split at h
  · cases h
  · next c rest hst =>
    split at h
    · cases h
    · next c1 hm => cases h; exact ⟨c, rest, c1, hst, hm, rfl, rfl, rfl, fun _ => rfl⟩
    · next c1 hm => cases h; exact ⟨c, rest, c1, hst, hm, rfl, rfl, rfl, fun h => by cases h⟩

theorem HANDLE_LOGIC_inv (sub : GenericSchemaValidator → Event → Option GenericSchemaValidator)
    (w w1 : GenericSchemaValidator) (e : Event) (h : HANDLE_LOGIC_ sub w e = some w1) :
    stepStack (fun x => sub x e) w.schemaStack_ = some w1.schemaStack_ ∧
      w1.outputHandler_ = w.outputHandler_ ∧ w1.root_ = w.root_ ∧ w1.valid_ = w.valid_ := by
  unfold HANDLE_LOGIC_ at h
  rcases hs : stepStack (fun x => sub x e) w.schemaStack_ with _ | st
  · simp [hs] at h
  · simp only [hs, Option.map_some', Option.some.injEq] at h
    subst h
    exact ⟨rfl, rfl, rfl, rfl⟩

theorem EndValue_inv (w w1 : GenericSchemaValidator) (h : w.EndValue = some (w1, true)) :
    ∃ c rest, w.schemaStack_ = c :: rest ∧ c.schema.EndValue c = some true ∧
      w1.outputHandler_ = w.outputHandler_ ∧ w1.root_ = w.root_ ∧ w1.valid_ = w.valid_ ∧
      (NoMulti rest → w1.schemaStack_ = rest) := by
  unfold EndValue at h
  split at h
  · cases h
  · next c rest hst =>
    split at h
    · cases h
    · cases h
    · next hE =>
      split at h
      · cases h; exact ⟨c, [], hst, hE, rfl, rfl, rfl, fun _ => rfl⟩
      · next p rest1 =>
        refine ⟨c, p :: rest1, hst, hE, ?_⟩
        split at h
        · next hp =>
          cases h
          refine ⟨rfl, rfl, rfl, fun hn => ?_⟩
          rw [hn p (List.mem_cons_self _ _)] at hp
          cases hp
        · cases h; exact ⟨rfl, rfl, rfl, fun _ => rfl⟩

theorem EndValue_out (w w1 : GenericSchemaValidator) (b : Bool)
    (h : w.EndValue = some (w1, b)) : w1.outputHandler_ = w.outputHandler_ := by
  unfold EndValue at h
  split at h
  · cases h
  · split at h
    · cases h
    · cases h; rfl
    · split at h
      · cases h; rfl
      · split at h <;> (cases h; rfl)

theorem HANDLE_END_out (w w1 : GenericSchemaValidator) (e : Event) (r : Bool)
    (hwo : ∀ h e, w.outputHandler_.answer h e = true) (h : w.HANDLE_END_ e = some (w1, r)) :
    ∀ h e, w1.outputHandler_.answer h e = true := by
  unfold HANDLE_END_ at h
  split at h
  · cases h
  · next wC hE =>
    cases h
    show ∀ h e, wC.outputHandler_.answer h e = true
    rw [EndValue_out w wC false hE]; exact hwo
  · next wC hE =>
    simp only [Option.some.injEq] at h
    have h1 : (wC.HANDLE_OUTPUT_ e).1 = w1 := by rw [h]
    subst h1
    have hC : ∀ h e, wC.outputHandler_.answer h e = true := by
      rw [EndValue_out w wC true hE]; exact hwo
    simp only [HANDLE_OUTPUT_, call_eq _ hC]
    exact receive_answer _ hC [e]

theorem HANDLE_END_inv (w w1 : GenericSchemaValidator) (e : Event)
    (h : w.HANDLE_END_ e = some (w1, true)) :
    ∃ c rest, w.schemaStack_ = c :: rest ∧ c.schema.EndValue c = some true ∧
      w1.root_ = w.root_ ∧ (NoMulti rest → w1.schemaStack_ = rest) := by
  unfold HANDLE_END_ at h
  split at h
  · cases h
  · cases h
  · next w2 hE =>
    obtain ⟨c, rest, hst, hEv, -, hr, -, hpop⟩ := EndValue_inv w w2 hE
    simp only [Option.some.injEq] at h
    have h1 : (w2.HANDLE_OUTPUT_ e).1 = w1 := by rw [h]
    subst h1
    exact ⟨c, rest, hst, hEv, hr, hpop⟩

/-- The stack after the statements that follow `BeginValue`, when they succeed. -/
theorem afterBegin_shape (sub : GenericSchemaValidator → Event → Option GenericSchemaValidator)
    (cl : Bool) (w w1 : GenericSchemaValidator) (e : Event) (c : Context) (rest : List Context)
    (hst : w.schemaStack_ = c :: rest) (hnm : NoMulti rest)
    (h : afterBegin sub cl w e = some (w1, true)) :
    ∃ c1 c2 rest1, c.schema.method c e = some (c1, true) ∧ c2.shape = c1.shape ∧
      c2.valueSchema = c1.valueSchema ∧ SameShape rest rest1 ∧ w1.root_ = w.root_ ∧
      w1.schemaStack_ = (if cl then rest1 else c2 :: rest1) := by
  unfold afterBegin at h
  split at h
  · cases h
  · cases h
  · next wA hcur =>
    obtain ⟨c0, rest0, c1, hst0, hm, hstA, -, hrA, -⟩ := HANDLE_CURRENT_inv w wA e true hcur
    rw [hst] at hst0
    cases hst0
    split at h
    · cases h
    · next wB hlog =>
      obtain ⟨hstep, -, hrB, -⟩ := HANDLE_LOGIC_inv sub wA wB e hlog
      rw [hstA] at hstep
      obtain ⟨c2, rest1, hstB, hc2, hv2, hsh⟩ := stepStack_head _ c1 rest _ hstep
      refine ⟨c1, c2, rest1, hm, hc2, hv2, hsh, ?_⟩
      cases cl with
      | false =>
        simp only [Bool.false_eq_true, if_false, Option.some.injEq] at h
        have h1 : (wB.HANDLE_OUTPUT_ e).1 = w1 := by rw [h]
        subst h1
        exact ⟨hrB.trans hrA, hstB⟩
      | true =>
        simp only [if_true] at h
        obtain ⟨c3, rest3, hst3, -, hr3, hpop⟩ := HANDLE_END_inv wB w1 e h
        rw [hstB] at hst3
        cases hst3
        exact ⟨hr3.trans (hrB.trans hrA), hpop (sameShape_noMulti hsh hnm)⟩

theorem afterBegin_over (sub : GenericSchemaValidator → Event → Option GenericSchemaValidator)
    (root : BaseSchema) (out : OutputHandler) (low : List Context) (hns : AllNoSubs low)
    (hnm : NoMulti low) (hout : ∀ h e, out.answer h e = true) (cl : Bool)
    (w w1 : GenericSchemaValidator) (e : Event) (r : Bool) (hw : w.schemaStack_ ≠ [])
    (hwo : ∀ h e, w.outputHandler_.answer h e = true)
    (h : afterBegin sub cl w e = some (w1, r)) :
    ∃ out1, (∀ h e, out1.answer h e = true) ∧ (∀ h e, w1.outputHandler_.answer h e = true) ∧
      afterBegin sub cl (over root out low w) e = some (over root out1 low w1, r) := by
  unfold afterBegin at h ⊢
  rw [HANDLE_CURRENT_over root out low w e hw]
  rcases hcur : w.HANDLE_CURRENT_ e with _ | ⟨wA, _ | _⟩
  · simp [hcur] at h
  · simp only [hcur, Option.some.injEq, Prod.mk.injEq] at h
    obtain ⟨rfl, rfl⟩ := h
    obtain ⟨_, _, _, _, _, _, ho, _, _⟩ := HANDLE_CURRENT_inv w wA e false hcur
    exact ⟨out, hout, by rw [ho]; exact hwo, rfl⟩
  · obtain ⟨c, rest, c1, _, _, hstA, hoA, _, _⟩ := HANDLE_CURRENT_inv w wA e true hcur
    simp only [hcur] at h
    simp only [Option.map_some']
    rw [HANDLE_LOGIC_over sub root out low hns wA e]
    rcases hlog : HANDLE_LOGIC_ sub wA e with _ | wB
    · simp [hlog] at h
    · obtain ⟨hstep, hoB, -, -⟩ := HANDLE_LOGIC_inv sub wA wB e hlog
      simp only [hlog] at h
      simp only [Option.map_some']
      have hwB : ∀ h e, wB.outputHandler_.answer h e = true := by
        rw [hoB, hoA]; exact hwo
      have hstB : wB.schemaStack_ ≠ [] := by
        rw [hstA] at hstep
        obtain ⟨c2, rest1, hstB, -⟩ := stepStack_head _ c1 rest _ hstep
        rw [hstB]; exact List.cons_ne_nil _ _
      cases cl with
      | false =>
        simp only [Bool.false_eq_true, if_false, Option.some.injEq] at h ⊢
        rw [HANDLE_OUTPUT_over root out low wB e hout hwB]
        have h2 : (wB.HANDLE_OUTPUT_ e).2 = r := by rw [h]
        have h1 : (wB.HANDLE_OUTPUT_ e).1 = w1 := by rw [h]
        refine ⟨out.receive [e], receive_answer out hout [e], ?_, by rw [h1, h2]⟩
        rw [← h1]
        simp only [HANDLE_OUTPUT_, call_eq _ hwB]
        exact receive_answer _ hwB [e]
      | true =>
        simp only [if_true] at h ⊢
        obtain ⟨out1, ho1, heq⟩ := HANDLE_END_over root out low hnm wB e hstB hout hwB w1 r h
        exact ⟨out1, ho1, HANDLE_END_out wB w1 e r hwB h, heq⟩


theorem schema_BeginValue_shape (s : BaseSchema) (c : Context) :
    (s.BeginValue c).1.shape = c.shape := by
  unfold BaseSchema.BeginValue
  repeat' split
  all_goals rfl

theorem schema_BeginValue_ready (s : BaseSchema) (c : Context)
    (hr : c.inArray = true ∨ c.valueSchema.isSome = true) (h : (s.BeginValue c).2 = true) :
    (s.BeginValue c).1.valueSchema.isSome = true := by
  unfold BaseSchema.BeginValue at h ⊢
  rcases hin : c.inArray with _ | _
  · simp only [hin, Bool.false_eq_true, if_false]
    rcases hr with hr | hr
    · rw [hin] at hr; cases hr
    · exact hr
  · simp only [hin, if_true] at h ⊢
    split
    · rfl
    · next itemsTuple hl ht =>
      simp only [hl, ht] at h
      split
      · next hlt =>
        simp only [List.getElem?_eq_getElem hlt, Option.isSome_some]
      · next hlt =>
        simp only [hlt, if_false] at h
        split
        · rfl
        · next ha => simp only [ha, Bool.false_eq_true, if_false] at h
    · rfl

theorem BeginValue_fields (w : GenericSchemaValidator) :
    w.BeginValue.1.outputHandler_ = w.outputHandler_ ∧ w.BeginValue.1.root_ = w.root_ ∧
      w.BeginValue.1.valid_ = w.valid_ ∧ w.BeginValue.1.schemaStack_ ≠ [] := by
  unfold BeginValue
  split
  · exact ⟨rfl, rfl, rfl, List.cons_ne_nil _ _⟩
  · simp only
    split
    · exact ⟨rfl, rfl, rfl, List.cons_ne_nil _ _⟩
    · split <;> exact ⟨rfl, rfl, rfl, List.cons_ne_nil _ _⟩

theorem BeginValue_ready (w : GenericSchemaValidator) (t : Context) (tail : List Context)
    (hst : w.schemaStack_ = t :: tail) (hr : t.inArray = true ∨ t.valueSchema.isSome = true)
    (h : w.BeginValue.2 = true) :
    ∃ s, w.BeginValue.1.schemaStack_ = Context.make s :: (t.schema.BeginValue t).1 :: tail := by
  obtain ⟨rW, oW, st, x⟩ := w
  simp only at hst
  subst hst
  simp only [BeginValue] at h ⊢
  rcases hb : (t.schema.BeginValue t).2 with _ | _
  · simp [hb] at h
  · simp only [hb, Bool.not_true, Bool.false_eq_true, if_false]
    have := schema_BeginValue_ready t.schema t hr hb
    rcases hv : (t.schema.BeginValue t).1.valueSchema with _ | s
    · rw [hv] at this; cases this
    · exact ⟨s, rfl⟩

theorem BeginValue_fresh (w : GenericSchemaValidator) (hst : w.schemaStack_ = []) :
    w.BeginValue = (⟨w.root_, w.outputHandler_, [Context.make w.root_], w.valid_⟩, true) := by
  obtain ⟨rW, oW, st, x⟩ := w
  simp only at hst
  subst hst
  rfl

/-- One event on a validator and on the same validator with more contexts,
which own no validators, below its own. -/
theorem step_over (sub : GenericSchemaValidator → Event → Option GenericSchemaValidator)
    (root : BaseSchema) (out : OutputHandler) (low : List Context) (hns : AllNoSubs low)
    (hnm : NoMulti low) (hout : ∀ h e, out.answer h e = true)
    (w w1 : GenericSchemaValidator) (e : Event) (r : Bool)
    (hw : w.valid_ = true → w.schemaStack_ ≠ [])
    (hwo : ∀ h e, w.outputHandler_.answer h e = true)
    (h : handleWith sub w e = some (w1, r)) :
    ∃ out1, (∀ h e, out1.answer h e = true) ∧ (∀ h e, w1.outputHandler_.answer h e = true) ∧
      handleWith sub (over root out low w) e = some (over root out1 low w1, r) := by
  rcases hv : w.valid_ with _ | _
  · rw [handleWith_of_invalid sub w e hv] at h
    cases h
    exact ⟨out, hout, hwo, handleWith_of_invalid sub _ e hv⟩
  · have hne := hw hv
    rw [handleWith_eq sub w e hv] at h
    rw [handleWith_eq sub _ e (show (over root out low w).valid_ = true from hv)]
    obtain ⟨hbo, -, -, hbne⟩ := BeginValue_fields w
    rcases hbeg : e.isBegin with _ | _
    · simp only [hbeg, Bool.false_eq_true, if_false] at h ⊢
      exact afterBegin_over sub root out low hns hnm hout _ w w1 e r hne hwo h
    · simp only [hbeg, if_true] at h ⊢
      rw [BeginValue_over root out low w hne]
      rcases hb : w.BeginValue.2 with _ | _
      · simp only [hb, Bool.not_false, if_true, Option.some.injEq, Prod.mk.injEq] at h ⊢
        obtain ⟨rfl, rfl⟩ := h
        exact ⟨out, hout, by rw [hbo]; exact hwo, rfl, rfl⟩
      · simp only [hb, Bool.not_true, Bool.false_eq_true, if_false] at h ⊢
        exact afterBegin_over sub root out low hns hnm hout _ _ w1 e r hbne
          (by rw [hbo]; exact hwo) h

/-- The first event of a value on a fresh validator of a schema and on a
validator whose current context selects that schema for the value. -/
theorem fresh_step_over (sub : GenericSchemaValidator → Event → Option GenericSchemaValidator)
    (root : BaseSchema) (out : OutputHandler) (c : Context) (rest : List Context)
    (hb : (c.schema.BeginValue c).2 = true)
    (hns : AllNoSubs ((c.schema.BeginValue c).1 :: rest))
    (hnm : NoMulti ((c.schema.BeginValue c).1 :: rest)) (hout : ∀ h e, out.answer h e = true)
    (w w1 : GenericSchemaValidator) (e : Event) (r : Bool) (hv : w.valid_ = true)
    (hst : w.schemaStack_ = []) (hs : (c.schema.BeginValue c).1.valueSchema = some w.root_)
    (hwo : ∀ h e, w.outputHandler_.answer h e = true) (he : e.isBegin = true)
    (h : handleWith sub w e = some (w1, r)) :
    ∃ out1, (∀ h e, out1.answer h e = true) ∧ (∀ h e, w1.outputHandler_.answer h e = true) ∧
      handleWith sub ⟨root, out, c :: rest, true⟩ e
        = some (over root out1 ((c.schema.BeginValue c).1 :: rest) w1, r) := by
  rw [handleWith_eq sub w e hv] at h
  rw [handleWith_eq sub _ e rfl]
  simp only [he, if_true, BeginValue_fresh w hst, Bool.not_true, Bool.false_eq_true,
    if_false] at h ⊢
  have hM : (GenericSchemaValidator.mk root out (c :: rest) true).BeginValue
      = (over root out ((c.schema.BeginValue c).1 :: rest)
          ⟨w.root_, w.outputHandler_, [Context.make w.root_], w.valid_⟩, true) := by
    simp only [BeginValue, hb, Bool.not_true, Bool.false_eq_true, if_false, hs, PushSchema, over,
      hv]
    rfl
  rw [hM]
  simp only [Bool.not_true, Bool.false_eq_true, if_false]
  exact afterBegin_over sub root out _ hns hnm hout _ _ w1 e r (List.cons_ne_nil _ _) hwo h


theorem valid_of_handle (sub : GenericSchemaValidator → Event → Option GenericSchemaValidator)
    (w w1 : GenericSchemaValidator) (e : Event) (r : Bool)
    (h : handleWith sub w e = some (w1, r)) (h1 : w1.valid_ = true) : w.valid_ = true := by
  rcases hv : w.valid_ with _ | _
  · rw [handleWith_of_invalid sub w e hv] at h
    cases h
    rw [hv] at h1; cases h1
  · rfl

theorem feedWith_cons_inv (sub : GenericSchemaValidator → Event → Option GenericSchemaValidator)
    (w w2 : GenericSchemaValidator) (e : Event) (es : List Event) (rs : List Bool)
    (h : feedWith sub w (e :: es) = some (w2, rs)) :
    ∃ w1 r rs1, handleWith sub w e = some (w1, r) ∧ feedWith sub w1 es = some (w2, rs1) ∧
      rs = r :: rs1 := by
  simp only [feedWith] at h
  rcases h1 : handleWith sub w e with _ | ⟨w1, r⟩
  · simp [h1] at h
  · simp only [h1] at h
    rcases h2 : feedWith sub w1 es with _ | ⟨w3, rs1⟩
    · simp [h2] at h
    · simp only [h2, Option.some.injEq, Prod.mk.injEq] at h
      obtain ⟨rfl, rfl⟩ := h
      exact ⟨w1, r, rs1, rfl, h2, rfl⟩

theorem feedWith_append_inv (sub : GenericSchemaValidator → Event → Option GenericSchemaValidator)
    (es1 es2 : List Event) :
    ∀ (w w2 : GenericSchemaValidator) (rs : List Bool),
      feedWith sub w (es1 ++ es2) = some (w2, rs) →
      ∃ w1 rs1 rs2, feedWith sub w es1 = some (w1, rs1) ∧ feedWith sub w1 es2 = some (w2, rs2) ∧
        rs = rs1 ++ rs2 := by
  induction es1 with
  | nil => intro w w2 rs h; exact ⟨w, [], rs, rfl, h, rfl⟩
  | cons e es1 ih =>
    intro w w2 rs h
    obtain ⟨wa, r, rsa, h1, h2, rfl⟩ := feedWith_cons_inv sub w w2 e (es1 ++ es2) rs h
    obtain ⟨wb, rs1, rs2, h3, h4, rfl⟩ := ih wa w2 rsa h2
    exact ⟨wb, r :: rs1, rs2, feedWith_cons_some sub w wa wb e es1 r rs1 h1 h3, h4, rfl⟩

theorem valid_of_feed (sub : GenericSchemaValidator → Event → Option GenericSchemaValidator)
    (es : List Event) :
    ∀ (w w1 : GenericSchemaValidator) (rs : List Bool),
      feedWith sub w es = some (w1, rs) → w1.valid_ = true → w.valid_ = true := by
  induction es with
  | nil =>
    intro w w1 rs h h1
    simp only [feedWith, Option.some.injEq, Prod.mk.injEq] at h
    rw [h.1]; exact h1
  | cons e es ih =>
    intro w w1 rs h h1
    obtain ⟨wa, r, rsa, h2, h3, -⟩ := feedWith_cons_inv sub w w1 e es rs h
    exact valid_of_handle sub w wa e r h2 (ih wa w1 rsa h3 h1)

/-- The stack after a successful event that begins a value, from the stack
`BeginValue` leaves. -/
theorem shape_begin (sub : GenericSchemaValidator → Event → Option GenericSchemaValidator)
    (w w1 : GenericSchemaValidator) (e : Event) (s : BaseSchema) (rest0 : List Context)
    (hv : w.valid_ = true) (hb : w.BeginValue.2 = true)
    (hst : w.BeginValue.1.schemaStack_ = Context.make s :: rest0) (hnm : NoMulti rest0)
    (he : e.isBegin = true) (h : handleWith sub w e = some (w1, true)) :
    ∃ c2 rest1, SameShape rest0 rest1 ∧ c2.multiTypeSchema = none ∧ c2.schema = s ∧
      (e = .StartObject → c2.inArray = false) ∧ (e = .StartArray → c2.inArray = true) ∧
      w1.schemaStack_ = (if e.isClose then rest1 else c2 :: rest1) := by
  rw [handleWith_eq sub w e hv] at h
  simp only [he, if_true, hb, Bool.not_true, Bool.false_eq_true, if_false] at h
  obtain ⟨c1, c2, rest1, hm, hc2, -, hsh, -, hw1⟩ :=
    afterBegin_shape sub e.isClose _ w1 e _ rest0 hst hnm h
  simp only [Context.shape, Prod.mk.injEq] at hc2
  obtain ⟨hf1, hf2⟩ := method_fields s (Context.make s) c1 e true hm
  refine ⟨c2, rest1, hsh, ?_, ?_, ?_, ?_, hw1⟩
  · rw [hc2.2.2, hf2]; rfl
  · rw [hc2.1, hf1]; rfl
  · intro heq
    subst heq
    rw [hc2.2.1, startObject_inArray s _ c1 true hm]; rfl
  · intro heq
    subst heq
    rw [hc2.2.1, startArray_inArray s _ c1 hm]

/-- The stack after a successful `Key`. -/
theorem shape_key (sub : GenericSchemaValidator → Event → Option GenericSchemaValidator)
    (w w1 : GenericSchemaValidator) (k : String) (cp : Bool) (t : Context) (tail : List Context)
    (hv : w.valid_ = true) (hst : w.schemaStack_ = t :: tail) (hnm : NoMulti tail)
    (h : handleWith sub w (.Key k cp) = some (w1, true)) :
    ∃ t1 rest1, w1.schemaStack_ = t1 :: rest1 ∧ Context.shape t1 = t.shape ∧
      t1.valueSchema.isSome = true ∧ SameShape tail rest1 ∧
      ∃ c1, t.schema.Key t k = some (c1, true) := by
  rw [handleWith_eq sub w _ hv] at h
  simp only [Event.isBegin, Event.isClose, Bool.false_eq_true, if_false] at h
  obtain ⟨c1, c2, rest1, hm, hc2, hv2, hsh, -, hw1⟩ :=
    afterBegin_shape sub false w w1 _ t tail hst hnm h
  simp only [Bool.false_eq_true, if_false] at hw1
  have hk : t.schema.Key t k = some (c1, true) := hm
  obtain ⟨hf1, hf2, hf3, hf4⟩ := key_fields t.schema t c1 k true hk
  refine ⟨c2, rest1, hw1, ?_, ?_, hsh, c1, hk⟩
  · show Context.shape c2 = t.shape
    rw [hc2]; simp only [Context.shape, hf1, hf2, hf3]
  · rw [hv2]; exact hf4 rfl

/-- The stack after a successful `EndObject` or `EndArray`. -/
theorem shape_end (sub : GenericSchemaValidator → Event → Option GenericSchemaValidator)
    (w w1 : GenericSchemaValidator) (e : Event) (t : Context) (tail : List Context)
    (hv : w.valid_ = true) (hst : w.schemaStack_ = t :: tail) (hnm : NoMulti tail)
    (he : e.isBegin = false) (hc : e.isClose = true)
    (h : handleWith sub w e = some (w1, true)) :
    SameShape tail w1.schemaStack_ ∧ ∃ c1, t.schema.method t e = some (c1, true) := by
  rw [handleWith_eq sub w _ hv] at h
  simp only [he, hc, Bool.false_eq_true, if_false] at h
  obtain ⟨c1, c2, rest1, hm, -, -, hsh, -, hw1⟩ :=
    afterBegin_shape sub true w w1 _ t tail hst hnm h
  simp only [if_true] at hw1
  rw [hw1]
  exact ⟨hsh, c1, hm⟩


theorem noMulti_cons {c : Context} {st : List Context} (hc : c.multiTypeSchema = none)
    (h : NoMulti st) : NoMulti (c :: st) := by
  intro x hx
  rcases List.mem_cons.mp hx with rfl | hx
  · exact hc
  · exact h x hx

theorem noMulti_tail {c : Context} {st : List Context} (h : NoMulti (c :: st)) : NoMulti st :=
  fun x hx => h x (List.mem_cons_of_mem _ hx)

theorem topIs_ne_nil {p : Context → Prop} {w : GenericSchemaValidator} (h : TopIs p w) :
    w.valid_ = true → w.schemaStack_ ≠ [] := by
  intro hv
  obtain ⟨t, tail, hst, -, -⟩ := h hv
  rw [hst]; exact List.cons_ne_nil _ _

/-- A stack of the same shape has a current context of the same schema and
kind. -/
theorem sameShape_top {st st1 : List Context} {t : Context} {tail : List Context}
    (hst : st = t :: tail) (hnm : NoMulti (t :: tail)) (h : SameShape st st1) :
    ∃ (t1 : Context) (tail1 : List Context), st1 = t1 :: tail1 ∧ t1.schema = t.schema ∧
      t1.inArray = t.inArray ∧ NoMulti (t1 :: tail1) ∧ SameShape tail tail1 := by
  subst hst
  obtain ⟨t1, tail1, rfl, hc, htl⟩ := sameShape_cons_inv h
  have hn := sameShape_noMulti h hnm
  simp only [Context.shape, Prod.mk.injEq] at hc
  exact ⟨t1, tail1, rfl, hc.1, hc.2.1, hn, htl⟩

/-- The stack after a successful event that begins a value, on a stack that is
not empty. -/
theorem shape_begin_cons (sub : GenericSchemaValidator → Event → Option GenericSchemaValidator)
    (w w1 : GenericSchemaValidator) (e : Event) (t : Context) (tail : List Context)
    (hv : w.valid_ = true) (hst : w.schemaStack_ = t :: tail) (hr : t.Ready)
    (hnm : NoMulti (t :: tail)) (he : e.isBegin = true)
    (h : handleWith sub w e = some (w1, true)) :
    ∃ (c2 : Context) (rest1 : List Context), SameShape (t :: tail) rest1 ∧
      c2.multiTypeSchema = none ∧ (e = .StartObject → c2.inArray = false) ∧
      (e = .StartArray → c2.inArray = true) ∧
      w1.schemaStack_ = (if e.isClose then rest1 else c2 :: rest1) := by
  have hb : w.BeginValue.2 = true := by
    rcases hb : w.BeginValue.2 with _ | _
    · rw [handleWith_eq sub w e hv] at h
      simp [he, hb] at h
    · rfl
  obtain ⟨s, hbs⟩ := BeginValue_ready w t tail hst hr hb
  have hsh : SameShape (t :: tail) ((t.schema.BeginValue t).1 :: tail) :=
    sameShape_cons (schema_BeginValue_shape t.schema t) (sameShape_refl tail)
  obtain ⟨c2, rest1, h1, h2, -, h4, h5, h6⟩ :=
    shape_begin sub w w1 e s _ hv hb hbs (sameShape_noMulti hsh hnm) he h
  exact ⟨c2, rest1, sameShape_trans hsh h1, h2, h4, h5, h6⟩

/-- The stack after a successful event that begins a value, on an empty stack. -/
theorem shape_begin_nil (sub : GenericSchemaValidator → Event → Option GenericSchemaValidator)
    (w w1 : GenericSchemaValidator) (e : Event)
    (hv : w.valid_ = true) (hst : w.schemaStack_ = []) (he : e.isBegin = true)
    (h : handleWith sub w e = some (w1, true)) :
    ∃ (c2 : Context), c2.multiTypeSchema = none ∧ c2.schema = w.root_ ∧
      (e = .StartObject → c2.inArray = false) ∧ (e = .StartArray → c2.inArray = true) ∧
      w1.schemaStack_ = (if e.isClose then [] else [c2]) := by
  have hbv := BeginValue_fresh w hst
  obtain ⟨c2, rest1, h1, h2, h3, h4, h5, h6⟩ :=
    shape_begin sub w w1 e w.root_ [] hv (by rw [hbv]) (by rw [hbv])
      (fun x hx => by cases hx) he h
  rw [sameShape_nil_inv h1] at h6
  exact ⟨c2, h2, h3, h4, h5, h6⟩


theorem run_nil (sub : GenericSchemaValidator → Event → Option GenericSchemaValidator)
    (root : BaseSchema) (low : List Context) (p : Context → Prop) :
    Run sub root low [] p SameShape := by
  intro w w1 rs _ hwo h
  simp only [feedWith, Option.some.injEq, Prod.mk.injEq] at h
  obtain ⟨rfl, rfl⟩ := h
  exact ⟨hwo, fun out hout => ⟨out, hout, rfl⟩, fun _ => sameShape_refl _⟩

theorem run_append (sub : GenericSchemaValidator → Event → Option GenericSchemaValidator)
    (root : BaseSchema) (low : List Context) (es1 es2 : List Event) (p q : Context → Prop)
    (R1 R2 R : List Context → List Context → Prop)
    (h1 : Run sub root low es1 p R1) (h2 : Run sub root low es2 q R2)
    (hlink : ∀ st st1, (∃ t tail, st = t :: tail ∧ p t ∧ NoMulti (t :: tail)) → R1 st st1 →
      ∃ t tail, st1 = t :: tail ∧ q t ∧ NoMulti (t :: tail))
    (hR : ∀ a b c, (∃ t tail, a = t :: tail ∧ p t ∧ NoMulti (t :: tail)) →
      R1 a b → R2 b c → R a c) :
    Run sub root low (es1 ++ es2) p R := by
  intro w w2 rs hp hwo h
  obtain ⟨w1, rs1, rs2, ha, hb, rfl⟩ := feedWith_append_inv sub es1 es2 w w2 rs h
  obtain ⟨hwo1, hov1, hsh1⟩ := h1 w w1 rs1 hp hwo ha
  have hq : TopIs q w1 := fun hv1 =>
    hlink _ _ (hp (valid_of_feed sub es1 w w1 rs1 ha hv1)) (hsh1 hv1)
  obtain ⟨hwo2, hov2, hsh2⟩ := h2 w1 w2 rs2 hq hwo1 hb
  refine ⟨hwo2, ?_, ?_⟩
  · intro out hout
    obtain ⟨out1, hout1, hf1⟩ := hov1 out hout
    obtain ⟨out2, hout2, hf2⟩ := hov2 out1 hout1
    exact ⟨out2, hout2, feedWith_append_some sub es1 es2 _ _ _ rs1 rs2 hf1 hf2⟩
  · intro hv2
    have hv1 := valid_of_feed sub es2 w1 w2 rs2 hb hv2
    exact hR _ _ _ (hp (valid_of_feed sub es1 w w1 rs1 ha hv1)) (hsh1 hv1) (hsh2 hv2)

/-- One event as a run, given what the event does to the stack when it
succeeds. -/
theorem run_step (sub : GenericSchemaValidator → Event → Option GenericSchemaValidator)
    (root : BaseSchema) (low : List Context) (hns : AllNoSubs low) (hnm : NoMulti low)
    (e : Event) (p : Context → Prop) (R : List Context → List Context → Prop)
    (hshape : ∀ (w w1 : GenericSchemaValidator) (t : Context) (tail : List Context),
      w.valid_ = true → w.schemaStack_ = t :: tail → p t → NoMulti (t :: tail) →
      handleWith sub w e = some (w1, true) → R w.schemaStack_ w1.schemaStack_) :
    Run sub root low [e] p R := by
  intro w w2 rs hp hwo h
  obtain ⟨w1, r, rs1, ha, hb, rfl⟩ := feedWith_cons_inv sub w w2 e [] rs h
  simp only [feedWith, Option.some.injEq, Prod.mk.injEq] at hb
  obtain ⟨rfl, rfl⟩ := hb
  refine ⟨?_, ?_, ?_⟩
  · obtain ⟨out1, -, hw1, -⟩ := step_over sub root nullOutputHandler_ low hns hnm
      (fun _ _ => rfl) w w1 e r (topIs_ne_nil hp) hwo ha
    exact hw1
  · intro out hout
    obtain ⟨out1, hout1, -, hf⟩ := step_over sub root out low hns hnm hout w w1 e r
      (topIs_ne_nil hp) hwo ha
    exact ⟨out1, hout1, feedWith_cons_some sub _ _ _ e [] r [] hf rfl⟩
  · intro hv1
    have hr : r = true := by rw [← handleWith_valid sub w e w1 r ha]; exact hv1
    subst hr
    have hv := valid_of_handle sub w w1 e true ha hv1
    obtain ⟨t, tail, hst, hpt, hn⟩ := hp hv
    exact hshape w w1 t tail hv hst hpt hn ha


theorem run_mono (sub : GenericSchemaValidator → Event → Option GenericSchemaValidator)
    (root : BaseSchema) (low : List Context) (es : List Event) (p q : Context → Prop)
    (R : List Context → List Context → Prop) (h : Run sub root low es p R)
    (hpq : ∀ t, q t → p t) : Run sub root low es q R := by
  intro w w1 rs hq hwo hf
  refine h w w1 rs (fun hv => ?_) hwo hf
  obtain ⟨t, tail, hst, hqt, hn⟩ := hq hv
  exact ⟨t, tail, hst, hpq t hqt, hn⟩

theorem run_scalar (sub : GenericSchemaValidator → Event → Option GenericSchemaValidator)
    (root : BaseSchema) (low : List Context) (hns : AllNoSubs low) (hnm : NoMulti low)
    (e : Event) (he : e.isBegin = true) (hc : e.isClose = true) :
    Run sub root low [e] Context.Ready SameShape := by
  refine run_step sub root low hns hnm e _ _ ?_
  intro w w1 t tail hv hst hr hn h
  obtain ⟨c2, rest1, hsh, -, -, -, hw1⟩ := shape_begin_cons sub w w1 e t tail hv hst hr hn he h
  simp only [hc, if_true] at hw1
  rw [hw1, hst]; exact hsh

theorem run_startObject (sub : GenericSchemaValidator → Event → Option GenericSchemaValidator)
    (root : BaseSchema) (low : List Context) (hns : AllNoSubs low) (hnm : NoMulti low) :
    Run sub root low [.StartObject] Context.Ready (Pushed false) := by
  refine run_step sub root low hns hnm _ _ _ ?_
  intro w w1 t tail hv hst hr hn h
  obtain ⟨c2, rest1, hsh, hm, ho, -, hw1⟩ :=
    shape_begin_cons sub w w1 .StartObject t tail hv hst hr hn rfl h
  simp only [Event.isClose, Bool.false_eq_true, if_false] at hw1
  rw [hst]
  exact ⟨c2, rest1, hw1, ho rfl, hm, hsh⟩

theorem run_startArray (sub : GenericSchemaValidator → Event → Option GenericSchemaValidator)
    (root : BaseSchema) (low : List Context) (hns : AllNoSubs low) (hnm : NoMulti low) :
    Run sub root low [.StartArray] Context.Ready (Pushed true) := by
  refine run_step sub root low hns hnm _ _ _ ?_
  intro w w1 t tail hv hst hr hn h
  obtain ⟨c2, rest1, hsh, hm, -, ha, hw1⟩ :=
    shape_begin_cons sub w w1 .StartArray t tail hv hst hr hn rfl h
  simp only [Event.isClose, Bool.false_eq_true, if_false] at hw1
  rw [hst]
  exact ⟨c2, rest1, hw1, ha rfl, hm, hsh⟩

theorem run_key (sub : GenericSchemaValidator → Event → Option GenericSchemaValidator)
    (root : BaseSchema) (low : List Context) (hns : AllNoSubs low) (hnm : NoMulti low)
    (k : String) (cp : Bool) :
    Run sub root low [.Key k cp] (fun t => t.inArray = false) Keyed := by
  refine run_step sub root low hns hnm _ _ _ ?_
  intro w w1 t tail hv hst _ hn h
  obtain ⟨t1, rest1, hw1, hsh1, hvs, hsh, -⟩ :=
    shape_key sub w w1 k cp t tail hv hst (noMulti_tail hn) h
  rw [hst, hw1]
  exact ⟨sameShape_cons hsh1 hsh, t1, rest1, rfl, hvs⟩

theorem run_end (sub : GenericSchemaValidator → Event → Option GenericSchemaValidator)
    (root : BaseSchema) (low : List Context) (hns : AllNoSubs low) (hnm : NoMulti low)
    (e : Event) (he : e.isBegin = false) (hc : e.isClose = true) :
    Run sub root low [e] (fun _ => True) Popped := by
  refine run_step sub root low hns hnm _ _ _ ?_
  intro w w1 t tail hv hst _ hn h
  have := (shape_end sub w w1 e t tail hv hst (noMulti_tail hn) he hc h).1
  intro t0 tail0 h0
  rw [hst] at h0
  cases h0
  exact this

/-- The inside of a container and its closing event as a run. -/
theorem run_inside (sub : GenericSchemaValidator → Event → Option GenericSchemaValidator)
    (root : BaseSchema) (low : List Context) (hns : AllNoSubs low) (hnm : NoMulti low)
    (arr : Bool) (e2 : Event) (es : List Event)
    (hes : Run sub root low es (fun t => t.inArray = arr) SameShape)
    (he : e2.isBegin = false) (hc : e2.isClose = true) :
    Run sub root low (es ++ [e2]) (fun t => t.inArray = arr) Popped := by
  refine run_append sub root low es [e2] _ (fun _ => True) SameShape Popped Popped hes
    (run_end sub root low hns hnm e2 he hc) ?_ ?_
  · rintro st st1 ⟨t, tail, hst, -, hn⟩ hsh
    obtain ⟨t1, tail1, h1, -, -, hn1, -⟩ := sameShape_top hst hn hsh
    exact ⟨t1, tail1, h1, trivial, hn1⟩
  · rintro a b c ⟨t, tail, hst, -, hn⟩ hab hbc t0 tail0 h0
    rw [hst] at h0
    cases h0
    obtain ⟨t1, tail1, h1, -, -, -, htl⟩ := sameShape_top hst hn hab
    exact sameShape_trans htl (hbc t1 tail1 h1)

/-- A container as a run: the opening event, the events inside, the closing
event. -/
theorem run_container (sub : GenericSchemaValidator → Event → Option GenericSchemaValidator)
    (root : BaseSchema) (low : List Context) (hns : AllNoSubs low) (hnm : NoMulti low)
    (arr : Bool) (e1 e2 : Event) (es : List Event)
    (h1 : Run sub root low [e1] Context.Ready (Pushed arr))
    (hes : Run sub root low es (fun t => t.inArray = arr) SameShape)
    (he : e2.isBegin = false) (hc : e2.isClose = true) :
    Run sub root low (e1 :: (es ++ [e2])) Context.Ready SameShape := by
  have := run_append sub root low [e1] (es ++ [e2]) Context.Ready (fun t => t.inArray = arr)
    (Pushed arr) Popped SameShape h1 (run_inside sub root low hns hnm arr e2 es hes he hc) ?_ ?_
  · exact this
  · rintro st st1 ⟨t, tail, hst, -, hn⟩ ⟨c2, rest1, h1, ha, hm, hsh⟩
    exact ⟨c2, rest1, h1, ha, noMulti_cons hm (sameShape_noMulti hsh (hst ▸ hn))⟩
  · rintro a b c - ⟨c2, rest1, h1, -, -, hsh⟩ hbc
    exact sameShape_trans hsh (hbc c2 rest1 h1)

/-- A member as a run: the key, then the value, then the members after it. -/
theorem run_member (sub : GenericSchemaValidator → Event → Option GenericSchemaValidator)
    (root : BaseSchema) (low : List Context) (hns : AllNoSubs low) (hnm : NoMulti low)
    (k : String) (cp : Bool) (es1 es2 : List Event)
    (h1 : Run sub root low es1 Context.Ready SameShape)
    (h2 : Run sub root low es2 (fun t => t.inArray = false) SameShape) :
    Run sub root low (.Key k cp :: (es1 ++ es2)) (fun t => t.inArray = false) SameShape := by
  have inner : Run sub root low (es1 ++ es2)
      (fun t => t.inArray = false ∧ t.valueSchema.isSome = true) SameShape := by
    refine run_append sub root low es1 es2 _ (fun t => t.inArray = false) SameShape SameShape
      SameShape (run_mono sub root low es1 _ _ _ h1 (fun t ht => Or.inr ht.2)) h2 ?_ ?_
    · rintro st st1 ⟨t, tail, hst, hp, hn⟩ hsh
      obtain ⟨t1, tail1, h1, -, hin, hn1, -⟩ := sameShape_top hst hn hsh
      exact ⟨t1, tail1, h1, hin.trans hp.1, hn1⟩
    · intro a b c _ hab hbc
      exact sameShape_trans hab hbc
  have := run_append sub root low [.Key k cp] (es1 ++ es2) (fun t => t.inArray = false)
    (fun t => t.inArray = false ∧ t.valueSchema.isSome = true) Keyed SameShape SameShape
    (run_key sub root low hns hnm k cp) inner ?_ ?_
  · exact this
  · rintro st st1 ⟨t, tail, hst, hp, hn⟩ ⟨hsh, t1, tl, h1, hvs⟩
    obtain ⟨t2, tail2, h2, -, hin, hn2, -⟩ := sameShape_top hst hn hsh
    rw [h1] at h2
    cases h2
    exact ⟨t1, tl, h1, ⟨hin.trans hp, hvs⟩, hn2⟩
  · rintro a b c - ⟨hab, -⟩ hbc
    exact sameShape_trans hab hbc

/-- An element as a run: the value, then the elements after it. -/
theorem run_element (sub : GenericSchemaValidator → Event → Option GenericSchemaValidator)
    (root : BaseSchema) (low : List Context) (es1 es2 : List Event)
    (h1 : Run sub root low es1 Context.Ready SameShape)
    (h2 : Run sub root low es2 (fun t => t.inArray = true) SameShape) :
    Run sub root low (es1 ++ es2) (fun t => t.inArray = true) SameShape := by
  refine run_append sub root low es1 es2 _ (fun t => t.inArray = true) SameShape SameShape
    SameShape (run_mono sub root low es1 _ _ _ h1 (fun t ht => Or.inl ht)) h2 ?_ ?_
  · rintro st st1 ⟨t, tail, hst, hp, hn⟩ hsh
    obtain ⟨t1, tail1, h1, -, hin, hn1, -⟩ := sameShape_top hst hn hsh
    exact ⟨t1, tail1, h1, hin.trans hp, hn1⟩
  · intro a b c _ hab hbc
    exact sameShape_trans hab hbc

mutual
/-- The events of a value, on a validator whose current context selects a
schema for the value, run the same under more contexts, and leave a stack of
the same shape. -/
theorem value_run (sub : GenericSchemaValidator → Event → Option GenericSchemaValidator)
    (root : BaseSchema) (low : List Context) (hns : AllNoSubs low) (hnm : NoMulti low) :
    ∀ (d : Doc), Run sub root low d.events Context.Ready SameShape
  | .Null => run_scalar sub root low hns hnm _ rfl rfl
  | .Bool_ _ => run_scalar sub root low hns hnm _ rfl rfl
  | .Int_ _ => run_scalar sub root low hns hnm _ rfl rfl
  | .Uint _ => run_scalar sub root low hns hnm _ rfl rfl
  | .Int64 _ => run_scalar sub root low hns hnm _ rfl rfl
  | .Uint64 _ => run_scalar sub root low hns hnm _ rfl rfl
  | .Double _ => run_scalar sub root low hns hnm _ rfl rfl
  | .String_ _ _ => run_scalar sub root low hns hnm _ rfl rfl
  | .Object ms =>
    run_container sub root low hns hnm false _ _ _ (run_startObject sub root low hns hnm)
      (members_run sub root low hns hnm ms) rfl rfl
  | .Array ds =>
    run_container sub root low hns hnm true _ _ _ (run_startArray sub root low hns hnm)
      (elements_run sub root low hns hnm ds) rfl rfl
/-- The events of the members of an object, on a validator whose current
context is the context of the object. -/
theorem members_run (sub : GenericSchemaValidator → Event → Option GenericSchemaValidator)
    (root : BaseSchema) (low : List Context) (hns : AllNoSubs low) (hnm : NoMulti low) :
    ∀ (ms : List ((String × Bool) × Doc)),
      Run sub root low (Doc.memberEvents ms) (fun t => t.inArray = false) SameShape
  | [] => run_nil sub root low _
  | (k, d) :: ms =>
    run_member sub root low hns hnm k.1 k.2 _ _ (value_run sub root low hns hnm d)
      (members_run sub root low hns hnm ms)
/-- The events of the elements of an array, on a validator whose current
context is the context of the array. -/
theorem elements_run (sub : GenericSchemaValidator → Event → Option GenericSchemaValidator)
    (root : BaseSchema) (low : List Context) (hns : AllNoSubs low) (hnm : NoMulti low) :
    ∀ (ds : List Doc),
      Run sub root low (Doc.elementEvents ds) (fun t => t.inArray = true) SameShape
  | [] => run_nil sub root low _
  | d :: ds =>
    run_element sub root low _ _ (value_run sub root low hns hnm d)
      (elements_run sub root low hns hnm ds)
end


theorem fresh_over_scalar (sub : GenericSchemaValidator → Event → Option GenericSchemaValidator)
    (root : BaseSchema) (out : OutputHandler) (c : Context) (rest : List Context)
    (hb : (c.schema.BeginValue c).2 = true)
    (hns : AllNoSubs ((c.schema.BeginValue c).1 :: rest))
    (hnm : NoMulti ((c.schema.BeginValue c).1 :: rest)) (hout : ∀ h e, out.answer h e = true)
    (S : BaseSchema) (hs : (c.schema.BeginValue c).1.valueSchema = some S)
    (outW : OutputHandler) (hwo : ∀ h e, outW.answer h e = true) (e : Event)
    (he : e.isBegin = true) (hc : e.isClose = true)
    (w1 : GenericSchemaValidator) (rs : List Bool)
    (h : feedWith sub (GenericSchemaValidator.make S outW) [e] = some (w1, rs)) :
    ∃ out1, (∀ h e, out1.answer h e = true) ∧
      feedWith sub ⟨root, out, c :: rest, true⟩ [e]
        = some (over root out1 ((c.schema.BeginValue c).1 :: rest) w1, rs) ∧
      (w1.valid_ = true → w1.schemaStack_ = []) := by
  obtain ⟨wa, r, rs1, ha, hb1, rfl⟩ := feedWith_cons_inv sub _ w1 e [] rs h
  simp only [feedWith, Option.some.injEq, Prod.mk.injEq] at hb1
  obtain ⟨rfl, rfl⟩ := hb1
  obtain ⟨out1, hout1, -, hM⟩ := fresh_step_over sub root out c rest hb hns hnm hout
    (GenericSchemaValidator.make S outW) wa e r rfl rfl hs hwo he ha
  refine ⟨out1, hout1, feedWith_cons_some sub _ _ _ e [] r [] hM rfl, fun hv => ?_⟩
  have hr : r = true := by rw [← handleWith_valid sub _ e wa r ha]; exact hv
  subst hr
  obtain ⟨c2, -, -, -, -, hst⟩ := shape_begin_nil sub _ wa e rfl rfl he ha
  simpa [hc] using hst

theorem fresh_over_container
    (sub : GenericSchemaValidator → Event → Option GenericSchemaValidator)
    (root : BaseSchema) (out : OutputHandler) (c : Context) (rest : List Context)
    (hb : (c.schema.BeginValue c).2 = true)
    (hns : AllNoSubs ((c.schema.BeginValue c).1 :: rest))
    (hnm : NoMulti ((c.schema.BeginValue c).1 :: rest)) (hout : ∀ h e, out.answer h e = true)
    (S : BaseSchema) (hs : (c.schema.BeginValue c).1.valueSchema = some S)
    (outW : OutputHandler) (hwo : ∀ h e, outW.answer h e = true) (arr : Bool)
    (e1 e2 : Event) (es : List Event) (he1 : e1.isBegin = true) (hc1 : e1.isClose = false)
    (harr : ∀ c2 : Context, (e1 = .StartObject → c2.inArray = false) →
      (e1 = .StartArray → c2.inArray = true) → c2.inArray = arr)
    (he2 : e2.isBegin = false) (hc2 : e2.isClose = true)
    (hes : Run sub root ((c.schema.BeginValue c).1 :: rest) es (fun t => t.inArray = arr)
      SameShape)
    (w1 : GenericSchemaValidator) (rs : List Bool)
    (h : feedWith sub (GenericSchemaValidator.make S outW) (e1 :: (es ++ [e2]))
      = some (w1, rs)) :
    ∃ out1, (∀ h e, out1.answer h e = true) ∧
      feedWith sub ⟨root, out, c :: rest, true⟩ (e1 :: (es ++ [e2]))
        = some (over root out1 ((c.schema.BeginValue c).1 :: rest) w1, rs) ∧
      (w1.valid_ = true → w1.schemaStack_ = []) := by
  obtain ⟨wa, r, rs1, ha, hb1, rfl⟩ := feedWith_cons_inv sub _ w1 e1 _ rs h
  obtain ⟨out1, hout1, hwa, hM⟩ := fresh_step_over sub root out c rest hb hns hnm hout
    (GenericSchemaValidator.make S outW) wa e1 r rfl rfl hs hwo he1 ha
  have hstack : wa.valid_ = true →
      ∃ c2 : Context, wa.schemaStack_ = [c2] ∧ c2.inArray = arr ∧ c2.multiTypeSchema = none := by
    intro hv
    have hr : r = true := by rw [← handleWith_valid sub _ e1 wa r ha]; exact hv
    subst hr
    obtain ⟨c2, hm, -, ho, har, hst⟩ := shape_begin_nil sub _ wa e1 rfl rfl he1 ha
    simp only [hc1, Bool.false_eq_true, if_false] at hst
    exact ⟨c2, hst, harr c2 ho har, hm⟩
  have hTop : TopIs (fun t => t.inArray = arr) wa := by
    intro hv
    obtain ⟨c2, hst, hin, hm⟩ := hstack hv
    exact ⟨c2, [], hst, hin, noMulti_cons hm (fun x hx => by cases hx)⟩
  obtain ⟨-, hov, hsh⟩ := run_inside sub root _ hns hnm arr e2 es hes he2 hc2 wa w1 rs1 hTop hwa
    hb1
  obtain ⟨out2, hout2, hf2⟩ := hov out1 hout1
  refine ⟨out2, hout2, feedWith_cons_some sub _ _ _ e1 _ r rs1 hM hf2, fun hv => ?_⟩
  obtain ⟨c2, hst, -, -⟩ := hstack (valid_of_feed sub _ wa w1 rs1 hb1 hv)
  exact sameShape_nil_inv (hsh hv c2 [] hst)

/-- The events of a value on a fresh validator of the schema `S`, and on a
validator whose current context selects `S` for the value and whose contexts
own no validators: the same results, the same flag, and a valid run leaves the
contexts as `BeginValue` left them. -/
theorem fresh_over (sub : GenericSchemaValidator → Event → Option GenericSchemaValidator)
    (root : BaseSchema) (out : OutputHandler) (c : Context) (rest : List Context)
    (hb : (c.schema.BeginValue c).2 = true)
    (hns : AllNoSubs ((c.schema.BeginValue c).1 :: rest))
    (hnm : NoMulti ((c.schema.BeginValue c).1 :: rest)) (hout : ∀ h e, out.answer h e = true)
    (S : BaseSchema) (hs : (c.schema.BeginValue c).1.valueSchema = some S)
    (outW : OutputHandler) (hwo : ∀ h e, outW.answer h e = true) (d : Doc)
    (w1 : GenericSchemaValidator) (rs : List Bool)
    (h : feedWith sub (GenericSchemaValidator.make S outW) d.events = some (w1, rs)) :
    ∃ out1, (∀ h e, out1.answer h e = true) ∧
      feedWith sub ⟨root, out, c :: rest, true⟩ d.events
        = some (over root out1 ((c.schema.BeginValue c).1 :: rest) w1, rs) ∧
      (w1.valid_ = true → w1.schemaStack_ = []) := by
  cases d with
  | Object ms =>
    exact fresh_over_container sub root out c rest hb hns hnm hout S hs outW hwo false
      .StartObject (.EndObject ms.length) _ rfl rfl (fun c2 h1 _ => h1 rfl) rfl rfl
      (members_run sub root _ hns hnm ms) w1 rs h
  | Array ds =>
    exact fresh_over_container sub root out c rest hb hns hnm hout S hs outW hwo true
      .StartArray (.EndArray ds.length) _ rfl rfl (fun c2 _ h2 => h2 rfl) rfl rfl
      (elements_run sub root _ hns hnm ds) w1 rs h
  | Null =>
    exact fresh_over_scalar sub root out c rest hb hns hnm hout S hs outW hwo .Null rfl rfl
      w1 rs h
  | Bool_ b =>
    exact fresh_over_scalar sub root out c rest hb hns hnm hout S hs outW hwo (.Bool_ b) rfl rfl
      w1 rs h
  | Int_ i =>
    exact fresh_over_scalar sub root out c rest hb hns hnm hout S hs outW hwo (.Int_ i) rfl rfl
      w1 rs h
  | Uint u =>
    exact fresh_over_scalar sub root out c rest hb hns hnm hout S hs outW hwo (.Uint u) rfl rfl
      w1 rs h
  | Int64 i =>
    exact fresh_over_scalar sub root out c rest hb hns hnm hout S hs outW hwo (.Int64 i) rfl rfl
      w1 rs h
  | Uint64 u =>
    exact fresh_over_scalar sub root out c rest hb hns hnm hout S hs outW hwo (.Uint64 u) rfl rfl
      w1 rs h
  | Double x =>
    exact fresh_over_scalar sub root out c rest hb hns hnm hout S hs outW hwo (.Double x) rfl rfl
      w1 rs h
  | String_ str cp =>
    exact fresh_over_scalar sub root out c rest hb hns hnm hout S hs outW hwo (.String_ str cp) rfl rfl
      w1 rs h


theorem create_plain (s : BaseSchema) (hs : s.Plain) (c : Context) :
    s.CreateLogicValidators c = c := by
  obtain ⟨h1, h2, h3, h4⟩ := hs
  cases c
  simp only [BaseSchema.CreateLogicValidators, h1, h2, h3, h4]

theorem endValue_plain (s : BaseSchema) (hs : s.Plain) (c : Context) :
    s.EndValue c = some true := by
  obtain ⟨h1, h2, h3, h4⟩ := hs
  simp only [BaseSchema.EndValue, BaseSchema.EndValueAllOf, BaseSchema.EndValueAnyOf,
    BaseSchema.EndValueOneOf, BaseSchema.EndValueNot, h1, h2, h3, h4, orReturnFalse]

theorem method_subs (s : BaseSchema) (c c1 : Context) (e : Event) (b : Bool)
    (h : s.method c e = some (c1, b)) :
    c1.allOfValidators = (s.CreateLogicValidators c).allOfValidators ∧
    c1.anyOfValidators = (s.CreateLogicValidators c).anyOfValidators ∧
    c1.oneOfValidators = (s.CreateLogicValidators c).oneOfValidators ∧
    c1.notValidator = (s.CreateLogicValidators c).notValidator := by
  cases e with
  | Key k cp =>
    have h : s.Key c k = some (c1, b) := h
    unfold BaseSchema.Key at h
    simp only at h
    split at h
    · cases h; exact ⟨rfl, rfl, rfl, rfl⟩
    · split at h
      · split at h
        · cases h
        · split at h
          · split at h
            · cases h
            · split at h
              · cases h
                split <;> exact ⟨rfl, rfl, rfl, rfl⟩
              · cases h
          · cases h
            split <;> exact ⟨rfl, rfl, rfl, rfl⟩
      · simp only [BaseSchema.KeyOther, Option.some.injEq] at h
        repeat' split at h
        all_goals (cases h; exact ⟨rfl, rfl, rfl, rfl⟩)
  | EndObject n =>
    have h : s.EndObject c n = some (c1, b) := h
    unfold BaseSchema.EndObject at h
    simp only at h
    repeat' split at h
    all_goals first | cases h; exact ⟨rfl, rfl, rfl, rfl⟩ | cases h
  | Null =>
    simp only [BaseSchema.method, BaseSchema.Null, Option.some.injEq, Prod.mk.injEq] at h
    obtain ⟨rfl, -⟩ := h; exact ⟨rfl, rfl, rfl, rfl⟩
  | Bool_ x =>
    simp only [BaseSchema.method, BaseSchema.Bool_, Option.some.injEq, Prod.mk.injEq] at h
    obtain ⟨rfl, -⟩ := h; exact ⟨rfl, rfl, rfl, rfl⟩
  | Int_ x =>
    simp only [BaseSchema.method, BaseSchema.Int_, BaseSchema.Integer, Option.some.injEq] at h
    split at h <;> (cases h; exact ⟨rfl, rfl, rfl, rfl⟩)
  | Uint x =>
    simp only [BaseSchema.method, BaseSchema.Uint, BaseSchema.Integer, Option.some.injEq] at h
    split at h <;> (cases h; exact ⟨rfl, rfl, rfl, rfl⟩)
  | Int64 x =>
    simp only [BaseSchema.method, BaseSchema.Int64, BaseSchema.Integer, Option.some.injEq] at h
    split at h <;> (cases h; exact ⟨rfl, rfl, rfl, rfl⟩)
  | Uint64 x =>
    simp only [BaseSchema.method, BaseSchema.Uint64, BaseSchema.Integer, Option.some.injEq] at h
    split at h <;> (cases h; exact ⟨rfl, rfl, rfl, rfl⟩)
  | Double x =>
    simp only [BaseSchema.method, BaseSchema.Double, Option.some.injEq] at h
    split at h <;> (cases h; exact ⟨rfl, rfl, rfl, rfl⟩)
  | String_ x cp =>
    simp only [BaseSchema.method, BaseSchema.String_, Option.some.injEq] at h
    repeat' split at h
    all_goals (cases h; exact ⟨rfl, rfl, rfl, rfl⟩)
  | StartObject =>
    simp only [BaseSchema.method, BaseSchema.StartObject, Option.some.injEq] at h
    split at h <;> (cases h; exact ⟨rfl, rfl, rfl, rfl⟩)
  | StartArray =>
    simp only [BaseSchema.method, BaseSchema.StartArray, Option.some.injEq] at h
    split at h <;> (cases h; exact ⟨rfl, rfl, rfl, rfl⟩)
  | EndArray n =>
    simp only [BaseSchema.method, BaseSchema.EndArray, Option.some.injEq] at h
    split at h <;> (cases h; exact ⟨rfl, rfl, rfl, rfl⟩)

/-- A method of a schema without combinators leaves a context without
validators without validators. -/
theorem method_noSubs (s : BaseSchema) (hs : s.Plain) (c c1 : Context) (e : Event) (b : Bool)
    (hc : Context.NoSubs c) (h : s.method c e = some (c1, b)) : Context.NoSubs c1 := by
  obtain ⟨h1, h2, h3, h4⟩ := method_subs s c c1 e b h
  rw [create_plain s hs c] at h1 h2 h3 h4
  obtain ⟨g1, g2, g3, g4⟩ := hc
  exact ⟨h1.trans g1, h2.trans g2, h3.trans g3, h4.trans g4⟩

theorem schema_BeginValue_noSubs (s : BaseSchema) (c : Context) (hc : Context.NoSubs c) :
    Context.NoSubs (s.BeginValue c).1 := by
  unfold BaseSchema.BeginValue
  repeat' split
  all_goals exact hc

theorem schema_BeginValue_multi (s : BaseSchema) (c : Context) :
    (s.BeginValue c).1.multiTypeSchema = c.multiTypeSchema := by
  have := schema_BeginValue_shape s c
  simp only [Context.shape, Prod.mk.injEq] at this
  exact this.2.2

/-- The value of a member or of an element, on the validator of a schema
without combinators whose only context selects the schema `S` for it: the run
comes to the verdict of a fresh validator of `S` on the value, and when that is
valid the context is as `BeginValue` left it. -/
theorem nested_value (fuel : Nat) (root : BaseSchema) (out : OutputHandler) (c : Context)
    (hb : (c.schema.BeginValue c).2 = true) (hc : Context.NoSubs c)
    (hm : c.multiTypeSchema = none) (hout : ∀ h e, out.answer h e = true) (S : BaseSchema)
    (hs : (c.schema.BeginValue c).1.valueSchema = some S) (d : Doc)
    (hsome : (validate fuel S d).isSome = true) :
    ∃ (v1 : GenericSchemaValidator) (rs : List Bool),
      feed fuel ⟨root, out, [c], true⟩ d.events = some (v1, rs) ∧
      v1.valid_ = verdictOf fuel d S ∧
      (verdictOf fuel d S = true → ∃ out1, (∀ h e, out1.answer h e = true) ∧
        v1 = ⟨root, out1, [(c.schema.BeginValue c).1], true⟩) := by
  unfold validate validateWith at hsome
  rcases hf : feed fuel (GenericSchemaValidator.make S nullOutputHandler_) d.events with
    _ | ⟨w1, rs⟩
  · rw [hf] at hsome; cases hsome
  · have hns : AllNoSubs [(c.schema.BeginValue c).1] := by
      intro x hx
      rw [List.mem_singleton.mp hx]
      exact schema_BeginValue_noSubs _ c hc
    have hnm : NoMulti [(c.schema.BeginValue c).1] := by
      intro x hx
      rw [List.mem_singleton.mp hx, schema_BeginValue_multi, hm]
    obtain ⟨out1, hout1, hM, hst⟩ := fresh_over (subAt fuel) root out c [] hb hns hnm hout S hs
      nullOutputHandler_ (fun _ _ => rfl) d w1 rs hf
    have hverd : verdictOf fuel d S = w1.valid_ := by
      simp only [verdictOf, validate, validateWith, hf, Option.map_some', IsValid]
      cases w1.valid_ <;> rfl
    refine ⟨_, rs, hM, hverd.symm, fun hv => ⟨out1, hout1, ?_⟩⟩
    rw [hverd] at hv
    simp only [over, hst hv, hv, List.nil_append]

/-- The statements after `BeginValue` on a validator whose only context owns no
validator and has a schema without combinators. -/
theorem afterBegin_plain (sub : GenericSchemaValidator → Event → Option GenericSchemaValidator)
    (cl : Bool) (root : BaseSchema) (out : OutputHandler) (c c1 : Context) (e : Event) (b : Bool)
    (hout : ∀ h e, out.answer h e = true) (hp : c.schema.Plain) (hc : Context.NoSubs c)
    (hm : c.schema.method c e = some (c1, b)) :
    afterBegin sub cl ⟨root, out, [c], true⟩ e
      = some (⟨root, if b then out.receive [e] else out, if b && cl then [] else [c1], b⟩, b) := by
  have hc1 := method_noSubs c.schema hp c c1 e b hc hm
  have hs1 := (method_fields c.schema c c1 e b hm).1
  cases b with
  | false => simp [afterBegin, HANDLE_CURRENT_, hm]
  | true =>
    have hstep : stepStack (fun w => sub w e) [c1] = some [c1] :=
      stepStack_allNoSubs _ [c1] (fun x hx => by rw [List.mem_singleton.mp hx]; exact hc1)
    have hend : c1.schema.EndValue c1 = some true := by
      rw [hs1]; exact endValue_plain c.schema hp c1
    cases cl with
    | false =>
      simp [afterBegin, HANDLE_CURRENT_, hm, HANDLE_LOGIC_, hstep, HANDLE_OUTPUT_,
        call_eq _ hout]
    | true =>
      simp [afterBegin, HANDLE_CURRENT_, hm, HANDLE_LOGIC_, hstep, HANDLE_END_, EndValue, hend,
        HANDLE_OUTPUT_, call_eq _ hout]

/-- An event that begins a value on a fresh validator of a schema without
combinators. -/
theorem handle_plain_begin
    (sub : GenericSchemaValidator → Event → Option GenericSchemaValidator)
    (root : BaseSchema) (out : OutputHandler) (c1 : Context) (e : Event) (b : Bool)
    (hout : ∀ h e, out.answer h e = true) (hp : root.Plain) (he : e.isBegin = true)
    (hm : root.method (Context.make root) e = some (c1, b)) :
    handleWith sub ⟨root, out, [], true⟩ e
      = some (⟨root, if b then out.receive [e] else out,
          if b && e.isClose then [] else [c1], b⟩, b) := by
  rw [handleWith_eq sub _ e rfl]
  simp only [he, if_true, BeginValue_fresh ⟨root, out, [], true⟩ rfl, Bool.not_true,
    Bool.false_eq_true, if_false]
  exact afterBegin_plain sub e.isClose root out (Context.make root) c1 e b hout hp
    ⟨rfl, rfl, rfl, rfl⟩ hm

/-- The events `Key`, `EndObject` and `EndArray` on a validator whose only
context owns no validator and has a schema without combinators. -/
theorem handle_plain_current
    (sub : GenericSchemaValidator → Event → Option GenericSchemaValidator)
    (root : BaseSchema) (out : OutputHandler) (c c1 : Context) (e : Event) (b : Bool)
    (hout : ∀ h e, out.answer h e = true) (hp : c.schema.Plain) (hc : Context.NoSubs c)
    (he : e.isBegin = false) (hm : c.schema.method c e = some (c1, b)) :
    handleWith sub ⟨root, out, [c], true⟩ e
      = some (⟨root, if b then out.receive [e] else out,
          if b && e.isClose then [] else [c1], b⟩, b) := by
  rw [handleWith_eq sub _ e rfl]
  simp only [he, Bool.false_eq_true, if_false]
  exact afterBegin_plain sub e.isClose root out c c1 e b hout hp hc hm


theorem schema_BeginValue_object (s : BaseSchema) (c : Context) (h : c.inArray = false) :
    s.BeginValue c = (c, true) := by
  simp [BaseSchema.BeginValue, h]

theorem feed_sticky (fuel : Nat) (v1 : GenericSchemaValidator) (e : Event) (r : Bool)
    (v : GenericSchemaValidator) (es : List Event) (h : handle fuel v e = some (v1, r))
    (hv : v1.valid_ = false) :
    feed fuel v (e :: es) = some (v1, r :: List.replicate es.length false) :=
  feedWith_cons_some _ v v1 v1 e es r _ h (feedWith_of_invalid _ v1 hv es)

/-- The members of an object on the validator of a schema without combinators:
the run comes to what `membersFold` computes. -/
theorem members_fold_run (fuel : Nat) (R : BaseSchema) (hR : R.Plain) :
    ∀ (ms : List ((String × Bool) × Doc)) (c : Context) (out : OutputHandler) (cF : Context)
      (b : Bool),
      c.schema = R → Context.NoSubs c → c.inArray = false → c.multiTypeSchema = none →
      (∀ h e, out.answer h e = true) →
      (∀ m ∈ ms, ∀ (c0 c1 : Context) (S : BaseSchema), R.Key c0 m.1.1 = some (c1, true) →
        c1.valueSchema = some S → (validate fuel S m.2).isSome = true) →
      membersFold fuel R c ms = some (cF, b) →
      ∃ (vF : GenericSchemaValidator) (rs : List Bool),
        feed fuel ⟨R, out, [c], true⟩ (Doc.memberEvents ms) = some (vF, rs) ∧ vF.valid_ = b ∧
        (b = true → ∃ out1, (∀ h e, out1.answer h e = true) ∧ vF = ⟨R, out1, [cF], true⟩ ∧
          cF.schema = R ∧ Context.NoSubs cF ∧ cF.inArray = false ∧ cF.multiTypeSchema = none)
  | [], c, out, cF, b, hs, hn, hi, hm, hout, _, hf => by
    simp only [membersFold, Option.some.injEq, Prod.mk.injEq] at hf
    obtain ⟨rfl, rfl⟩ := hf
    exact ⟨_, [], rfl, rfl, fun _ => ⟨out, hout, rfl, hs, hn, hi, hm⟩⟩
  | (k, d) :: ms, c, out, cF, b, hs, hn, hi, hm, hout, hsub, hf => by
    have hp : c.schema.Plain := by rw [hs]; exact hR
    simp only [membersFold] at hf
    rcases hk : R.Key c k.1 with _ | ⟨c1, _ | _⟩
    · simp [hk] at hf
    · simp only [hk, Option.some.injEq, Prod.mk.injEq] at hf
      obtain ⟨rfl, rfl⟩ := hf
      have hstep := handle_plain_current (subAt fuel) R out c c1 (.Key k.1 k.2) false hout hp hn
        rfl (by rw [hs]; exact hk)
      exact ⟨_, _, feed_sticky fuel _ _ _ _ _ hstep rfl, rfl, fun h => by cases h⟩
    · simp only [hk] at hf
      have hstep := handle_plain_current (subAt fuel) R out c c1 (.Key k.1 k.2) true hout hp hn
        rfl (by rw [hs]; exact hk)
      simp only [if_true, Event.isClose, Bool.and_false, Bool.false_eq_true, if_false] at hstep
      obtain ⟨hs1, hm1, hi1, -⟩ := key_fields R c c1 k.1 true hk
      have hn1 : Context.NoSubs c1 :=
        method_noSubs c.schema hp c c1 (.Key k.1 k.2) true hn (by rw [hs]; exact hk)
      rcases hv : c1.valueSchema with _ | S
      · simp [hv] at hf
      · simp only [hv] at hf
        have hbv : c1.schema.BeginValue c1 = (c1, true) :=
          schema_BeginValue_object _ c1 (hi1.trans hi)
        obtain ⟨v2, rs2, hrun, hval, hnext⟩ := nested_value fuel R (out.receive [.Key k.1 k.2])
          c1 (by rw [hbv]) hn1 (hm1.trans hm) (receive_answer out hout _) S
          (by rw [hbv]; exact hv) d
          (hsub (k, d) (List.mem_cons_self _ _) c c1 S hk hv)
        rw [hbv] at hnext
        rcases hverd : verdictOf fuel d S with _ | _
        · simp only [hverd, Bool.false_eq_true, if_false, Option.some.injEq,
            Prod.mk.injEq] at hf
          obtain ⟨rfl, rfl⟩ := hf
          rw [hverd] at hval
          refine ⟨v2, true :: (rs2 ++ List.replicate (Doc.memberEvents ms).length false), ?_,
            hval, fun h => by cases h⟩
          exact feedWith_cons_some _ _ _ _ _ _ _ _ hstep
            (feedWith_append_some _ _ _ _ _ _ _ _ hrun (feedWith_of_invalid _ v2 hval _))
        · simp only [hverd, if_true] at hf
          obtain ⟨out1, hout1, rfl⟩ := hnext hverd
          obtain ⟨vF, rs3, hrun3, hval3, hnext3⟩ := members_fold_run fuel R hR ms c1 out1 cF b
            (hs1.trans hs) hn1 (hi1.trans hi) (hm1.trans hm) hout1
            (fun m hm0 => hsub m (List.mem_cons_of_mem _ hm0)) hf
          exact ⟨vF, true :: (rs2 ++ rs3),
            feedWith_cons_some _ _ _ _ _ _ _ _ hstep
              (feedWith_append_some _ _ _ _ _ _ _ _ hrun hrun3), hval3, hnext3⟩


theorem handle_begin_fail (sub : GenericSchemaValidator → Event → Option GenericSchemaValidator)
    (root : BaseSchema) (out : OutputHandler) (c : Context) (e : Event)
    (hb : (c.schema.BeginValue c).2 = false) (he : e.isBegin = true) :
    handleWith sub ⟨root, out, [c], true⟩ e
      = some (⟨root, out, [(c.schema.BeginValue c).1], false⟩, false) := by
  rw [handleWith_eq sub _ e rfl]
  simp [he, BeginValue, hb]

theorem first_isBegin (d : Doc) : d.first.isBegin = true := by
  cases d <;> rfl

/-- The elements of an array on the validator of a schema without combinators:
the run comes to what `elementsFold` computes. -/
theorem elements_fold_run (fuel : Nat) (A : BaseSchema) (hA : A.Plain) :
    ∀ (ds : List Doc) (c : Context) (out : OutputHandler),
      c.schema = A → Context.NoSubs c → c.inArray = true → c.multiTypeSchema = none →
      (∀ h e, out.answer h e = true) →
      (∀ d ∈ ds, ∀ (c0 : Context) (S : BaseSchema), c0.inArray = true →
        (A.BeginValue c0).2 = true → (A.BeginValue c0).1.valueSchema = some S →
        (validate fuel S d).isSome = true) →
      ∃ (vF : GenericSchemaValidator) (rs : List Bool),
        feed fuel ⟨A, out, [c], true⟩ (Doc.elementEvents ds) = some (vF, rs) ∧
        vF.valid_ = (elementsFold fuel A c ds).2 ∧
        ((elementsFold fuel A c ds).2 = true → ∃ out1, (∀ h e, out1.answer h e = true) ∧
          vF = ⟨A, out1, [(elementsFold fuel A c ds).1], true⟩ ∧
          (elementsFold fuel A c ds).1.schema = A ∧
          Context.NoSubs (elementsFold fuel A c ds).1 ∧
          (elementsFold fuel A c ds).1.inArray = true ∧
          (elementsFold fuel A c ds).1.multiTypeSchema = none)
  | [], c, out, hs, hn, hi, hm, hout, _ =>
    ⟨_, [], rfl, rfl, fun _ => ⟨out, hout, rfl, hs, hn, hi, hm⟩⟩
  | d :: ds, c, out, hs, hn, hi, hm, hout, hsub => by
    obtain ⟨tl, htl⟩ := events_eq_first_cons d
    have hev : Doc.elementEvents (d :: ds) = d.first :: (tl ++ Doc.elementEvents ds) := by
      simp only [Doc.elementEvents, htl, List.cons_append]
    rcases hb : (A.BeginValue c).2 with _ | _
    · have hfold : elementsFold fuel A c (d :: ds) = ((A.BeginValue c).1, false) := by
        simp [elementsFold, hb]
      rw [hfold, hev]
      have hstep := handle_begin_fail (subAt fuel) A out c d.first (by rw [hs]; exact hb)
        (first_isBegin d)
      exact ⟨_, _, feed_sticky fuel _ _ _ _ _ hstep rfl, rfl, fun h => by cases h⟩
    · have hready := schema_BeginValue_ready A c (Or.inl hi) hb
      rcases hv : (A.BeginValue c).1.valueSchema with _ | S
      · rw [hv] at hready; cases hready
      · have hsh := schema_BeginValue_shape A c
        simp only [Context.shape, Prod.mk.injEq] at hsh
        obtain ⟨v2, rs2, hrun, hval, hnext⟩ := nested_value fuel A out c (by rw [hs]; exact hb)
          hn hm hout S (by rw [hs]; exact hv) d (hsub d (List.mem_cons_self _ _) c S hi hb hv)
        rw [hs] at hnext
        rcases hverd : verdictOf fuel d S with _ | _
        · have hfold : elementsFold fuel A c (d :: ds) = ((A.BeginValue c).1, false) := by
            simp [elementsFold, hb, hv, hverd]
          rw [hfold]
          rw [hverd] at hval
          refine ⟨v2, rs2 ++ List.replicate (Doc.elementEvents ds).length false, ?_, hval,
            fun h => by cases h⟩
          exact feedWith_append_some _ _ _ _ _ _ _ _ hrun (feedWith_of_invalid _ v2 hval _)
        · have hfold : elementsFold fuel A c (d :: ds)
              = elementsFold fuel A (A.BeginValue c).1 ds := by
            simp [elementsFold, hb, hv, hverd]
          rw [hfold]
          obtain ⟨out1, hout1, rfl⟩ := hnext hverd
          obtain ⟨vF, rs3, hrun3, hval3, hnext3⟩ := elements_fold_run fuel A hA ds
            (A.BeginValue c).1 out1 (hsh.1.trans hs) (schema_BeginValue_noSubs A c hn)
            (hsh.2.1.trans hi) (hsh.2.2.trans hm) hout1
            (fun d0 hd0 => hsub d0 (List.mem_cons_of_mem _ hd0))
          exact ⟨vF, rs2 ++ rs3, feedWith_append_some _ _ _ _ _ _ _ _ hrun hrun3, hval3, hnext3⟩

/-- The verdict of the validator of a schema without combinators on an array:
the schema admits arrays, every element is admitted and valid for the schema
`BeginValue` selects for it, and the number of elements is within `minItems_`
and `maxItems_`. -/
theorem plain_array_run (fuel : Nat) (A : BaseSchema) (hA : A.Plain) (ds : List Doc)
    (out : OutputHandler) (hout : ∀ h e, out.answer h e = true)
    (hsub : ∀ d ∈ ds, ∀ (c0 : Context) (S : BaseSchema), c0.inArray = true →
      (A.BeginValue c0).2 = true → (A.BeginValue c0).1.valueSchema = some S →
      (validate fuel S d).isSome = true) :
    validateWith fuel A out (.Array ds)
      = some (A.hasType kArraySchemaType &&
          ((elementsFold fuel A (Context.startArray (Context.make A)) ds).2 &&
            (decide (ds.length ≥ A.minItems_) && decide (ds.length ≤ A.maxItems_)))) := by
  unfold validateWith
  have hev : (Doc.Array ds).events
      = .StartArray :: (Doc.elementEvents ds ++ [.EndArray ds.length]) := rfl
  rw [hev]
  rcases ht : A.hasType kArraySchemaType with _ | _
  · have hm : A.method (Context.make A) .StartArray = some (Context.make A, false) := by
      simp only [BaseSchema.hasType, bne_eq_false_iff_eq] at ht
      simp [BaseSchema.method, BaseSchema.StartArray, create_plain A hA, ht]
    have hstep := handle_plain_begin (subAt fuel) A out _ .StartArray false hout hA rfl hm
    rw [show GenericSchemaValidator.make A out = ⟨A, out, [], true⟩ from rfl,
      feed_sticky fuel _ _ _ _ _ hstep rfl]
    rfl
  · have hm : A.method (Context.make A) .StartArray
        = some (Context.startArray (Context.make A), true) := by
      simp only [BaseSchema.hasType, bne_iff_ne, ne_eq] at ht
      simp [BaseSchema.method, BaseSchema.StartArray, create_plain A hA, ht, Context.startArray]
    have hstep := handle_plain_begin (subAt fuel) A out _ .StartArray true hout hA rfl hm
    simp only [if_true, Event.isClose, Bool.and_false, Bool.false_eq_true, if_false] at hstep
    obtain ⟨vF, rs, hrun, hval, hnext⟩ := elements_fold_run fuel A hA ds
      (Context.startArray (Context.make A)) (out.receive [.StartArray]) rfl ⟨rfl, rfl, rfl, rfl⟩
      rfl rfl (receive_answer out hout _) hsub
    rcases hfold : (elementsFold fuel A (Context.startArray (Context.make A)) ds).2 with _ | _
    · rw [hfold] at hval
      rw [show GenericSchemaValidator.make A out = ⟨A, out, [], true⟩ from rfl]
      have := feedWith_cons_some _ _ _ _ _ _ _ _ hstep
        (feedWith_append_some _ _ _ _ _ _ _ _ hrun
          (feedWith_of_invalid (subAt fuel) vF hval [.EndArray ds.length]))
      simp only [feed, this, Option.map_some', IsValid, hval, Bool.false_and, Bool.and_false]
    · obtain ⟨out1, hout1, rfl, hs, hn, hi, hmu⟩ := hnext hfold
      have hme : (elementsFold fuel A (Context.startArray (Context.make A)) ds).1.schema.method
          (elementsFold fuel A (Context.startArray (Context.make A)) ds).1 (.EndArray ds.length)
          = some (Context.endArray (elementsFold fuel A (Context.startArray (Context.make A))
              ds).1,
            decide (ds.length ≥ A.minItems_) && decide (ds.length ≤ A.maxItems_)) := by
        simp only [BaseSchema.hasType, bne_iff_ne, ne_eq] at ht
        rw [hs]
        simp [BaseSchema.method, BaseSchema.EndArray, create_plain A hA, ht, Context.endArray]
      have hend := handle_plain_current (subAt fuel) A out1 _ _ (.EndArray ds.length) _ hout1
        (by rw [hs]; exact hA) hn rfl hme
      rw [show GenericSchemaValidator.make A out = ⟨A, out, [], true⟩ from rfl]
      have := feedWith_cons_some _ _ _ _ _ _ _ _ hstep
        (feedWith_append_some _ _ _ _ _ _ _ _ hrun
          (feedWith_cons_some _ _ _ _ _ [] _ [] hend rfl))
      simp only [feed, this, Option.map_some', IsValid, Bool.true_and]

/-- The verdict of the validator of a schema without combinators on an object:
the schema admits objects, `membersFold` accepts the members, and `EndObject`
accepts the context they leave. -/
theorem plain_object_run (fuel : Nat) (R : BaseSchema) (hR : R.Plain)
    (ms : List ((String × Bool) × Doc)) (out : OutputHandler)
    (hout : ∀ h e, out.answer h e = true)
    (hsub : ∀ m ∈ ms, ∀ (c0 c1 : Context) (S : BaseSchema), R.Key c0 m.1.1 = some (c1, true) →
      c1.valueSchema = some S → (validate fuel S m.2).isSome = true)
    (ht : R.hasType kObjectSchemaType = true) (cF cE : Context) (b bE : Bool)
    (hfold : membersFold fuel R (Context.startObject R (Context.make R)) ms = some (cF, b))
    (hend : R.EndObject cF ms.length = some (cE, bE)) :
    validateWith fuel R out (.Object ms) = some (b && bE) := by
  unfold validateWith
  have hev : (Doc.Object ms).events
      = .StartObject :: (Doc.memberEvents ms ++ [.EndObject ms.length]) := rfl
  rw [hev, show GenericSchemaValidator.make R out = ⟨R, out, [], true⟩ from rfl]
  have hm : R.method (Context.make R) .StartObject
      = some (Context.startObject R (Context.make R), true) := by
    simp only [BaseSchema.hasType, bne_iff_ne, ne_eq] at ht
    simp [BaseSchema.method, BaseSchema.StartObject, create_plain R hR, ht, Context.startObject]
  have hstep := handle_plain_begin (subAt fuel) R out _ .StartObject true hout hR rfl hm
  simp only [if_true, Event.isClose, Bool.and_false, Bool.false_eq_true, if_false] at hstep
  obtain ⟨vF, rs, hrun, hval, hnext⟩ := members_fold_run fuel R hR ms
    (Context.startObject R (Context.make R)) (out.receive [.StartObject]) cF b rfl
    ⟨rfl, rfl, rfl, rfl⟩ rfl rfl (receive_answer out hout _) hsub hfold
  cases b with
  | false =>
    have := feedWith_cons_some _ _ _ _ _ _ _ _ hstep
      (feedWith_append_some _ _ _ _ _ _ _ _ hrun
        (feedWith_of_invalid (subAt fuel) vF hval [.EndObject ms.length]))
    simp only [feed, this, Option.map_some', IsValid, hval, Bool.false_and]
  | true =>
    obtain ⟨out1, hout1, rfl, hs, hn, hi, hmu⟩ := hnext rfl
    have hend1 := handle_plain_current (subAt fuel) R out1 cF cE (.EndObject ms.length) bE hout1
      (by rw [hs]; exact hR) hn rfl (by rw [hs]; exact hend)
    have := feedWith_cons_some _ _ _ _ _ _ _ _ hstep
      (feedWith_append_some _ _ _ _ _ _ _ _ hrun
        (feedWith_cons_some _ _ _ _ _ [] _ [] hend1 rfl))
    simp only [feed, this, Option.map_some', IsValid, Bool.true_and]

/-- The verdict of the validator of a schema without combinators on a value of
one event: what the schema method of the event returns. -/
theorem plain_scalar_run (fuel : Nat) (R : BaseSchema) (hR : R.Plain) (out : OutputHandler)
    (hout : ∀ h e, out.answer h e = true) (e : Event) (he : e.isBegin = true)
    (c1 : Context) (b : Bool) (hm : R.method (Context.make R) e = some (c1, b)) :
    (feed fuel (GenericSchemaValidator.make R out) [e]).map (fun r => r.1.IsValid) = some b := by
  have hstep := handle_plain_begin (subAt fuel) R out c1 e b hout hR he hm
  rw [show GenericSchemaValidator.make R out = ⟨R, out, [], true⟩ from rfl]
  have := feedWith_cons_some _ _ _ _ _ [] _ [] hstep rfl
  simp only [feed, this, Option.map_some', IsValid]


theorem validate_typeless (fuel : Nat) (d : Doc) (hd : d.fits = true) :
    validate fuel typeless d = some true := by
  obtain ⟨vF, rs, h1, h2, -⟩ := type_run (subAt fuel) d hd 127 nullOutputHandler_
    (fun _ _ => rfl)
  rw [admits_full] at h2
  have h1 : feed fuel (GenericSchemaValidator.make typeless nullOutputHandler_) d.events
      = some (vF, rs) := h1
  simp only [validate, validateWith, h1, Option.map_some', IsValid, h2]

theorem verdictOf_typeless (fuel : Nat) (d : Doc) (hd : d.fits = true) :
    verdictOf fuel d typeless = true := by
  simp [verdictOf, validate_typeless fuel d hd]

theorem fits_of_mem_elements : ∀ (ds : List Doc), Doc.elementsFit ds = true →
    ∀ d ∈ ds, d.fits = true
  | [], _, d, hd => by cases hd
  | x :: xs, h, d, hd => by
    simp only [Doc.elementsFit, Bool.and_eq_true] at h
    rcases List.mem_cons.mp hd with rfl | hd
    · exact h.1
    · exact fits_of_mem_elements xs h.2 d hd

theorem list_fold (fuel : Nat) (S : Option BaseSchema) (a b : Nat) :
    ∀ (ds : List Doc) (c : Context), c.inArray = true → (∀ d ∈ ds, d.fits = true) →
      (elementsFold fuel (listSchema S a b) c ds).2 = ds.all (verdictIf fuel S)
  | [], _, _, _ => rfl
  | d :: ds, c, hc, hfit => by
    have hd := hfit d (List.mem_cons_self _ _)
    have ih := fun c1 h1 => list_fold fuel S a b ds c1 h1
      (fun x hx => hfit x (List.mem_cons_of_mem _ hx))
    cases S with
    | none =>
      have hb : (listSchema none a b).BeginValue c
          = ({ c with valueSchema := some typeless,
                      arrayElementIndex := SizeType.succ c.arrayElementIndex }, true) := by
        simp [BaseSchema.BeginValue, hc, listSchema, typeless]
      simp only [elementsFold, hb, if_true, verdictOf_typeless fuel d hd, List.all_cons,
        verdictIf, Bool.true_and]
      exact ih _ hc
    | some S0 =>
      have hb : (listSchema (some S0) a b).BeginValue c
          = ({ c with valueSchema := some S0,
                      arrayElementIndex := SizeType.succ c.arrayElementIndex }, true) := by
        simp [BaseSchema.BeginValue, hc, listSchema]
      simp only [elementsFold, hb, if_true, List.all_cons, verdictIf]
      rcases hv : verdictOf fuel d S0 with _ | _
      · simp
      · simp only [if_true, Bool.true_and]
        exact ih _ hc

/-- The verdict of the node with a list-item schema and bounds on an array. -/
theorem list_node (fuel : Nat) (S : Option BaseSchema) (a b : Nat) (ds : List Doc)
    (hfit : (Doc.Array ds).fits = true)
    (hsub : ∀ d ∈ ds, ∀ S0, S = some S0 → (validate fuel S0 d).isSome = true) :
    validate fuel (listSchema S a b) (.Array ds)
      = some (decide (a ≤ ds.length) && decide (ds.length ≤ b) && ds.all (verdictIf fuel S)) := by
  simp only [Doc.fits, Bool.and_eq_true, decide_eq_true_eq] at hfit
  have hfits := fits_of_mem_elements ds hfit.2
  unfold validate
  rw [plain_array_run fuel (listSchema S a b) ⟨rfl, rfl, rfl, rfl⟩ ds nullOutputHandler_
    (fun _ _ => rfl) ?_]
  · rw [list_fold fuel S a b ds _ rfl hfits]
    have ht : (listSchema S a b).hasType kArraySchemaType = true :=
      typeless_hasType kArraySchemaType (by decide)
    simp only [ht, Bool.true_and, show (listSchema S a b).minItems_ = a from rfl,
      show (listSchema S a b).maxItems_ = b from rfl, ge_iff_le]
    cases ds.all (verdictIf fuel S) <;> simp
  · intro d hd c0 S1 hc0 _ hv
    cases S with
    | none =>
      have hb : ((listSchema none a b).BeginValue c0).1.valueSchema = some typeless := by
        simp [BaseSchema.BeginValue, hc0, listSchema, typeless]
      rw [hb] at hv
      cases hv
      rw [validate_typeless fuel d (hfits d hd)]; rfl
    | some S0 =>
      have hb : ((listSchema (some S0) a b).BeginValue c0).1.valueSchema = some S0 := by
        simp [BaseSchema.BeginValue, hc0, listSchema]
      rw [hb] at hv
      cases hv
      exact hsub d hd S1 rfl

end GenericSchemaValidator

/-- The constructor on an object, statement by statement. -/
theorem make_obj_eq (rx : RegexEngine) (ms : List (String × Json)) :
    BaseSchema.make rx (.obj ms)
      = (makeElementsAt rx "allOf" ms).bind (fun A =>
        (makeElementsAt rx "anyOf" ms).bind (fun B =>
        (makeElementsAt rx "oneOf" ms).bind (fun O =>
        (makeAt rx "not" ms).bind (fun N =>
        (makeMembersAt rx "properties" ms).bind (fun P =>
        (patternPart rx ms).bind (fun PP =>
        (additionalPart rx ms).bind (fun AS =>
        (itemsPart rx ms).bind (fun IL =>
        (makeElementsAt rx "items" ms).bind (fun IT =>
          some (nodeOf rx ms A B O N P PP AS IL IT)))))))))) := by
  rw [BaseSchema.make]
  rcases makeElementsAt rx "allOf" ms with _ | A
  · rfl
  rcases makeElementsAt rx "anyOf" ms with _ | B
  · rfl
  rcases makeElementsAt rx "oneOf" ms with _ | O
  · rfl
  rcases makeAt rx "not" ms with _ | N
  · rfl
  rcases makeMembersAt rx "properties" ms with _ | P
  · rfl
  simp only [Option.bind_eq_bind, Option.some_bind, Option.pure_def, patternPart, additionalPart,
    itemsPart]
  have key : ∀ (PP : Option (List (String × BaseSchema))),
      (match GetMember ms "additionalProperties" with
        | some (.obj _) => (makeAt rx "additionalProperties" ms).bind (fun AS =>
            match GetMember ms "items" with
            | some (.obj _) => (makeAt rx "items" ms).bind (fun IL =>
                (makeElementsAt rx "items" ms).bind (fun IT =>
                  some (nodeOf rx ms A B O N P PP AS IL IT)))
            | _ => (makeElementsAt rx "items" ms).bind (fun IT =>
                  some (nodeOf rx ms A B O N P PP AS none IT)))
        | _ =>
            match GetMember ms "items" with
            | some (.obj _) => (makeAt rx "items" ms).bind (fun IL =>
                (makeElementsAt rx "items" ms).bind (fun IT =>
                  some (nodeOf rx ms A B O N P PP none IL IT)))
            | _ => (makeElementsAt rx "items" ms).bind (fun IT =>
                  some (nodeOf rx ms A B O N P PP none none IT)))
      = (match GetMember ms "additionalProperties" with
          | some (.obj _) => makeAt rx "additionalProperties" ms
          | _ => some none).bind (fun AS =>
        (match GetMember ms "items" with
          | some (.obj _) => makeAt rx "items" ms
          | _ => some none).bind (fun IL =>
        (makeElementsAt rx "items" ms).bind (fun IT =>
          some (nodeOf rx ms A B O N P PP AS IL IT)))) := by
    intro PP
    rcases GetMember ms "additionalProperties" with _ | v
    · rcases GetMember ms "items" with _ | w
      · rfl
      · cases w <;> rfl
    · cases v <;> (rcases GetMember ms "items" with _ | w <;> [rfl; (cases w <;> rfl)])
  rcases GetMember ms "patternProperties" with _ | v
  · simp only [Option.some_bind]
    rw [← key]
    rcases GetMember ms "additionalProperties" with _ | v
    · rcases GetMember ms "items" with _ | w
      · rfl
      · cases w <;> rfl
    · cases v <;> (rcases GetMember ms "items" with _ | w <;> [rfl; (cases w <;> rfl)])
  · simp only
    rcases v.IsObject with _ | _
    · rfl
    · simp only [if_true]
      rcases makeMembersAt rx "patternProperties" ms with _ | PP
      · rfl
      · simp only [Option.some_bind]
        rw [← key]
        rcases GetMember ms "additionalProperties" with _ | v
        · rcases GetMember ms "items" with _ | w
          · rfl
          · cases w <;> rfl
        · cases v <;> (rcases GetMember ms "items" with _ | w <;> [rfl; (cases w <;> rfl)])


theorem makeAt_of_get (rx : RegexEngine) (k : String) :
    ∀ (ms : List (String × Json)),
      makeAt rx k ms = match GetMember ms k with
        | none => some none
        | some v => (BaseSchema.make rx v).map some
  | [] => by simp [makeAt, GetMember]
  | (k1, v) :: rest => by
    rw [makeAt, GetMember]
    split
    · rfl
    · exact makeAt_of_get rx k rest

theorem makeElementsAt_of_get (rx : RegexEngine) (k : String) :
    ∀ (ms : List (String × Json)),
      makeElementsAt rx k ms = match GetMember ms k with
        | some (.arr xs) => (makeList rx xs).map some
        | _ => some none
  | [] => by simp [makeElementsAt, GetMember]
  | (k1, v) :: rest => by
    have ih := makeElementsAt_of_get rx k rest
    cases v <;> simp only [makeElementsAt, GetMember] <;> split <;> first | rfl | exact ih

theorem makeMembersAt_of_get (rx : RegexEngine) (k : String) :
    ∀ (ms : List (String × Json)),
      makeMembersAt rx k ms = match GetMember ms k with
        | some (.obj o) => (makeMembers rx o).map some
        | _ => some none
  | [] => by simp [makeMembersAt, GetMember]
  | (k1, v) :: rest => by
    have ih := makeMembersAt_of_get rx k rest
    cases v <;> simp only [makeMembersAt, GetMember] <;> split <;> first | rfl | exact ih

theorem absent_of_only (allowed : List String) (ms : List (String × Json))
    (h : onlyKeywords allowed ms = true) (k : String) (hk : k ∈ keywords)
    (hna : allowed.contains k = false) : GetMember ms k = none := by
  simp only [onlyKeywords, List.all_eq_true, Bool.or_eq_true] at h
  rcases h k hk with h1 | h1
  · rw [hna] at h1; cases h1
  · simpa using h1

namespace GenericSchemaValidator


theorem assign_size (out n : Nat) (hn : n ≤ SizeTypeMax) :
    (if (Json.int (n : Int)).IsUint64 = true ∧ (n : Int).toNat ≤ SizeTypeMax
      then (n : Int).toNat else out) = n := by
  have h1 : (Json.int (n : Int)).IsUint64 = true := by
    simp only [Json.IsUint64, decide_eq_true_eq]
    have : SizeTypeMax < 2 ^ 64 := by decide
    constructor
    · exact Int.natCast_nonneg n
    · exact_mod_cast lt_of_le_of_lt hn this
  simp [h1, hn]

/-- The value `AssignIfExist` gives a size keyword that is absent or is a
number in the range of `SizeType`. -/
theorem assignSize_opt (out : Nat) (ms : List (String × Json)) (k : String) (a : Option Nat)
    (ha : ∀ n, a = some n → n ≤ SizeTypeMax)
    (h : GetMember ms k = a.map sizeJson) :
    AssignIfExistSize out ms k = a.getD out := by
  cases a with
  | none => simp [AssignIfExistSize, h]
  | some n =>
    simp only [AssignIfExistSize, h, Option.map_some', Option.getD_some, sizeJson]
    exact assign_size out n (ha n rfl)

theorem make_list (rx : RegexEngine) (ms : List (String × Json))
    (items : Option (List (String × Json))) (S : Option BaseSchema) (a b : Option Nat)
    (honly : onlyKeywords ["items", "minItems", "maxItems"] ms = true)
    (hitems : GetMember ms "items" = items.map Json.obj)
    (hS : compileOptional rx items = some S)
    (ha : ∀ n, a = some n → n ≤ SizeTypeMax) (hb : ∀ n, b = some n → n ≤ SizeTypeMax)
    (hmin : GetMember ms "minItems" = a.map sizeJson)
    (hmax : GetMember ms "maxItems" = b.map sizeJson) :
    BaseSchema.make rx (.obj ms) = some (listSchema S (a.getD 0) (b.getD SizeTypeMax)) := by
  have abs := fun k hk hna => absent_of_only _ ms honly k hk hna
  have h1 := abs "type" (by decide) (by decide)
  have h2 := abs "enum" (by decide) (by decide)
  have h3 := abs "allOf" (by decide) (by decide)
  have h4 := abs "anyOf" (by decide) (by decide)
  have h5 := abs "oneOf" (by decide) (by decide)
  have h6 := abs "not" (by decide) (by decide)
  have h7 := abs "properties" (by decide) (by decide)
  have h8 := abs "patternProperties" (by decide) (by decide)
  have h9 := abs "required" (by decide) (by decide)
  have h10 := abs "dependencies" (by decide) (by decide)
  have h11 := abs "additionalProperties" (by decide) (by decide)
  have h12 := abs "minProperties" (by decide) (by decide)
  have h13 := abs "maxProperties" (by decide) (by decide)
  have h14 := abs "additionalItems" (by decide) (by decide)
  have h15 := abs "minLength" (by decide) (by decide)
  have h16 := abs "maxLength" (by decide) (by decide)
  have h17 := abs "pattern" (by decide) (by decide)
  have h18 := abs "minimum" (by decide) (by decide)
  have h19 := abs "maximum" (by decide) (by decide)
  have h20 := abs "exclusiveMinimum" (by decide) (by decide)
  have h21 := abs "exclusiveMaximum" (by decide) (by decide)
  have h22 := abs "multipleOf" (by decide) (by decide)
  have hIL : itemsPart rx ms = some S := by
    cases items with
    | none => simpa [itemsPart, hitems, compileOptional] using hS
    | some sm =>
      simp only [itemsPart, hitems, Option.map_some', makeAt_of_get]
      exact hS
  have hIT : makeElementsAt rx "items" ms = some none := by
    rw [makeElementsAt_of_get, hitems]
    cases items <;> rfl
  rw [make_obj_eq, makeElementsAt_of_get, makeElementsAt_of_get, makeElementsAt_of_get,
    makeAt_of_get, makeMembersAt_of_get, hIL, hIT]
  simp only [h3, h4, h5, h6, h7, patternPart, h8, additionalPart, h11, Option.some_bind,
    Option.some.injEq]
  simp only [nodeOf, listSchema, typeless, enumOf, typeMask, requiredPart, dependenciesPart,
    numberOr, AssignIfExistBool, h1, h2, h9, h10, h11, h14, h17, h18, h19, h20, h21, h22,
    assignSize_opt _ ms _ none (fun _ h => by cases h) h12,
    assignSize_opt _ ms _ none (fun _ h => by cases h) h13,
    assignSize_opt _ ms _ none (fun _ h => by cases h) h15,
    assignSize_opt _ ms _ none (fun _ h => by cases h) h16,
    assignSize_opt _ ms _ a ha hmin, assignSize_opt _ ms _ b hb hmax,
    Option.getD_none, Option.none_bind, Option.map_none', List.map_nil]


theorem succ_eq (i : Nat) (h : i + 1 ≤ SizeTypeMax) : SizeType.succ i = i + 1 := by
  unfold SizeType.succ
  have : SizeTypeMax < 2 ^ 32 := by decide
  exact Nat.mod_eq_of_lt (by omega)

theorem tuple_fold (fuel : Nat) (Ss : List BaseSchema) (add : Bool) :
    ∀ (ds : List Doc) (c : Context) (i : Nat), c.inArray = true → (∀ d ∈ ds, d.fits = true) →
      c.arrayElementIndex = i → i + ds.length ≤ SizeTypeMax → (add = true ∨ i ≤ Ss.length) →
      (elementsFold fuel (tupleSchema Ss add) c ds).2
        = ((tupleVerdicts fuel ds (Ss.drop i)).all id &&
            (add || decide (i + ds.length ≤ Ss.length)))
  | [], c, i, _, _, _, _, hadd => by
    rcases hadd with h | h <;> simp [elementsFold, tupleVerdicts, h]
  | d :: ds, c, i, hc, hfit, hi, hlen, hadd => by
    have hd := hfit d (List.mem_cons_self _ _)
    have hlen1 : i + 1 + ds.length ≤ SizeTypeMax := by
      simp only [List.length_cons] at hlen; omega
    have hsucc : SizeType.succ c.arrayElementIndex = i + 1 := by
      rw [hi]; exact succ_eq i (by omega)
    have ih := fun c1 h1 h2 h3 => tuple_fold fuel Ss add ds c1 (i + 1) h1
      (fun x hx => hfit x (List.mem_cons_of_mem _ hx)) h2 hlen1 h3
    have hsucc1 : SizeType.succ i = i + 1 := succ_eq i (by omega)
    by_cases hlt : i < Ss.length
    · have hb : (tupleSchema Ss add).BeginValue c
          = ({ c with valueSchema := some Ss[i], arrayElementIndex := i + 1 }, true) := by
        simp [BaseSchema.BeginValue, hc, tupleSchema, typeless, hi, hlt, hsucc1]
      have hdrop : Ss.drop i = Ss[i] :: Ss.drop (i + 1) := List.drop_eq_getElem_cons hlt
      simp only [elementsFold, hb, if_true, hdrop, tupleVerdicts, List.zipWith_cons_cons,
        List.all_cons, id, List.length_cons]
      rcases hv : verdictOf fuel d Ss[i] with _ | _
      · simp
      · simp only [if_true, Bool.true_and]
        refine (ih _ ?_ ?_ (Or.inr hlt)).trans ?_
        · exact hc
        · rfl
        · simp only [tupleVerdicts]
          congr 2
          simp only [decide_eq_decide]
          omega
    · have hge : Ss.length ≤ i := Nat.le_of_not_lt hlt
      have hdrop : Ss.drop i = [] := List.drop_eq_nil_of_le hge
      have hdrop1 : Ss.drop (i + 1) = [] := List.drop_eq_nil_of_le (by omega)
      cases add with
      | true =>
        have hb : (tupleSchema Ss true).BeginValue c
            = ({ c with valueSchema := some typeless, arrayElementIndex := i + 1 }, true) := by
          simp [BaseSchema.BeginValue, hc, tupleSchema, typeless, hi, hlt, hsucc1]
        simp only [elementsFold, hb, if_true, verdictOf_typeless fuel d hd]
        refine (ih _ ?_ ?_ (Or.inl rfl)).trans ?_
        · exact hc
        · rfl
        · simp [hdrop, hdrop1, tupleVerdicts]
      | false =>
        have hb : (tupleSchema Ss false).BeginValue c = (c, false) := by
          simp [BaseSchema.BeginValue, hc, tupleSchema, typeless, hi, hlt]
        simp only [elementsFold, hb, Bool.false_eq_true, if_false, hdrop, tupleVerdicts,
          List.zipWith_nil_right, List.all_nil, Bool.false_or, Bool.true_and, List.length_cons]
        symm
        simp only [decide_eq_false_iff_not, not_le]
        omega

/-- The verdict of the node with tuple-item schemas on an array. -/
theorem tuple_node (fuel : Nat) (Ss : List BaseSchema) (add : Bool) (ds : List Doc)
    (hfit : (Doc.Array ds).fits = true)
    (hsub : ∀ d ∈ ds, ∀ S ∈ Ss, (validate fuel S d).isSome = true) :
    validate fuel (tupleSchema Ss add) (.Array ds)
      = some ((tupleVerdicts fuel ds Ss).all id && (add || decide (ds.length ≤ Ss.length))) := by
  simp only [Doc.fits, Bool.and_eq_true, decide_eq_true_eq] at hfit
  have hfits := fits_of_mem_elements ds hfit.2
  unfold validate
  rw [plain_array_run fuel (tupleSchema Ss add) ⟨rfl, rfl, rfl, rfl⟩ ds nullOutputHandler_
    (fun _ _ => rfl) ?_]
  · rw [tuple_fold fuel Ss add ds _ 0 rfl hfits rfl (by omega) (Or.inr (Nat.zero_le _))]
    have ht : (tupleSchema Ss add).hasType kArraySchemaType = true :=
      typeless_hasType kArraySchemaType (by decide)
    have h1 : decide (ds.length ≥ (tupleSchema Ss add).minItems_) = true := by
      simp [tupleSchema, typeless]
    have h2 : decide (ds.length ≤ (tupleSchema Ss add).maxItems_) = true := by
      simp only [decide_eq_true_eq]
      exact hfit.1
    simp only [ht, h1, h2, Bool.true_and, Bool.and_true, List.drop_zero, Nat.zero_add]
  · intro d hd c0 S1 hc0 hb0 hv
    have hcases : S1 = typeless ∨ S1 ∈ Ss := by
      simp only [BaseSchema.BeginValue, hc0, if_true, tupleSchema, typeless] at hv hb0
      split at hv
      · next hlt =>
        simp only [List.getElem?_eq_getElem hlt, Option.some.injEq] at hv
        right
        rw [← hv]
        exact List.getElem_mem _
      · split at hv
        · simp only [Option.some.injEq] at hv
          left
          exact hv.symm
        · next h1 h2 => simp [h1, h2] at hb0
    rcases hcases with rfl | h
    · rw [validate_typeless fuel d (hfits d hd)]; rfl
    · exact hsub d hd S1 h


theorem assignSize_absent (out : Nat) (ms : List (String × Json)) (k : String)
    (h : GetMember ms k = none) : AssignIfExistSize out ms k = out := by
  simp [AssignIfExistSize, h]

theorem assignBool_absent (out : Bool) (ms : List (String × Json)) (k : String)
    (h : GetMember ms k = none) : AssignIfExistBool out ms k = out := by
  simp [AssignIfExistBool, h]

theorem assignBool_extra (ms : List (String × Json)) (k : String) (extra : Option Json)
    (h : GetMember ms k = extra) : AssignIfExistBool true ms k = additionalAllowed extra := by
  subst h
  rcases hg : GetMember ms k with _ | v
  · simp [AssignIfExistBool, additionalAllowed, hg]
  · cases v <;> simp [AssignIfExistBool, additionalAllowed, hg]

theorem make_tuple (rx : RegexEngine) (ms : List (String × Json)) (js : List Json)
    (Ss : List BaseSchema) (extra : Option Json)
    (honly : onlyKeywords ["items", "additionalItems"] ms = true)
    (hitems : GetMember ms "items" = some (.arr js)) (hSs : makeList rx js = some Ss)
    (hextra : GetMember ms "additionalItems" = extra) :
    BaseSchema.make rx (.obj ms) = some (tupleSchema Ss (additionalAllowed extra)) := by
  have abs := fun k hk hna => absent_of_only _ ms honly k hk hna
  have h_type := abs "type" (by decide) (by decide)
  have h_enum := abs "enum" (by decide) (by decide)
  have h_allOf := abs "allOf" (by decide) (by decide)
  have h_anyOf := abs "anyOf" (by decide) (by decide)
  have h_oneOf := abs "oneOf" (by decide) (by decide)
  have h_not := abs "not" (by decide) (by decide)
  have h_properties := abs "properties" (by decide) (by decide)
  have h_patternProperties := abs "patternProperties" (by decide) (by decide)
  have h_required := abs "required" (by decide) (by decide)
  have h_dependencies := abs "dependencies" (by decide) (by decide)
  have h_additionalProperties := abs "additionalProperties" (by decide) (by decide)
  have h_minProperties := abs "minProperties" (by decide) (by decide)
  have h_maxProperties := abs "maxProperties" (by decide) (by decide)
  have h_minItems := abs "minItems" (by decide) (by decide)
  have h_maxItems := abs "maxItems" (by decide) (by decide)
  have h_minLength := abs "minLength" (by decide) (by decide)
  have h_maxLength := abs "maxLength" (by decide) (by decide)
  have h_pattern := abs "pattern" (by decide) (by decide)
  have h_minimum := abs "minimum" (by decide) (by decide)
  have h_maximum := abs "maximum" (by decide) (by decide)
  have h_exclusiveMinimum := abs "exclusiveMinimum" (by decide) (by decide)
  have h_exclusiveMaximum := abs "exclusiveMaximum" (by decide) (by decide)
  have h_multipleOf := abs "multipleOf" (by decide) (by decide)
  have hIL : itemsPart rx ms = some none := by
    simp [itemsPart, hitems]
  have hIT : makeElementsAt rx "items" ms = some (some Ss) := by
    rw [makeElementsAt_of_get, hitems]
    simp [hSs]
  rw [make_obj_eq, makeElementsAt_of_get, makeElementsAt_of_get, makeElementsAt_of_get,
    makeAt_of_get, makeMembersAt_of_get, hIL, hIT]
  simp only [h_allOf, h_anyOf, h_oneOf, h_not, h_properties, patternPart, h_patternProperties,
    additionalPart, h_additionalProperties, Option.some_bind, Option.some.injEq]
  simp only [nodeOf, tupleSchema, typeless, enumOf, typeMask, requiredPart, dependenciesPart,
    numberOr, h_type, h_enum, h_required, h_dependencies, h_pattern, h_minimum, h_maximum,
    h_multipleOf, assignBool_absent _ ms _ h_additionalProperties,
    assignBool_absent _ ms _ h_exclusiveMinimum, assignBool_absent _ ms _ h_exclusiveMaximum,
    assignSize_absent _ ms _ h_minProperties, assignSize_absent _ ms _ h_maxProperties,
    assignSize_absent _ ms _ h_minLength, assignSize_absent _ ms _ h_maxLength,
    assignSize_absent _ ms _ h_minItems, assignSize_absent _ ms _ h_maxItems,
    assignBool_extra ms _ extra hextra,
    Option.getD_none, Option.none_bind, Option.map_none', List.map_nil]


theorem find_lookup (k : String) :
    ∀ (props : List (String × BaseSchema)) (i0 : Nat),
      match FindPropertyIndexStrFrom k (props.map propertyOf) i0 with
      | some idx => ∃ j S, idx = i0 + j ∧ (props.map propertyOf)[j]? = some (propertyOf (k, S)) ∧
          props.lookup k = some S
      | none => props.lookup k = none
  | [], i0 => by simp [FindPropertyIndexStrFrom]
  | (k1, S1) :: props, i0 => by
    simp only [List.map_cons, FindPropertyIndexStrFrom, propertyOf]
    by_cases h : k1 = k
    · subst h
      simp only [and_self, if_true]
      exact ⟨0, S1, rfl, by simp, by simp [List.lookup]⟩
    · have hne : ¬(k1.length = k.length ∧ k1 = k) := fun hh => h hh.2
      have hbeq : (k == k1) = false := by
        simp only [beq_eq_false_iff_ne, ne_eq]
        exact fun hh => h hh.symm
      simp only [hne, if_false]
      have ih := find_lookup k props (i0 + 1)
      rcases hf : FindPropertyIndexStrFrom k (props.map propertyOf) (i0 + 1) with _ | idx
      · rw [hf] at ih
        simp only [List.lookup, hbeq]
        exact ih
      · rw [hf] at ih
        obtain ⟨j, S, h1, h2, h3⟩ := ih
        refine ⟨j + 1, S, by omega, ?_, ?_⟩
        · simpa using h2
        · simp only [List.lookup, hbeq]
          exact h3

/-- The method `Key` of a node with named properties and an additional-property
policy selects the schema of the member's value as `selected` says. -/
theorem object_key (T : Nat) (props : List (String × BaseSchema)) (addS : Option BaseSchema)
    (addB : Bool) (ht : (objectSchema T props addS addB).hasType kObjectSchemaType = true)
    (c : Context) (k : String) :
    (objectSchema T props addS addB).Key c k
      = some (match selected props addS addB k with
          | some S => ({ c with valueSchema := some S }, true)
          | none => (c, false)) := by
  have hcreate : (objectSchema T props addS addB).CreateLogicValidators c = c :=
    create_plain _ ⟨rfl, rfl, rfl, rfl⟩ c
  have ht1 : ¬((objectSchema T props addS addB).type_ &&& (1 <<< kObjectSchemaType) == 0)
      = true := by
    simp only [BaseSchema.hasType, bne_iff_ne, ne_eq] at ht
    simpa using ht
  unfold BaseSchema.Key
  simp only [hcreate, ht1, if_false]
  have hfl := find_lookup k props 0
  simp only [BaseSchema.FindPropertyIndex]
  rw [show (objectSchema T props addS addB).properties_ = props.map propertyOf from rfl]
  rcases hf : FindPropertyIndexStrFrom k (props.map propertyOf) 0 with _ | idx
  · rw [hf] at hfl
    simp only [selected, hfl, BaseSchema.KeyOther,
      show (objectSchema T props addS addB).patternProperties_ = none from rfl,
      show (objectSchema T props addS addB).additionalPropertySchema_ = addS from rfl,
      show (objectSchema T props addS addB).additionalProperty_ = addB from rfl,
      Option.none_bind]
    cases addS with
    | some A => rfl
    | none => cases addB <;> rfl
  · rw [hf] at hfl
    obtain ⟨j, S, h1, h2, h3⟩ := hfl
    simp only [Nat.zero_add] at h1
    subst h1
    simp only [h2, selected, h3, propertyOf, Bool.false_eq_true, if_false,
      show (objectSchema T props addS addB).hasDependencies_ = false from rfl]


theorem object_fold (fuel : Nat) (T : Nat) (props : List (String × BaseSchema))
    (addS : Option BaseSchema) (addB : Bool)
    (ht : (objectSchema T props addS addB).hasType kObjectSchemaType = true) :
    ∀ (ms : List ((String × Bool) × Doc)) (c : Context),
      ∃ cF : Context, membersFold fuel (objectSchema T props addS addB) c ms
          = some (cF, ms.all (memberVerdict fuel props addS addB)) ∧
        cF.objectRequiredCount = c.objectRequiredCount
  | [], c => ⟨c, rfl, rfl⟩
  | (k, d) :: ms, c => by
    simp only [membersFold, object_key T props addS addB ht c k.1, List.all_cons, memberVerdict]
    rcases hsel : selected props addS addB k.1 with _ | S
    · exact ⟨c, by simp, rfl⟩
    · simp only
      rcases hv : verdictOf fuel d S with _ | _
      · exact ⟨{ c with valueSchema := some S }, by simp, rfl⟩
      · obtain ⟨cF, h1, h2⟩ := object_fold fuel T props addS addB ht ms
          { c with valueSchema := some S }
        exact ⟨cF, by simpa [memberVerdict] using h1, h2⟩

theorem fits_of_mem_members : ∀ (ms : List ((String × Bool) × Doc)),
    Doc.membersFit ms = true → ∀ m ∈ ms, m.2.fits = true
  | [], _, m, hm => by cases hm
  | (k, d) :: xs, h, m, hm => by
    simp only [Doc.membersFit, Bool.and_eq_true] at h
    rcases List.mem_cons.mp hm with rfl | hm
    · exact h.1.2
    · exact fits_of_mem_members xs h.2 m hm

/-- The verdict of the node with named properties and an additional-property
policy on an object: every member is accepted. -/
theorem object_node (fuel : Nat) (T : Nat) (props : List (String × BaseSchema))
    (addS : Option BaseSchema) (addB : Bool)
    (ht : (objectSchema T props addS addB).hasType kObjectSchemaType = true)
    (ms : List ((String × Bool) × Doc)) (hfit : (Doc.Object ms).fits = true)
    (hsub : ∀ m ∈ ms, ∀ S, selected props addS addB m.1.1 = some S →
      (validate fuel S m.2).isSome = true) :
    validate fuel (objectSchema T props addS addB) (.Object ms)
      = some (ms.all (memberVerdict fuel props addS addB)) := by
  simp only [Doc.fits, Bool.and_eq_true, decide_eq_true_eq] at hfit
  obtain ⟨cF, hfold, hreq⟩ := object_fold fuel T props addS addB ht ms
    (Context.startObject (objectSchema T props addS addB)
      (Context.make (objectSchema T props addS addB)))
  have hend : (objectSchema T props addS addB).EndObject cF ms.length = some (cF, true) := by
    have ht1 : ¬((objectSchema T props addS addB).type_ &&& (1 <<< kObjectSchemaType) == 0)
        = true := by
      simp only [BaseSchema.hasType, bne_iff_ne, ne_eq] at ht
      simpa using ht
    have hreq0 : cF.objectRequiredCount = 0 := hreq
    have hmax : ¬ ms.length > SizeTypeMax := by omega
    unfold BaseSchema.EndObject
    simp only [create_plain _ (show (objectSchema T props addS addB).Plain from
      ⟨rfl, rfl, rfl, rfl⟩), ht1, hreq0, if_false,
      show (objectSchema T props addS addB).requiredCount_ = 0 from rfl,
      show (objectSchema T props addS addB).minProperties_ = 0 from rfl,
      show (objectSchema T props addS addB).maxProperties_ = SizeTypeMax from rfl,
      show (objectSchema T props addS addB).hasDependencies_ = false from rfl,
      ne_eq, not_true_eq_false, Nat.not_lt_zero, hmax, or_self, Bool.false_eq_true]
  unfold validate
  rw [plain_object_run fuel (objectSchema T props addS addB) ⟨rfl, rfl, rfl, rfl⟩ ms
    nullOutputHandler_ (fun _ _ => rfl) ?_ ht cF cF _ true hfold hend]
  · simp
  · intro m hm c0 c1 S hk hv
    rw [object_key T props addS addB ht c0 m.1.1] at hk
    rcases hsel : selected props addS addB m.1.1 with _ | S0
    · simp [hsel] at hk
    · simp only [hsel, Option.some.injEq, Prod.mk.injEq, and_true] at hk
      subst hk
      simp only [Option.some.injEq] at hv
      subst hv
      exact hsub m hm S0 hsel


theorem make_object (rx : RegexEngine) (ms : List (String × Json))
    (P : Option (List (String × BaseSchema))) (addS : Option BaseSchema)
    (honly : onlyKeywords ["type", "properties", "additionalProperties"] ms = true)
    (hP : makeMembersAt rx "properties" ms = some P)
    (hA : additionalPart rx ms = some addS) :
    BaseSchema.make rx (.obj ms)
      = some (objectSchema (typeMask ms) (P.getD []) addS
          (AssignIfExistBool true ms "additionalProperties")) := by
  have abs := fun k hk hna => absent_of_only _ ms honly k hk hna
  have h_enum := abs "enum" (by decide) (by decide)
  have h_allOf := abs "allOf" (by decide) (by decide)
  have h_anyOf := abs "anyOf" (by decide) (by decide)
  have h_oneOf := abs "oneOf" (by decide) (by decide)
  have h_not := abs "not" (by decide) (by decide)
  have h_patternProperties := abs "patternProperties" (by decide) (by decide)
  have h_required := abs "required" (by decide) (by decide)
  have h_dependencies := abs "dependencies" (by decide) (by decide)
  have h_minProperties := abs "minProperties" (by decide) (by decide)
  have h_maxProperties := abs "maxProperties" (by decide) (by decide)
  have h_items := abs "items" (by decide) (by decide)
  have h_minItems := abs "minItems" (by decide) (by decide)
  have h_maxItems := abs "maxItems" (by decide) (by decide)
  have h_additionalItems := abs "additionalItems" (by decide) (by decide)
  have h_minLength := abs "minLength" (by decide) (by decide)
  have h_maxLength := abs "maxLength" (by decide) (by decide)
  have h_pattern := abs "pattern" (by decide) (by decide)
  have h_minimum := abs "minimum" (by decide) (by decide)
  have h_maximum := abs "maximum" (by decide) (by decide)
  have h_exclusiveMinimum := abs "exclusiveMinimum" (by decide) (by decide)
  have h_exclusiveMaximum := abs "exclusiveMaximum" (by decide) (by decide)
  have h_multipleOf := abs "multipleOf" (by decide) (by decide)
  have hIL : itemsPart rx ms = some none := by
    simp [itemsPart, h_items]
  rw [make_obj_eq, makeElementsAt_of_get, makeElementsAt_of_get, makeElementsAt_of_get,
    makeAt_of_get, hP, hA, hIL, makeElementsAt_of_get]
  simp only [h_allOf, h_anyOf, h_oneOf, h_not, h_items, patternPart, h_patternProperties,
    Option.some_bind, Option.some.injEq]
  simp only [nodeOf, objectSchema, typeless, enumOf, requiredPart, dependenciesPart,
    numberOr, h_enum, h_required, h_dependencies, h_pattern, h_minimum, h_maximum,
    h_multipleOf, assignBool_absent _ ms _ h_additionalItems,
    assignBool_absent _ ms _ h_exclusiveMinimum, assignBool_absent _ ms _ h_exclusiveMaximum,
    assignSize_absent _ ms _ h_minProperties, assignSize_absent _ ms _ h_maxProperties,
    assignSize_absent _ ms _ h_minLength, assignSize_absent _ ms _ h_maxLength,
    assignSize_absent _ ms _ h_minItems, assignSize_absent _ ms _ h_maxItems,
    Option.getD_none, Option.none_bind, Option.map_none', List.map_nil]
  rfl

theorem makeMembers_names (rx : RegexEngine) :
    ∀ (pj : List (String × Json)) (props : List (String × BaseSchema)),
      makeMembers rx pj = some props → props.map Prod.fst = pj.map Prod.fst
  | [], props, h => by
    simp only [makeMembers, Option.some.injEq] at h
    subst h; rfl
  | (k, v) :: pj, props, h => by
    simp only [makeMembers, Option.bind_eq_bind, Option.pure_def] at h
    rcases h1 : BaseSchema.make rx v with _ | S
    · simp [h1] at h
    · rcases h2 : makeMembers rx pj with _ | ps
      · simp [h1, h2] at h
      · simp only [h1, h2, Option.some_bind, Option.some.injEq] at h
        subst h
        simp [makeMembers_names rx pj ps h2]


theorem checkDouble_default (s : BaseSchema) (h1 : s.minimum_ = Dbl.ninf)
    (h2 : s.maximum_ = Dbl.pinf) (h3 : s.exclusiveMinimum_ = false)
    (h4 : s.exclusiveMaximum_ = false) (h5 : s.hasMultipleOf_ = false) (d : Dbl) :
    s.CheckDouble d = true := by
  simp only [BaseSchema.CheckDouble, h1, h2, h3, h4, h5, Bool.false_eq_true, if_false,
    Bool.false_and]
  cases d <;> simp [Dbl.lt, Dbl.gt]

/-- The schema methods of the scalar events accept every scalar when the node
has all type bits and no constraint on scalars. -/
theorem scalar_default (s : BaseSchema) (c : Context) (ht : s.type_ = 127)
    (he : s.enum_ = Json.null) (h1 : s.minimum_ = Dbl.ninf) (h2 : s.maximum_ = Dbl.pinf)
    (h3 : s.exclusiveMinimum_ = false) (h4 : s.exclusiveMaximum_ = false)
    (h5 : s.hasMultipleOf_ = false) (h6 : s.minLength_ = 0) (h7 : s.maxLength_ = SizeTypeMax)
    (h8 : s.pattern_ = none) (e : Event) (hs : e.isScalar = true) (hfit : e.fits = true) :
    s.method c e = some (s.CreateLogicValidators c, true) := by
  have hcd := checkDouble_default s h1 h2 h3 h4 h5
  cases e <;> simp only [Event.isScalar, Bool.false_eq_true] at hs
  case String_ str cp =>
    simp only [Event.fits, decide_eq_true_eq] at hfit
    have : ¬ str.length > SizeTypeMax := by omega
    simp [BaseSchema.method, BaseSchema.String_, ht, he, h6, h7, h8, Json.IsArray, this,
      kStringSchemaType]
  all_goals
    simp [BaseSchema.method, BaseSchema.Null, BaseSchema.Bool_, BaseSchema.Int_, BaseSchema.Uint,
      BaseSchema.Int64, BaseSchema.Uint64, BaseSchema.Double, BaseSchema.Integer,
      BaseSchema.hasType, ht, he, hcd, Json.IsArray, kNullSchemaType, kBooleanSchemaType,
      kIntegerSchemaType, kNumberSchemaType]

theorem free_fold (fuel : Nat) (A : BaseSchema) (h1 : A.itemsList_ = none)
    (h2 : A.itemsTuple_ = none) :
    ∀ (ds : List Doc) (c : Context), c.inArray = true → (∀ d ∈ ds, d.fits = true) →
      (elementsFold fuel A c ds).2 = true
  | [], _, _, _ => rfl
  | d :: ds, c, hc, hfit => by
    have hd := hfit d (List.mem_cons_self _ _)
    have hb : A.BeginValue c
        = ({ c with valueSchema := some typeless,
                    arrayElementIndex := SizeType.succ c.arrayElementIndex }, true) := by
      simp [BaseSchema.BeginValue, hc, h1, h2]
    simp only [elementsFold, hb, if_true, verdictOf_typeless fuel d hd]
    exact free_fold fuel A h1 h2 ds _ hc (fun x hx => hfit x (List.mem_cons_of_mem _ hx))

/-- A document that is not an object is valid for a node with all type bits
whose only constraints are on objects. -/
theorem nonobject_valid (fuel : Nat) (s : BaseSchema) (hp : s.Plain) (ht : s.type_ = 127)
    (he : s.enum_ = Json.null) (h1 : s.minimum_ = Dbl.ninf) (h2 : s.maximum_ = Dbl.pinf)
    (h3 : s.exclusiveMinimum_ = false) (h4 : s.exclusiveMaximum_ = false)
    (h5 : s.hasMultipleOf_ = false) (h6 : s.minLength_ = 0) (h7 : s.maxLength_ = SizeTypeMax)
    (h8 : s.pattern_ = none) (h9 : s.itemsList_ = none) (h10 : s.itemsTuple_ = none)
    (h11 : s.minItems_ = 0) (h12 : s.maxItems_ = SizeTypeMax) (d : Doc) (hd : d.fits = true)
    (hno : ∀ ms, d ≠ .Object ms) : validate fuel s d = some true := by
  have hsc : ∀ e : Event, e.isScalar = true → e.fits = true →
      (feed fuel (GenericSchemaValidator.make s nullOutputHandler_) [e]).map
        (fun r => r.1.IsValid) = some true := by
    intro e hs hf
    have he1 : e.isBegin = true := by cases e <;> first | rfl | cases hs
    exact plain_scalar_run fuel s hp nullOutputHandler_ (fun _ _ => rfl) e he1 _ true
      (scalar_default s _ ht he h1 h2 h3 h4 h5 h6 h7 h8 e hs hf)
  cases d with
  | Object ms => exact absurd rfl (hno ms)
  | Array ds =>
    simp only [Doc.fits, Bool.and_eq_true, decide_eq_true_eq] at hd
    have hfits := fits_of_mem_elements ds hd.2
    unfold validate
    rw [plain_array_run fuel s hp ds nullOutputHandler_ (fun _ _ => rfl) ?_]
    · rw [free_fold fuel s h9 h10 ds _ rfl hfits]
      have : s.hasType kArraySchemaType = true := by
        simp [BaseSchema.hasType, ht, kArraySchemaType]
      simp [this, h11, h12, hd.1]
    · intro d hd0 c0 S1 hc0 _ hv
      have hb : (s.BeginValue c0).1.valueSchema = some typeless := by
        simp [BaseSchema.BeginValue, hc0, h9, h10]
      rw [hb] at hv
      cases hv
      rw [validate_typeless fuel d (hfits d hd0)]; rfl
  | Null => exact hsc .Null rfl rfl
  | Bool_ b => exact hsc (.Bool_ b) rfl rfl
  | Int_ i => exact hsc (.Int_ i) rfl rfl
  | Uint u => exact hsc (.Uint u) rfl rfl
  | Int64 i => exact hsc (.Int64 i) rfl rfl
  | Uint64 u => exact hsc (.Uint64 u) rfl rfl
  | Double x => exact hsc (.Double x) rfl rfl
  | String_ str cp => exact hsc (.String_ str cp) rfl hd


theorem only_mono (allowed allowed1 : List String) (ms : List (String × Json))
    (h : onlyKeywords allowed ms = true)
    (hsub : ∀ k ∈ allowed, allowed1.contains k = true) :
    onlyKeywords allowed1 ms = true := by
  simp only [onlyKeywords, List.all_eq_true, Bool.or_eq_true] at h ⊢
  intro k hk
  rcases h k hk with h1 | h1
  · exact Or.inl (hsub k (by simpa using h1))
  · exact Or.inr h1

theorem lookup_mem {β : Type} (k : String) :
    ∀ (props : List (String × β)) (S : β), props.lookup k = some S → (k, S) ∈ props
  | [], S, h => by simp [List.lookup] at h
  | (k1, S1) :: props, S, h => by
    simp only [List.lookup] at h
    rcases hb : (k == k1) with _ | _
    · simp only [hb] at h
      exact List.mem_cons_of_mem _ (lookup_mem k props S h)
    · simp only [hb, Option.some.injEq] at h
      subst h
      have : k = k1 := by simpa using hb
      subst this
      exact List.mem_cons_self _ _

theorem lookup_none {β : Type} (k : String) :
    ∀ (props : List (String × β)), props.lookup k = none → ∀ p ∈ props, p.1 ≠ k
  | [], _, p, hp => by cases hp
  | (k1, S1) :: props, h, p, hp => by
    simp only [List.lookup] at h
    rcases hb : (k == k1) with _ | _
    · simp only [hb] at h
      rcases List.mem_cons.mp hp with rfl | hp
      · intro heq
        simp only [beq_eq_false_iff_ne, ne_eq] at hb
        exact hb heq.symm
      · exact lookup_none k props h p hp
    · simp [hb] at h

theorem lookup_of_nodup {β : Type} (k : String) :
    ∀ (props : List (String × β)) (S : β), (props.map Prod.fst).Nodup → (k, S) ∈ props →
      props.lookup k = some S
  | [], S, _, h => by cases h
  | (k1, S1) :: props, S, hn, h => by
    simp only [List.map_cons, List.nodup_cons] at hn
    rcases List.mem_cons.mp h with heq | hin
    · cases heq
      simp [List.lookup]
    · have hk : k ∈ props.map Prod.fst := List.mem_map_of_mem Prod.fst hin
      have hne : k ≠ k1 := by
        intro heq
        rw [heq] at hk
        exact hn.1 hk
      have hb : (k == k1) = false := by simpa using hne
      simp only [List.lookup, hb]
      exact lookup_of_nodup k props S hn.2 hin

/-- With distinct property names, the members are all accepted by a node with
named properties that allows additional properties exactly when every member
whose key is a property name has a value valid for the schema of the property. -/
theorem members_all_iff (fuel : Nat) (props : List (String × BaseSchema))
    (hn : (props.map Prod.fst).Nodup) (dms : List ((String × Bool) × Doc))
    (hfit : ∀ m ∈ dms, m.2.fits = true) :
    dms.all (memberVerdict fuel props none true)
      = decide (∀ m ∈ dms, ∀ p ∈ props, p.1 = m.1.1 → verdictOf fuel m.2 p.2 = true) := by
  rw [Bool.eq_iff_iff]
  simp only [List.all_eq_true, decide_eq_true_eq]
  constructor
  · intro h m hm p hp hpk
    have := h m hm
    have hl := lookup_of_nodup m.1.1 props p.2 hn (by rw [← hpk]; exact hp)
    simpa [memberVerdict, selected, hl] using this
  · intro h m hm
    simp only [memberVerdict, selected]
    rcases hl : props.lookup m.1.1 with _ | S
    · simp [verdictOf_typeless fuel m.2 (hfit m hm)]
    · exact h m hm (m.1.1, S) (lookup_mem _ props S hl) rfl

end GenericSchemaValidator

theorem make_obj_inv (rx : RegexEngine) (ms : List (String × Json)) (root : BaseSchema)
    (h : BaseSchema.make rx (.obj ms) = some root) :
    ∃ A B O N P PP AS IL IT,
      makeElementsAt rx "allOf" ms = some A ∧ makeElementsAt rx "anyOf" ms = some B ∧
      makeElementsAt rx "oneOf" ms = some O ∧ makeAt rx "not" ms = some N ∧
      makeMembersAt rx "properties" ms = some P ∧ patternPart rx ms = some PP ∧
      additionalPart rx ms = some AS ∧ itemsPart rx ms = some IL ∧
      makeElementsAt rx "items" ms = some IT ∧ root = nodeOf rx ms A B O N P PP AS IL IT := by
  rw [make_obj_eq] at h
  rcases h1 : makeElementsAt rx "allOf" ms with _ | A
  · simp [h1] at h
  rcases h2 : makeElementsAt rx "anyOf" ms with _ | B
  · simp [h1, h2] at h
  rcases h3 : makeElementsAt rx "oneOf" ms with _ | O
  · simp [h1, h2, h3] at h
  rcases h4 : makeAt rx "not" ms with _ | N
  · simp [h1, h2, h3, h4] at h
  rcases h5 : makeMembersAt rx "properties" ms with _ | P
  · simp [h1, h2, h3, h4, h5] at h
  rcases h6 : patternPart rx ms with _ | PP
  · simp [h1, h2, h3, h4, h5, h6] at h
  rcases h7 : additionalPart rx ms with _ | AS
  · simp [h1, h2, h3, h4, h5, h6, h7] at h
  rcases h8 : itemsPart rx ms with _ | IL
  · simp [h1, h2, h3, h4, h5, h6, h7, h8] at h
  rcases h9 : makeElementsAt rx "items" ms with _ | IT
  · simp [h1, h2, h3, h4, h5, h6, h7, h8, h9] at h
  simp only [h1, h2, h3, h4, h5, h6, h7, h8, h9, Option.some_bind, Option.some.injEq] at h
  exact ⟨A, B, O, N, P, PP, AS, IL, IT, rfl, rfl, rfl, rfl, rfl, rfl, rfl, rfl, rfl, h.symm⟩

theorem make_type_ (rx : RegexEngine) (ms : List (String × Json)) (root : BaseSchema)
    (h : BaseSchema.make rx (.obj ms) = some root) : root.type_ = typeMask ms := by
  obtain ⟨A, B, O, N, P, PP, AS, IL, IT, -, -, -, -, -, -, -, -, -, rfl⟩ := make_obj_inv rx ms root h
  rfl

theorem AddType_ne_zero (x : Json) :
    (AddType 0 x != 0) = (match x with
      | .str s => typeNames.contains s
      | _ => false) := by
  cases x with
  | str s =>
    rw [AddType_str]
    simp only [typeNames]
    split_ifs <;> simp [*]
  | null => simp [AddType, Json.eq]
  | bool b => simp [AddType, Json.eq]
  | int i => simp [AddType, Json.eq]
  | double d => simp [AddType, Json.eq]
  | arr xs => simp [AddType, Json.eq]
  | obj ms => simp [AddType, Json.eq]

theorem foldl_AddType_ne_zero : ∀ (L : List Json) (m : Nat),
    (L.foldl AddType m != 0) = (m != 0 || L.any (fun x =>
      match x with
      | .str s => typeNames.contains s
      | _ => false))
  | [], m => by simp
  | x :: L, m => by
    rw [List.foldl_cons, foldl_AddType_ne_zero L, AddType_or, or_ne_zero, AddType_ne_zero,
      List.any_cons, Bool.or_assoc]

theorem typeMask_ne_zero (ms : List (String × Json)) (v : Json)
    (h : GetMember ms "type" = some v) : (typeMask ms != 0) = namesRecognisedType v := by
  simp only [typeMask, h]
  cases v with
  | str s =>
    simp only [Json.IsString, if_true]
    exact AddType_ne_zero (.str s)
  | arr xs =>
    simp only [Json.IsString, Json.IsArray, Bool.false_eq_true, if_false, if_true, Json.elements]
    rw [foldl_AddType_ne_zero]
    rfl
  | null => rfl
  | bool b => rfl
  | int i => rfl
  | double d => rfl
  | obj ms => rfl

namespace GenericSchemaValidator

/-- The output handler after an event that begins a value still accepts every
event. -/
theorem handle_begin_out (sub : GenericSchemaValidator → Event → Option GenericSchemaValidator)
    (w w1 : GenericSchemaValidator) (e : Event) (r : Bool) (hv : w.valid_ = true)
    (he : e.isBegin = true) (hwo : ∀ h e, w.outputHandler_.answer h e = true)
    (h : handleWith sub w e = some (w1, r)) : ∀ h e, w1.outputHandler_.answer h e = true := by
  rw [handleWith_eq sub w e hv] at h
  obtain ⟨hbo, -, -, hbne⟩ := BeginValue_fields w
  simp only [he, if_true] at h
  rcases hb : w.BeginValue.2 with _ | _
  · simp only [hb, Bool.not_false, if_true, Option.some.injEq, Prod.mk.injEq] at h
    obtain ⟨rfl, rfl⟩ := h
    show ∀ h e, w.BeginValue.1.outputHandler_.answer h e = true
    rw [hbo]; exact hwo
  · simp only [hb, Bool.not_true, Bool.false_eq_true, if_false] at h
    obtain ⟨out1, -, hw1, -⟩ := afterBegin_over sub w.root_ nullOutputHandler_ [] (fun _ hc => by cases hc)
      (fun _ hc => by cases hc) (fun _ _ => rfl) _ _ w1 e r hbne (by rw [hbo]; exact hwo) h
    exact hw1

/-- When the events of the members of an object, and more events after them,
leave the validator valid, the method `Key` of the schema of the object has
returned true for the key of every member. -/
theorem members_keys (sub : GenericSchemaValidator → Event → Option GenericSchemaValidator)
    (root : BaseSchema) (es2 : List Event) :
    ∀ (ms : List ((String × Bool) × Doc)) (w w2 : GenericSchemaValidator) (rs : List Bool)
      (t : Context) (tail : List Context),
      w.schemaStack_ = t :: tail → t.schema = root → t.inArray = false → NoMulti (t :: tail) →
      (∀ h e, w.outputHandler_.answer h e = true) →
      feedWith sub w (Doc.memberEvents ms ++ es2) = some (w2, rs) → w2.valid_ = true →
      ∀ m ∈ ms, ∃ (c c1 : Context), root.Key c m.1.1 = some (c1, true)
  | [], _, _, _, _, _, _, _, _, _, _, _, _, m, hm => by cases hm
  | (k, d) :: ms, w, w2, rs, t, tail, hst, hroot, harr, hnm, hwo, hfeed, hv2, m, hm => by
    have hev : Doc.memberEvents ((k, d) :: ms) ++ es2
        = .Key k.1 k.2 :: (d.events ++ (Doc.memberEvents ms ++ es2)) := by
      simp only [Doc.memberEvents, List.cons_append, List.append_assoc]
    rw [hev] at hfeed
    obtain ⟨w1, r, rs1, hk, hrest, -⟩ := feedWith_cons_inv sub w w2 _ _ rs hfeed
    obtain ⟨wa, rsa, rsb, hval, hms, -⟩ := feedWith_append_inv sub _ _ w1 w2 rs1 hrest
    have hva : wa.valid_ = true := valid_of_feed sub _ wa w2 rsb hms hv2
    have hv1 : w1.valid_ = true := valid_of_feed sub _ w1 wa rsa hval hva
    have hv : w.valid_ = true := valid_of_handle sub w w1 _ r hk hv1
    have hr : r = true := by rw [← handleWith_valid sub w _ w1 r hk]; exact hv1
    subst hr
    obtain ⟨t1, rest1, hw1, hsh1, hvs, hsh, c1, hkey⟩ :=
      shape_key sub w w1 k.1 k.2 t tail hv hst (noMulti_tail hnm) hk
    have hwo1 : ∀ h e, w1.outputHandler_.answer h e = true := by
      obtain ⟨out1, -, hw1o, -⟩ := step_over sub root nullOutputHandler_ [] (fun _ hc => by cases hc)
        (fun _ hc => by cases hc) (fun _ _ => rfl) w w1 _ true
        (fun _ => by rw [hst]; exact List.cons_ne_nil _ _) hwo hk
      exact hw1o
    rcases List.mem_cons.mp hm with rfl | hm
    · exact ⟨t, c1, by rw [← hroot]; exact hkey⟩
    · have hsh01 : SameShape (t :: tail) (t1 :: rest1) := sameShape_cons hsh1 hsh
      have hnm1 : NoMulti (t1 :: rest1) := sameShape_noMulti hsh01 hnm
      have htop1 : TopIs Context.Ready w1 := fun _ => ⟨t1, rest1, hw1, Or.inr hvs, hnm1⟩
      obtain ⟨hwoa, -, hsha⟩ := value_run sub root [] (fun _ hc => by cases hc)
        (fun _ hc => by cases hc) d w1 wa rsa htop1 hwo1 hval
      obtain ⟨ta, taila, hsta, hschema, hin, hnma, -⟩ := sameShape_top hw1 hnm1 (hsha hva)
      have h1 : t1.schema = t.schema := by
        have := congrArg (fun x => x.1) hsh1
        simpa [Context.shape] using this
      have h2 : t1.inArray = t.inArray := by
        have := congrArg (fun x => x.2.1) hsh1
        simpa [Context.shape] using this
      exact members_keys sub root es2 ms wa w2 rsb ta taila hsta
        (by rw [hschema, h1, hroot]) (by rw [hin, h2, harr]) hnma hwoa hms hv2 m hm

/-- When a fresh validator of a schema reports an object valid, the method
`Key` of the schema has returned true for the key of every member. -/
theorem object_keys_accepted (fuel : Nat) (root : BaseSchema)
    (ms : List ((String × Bool) × Doc)) (h : validate fuel root (.Object ms) = some true) :
    ∀ m ∈ ms, ∃ (c c1 : Context), root.Key c m.1.1 = some (c1, true) := by
  simp only [validate, validateWith, Option.map_eq_some', Prod.exists, IsValid] at h
  obtain ⟨vF, rs, hfeed, hvF⟩ := h
  have hfeed1 : feedWith (subAt fuel) (GenericSchemaValidator.make root nullOutputHandler_)
      (.StartObject :: (Doc.memberEvents ms ++ [.EndObject ms.length])) = some (vF, rs) := hfeed
  obtain ⟨w1, r, rs1, hs, hrest, -⟩ := feedWith_cons_inv _ _ vF _ _ rs hfeed1
  have hv1 : w1.valid_ = true := valid_of_feed _ _ w1 vF rs1 hrest hvF
  have hr : r = true := by rw [← handleWith_valid _ _ _ w1 r hs]; exact hv1
  subst hr
  obtain ⟨c2, hm2, hsch, hobj, -, hst1⟩ := shape_begin_nil (subAt fuel) _ w1 .StartObject rfl rfl
    rfl hs
  simp only [Event.isClose, Bool.false_eq_true, if_false] at hst1
  have hwo1 := handle_begin_out (subAt fuel) _ w1 .StartObject true rfl rfl (fun _ _ => rfl) hs
  exact members_keys (subAt fuel) root _ ms w1 vF rs1 c2 [] hst1 hsch (hobj rfl)
    (fun x hx => by
      simp only [List.mem_singleton] at hx
      subst hx; exact hm2) hwo1 hrest hvF


theorem find_none (str : String) :
    ∀ (ps : List (Property BaseSchema)) (i0 : Nat),
      FindPropertyIndexStrFrom str ps i0 = none ↔ ∀ p ∈ ps, p.name ≠ str
  | [], i0 => by simp [FindPropertyIndexStrFrom]
  | p :: ps, i0 => by
    simp only [FindPropertyIndexStrFrom, List.mem_cons, forall_eq_or_imp]
    by_cases h : p.name = str
    · simp [h]
    · have hne : ¬(p.name.length = str.length ∧ p.name = str) := fun hh => h hh.2
      rw [if_neg hne, find_none str ps (i0 + 1)]
      simp only [ne_eq, h, not_false_eq_true, true_and]

theorem find_first (str : String) :
    ∀ (ps : List (Property BaseSchema)) (i0 i : Nat) (p : Property BaseSchema),
      ps[i]? = some p → p.name = str → (∀ j q, j < i → ps[j]? = some q → q.name ≠ str) →
      FindPropertyIndexStrFrom str ps i0 = some (i0 + i)
  | [], _, i, p, hp, _, _ => by simp at hp
  | q :: ps, i0, 0, p, hp, hname, _ => by
    simp only [List.getElem?_cons_zero, Option.some.injEq] at hp
    subst hp
    simp [FindPropertyIndexStrFrom, hname]
  | q :: ps, i0, i + 1, p, hp, hname, hfirst => by
    have hq : q.name ≠ str := hfirst 0 q (Nat.succ_pos i) (by simp)
    have hne : ¬(q.name.length = str.length ∧ q.name = str) := fun hh => hq hh.2
    simp only [FindPropertyIndexStrFrom, hne, if_false]
    rw [find_first str ps (i0 + 1) i p (by simpa using hp) hname
      (fun j r hj hr => hfirst (j + 1) r (Nat.succ_lt_succ hj) (by simpa using hr))]
    congr 1
    omega

theorem hasType_object (s : BaseSchema) (ht : s.hasType kObjectSchemaType = true) :
    ¬((s.type_ &&& (1 <<< kObjectSchemaType) == 0) = true) := by
  simp only [BaseSchema.hasType, bne_iff_ne, ne_eq] at ht
  simpa using ht

/-- The method `Key` on the name of a declared property: the schema of the
first property of that name, whatever the pattern properties are. -/
theorem key_named (s : BaseSchema) (c : Context) (str : String) (i : Nat)
    (p : Property BaseSchema) (seen : List Bool)
    (ht : s.hasType kObjectSchemaType = true)
    (hp : s.properties_[i]? = some p) (hname : p.name = str)
    (hfirst : ∀ j q, j < i → s.properties_[j]? = some q → q.name ≠ str)
    (hseen : s.hasDependencies_ = true →
      c.objectDependencies = some seen ∧ seen.length = s.propertyCount_) :
    s.Key c str = some ({ s.CreateLogicValidators c with
      valueSchema := some p.schema
      objectRequiredCount :=
        if p.required then SizeType.succ c.objectRequiredCount else c.objectRequiredCount
      objectDependencies :=
        if s.hasDependencies_ then some (setBit seen i) else c.objectDependencies }, true) := by
  have hf : s.FindPropertyIndex str = some i := by
    rw [BaseSchema.FindPropertyIndex, find_first str s.properties_ 0 i p hp hname hfirst,
      Nat.zero_add]
  unfold BaseSchema.Key
  simp only [hasType_object s ht, if_false, hf, hp, Bool.false_eq_true]
  rcases hd : s.hasDependencies_ with _ | _
  · simp only [Bool.false_eq_true, if_false]
    cases p.required <;> rfl
  · obtain ⟨h1, h2⟩ := hseen hd
    have h1c : (s.CreateLogicValidators c).objectDependencies = some seen := h1
    cases hr : p.required <;> simp [h1c, h2] <;> rfl

/-- The method `Key` on a name that no property declares and no pattern
matches: the additional-property policy. -/
theorem key_additional (s : BaseSchema) (c : Context) (str : String)
    (ht : s.hasType kObjectSchemaType = true)
    (hnone : ∀ p ∈ s.properties_, p.name ≠ str)
    (hpat : s.patternProperties_.bind (findPatternProperty str) = none) :
    s.Key c str = some (match s.additionalPropertySchema_ with
      | some A => ({ s.CreateLogicValidators c with valueSchema := some A }, true)
      | none =>
        if s.additionalProperty_ then
          ({ s.CreateLogicValidators c with valueSchema := some typeless }, true)
        else (s.CreateLogicValidators c, false)) := by
  have hf : s.FindPropertyIndex str = none := (find_none str s.properties_ 0).mpr hnone
  unfold BaseSchema.Key
  rcases hA : s.additionalPropertySchema_ with _ | A <;>
    simp only [hasType_object s ht, if_false, hf, BaseSchema.KeyOther, hpat, Bool.false_eq_true,
      hA]

/-- No pattern property is found when none has a pattern that matches. -/
theorem findPattern_none (str : String) :
    ∀ (pats : List (PatternProperty BaseSchema)),
      (∀ pp ∈ pats, ∀ pat, pp.pattern = some pat → pat.search str = false) →
      findPatternProperty str pats = none
  | [], _ => rfl
  | pp :: pats, h => by
    have ih := findPattern_none str pats (fun q hq => h q (List.mem_cons_of_mem _ hq))
    simp only [findPatternProperty]
    rcases hpp : pp.pattern with _ | pat
    · exact ih
    · simp only [h pp (List.mem_cons_self _ _) pat hpp, Bool.false_eq_true, if_false]
      exact ih

/-- When `Key` returns true on a schema that has no pattern properties, no
additional-property schema and forbids additional properties, a property of
that name is declared. -/
theorem key_true_declared (s : BaseSchema) (c c1 : Context) (str : String)
    (hpat : s.patternProperties_ = none) (hadd : s.additionalPropertySchema_ = none)
    (hb : s.additionalProperty_ = false) (h : s.Key c str = some (c1, true)) :
    ∃ p ∈ s.properties_, p.name = str := by
  by_contra hno
  have hnone : ∀ p ∈ s.properties_, p.name ≠ str := fun p hp hn => hno ⟨p, hp, hn⟩
  have hf : s.FindPropertyIndex str = none := (find_none str s.properties_ 0).mpr hnone
  unfold BaseSchema.Key at h
  simp only [hf, BaseSchema.KeyOther, hpat, hadd, hb, Option.none_bind, Bool.false_eq_true,
    if_false] at h
  split at h <;> simp at h


theorem setRequired_names : ∀ (ps : List (Property BaseSchema)) (i : Nat),
    (setRequired ps i).map (fun p => p.name) = ps.map (fun p => p.name)
  | [], _ => rfl
  | _ :: _, 0 => rfl
  | p :: ps, i + 1 => by
    simp only [setRequired, List.map_cons, setRequired_names ps i]

theorem markRequired_names : ∀ (xs : List Json) (ps : List (Property BaseSchema)) (n : Nat),
    (markRequired ps n xs).1.map (fun p => p.name) = ps.map (fun p => p.name)
  | [], _, _ => rfl
  | x :: xs, ps, n => by
    simp only [markRequired]
    split
    · split
      · rw [markRequired_names xs, setRequired_names]
      · exact markRequired_names xs ps n
    · exact markRequired_names xs ps n

theorem setDependencies_names (d : List Bool) : ∀ (ps : List (Property BaseSchema)) (i : Nat),
    (setDependencies d ps i).map (fun p => p.name) = ps.map (fun p => p.name)
  | [], _ => rfl
  | _ :: _, 0 => rfl
  | p :: ps, i + 1 => by
    simp only [setDependencies, List.map_cons, setDependencies_names d ps i]

theorem markDependencies_names : ∀ (ds : List (String × Json)) (ps : List (Property BaseSchema)),
    (markDependencies ps ds).map (fun p => p.name) = ps.map (fun p => p.name)
  | [], _ => rfl
  | (name, value) :: ds, ps => by
    simp only [markDependencies]
    split
    · split
      · rw [markDependencies_names ds, setDependencies_names]
      · exact markDependencies_names ds ps
    · exact markDependencies_names ds ps

/-- The properties of the compiled node have the names the `properties`
keyword declares, in order. -/
theorem node_names (ms : List (String × Json)) (P : Option (List (String × BaseSchema))) :
    (dependenciesPart ms P).1.map (fun p => p.name) = (P.getD []).map Prod.fst := by
  have hreq : (requiredPart ms P).1.map (fun p => p.name) = (P.getD []).map Prod.fst := by
    simp only [requiredPart]
    split
    · rw [markRequired_names]; simp [Function.comp_def]
    · simp [Function.comp_def]
  simp only [dependenciesPart]
  split
  · rw [markDependencies_names, hreq]
  · exact hreq

theorem make_names (rx : RegexEngine) (ms : List (String × Json)) (root : BaseSchema)
    (h : BaseSchema.make rx (.obj ms) = some root) :
    root.properties_.map (fun p => p.name) = declaredNames ms := by
  obtain ⟨A, B, O, N, P, PP, AS, IL, IT, -, -, -, -, hP, -, -, -, -, rfl⟩ :=
    make_obj_inv rx ms root h
  show (dependenciesPart ms P).1.map (fun p => p.name) = declaredNames ms
  rw [node_names]
  rw [makeMembersAt_of_get] at hP
  rcases hg : GetMember ms "properties" with _ | v
  · rw [hg] at hP
    simp only [Option.some.injEq] at hP
    subst hP
    simp [declaredNames, hg]
  · rw [hg] at hP
    cases v
    case obj o =>
      simp only at hP
      rcases hm : makeMembers rx o with _ | props
      · simp [hm] at hP
      · simp only [hm, Option.map_some', Option.some.injEq] at hP
        subst hP
        simp only [declaredNames, hg, Option.getD_some]
        exact makeMembers_names rx o props hm
    all_goals
      simp only [Option.some.injEq] at hP
      subst hP
      simp [declaredNames, hg]

/-- What the `additionalProperties` statement of the constructor leaves in the
node. -/
theorem make_additional (rx : RegexEngine) (ms : List (String × Json)) (root : BaseSchema)
    (h : BaseSchema.make rx (.obj ms) = some root) :
    (∀ am, GetMember ms "additionalProperties" = some (.obj am) →
      BaseSchema.make rx (.obj am) = root.additionalPropertySchema_ ∧
      root.additionalPropertySchema_.isSome = true) ∧
    (∀ b, GetMember ms "additionalProperties" = some (.bool b) →
      root.additionalPropertySchema_ = none ∧ root.additionalProperty_ = b) ∧
    ((∀ am, GetMember ms "additionalProperties" ≠ some (.obj am)) →
      (∀ b, GetMember ms "additionalProperties" ≠ some (.bool b)) →
      root.additionalPropertySchema_ = none ∧ root.additionalProperty_ = true) := by
  obtain ⟨A, B, O, N, P, PP, AS, IL, IT, -, -, -, -, -, -, hA, -, -, rfl⟩ :=
    make_obj_inv rx ms root h
  have hS : (nodeOf rx ms A B O N P PP AS IL IT).additionalPropertySchema_ = AS := rfl
  have hB : (nodeOf rx ms A B O N P PP AS IL IT).additionalProperty_
      = AssignIfExistBool true ms "additionalProperties" := rfl
  rw [hS, hB]
  refine ⟨?_, ?_, ?_⟩
  · intro am hg
    simp only [additionalPart, hg, makeAt_of_get] at hA
    rcases hm : BaseSchema.make rx (.obj am) with _ | S
    · simp [hm] at hA
    · simp only [hm, Option.map_some', Option.some.injEq] at hA
      subst hA
      exact ⟨rfl, rfl⟩
  · intro b hg
    simp only [additionalPart, hg, Option.some.injEq] at hA
    subst hA
    simp only [AssignIfExistBool, hg, and_self]
  · intro h1 h2
    rcases hg : GetMember ms "additionalProperties" with _ | v
    · simp only [additionalPart, hg, Option.some.injEq] at hA
      subst hA
      simp only [AssignIfExistBool, hg, and_self]
    · cases v with
      | obj am => exact absurd hg (h1 am)
      | bool b => exact absurd hg (h2 b)
      | null =>
        simp only [additionalPart, hg, Option.some.injEq] at hA
        subst hA
        simp only [AssignIfExistBool, hg, and_self]
      | int i =>
        simp only [additionalPart, hg, Option.some.injEq] at hA
        subst hA
        simp only [AssignIfExistBool, hg, and_self]
      | double d =>
        simp only [additionalPart, hg, Option.some.injEq] at hA
        subst hA
        simp only [AssignIfExistBool, hg, and_self]
      | str x =>
        simp only [additionalPart, hg, Option.some.injEq] at hA
        subst hA
        simp only [AssignIfExistBool, hg, and_self]
      | arr xs =>
        simp only [additionalPart, hg, Option.some.injEq] at hA
        subst hA
        simp only [AssignIfExistBool, hg, and_self]

theorem make_noPatterns (rx : RegexEngine) (ms : List (String × Json)) (root : BaseSchema)
    (h : BaseSchema.make rx (.obj ms) = some root)
    (hg : GetMember ms "patternProperties" = none) : root.patternProperties_ = none := by
  obtain ⟨A, B, O, N, P, PP, AS, IL, IT, -, -, -, -, -, hPP, -, -, -, rfl⟩ :=
    make_obj_inv rx ms root h
  simp only [patternPart, hg, Option.some.injEq] at hPP
  subst hPP
  rfl

/-- A schema with `additionalProperties: false` and no `patternProperties`
reports an object valid only if every key is a declared property name. -/
theorem closed_object_keys (rx : RegexEngine) (ms : List (String × Json)) (root : BaseSchema)
    (fuel : Nat) (dms : List ((String × Bool) × Doc))
    (h : BaseSchema.make rx (.obj ms) = some root)
    (hadd : GetMember ms "additionalProperties" = some (.bool false))
    (hpat : GetMember ms "patternProperties" = none)
    (hv : validate fuel root (.Object dms) = some true) :
    ∀ m ∈ dms, m.1.1 ∈ declaredNames ms := by
  intro m hm
  obtain ⟨c, c1, hk⟩ := object_keys_accepted fuel root dms hv m hm
  obtain ⟨h1, h2⟩ := (make_additional rx ms root h).2.1 false hadd
  obtain ⟨p, hp, hn⟩ := key_true_declared root c c1 m.1.1 (make_noPatterns rx ms root h hpat)
    h1 h2 hk
  rw [← make_names rx ms root h, ← hn]
  exact List.mem_map_of_mem (fun p => p.name) hp

end GenericSchemaValidator

namespace Dbl


theorem excessBits_succ (k a : Nat) :
    excessBits (k + 1) a = if a < 2 ^ 53 then 0 else excessBits k (a / 2) + 1 := rfl

theorem excessBits_pow : excessBits (2 ^ 53) (2 ^ 53) = 1 := by
  have h1 := excessBits_succ (2 ^ 53 - 1) (2 ^ 53)
  have h2 := excessBits_succ (2 ^ 53 - 2) (2 ^ 53 / 2)
  have e1 : 2 ^ 53 - 1 + 1 = 2 ^ 53 := by norm_num
  have e2 : 2 ^ 53 - 2 + 1 = 2 ^ 53 - 1 := by norm_num
  rw [e1] at h1
  rw [e2] at h2
  rw [h1, if_neg (by norm_num), h2, if_pos (by norm_num)]

theorem roundToDouble_exact (i : Int) (h : i.natAbs ≤ 2 ^ 53) : roundToDouble i = i := by
  unfold roundToDouble
  simp only
  split
  · rfl
  · next hlt =>
    have ha : i.natAbs = 2 ^ 53 := by omega
    rw [ha, excessBits_pow]
    norm_num
    rcases Int.natAbs_eq i with hi | hi
    · rw [ha] at hi
      rw [hi]; norm_num
    · rw [ha] at hi
      rw [hi]; norm_num

theorem ofInt_exact (i : Int) (h : i.natAbs ≤ 2 ^ 53) : ofInt i = fin i := by
  rw [ofInt, roundToDouble_exact i h]

theorem fmod_int (i n : Int) (hn : n ≠ 0) :
    ne (fmod (fin i) (fin n)) (fin 0) = !decide (n ∣ i) := by
  simp only [fmod, Rat.intCast_num, Rat.intCast_den, hn, if_false, Nat.cast_one, mul_one, one_mul,
    Rat.mkRat_one, ne, Rat.num_zero, Rat.den_zero, zero_mul]
  by_cases hd : n ∣ i
  · simp [Int.tmod_eq_zero_of_dvd hd, hd]
  · have : i.tmod n ≠ 0 := fun h0 => hd (Int.dvd_of_tmod_eq_zero h0)
    simp [this, hd]

end Dbl

namespace GenericSchemaValidator


theorem checkDouble_int (T : Nat) (a b : Option Int) (x y : Bool) (k : Option Int) (i : Int)
    (ha : ∀ n, a = some n → n.natAbs ≤ 2 ^ 53) (hb : ∀ n, b = some n → n.natAbs ≤ 2 ^ 53)
    (hk : ∀ n, k = some n → n ≠ 0 ∧ n.natAbs ≤ 2 ^ 53) (hi : i.natAbs ≤ 2 ^ 53) :
    (numericSchema T a b x y k).CheckDouble (Dbl.ofInt i) = integerInRange a b x y k i := by
  rw [Dbl.ofInt_exact i hi]
  have h1 : (if (if x then Dbl.le (Dbl.fin i) (numericSchema T a b x y k).minimum_
        else Dbl.lt (Dbl.fin i) (numericSchema T a b x y k).minimum_) then false else true)
      = aboveMinimum a x i := by
    cases a with
    | none => cases x <;> rfl
    | some n =>
      show (if (if x then Dbl.le (Dbl.fin i) (Dbl.ofInt n)
        else Dbl.lt (Dbl.fin i) (Dbl.ofInt n)) then false else true) = _
      rw [Dbl.ofInt_exact n (ha n rfl)]
      cases x <;> simp [Dbl.le, Dbl.lt, aboveMinimum] <;>
        (rw [Bool.eq_iff_iff]
         simp only [decide_eq_true_eq, Bool.not_eq_true', decide_eq_false_iff_not]
         omega)
  have h2 : (if (if y then Dbl.ge (Dbl.fin i) (numericSchema T a b x y k).maximum_
        else Dbl.gt (Dbl.fin i) (numericSchema T a b x y k).maximum_) then false else true)
      = belowMaximum b y i := by
    cases b with
    | none => cases y <;> rfl
    | some n =>
      show (if (if y then Dbl.ge (Dbl.fin i) (Dbl.ofInt n)
        else Dbl.gt (Dbl.fin i) (Dbl.ofInt n)) then false else true) = _
      rw [Dbl.ofInt_exact n (hb n rfl)]
      cases y <;> simp [Dbl.le, Dbl.lt, Dbl.ge, Dbl.gt, belowMaximum] <;>
        (rw [Bool.eq_iff_iff]
         simp only [decide_eq_true_eq, Bool.not_eq_true', decide_eq_false_iff_not]
         omega)
  have h3 : (if ((numericSchema T a b x y k).hasMultipleOf_
        && Dbl.ne (Dbl.fmod (Dbl.fin i) (numericSchema T a b x y k).multipleOf_) (Dbl.fin 0))
        then false else true)
      = isMultiple k i := by
    cases k with
    | none => rfl
    | some n =>
      show (if (true && Dbl.ne (Dbl.fmod (Dbl.fin i) (Dbl.ofInt n)) (Dbl.fin 0))
        then false else true) = _
      rw [Dbl.ofInt_exact n (hk n rfl).2, Dbl.fmod_int i n (hk n rfl).1]
      by_cases hd : n ∣ i <;> simp [hd, isMultiple]
  unfold BaseSchema.CheckDouble integerInRange
  rw [← h1, ← h2, ← h3]
  simp only [show (numericSchema T a b x y k).exclusiveMinimum_ = x from rfl,
    show (numericSchema T a b x y k).exclusiveMaximum_ = y from rfl]
  generalize (if x then Dbl.le (Dbl.fin i) (numericSchema T a b x y k).minimum_
    else Dbl.lt (Dbl.fin i) (numericSchema T a b x y k).minimum_) = p
  generalize (if y then Dbl.ge (Dbl.fin i) (numericSchema T a b x y k).maximum_
    else Dbl.gt (Dbl.fin i) (numericSchema T a b x y k).maximum_) = q
  generalize ((numericSchema T a b x y k).hasMultipleOf_
    && Dbl.ne (Dbl.fmod (Dbl.fin i) (numericSchema T a b x y k).multipleOf_) (Dbl.fin 0)) = r
  cases p <;> cases q <;> cases r <;> rfl

/-- The verdict of the node with a type mask and the numeric keywords on an
integer, for each of the four integer events. -/
theorem numeric_node (fuel : Nat) (T : Nat) (a b : Option Int) (x y : Bool) (k : Option Int)
    (i : Int)
    (ha : ∀ n, a = some n → n.natAbs ≤ 2 ^ 53) (hb : ∀ n, b = some n → n.natAbs ≤ 2 ^ 53)
    (hk : ∀ n, k = some n → n ≠ 0 ∧ n.natAbs ≤ 2 ^ 53) (hi : i.natAbs ≤ 2 ^ 53)
    (e : Event) (he : e = .Int_ i ∨ e = .Int64 i ∨ e = .Uint i.toNat ∧ 0 ≤ i
      ∨ e = .Uint64 i.toNat ∧ 0 ≤ i) :
    (feed fuel (GenericSchemaValidator.make (numericSchema T a b x y k) nullOutputHandler_)
        [e]).map (fun r => r.1.IsValid)
      = some ((T.testBit kIntegerSchemaType || T.testBit kNumberSchemaType)
          && integerInRange a b x y k i) := by
  have hint : ∀ c : Context, (numericSchema T a b x y k).Integer c i
      = ((numericSchema T a b x y k).CreateLogicValidators c,
          (T.testBit kIntegerSchemaType || T.testBit kNumberSchemaType)
            && integerInRange a b x y k i) := by
    intro c
    have hmask := and_two_bits_ne_zero T kIntegerSchemaType kNumberSchemaType
    unfold BaseSchema.Integer
    simp only [show (numericSchema T a b x y k).type_ = T from rfl,
      show (numericSchema T a b x y k).enum_ = Json.null from rfl, Json.IsArray,
      checkDouble_int T a b x y k i ha hb hk hi]
    rcases hz : (T &&& ((1 <<< kIntegerSchemaType) ||| (1 <<< kNumberSchemaType)) == 0) with _ | _
    · have : (T &&& ((1 <<< kIntegerSchemaType) ||| (1 <<< kNumberSchemaType)) != 0) = true := by
        simp only [bne, hz, Bool.not_false]
      rw [hmask] at this
      simp [this]
    · have : (T &&& ((1 <<< kIntegerSchemaType) ||| (1 <<< kNumberSchemaType)) != 0) = false := by
        simp only [bne, hz, Bool.not_true]
      rw [hmask] at this
      simp [this]
  have hm : (numericSchema T a b x y k).method (Context.make (numericSchema T a b x y k)) e
      = some ((numericSchema T a b x y k).CreateLogicValidators
          (Context.make (numericSchema T a b x y k)),
          (T.testBit kIntegerSchemaType || T.testBit kNumberSchemaType)
            && integerInRange a b x y k i) := by
    rcases he with rfl | rfl | ⟨rfl, h0⟩ | ⟨rfl, h0⟩
    · exact congrArg some (hint _)
    · exact congrArg some (hint _)
    · simp only [BaseSchema.method, BaseSchema.Uint, Int.toNat_of_nonneg h0]
      exact congrArg some (hint _)
    · simp only [BaseSchema.method, BaseSchema.Uint64, Int.toNat_of_nonneg h0]
      exact congrArg some (hint _)
  have hbeg : e.isBegin = true := by
    rcases he with rfl | rfl | ⟨rfl, -⟩ | ⟨rfl, -⟩ <;> rfl
  exact plain_scalar_run fuel (numericSchema T a b x y k) ⟨rfl, rfl, rfl, rfl⟩ nullOutputHandler_
    (fun _ _ => rfl) e hbeg _ _ hm


theorem numberOr_int (ms : List (String × Json)) (k : String) (a : Option Int) (d : Dbl)
    (h : GetMember ms k = a.map Json.int) : numberOr ms k d = numberOf a d := by
  cases a with
  | none => simp [numberOr, h, numberOf]
  | some n => simp [numberOr, h, numberOf, Json.IsNumber, Json.GetDouble]

theorem assignBool_opt (out : Bool) (ms : List (String × Json)) (k : String) (x : Option Bool)
    (h : GetMember ms k = x.map Json.bool) : AssignIfExistBool out ms k = x.getD out := by
  cases x with
  | none => simp [AssignIfExistBool, h]
  | some b => simp [AssignIfExistBool, h]

theorem make_numeric (rx : RegexEngine) (ms : List (String × Json)) (a b k : Option Int)
    (x y : Option Bool)
    (honly : onlyKeywords ["type", "minimum", "maximum", "exclusiveMinimum", "exclusiveMaximum",
      "multipleOf"] ms = true)
    (hmin : GetMember ms "minimum" = a.map Json.int)
    (hmax : GetMember ms "maximum" = b.map Json.int)
    (hx : GetMember ms "exclusiveMinimum" = x.map Json.bool)
    (hy : GetMember ms "exclusiveMaximum" = y.map Json.bool)
    (hk : GetMember ms "multipleOf" = k.map Json.int) :
    BaseSchema.make rx (.obj ms)
      = some (numericSchema (typeMask ms) a b (x.getD false) (y.getD false) k) := by
  have abs := fun k hk hna => absent_of_only _ ms honly k hk hna
  have h_enum := abs "enum" (by decide) (by decide)
  have h_allOf := abs "allOf" (by decide) (by decide)
  have h_anyOf := abs "anyOf" (by decide) (by decide)
  have h_oneOf := abs "oneOf" (by decide) (by decide)
  have h_not := abs "not" (by decide) (by decide)
  have h_properties := abs "properties" (by decide) (by decide)
  have h_patternProperties := abs "patternProperties" (by decide) (by decide)
  have h_required := abs "required" (by decide) (by decide)
  have h_dependencies := abs "dependencies" (by decide) (by decide)
  have h_additionalProperties := abs "additionalProperties" (by decide) (by decide)
  have h_minProperties := abs "minProperties" (by decide) (by decide)
  have h_maxProperties := abs "maxProperties" (by decide) (by decide)
  have h_items := abs "items" (by decide) (by decide)
  have h_minItems := abs "minItems" (by decide) (by decide)
  have h_maxItems := abs "maxItems" (by decide) (by decide)
  have h_additionalItems := abs "additionalItems" (by decide) (by decide)
  have h_minLength := abs "minLength" (by decide) (by decide)
  have h_maxLength := abs "maxLength" (by decide) (by decide)
  have h_pattern := abs "pattern" (by decide) (by decide)
  have hIL : itemsPart rx ms = some none := by
    simp [itemsPart, h_items]
  rw [make_obj_eq, makeElementsAt_of_get, makeElementsAt_of_get, makeElementsAt_of_get,
    makeAt_of_get, makeMembersAt_of_get, hIL, makeElementsAt_of_get]
  simp only [h_allOf, h_anyOf, h_oneOf, h_not, h_properties, h_items, patternPart,
    h_patternProperties, additionalPart, h_additionalProperties, Option.some_bind,
    Option.some.injEq]
  simp only [nodeOf, numericSchema, typeless, enumOf, requiredPart, dependenciesPart,
    h_enum, h_required, h_dependencies, h_pattern,
    numberOr_int ms _ a _ hmin, numberOr_int ms _ b _ hmax, numberOr_int ms _ k _ hk,
    assignBool_opt _ ms _ x hx, assignBool_opt _ ms _ y hy,
    assignBool_absent _ ms _ h_additionalProperties, assignBool_absent _ ms _ h_additionalItems,
    assignSize_absent _ ms _ h_minProperties, assignSize_absent _ ms _ h_maxProperties,
    assignSize_absent _ ms _ h_minLength, assignSize_absent _ ms _ h_maxLength,
    assignSize_absent _ ms _ h_minItems, assignSize_absent _ ms _ h_maxItems,
    Option.getD_none, Option.none_bind, Option.map_none', List.map_nil]
  rw [hk]
  cases k <;> rfl


theorem setBit_map (S : String → Bool) (t : String) :
    ∀ (names : List String) (i : Nat), names.Nodup → names[i]? = some t →
      setBit (names.map S) i = names.map (fun x => S x || x == t)
  | [], i, _, h => by simp at h
  | nm :: names, 0, hn, h => by
    simp only [List.getElem?_cons_zero, Option.some.injEq] at h
    subst h
    have hnot : nm ∉ names := (List.nodup_cons.mp hn).1
    simp only [List.map_cons, setBit, beq_self_eq_true, Bool.or_true, List.cons.injEq, true_and]
    apply List.map_congr_left
    intro x hx
    have : (x == nm) = false := by
      simp only [beq_eq_false_iff_ne, ne_eq]
      rintro rfl
      exact hnot hx
    rw [this, Bool.or_false]
  | nm :: names, i + 1, hn, h => by
    have hn1 := List.nodup_cons.mp hn
    have h1 : names[i]? = some t := by simpa using h
    have hne : (nm == t) = false := by
      simp only [beq_eq_false_iff_ne, ne_eq]
      rintro rfl
      exact hn1.1 (List.getElem?_mem h1)
    simp only [List.map_cons, setBit, setBit_map S t names i hn1.2 h1, hne, Bool.or_false]

theorem setBit_length : ∀ (bs : List Bool) (i : Nat), (setBit bs i).length = bs.length
  | [], _ => rfl
  | _ :: _, 0 => rfl
  | b :: bs, i + 1 => by simp only [setBit, List.length_cons, setBit_length bs i]

/-- The search of a name given as a JSON string among the properties. -/
theorem findValue_spec (t : String) :
    ∀ (ps : List (Property BaseSchema)) (i0 : Nat),
      match FindPropertyIndexFrom (.str t) ps i0 with
      | some idx => ∃ i, idx = i0 + i ∧ (ps.map (fun p => p.name))[i]? = some t
      | none => t ∉ ps.map (fun p => p.name)
  | [], i0 => by simp [FindPropertyIndexFrom]
  | p :: ps, i0 => by
    simp only [FindPropertyIndexFrom, Json.eq, beq_iff_eq]
    by_cases h : p.name = t
    · simp only [h, if_true]
      exact ⟨0, rfl, by simp [h]⟩
    · simp only [h, if_false]
      have ih := findValue_spec t ps (i0 + 1)
      rcases hf : FindPropertyIndexFrom (.str t) ps (i0 + 1) with _ | idx
      · rw [hf] at ih
        simp only [List.map_cons, List.mem_cons, not_or]
        exact ⟨fun hh => h hh.symm, ih⟩
      · rw [hf] at ih
        obtain ⟨i, hi, hget⟩ := ih
        exact ⟨i + 1, by omega, by simpa using hget⟩

/-- The search of a name given as a string among the properties. -/
theorem findStr_spec (t : String) :
    ∀ (ps : List (Property BaseSchema)) (i0 : Nat),
      match FindPropertyIndexStrFrom t ps i0 with
      | some idx => ∃ i, idx = i0 + i ∧ (ps.map (fun p => p.name))[i]? = some t
      | none => t ∉ ps.map (fun p => p.name)
  | [], i0 => by simp [FindPropertyIndexStrFrom]
  | p :: ps, i0 => by
    simp only [FindPropertyIndexStrFrom]
    by_cases h : p.name = t
    · simp only [h, and_self, if_true]
      exact ⟨0, rfl, by simp [h]⟩
    · have hne : ¬(p.name.length = t.length ∧ p.name = t) := fun hh => h hh.2
      simp only [hne, if_false]
      have ih := findStr_spec t ps (i0 + 1)
      rcases hf : FindPropertyIndexStrFrom t ps (i0 + 1) with _ | idx
      · rw [hf] at ih
        simp only [List.map_cons, List.mem_cons, not_or]
        exact ⟨fun hh => h hh.symm, ih⟩
      · rw [hf] at ih
        obtain ⟨i, hi, hget⟩ := ih
        exact ⟨i + 1, by omega, by simpa using hget⟩

theorem map_or_absent (names : List String) (S : String → Bool) (t : String) (h : t ∉ names) :
    names.map (fun x => S x || x == t) = names.map S := by
  apply List.map_congr_left
  intro x hx
  have : (x == t) = false := by
    simp only [beq_eq_false_iff_ne, ne_eq]
    rintro rfl
    exact h hx
  rw [this, Bool.or_false]

/-- The loop over the targets of a dependency sets the bits of the declared
targets. -/
theorem markTargets_map (names : List String) (hn : names.Nodup)
    (ps : List (Property BaseSchema)) (hps : ps.map (fun p => p.name) = names) :
    ∀ (ts : List String) (S : String → Bool),
      markTargets ps (names.map S) (ts.map Json.str)
        = names.map (fun x => S x || decide (x ∈ ts))
  | [], S => by simp [markTargets]
  | t :: ts, S => by
    have hspec := findValue_spec t ps 0
    simp only [List.map_cons, markTargets, FindPropertyIndexValue]
    rcases hf : FindPropertyIndexFrom (.str t) ps 0 with _ | idx
    · rw [hf] at hspec
      rw [hps] at hspec
      simp only
      rw [markTargets_map names hn ps hps ts S]
      apply List.map_congr_left
      intro x hx
      have : x ≠ t := by rintro rfl; exact hspec hx
      simp [this]
    · rw [hf] at hspec
      obtain ⟨i, hi, hget⟩ := hspec
      rw [hps] at hget
      have hidx : idx = i := by omega
      simp only
      rw [hidx, setBit_map S t names i hn hget, markTargets_map names hn ps hps ts]
      apply List.map_congr_left
      intro x _
      by_cases hx : x = t
      · simp [hx]
      · have hb : (x == t) = false := by simpa using hx
        simp [hx, hb, Bool.or_assoc]


theorem dependent_names (names : List String) (D : String → Option (List String)) :
    ∀ (l : List String), (l.map (dependentProperty names D)).map (fun p => p.name) = l
  | [] => rfl
  | nm :: l => by
    simp only [List.map_cons, dependent_names names D l]
    rfl

theorem setDependencies_map (names : List String) (D : String → Option (List String))
    (s : String) (ts : List String) :
    ∀ (l : List String) (i : Nat), l.Nodup → l[i]? = some s →
      setDependencies (bitsOf names ts) (l.map (dependentProperty names D)) i
        = l.map (dependentProperty names (Function.update D s (some ts)))
  | [], i, _, h => by simp at h
  | nm :: l, 0, hn, h => by
    simp only [List.getElem?_cons_zero, Option.some.injEq] at h
    subst h
    have hnot : nm ∉ l := (List.nodup_cons.mp hn).1
    simp only [List.map_cons, setDependencies, List.cons.injEq]
    constructor
    · simp [dependentProperty]
    · apply List.map_congr_left
      intro x hx
      have : x ≠ nm := by rintro rfl; exact hnot hx
      simp [dependentProperty, Function.update_noteq this]
  | nm :: l, i + 1, hn, h => by
    have hn1 := List.nodup_cons.mp hn
    have h1 : l[i]? = some s := by simpa using h
    have hne : nm ≠ s := by
      rintro rfl
      exact hn1.1 (List.getElem?_mem h1)
    simp only [List.map_cons, setDependencies, setDependencies_map names D s ts l i hn1.2 h1,
      List.cons.injEq, and_true]
    simp [dependentProperty, Function.update_noteq hne]

/-- The loop over the members of `dependencies`, for declared sources: each
member sets the dependency bits of its source. -/
theorem markDependencies_eq (names : List String) (hn : names.Nodup) :
    ∀ (rest : List (String × List String)) (D : String → Option (List String)),
      (∀ d ∈ rest, d.1 ∈ names) →
      markDependencies (names.map (dependentProperty names D)) (dependenciesJson rest)
        = names.map (dependentProperty names
            (rest.foldl (fun (D : String → Option (List String)) (d : String × List String) =>
          Function.update D d.1 (some d.2)) D))
  | [], _, _ => rfl
  | (s, ts) :: rest, D, hdecl => by
    have hs : s ∈ names := hdecl (s, ts) (List.mem_cons_self _ _)
    have hnames := dependent_names names D names
    have hspec := findValue_spec s (names.map (dependentProperty names D)) 0
    simp only [dependenciesJson, List.map_cons, markDependencies, FindPropertyIndexValue,
      List.foldl_cons]
    rcases hf : FindPropertyIndexFrom (.str s) (names.map (dependentProperty names D)) 0
      with _ | idx
    · rw [hf, hnames] at hspec
      exact absurd hs hspec
    · rw [hf, hnames] at hspec
      obtain ⟨i, hi, hget⟩ := hspec
      have hidx : idx = i := by omega
      simp only
      have hrep : List.replicate (names.map (dependentProperty names D)).length false
          = names.map (fun _ => false) := by
        rw [List.length_map]
        exact (List.map_const' names false).symm
      rw [hrep, markTargets_map names hn _ hnames ts (fun _ => false), hidx]
      have hbits : names.map (fun x => false || decide (x ∈ ts)) = bitsOf names ts := by
        simp only [Bool.false_or]; rfl
      rw [hbits, setDependencies_map names D s ts names i hn hget]
      exact markDependencies_eq names hn rest _ (fun d hd => hdecl d (List.mem_cons_of_mem _ hd))

theorem foldl_update_lookup :
    ∀ (rest : List (String × List String)) (D : String → Option (List String)),
      (rest.map Prod.fst).Nodup → ∀ nm : String,
      (rest.foldl (fun (D : String → Option (List String)) (d : String × List String) =>
          Function.update D d.1 (some d.2)) D) nm
        = ((rest.lookup nm).map some).getD (D nm)
  | [], _, _, _ => rfl
  | (s, ts) :: rest, D, hn, nm => by
    simp only [List.map_cons, List.nodup_cons] at hn
    rw [List.foldl_cons, foldl_update_lookup rest _ hn.2 nm]
    by_cases h : nm = s
    · subst h
      have hl : rest.lookup nm = none := by
        rw [List.lookup_eq_none_iff]
        intro p hp
        simp only [bne_iff_ne, ne_eq]
        intro hpe
        apply hn.1
        rw [hpe]
        exact List.mem_map_of_mem Prod.fst hp
      simp [hl, List.lookup]
    · have hb : (nm == s) = false := by simpa using h
      simp [List.lookup, hb, Function.update_noteq h]

/-- The properties the constructor leaves for declared names with the empty
schema and dependencies between them. -/
theorem markDependencies_node (names : List String) (hn : names.Nodup)
    (deps : List (String × List String)) (hd : (deps.map Prod.fst).Nodup)
    (hdecl : ∀ d ∈ deps, d.1 ∈ names) :
    markDependencies (names.map (fun nm => { name := nm, schema := typeless }))
        (dependenciesJson deps)
      = (dependenciesSchema names deps).properties_ := by
  have h0 : names.map (fun nm => ({ name := nm, schema := typeless } : Property BaseSchema))
      = names.map (dependentProperty names (fun _ => none)) := rfl
  rw [h0, markDependencies_eq names hn deps _ hdecl]
  show _ = names.map (dependentProperty names (fun nm => deps.lookup nm))
  have hF : deps.foldl (fun (D : String → Option (List String)) (d : String × List String) =>
          Function.update D d.1 (some d.2)) (fun _ => none)
      = fun nm => deps.lookup nm := by
    funext nm
    rw [foldl_update_lookup deps _ hd nm]
    cases deps.lookup nm <;> rfl
  rw [hF]


theorem missingTarget_map (T K : String → Bool) :
    ∀ (l : List String), missingTarget (l.map T) (l.map K) = l.any (fun x => T x && !K x)
  | [] => rfl
  | x :: l => by
    simp only [List.map_cons, missingTarget, missingTarget_map T K l, List.any_cons]

theorem dependencyFails_map (names : List String) (D : String → Option (List String))
    (seen : List Bool) (K : String → Bool) :
    ∀ (l : List String),
      dependencyFails seen (l.map (dependentProperty names D)) (l.map K)
        = l.any (fun s => K s && ((D s).map (fun ts => missingTarget (bitsOf names ts) seen)).getD
            false)
  | [] => rfl
  | s :: l => by
    simp only [List.map_cons, dependencyFails, dependencyFails_map names D seen K l,
      List.any_cons]
    congr 2
    simp only [dependentProperty]
    cases D s <;> rfl

/-- Whether the loop of `EndObject` over the dependencies reaches `return
false`, for declared names with dependencies between them and the keys
seen. -/
theorem dependencyFails_iff (names : List String) (deps : List (String × List String))
    (hd : (deps.map Prod.fst).Nodup)
    (hdecl : ∀ d ∈ deps, d.1 ∈ names ∧ ∀ t ∈ d.2, t ∈ names) (keys : List String) :
    dependencyFails (names.map (fun x => decide (x ∈ keys)))
        (dependenciesSchema names deps).properties_ (names.map (fun x => decide (x ∈ keys)))
      = !decide (∀ d ∈ deps, d.1 ∈ keys → ∀ t ∈ d.2, t ∈ keys) := by
  show dependencyFails _ (names.map (dependentProperty names (fun nm => deps.lookup nm))) _ = _
  rw [dependencyFails_map]
  rw [Bool.eq_iff_iff]
  simp only [List.any_eq_true, Bool.and_eq_true, decide_eq_true_eq, Bool.not_eq_true',
    decide_eq_false_iff_not, not_forall]
  constructor
  · rintro ⟨s, hs, hsk, hfail⟩
    rcases hl : deps.lookup s with _ | ts
    · simp [hl] at hfail
    · simp only [hl, Option.map_some', Option.getD_some, bitsOf] at hfail
      rw [missingTarget_map] at hfail
      simp only [List.any_eq_true, Bool.and_eq_true, decide_eq_true_eq, Bool.not_eq_true',
        decide_eq_false_iff_not] at hfail
      obtain ⟨x, -, hx, hxk⟩ := hfail
      exact ⟨(s, ts), lookup_mem s deps ts hl, hsk, x, hx, hxk⟩
  · rintro ⟨⟨s, ts⟩, hmem, hsk, x, hx, hxk⟩
    obtain ⟨hsn, htn⟩ := hdecl (s, ts) hmem
    refine ⟨s, hsn, hsk, ?_⟩
    rw [lookup_of_nodup s deps ts hd hmem]
    simp only [Option.map_some', Option.getD_some, bitsOf]
    rw [missingTarget_map]
    simp only [List.any_eq_true, Bool.and_eq_true, decide_eq_true_eq, Bool.not_eq_true',
      decide_eq_false_iff_not]
    exact ⟨x, htn x hx, hx, hxk⟩


theorem dependencies_plain (names : List String) (deps : List (String × List String)) :
    (dependenciesSchema names deps).Plain := ⟨rfl, rfl, rfl, rfl⟩

theorem dependencies_hasType (names : List String) (deps : List (String × List String)) :
    (dependenciesSchema names deps).hasType kObjectSchemaType = true :=
  typeless_hasType kObjectSchemaType (by decide)

/-- The method `Key` of the node with dependencies: the value is unconstrained
and the bit of the key is set when the key is a declared name. -/
theorem dep_key (names : List String) (hn : names.Nodup) (deps : List (String × List String))
    (c : Context) (K : String → Bool) (hc : c.objectDependencies = some (names.map K))
    (k : String) :
    (dependenciesSchema names deps).Key c k
      = some ({ c with valueSchema := some typeless
                       objectDependencies := some (names.map (fun x => K x || x == k)) },
              true) := by
  have hcreate := create_plain _ (dependencies_plain names deps) c
  have hnames : (dependenciesSchema names deps).properties_.map (fun p => p.name) = names :=
    dependent_names names _ names
  have hspec := findStr_spec k (dependenciesSchema names deps).properties_ 0
  unfold BaseSchema.Key
  simp only [hcreate, hasType_object _ (dependencies_hasType names deps), if_false,
    BaseSchema.FindPropertyIndex, Bool.false_eq_true]
  rcases hf : FindPropertyIndexStrFrom k (dependenciesSchema names deps).properties_ 0
    with _ | idx
  · rw [hf, hnames] at hspec
    rw [map_or_absent names K k hspec, ← hc]
    simp only [BaseSchema.KeyOther,
      show (dependenciesSchema names deps).patternProperties_ = none from rfl,
      show (dependenciesSchema names deps).additionalPropertySchema_ = none from rfl,
      show (dependenciesSchema names deps).additionalProperty_ = true from rfl,
      Option.none_bind, if_true]
  · rw [hf, hnames] at hspec
    obtain ⟨i, hi, hget⟩ := hspec
    have hidx : idx = i := by omega
    subst hidx
    have hprop : (dependenciesSchema names deps).properties_[idx]?
        = some (dependentProperty names (fun nm => deps.lookup nm) k) := by
      show (names.map (dependentProperty names (fun nm => deps.lookup nm)))[idx]? = _
      rw [List.getElem?_map, hget]
      rfl
    have hlen : (names.map K).length = (dependenciesSchema names deps).propertyCount_ := by
      simp [BaseSchema.propertyCount_, dependenciesSchema]
    simp only [hprop, show (dependenciesSchema names deps).hasDependencies_ = true from rfl,
      if_true, show (dependentProperty names (fun nm => deps.lookup nm) k).required = false
        from rfl, Bool.false_eq_true, if_false, hc, hlen, setBit_map K k names idx hn hget]
    rfl

/-- The members of an object on the node with dependencies: every member is
accepted, and the bits of the declared names among the keys are set. -/
theorem dep_fold (fuel : Nat) (names : List String) (hn : names.Nodup)
    (deps : List (String × List String)) :
    ∀ (dms : List ((String × Bool) × Doc)) (c : Context) (K : String → Bool),
      c.objectDependencies = some (names.map K) → (∀ m ∈ dms, m.2.fits = true) →
      ∃ cF : Context, membersFold fuel (dependenciesSchema names deps) c dms = some (cF, true) ∧
        cF.objectDependencies
          = some (names.map (fun x => K x || decide (x ∈ dms.map (fun m => m.1.1)))) ∧
        cF.objectRequiredCount = c.objectRequiredCount
  | [], c, K, hc, _ => ⟨c, rfl, by simpa using hc, rfl⟩
  | (k, d) :: dms, c, K, hc, hfit => by
    have hd := hfit (k, d) (List.mem_cons_self _ _)
    obtain ⟨cF, h1, h2, h3⟩ := dep_fold fuel names hn deps dms
      { c with valueSchema := some typeless
               objectDependencies := some (names.map (fun x => K x || x == k.1)) }
      (fun x => K x || x == k.1) rfl (fun m hm => hfit m (List.mem_cons_of_mem _ hm))
    refine ⟨cF, ?_, ?_, h3⟩
    · simp only [membersFold, dep_key names hn deps c K hc k.1,
        verdictOf_typeless fuel d hd, if_true]
      exact h1
    · rw [h2]
      congr 1
      apply List.map_congr_left
      intro x _
      by_cases hx : x = k.1
      · simp [hx]
      · have hb : (x == k.1) = false := by simpa using hx
        simp [hx, hb]

/-- The verdict of the node with dependencies on an object: the dependencies
hold for the keys. -/
theorem dep_node (fuel : Nat) (names : List String) (hn : names.Nodup)
    (deps : List (String × List String)) (hd : (deps.map Prod.fst).Nodup)
    (hdecl : ∀ d ∈ deps, d.1 ∈ names ∧ ∀ t ∈ d.2, t ∈ names)
    (dms : List ((String × Bool) × Doc)) (hfit : (Doc.Object dms).fits = true) :
    validate fuel (dependenciesSchema names deps) (.Object dms)
      = some (decide (∀ d ∈ deps, d.1 ∈ dms.map (fun m => m.1.1) →
          ∀ t ∈ d.2, t ∈ dms.map (fun m => m.1.1))) := by
  simp only [Doc.fits, Bool.and_eq_true, decide_eq_true_eq] at hfit
  have hfits := fits_of_mem_members dms hfit.2
  have hstart : (Context.startObject (dependenciesSchema names deps)
      (Context.make (dependenciesSchema names deps))).objectDependencies
        = some (names.map (fun _ => false)) := by
    simp only [Context.startObject,
      show (dependenciesSchema names deps).hasDependencies_ = true from rfl, if_true,
      BaseSchema.propertyCount_, dependenciesSchema, List.length_map]
    rw [← List.map_const' names false]
  obtain ⟨cF, hfold, hseen, hreq⟩ := dep_fold fuel names hn deps dms _ (fun _ => false) hstart
    hfits
  simp only [Bool.false_or] at hseen
  have hend : (dependenciesSchema names deps).EndObject cF dms.length
      = some (cF, decide (∀ d ∈ deps, d.1 ∈ dms.map (fun m => m.1.1) →
          ∀ t ∈ d.2, t ∈ dms.map (fun m => m.1.1))) := by
    have hreq0 : cF.objectRequiredCount = 0 := hreq
    have hmax : ¬ dms.length > SizeTypeMax := by omega
    have hlen : (names.map (fun x => decide (x ∈ dms.map (fun m => m.1.1)))).length
        = (dependenciesSchema names deps).propertyCount_ := by
      simp [BaseSchema.propertyCount_, dependenciesSchema]
    unfold BaseSchema.EndObject
    simp only [create_plain _ (dependencies_plain names deps),
      hasType_object _ (dependencies_hasType names deps), hreq0, if_false,
      show (dependenciesSchema names deps).requiredCount_ = 0 from rfl,
      show (dependenciesSchema names deps).minProperties_ = 0 from rfl,
      show (dependenciesSchema names deps).maxProperties_ = SizeTypeMax from rfl,
      show (dependenciesSchema names deps).hasDependencies_ = true from rfl,
      ne_eq, not_true_eq_false, Nat.not_lt_zero, hmax, or_self, Bool.false_eq_true, if_true,
      hseen, hlen, dependencyFails_iff names deps hd hdecl, Bool.not_not]
  unfold validate
  rw [plain_object_run fuel (dependenciesSchema names deps) (dependencies_plain names deps) dms
    nullOutputHandler_ (fun _ _ => rfl) ?_ (dependencies_hasType names deps) cF cF _ _ hfold hend]
  · simp
  · intro m hm c0 c1 S hk hv
    have hS : S = typeless := by
      unfold BaseSchema.Key at hk
      simp only [create_plain _ (dependencies_plain names deps),
        hasType_object _ (dependencies_hasType names deps), if_false, Bool.false_eq_true] at hk
      split at hk
      · next idx hidx =>
        split at hk
        · cases hk
        · next p hp =>
          have hpm : p ∈ (dependenciesSchema names deps).properties_ := List.getElem?_mem hp
          have hps : p.schema = typeless := by
            simp only [dependenciesSchema, List.mem_map] at hpm
            obtain ⟨nm, -, rfl⟩ := hpm
            rfl
          simp only [show (dependenciesSchema names deps).hasDependencies_ = true from rfl,
            if_true, hps] at hk
          split at hk
          · cases hk
          · split at hk
            · simp only [Option.some.injEq, Prod.mk.injEq, and_true] at hk
              subst hk
              split at hv <;> simpa using hv.symm
            · cases hk
      · simp only [BaseSchema.KeyOther,
          show (dependenciesSchema names deps).patternProperties_ = none from rfl,
          show (dependenciesSchema names deps).additionalPropertySchema_ = none from rfl,
          show (dependenciesSchema names deps).additionalProperty_ = true from rfl,
          Option.none_bind, if_true, Option.some.injEq, Prod.mk.injEq, and_true] at hk
        subst hk
        simpa using hv.symm
    subst hS
    rw [validate_typeless fuel m.2 (hfits m hm)]
    rfl


theorem makeMembers_empty (rx : RegexEngine) :
    ∀ (names : List String),
      makeMembers rx (emptyProperties names) = some (names.map (fun nm => (nm, typeless)))
  | [] => rfl
  | nm :: names => by
    have ih := makeMembers_empty rx names
    simp only [emptyProperties] at ih
    simp only [emptyProperties, List.map_cons, makeMembers, make_empty, ih, Option.bind_eq_bind,
      Option.some_bind, Option.pure_def]

theorem make_dependencies (rx : RegexEngine) (ms : List (String × Json)) (names : List String)
    (deps : List (String × List String))
    (honly : onlyKeywords ["properties", "dependencies"] ms = true)
    (hprops : GetMember ms "properties" = some (.obj (emptyProperties names)))
    (hdeps : GetMember ms "dependencies" = some (.obj (dependenciesJson deps)))
    (hn : names.Nodup) (hd : (deps.map Prod.fst).Nodup) (hdecl : ∀ d ∈ deps, d.1 ∈ names) :
    BaseSchema.make rx (.obj ms) = some (dependenciesSchema names deps) := by
  have abs := fun k hk hna => absent_of_only _ ms honly k hk hna
  have h_type := abs "type" (by decide) (by decide)
  have h_enum := abs "enum" (by decide) (by decide)
  have h_allOf := abs "allOf" (by decide) (by decide)
  have h_anyOf := abs "anyOf" (by decide) (by decide)
  have h_oneOf := abs "oneOf" (by decide) (by decide)
  have h_not := abs "not" (by decide) (by decide)
  have h_patternProperties := abs "patternProperties" (by decide) (by decide)
  have h_required := abs "required" (by decide) (by decide)
  have h_additionalProperties := abs "additionalProperties" (by decide) (by decide)
  have h_minProperties := abs "minProperties" (by decide) (by decide)
  have h_maxProperties := abs "maxProperties" (by decide) (by decide)
  have h_items := abs "items" (by decide) (by decide)
  have h_minItems := abs "minItems" (by decide) (by decide)
  have h_maxItems := abs "maxItems" (by decide) (by decide)
  have h_additionalItems := abs "additionalItems" (by decide) (by decide)
  have h_minLength := abs "minLength" (by decide) (by decide)
  have h_maxLength := abs "maxLength" (by decide) (by decide)
  have h_pattern := abs "pattern" (by decide) (by decide)
  have h_minimum := abs "minimum" (by decide) (by decide)
  have h_maximum := abs "maximum" (by decide) (by decide)
  have h_exclusiveMinimum := abs "exclusiveMinimum" (by decide) (by decide)
  have h_exclusiveMaximum := abs "exclusiveMaximum" (by decide) (by decide)
  have h_multipleOf := abs "multipleOf" (by decide) (by decide)
  have hIL : itemsPart rx ms = some none := by
    simp [itemsPart, h_items]
  have hP : makeMembersAt rx "properties" ms
      = some (some (names.map (fun nm => (nm, typeless)))) := by
    rw [makeMembersAt_of_get, hprops]
    simp only [makeMembers_empty, Option.map_some']
  have hprops0 : (names.map (fun nm => (nm, typeless))).map
      (fun kv => ({ name := kv.1, schema := kv.2 } : Property BaseSchema))
      = names.map (fun nm => { name := nm, schema := typeless }) := by
    rw [List.map_map]
    rfl
  have hdp : dependenciesPart ms (some (names.map (fun nm => (nm, typeless))))
      = ((dependenciesSchema names deps).properties_, true) := by
    simp only [dependenciesPart, hdeps, requiredPart, h_required, Option.getD_some, hprops0,
      markDependencies_node names hn deps hd hdecl]
  have hrp : (requiredPart ms (some (names.map (fun nm => (nm, typeless))))).2 = 0 := by
    simp only [requiredPart, h_required]
  rw [make_obj_eq, makeElementsAt_of_get, makeElementsAt_of_get, makeElementsAt_of_get,
    makeAt_of_get, hP, hIL, makeElementsAt_of_get]
  simp only [h_allOf, h_anyOf, h_oneOf, h_not, h_items, patternPart, h_patternProperties,
    additionalPart, h_additionalProperties, Option.some_bind, Option.some.injEq]
  simp only [nodeOf, hdp, hrp]
  simp only [typeless, enumOf, typeMask, numberOr,
    h_type, h_enum, h_pattern, h_minimum, h_maximum, h_multipleOf,
    assignBool_absent _ ms _ h_additionalProperties, assignBool_absent _ ms _ h_additionalItems,
    assignBool_absent _ ms _ h_exclusiveMinimum, assignBool_absent _ ms _ h_exclusiveMaximum,
    assignSize_absent _ ms _ h_minProperties, assignSize_absent _ ms _ h_maxProperties,
    assignSize_absent _ ms _ h_minLength, assignSize_absent _ ms _ h_maxLength,
    assignSize_absent _ ms _ h_minItems, assignSize_absent _ ms _ h_maxItems,
    Option.getD_none, Option.none_bind, Option.map_none', List.map_nil]
  rfl

end GenericSchemaValidator

namespace GenericSchemaValidator


theorem assignSize_bound (out : Nat) (ms : List (String × Json)) (k : String) :
    AssignIfExistSize out ms k = boundOf out (GetMember ms k) := by
  rcases hg : GetMember ms k with _ | v
  · simp [AssignIfExistSize, boundOf, hg]
  · cases v <;> simp only [AssignIfExistSize, boundOf, hg]
    case int i =>
      by_cases h0 : 0 ≤ i
      · have e : (i.toNat ≤ SizeTypeMax) ↔ i ≤ 2 ^ 32 - 1 := by
          have : SizeTypeMax = 2 ^ 32 - 1 := rfl
          rw [this]
          omega
        simp only [Json.IsUint64, h0, true_and, e, decide_eq_true_eq]
        split_ifs <;> first | rfl | omega
      · simp [Json.IsUint64, h0]

theorem getMember_without (name : String) :
    ∀ (ms : List (String × Json)) (k : String),
      GetMember (withoutMember name ms) k = if k = name then none else GetMember ms k
  | [], k => by simp [withoutMember, GetMember]
  | (k1, v) :: ms, k => by
    have ih := getMember_without name ms k
    simp only [withoutMember] at ih ⊢
    by_cases h1 : k1 = name
    · subst h1
      simp only [List.filter_cons, bne_self_eq_false, Bool.false_eq_true, if_false, ih, GetMember]
      by_cases h2 : k = k1
      · simp [h2]
      · have : ¬ k1 = k := fun h => h2 h.symm
        simp [h2, this]
    · have hb : (k1 != name) = true := by simpa using h1
      simp only [List.filter_cons, hb, if_true, GetMember, ih]
      by_cases h2 : k1 = k
      · subst h2
        simp [h1]
      · simp [h2]

/-- The node the constructor leaves depends on the members of the schema
object only through the values of the keywords. -/
theorem nodeOf_congr (rx : RegexEngine) (ms ms1 : List (String × Json))
    (hget : ∀ k ∈ keywords, k ∉ sizeKeywords → GetMember ms k = GetMember ms1 k)
    (hsz : ∀ k ∈ sizeKeywords, ∀ d, AssignIfExistSize d ms k = AssignIfExistSize d ms1 k)
    (A B O : Option (List BaseSchema)) (N : Option BaseSchema)
    (P PP : Option (List (String × BaseSchema))) (AS IL : Option BaseSchema)
    (IT : Option (List BaseSchema)) :
    nodeOf rx ms A B O N P PP AS IL IT = nodeOf rx ms1 A B O N P PP AS IL IT := by
  have h_type := hget "type" (by decide) (by decide)
  have h_enum := hget "enum" (by decide) (by decide)
  have h_allOf := hget "allOf" (by decide) (by decide)
  have h_anyOf := hget "anyOf" (by decide) (by decide)
  have h_oneOf := hget "oneOf" (by decide) (by decide)
  have h_not := hget "not" (by decide) (by decide)
  have h_properties := hget "properties" (by decide) (by decide)
  have h_patternProperties := hget "patternProperties" (by decide) (by decide)
  have h_required := hget "required" (by decide) (by decide)
  have h_dependencies := hget "dependencies" (by decide) (by decide)
  have h_additionalProperties := hget "additionalProperties" (by decide) (by decide)
  have h_items := hget "items" (by decide) (by decide)
  have h_additionalItems := hget "additionalItems" (by decide) (by decide)
  have h_pattern := hget "pattern" (by decide) (by decide)
  have h_minimum := hget "minimum" (by decide) (by decide)
  have h_maximum := hget "maximum" (by decide) (by decide)
  have h_exclusiveMinimum := hget "exclusiveMinimum" (by decide) (by decide)
  have h_exclusiveMaximum := hget "exclusiveMaximum" (by decide) (by decide)
  have h_multipleOf := hget "multipleOf" (by decide) (by decide)
  have s_minProperties := hsz "minProperties" (by decide)
  have s_maxProperties := hsz "maxProperties" (by decide)
  have s_minItems := hsz "minItems" (by decide)
  have s_maxItems := hsz "maxItems" (by decide)
  have s_minLength := hsz "minLength" (by decide)
  have s_maxLength := hsz "maxLength" (by decide)
  simp only [nodeOf, enumOf, typeMask, requiredPart, dependenciesPart, numberOr,
    AssignIfExistBool, h_type, h_enum, h_allOf, h_anyOf, h_oneOf, h_not, h_properties, h_patternProperties, h_required, h_dependencies, h_additionalProperties, h_items, h_additionalItems, h_pattern, h_minimum, h_maximum, h_exclusiveMinimum, h_exclusiveMaximum, h_multipleOf,
    s_minProperties, s_maxProperties, s_minItems, s_maxItems, s_minLength, s_maxLength]

theorem make_congr (rx : RegexEngine) (ms ms1 : List (String × Json))
    (hget : ∀ k ∈ keywords, k ∉ sizeKeywords → GetMember ms k = GetMember ms1 k)
    (hsz : ∀ k ∈ sizeKeywords, ∀ d, AssignIfExistSize d ms k = AssignIfExistSize d ms1 k) :
    BaseSchema.make rx (.obj ms) = BaseSchema.make rx (.obj ms1) := by
  have h_type := hget "type" (by decide) (by decide)
  have h_enum := hget "enum" (by decide) (by decide)
  have h_allOf := hget "allOf" (by decide) (by decide)
  have h_anyOf := hget "anyOf" (by decide) (by decide)
  have h_oneOf := hget "oneOf" (by decide) (by decide)
  have h_not := hget "not" (by decide) (by decide)
  have h_properties := hget "properties" (by decide) (by decide)
  have h_patternProperties := hget "patternProperties" (by decide) (by decide)
  have h_required := hget "required" (by decide) (by decide)
  have h_dependencies := hget "dependencies" (by decide) (by decide)
  have h_additionalProperties := hget "additionalProperties" (by decide) (by decide)
  have h_items := hget "items" (by decide) (by decide)
  have h_additionalItems := hget "additionalItems" (by decide) (by decide)
  have h_pattern := hget "pattern" (by decide) (by decide)
  have h_minimum := hget "minimum" (by decide) (by decide)
  have h_maximum := hget "maximum" (by decide) (by decide)
  have h_exclusiveMinimum := hget "exclusiveMinimum" (by decide) (by decide)
  have h_exclusiveMaximum := hget "exclusiveMaximum" (by decide) (by decide)
  have h_multipleOf := hget "multipleOf" (by decide) (by decide)
  rw [make_obj_eq, make_obj_eq]
  simp only [makeElementsAt_of_get, makeAt_of_get, makeMembersAt_of_get, patternPart,
    additionalPart, itemsPart, h_type, h_enum, h_allOf, h_anyOf, h_oneOf, h_not, h_properties, h_patternProperties, h_required, h_dependencies, h_additionalProperties, h_items, h_additionalItems, h_pattern, h_minimum, h_maximum, h_exclusiveMinimum, h_exclusiveMaximum, h_multipleOf,
    nodeOf_congr rx ms ms1 hget hsz]


theorem boundOf_outOfRange (d : Nat) (v : Json) (h : inSizeRange v = false) :
    boundOf d (some v) = d := by
  cases v <;> simp only [boundOf]
  case int i =>
    simp only [inSizeRange, decide_eq_false_iff_not] at h
    rw [if_neg h]

theorem make_without (rx : RegexEngine) (ms : List (String × Json)) (kw : String)
    (hkw : kw ∈ sizeKeywords) (v : Json) (hv : GetMember ms kw = some v)
    (hbad : inSizeRange v = false) :
    BaseSchema.make rx (.obj (withoutMember kw ms)) = BaseSchema.make rx (.obj ms) := by
  symm
  apply make_congr
  · intro k _ hk
    rw [getMember_without]
    have : k ≠ kw := by
      rintro rfl
      exact hk hkw
    simp [this]
  · intro k _ d
    rw [assignSize_bound, assignSize_bound, getMember_without]
    by_cases h : k = kw
    · subst h
      simp only [if_true, hv, boundOf_outOfRange d v hbad]
      rfl
    · simp [h]


theorem make_string (rx : RegexEngine) (ms : List (String × Json)) (a b : Option Nat)
    (p : Option String)
    (honly : onlyKeywords ["type", "minLength", "maxLength", "pattern"] ms = true)
    (htype : GetMember ms "type" = some (.str "string"))
    (ha : ∀ n, a = some n → n ≤ SizeTypeMax) (hb : ∀ n, b = some n → n ≤ SizeTypeMax)
    (hmin : GetMember ms "minLength" = a.map sizeJson)
    (hmax : GetMember ms "maxLength" = b.map sizeJson)
    (hpat : GetMember ms "pattern" = p.map Json.str) :
    BaseSchema.make rx (.obj ms)
      = some (stringNode (a.getD 0) (b.getD SizeTypeMax) (p.bind rx)) := by
  have abs := fun k hk hna => absent_of_only _ ms honly k hk hna
  have h_enum := abs "enum" (by decide) (by decide)
  have h_allOf := abs "allOf" (by decide) (by decide)
  have h_anyOf := abs "anyOf" (by decide) (by decide)
  have h_oneOf := abs "oneOf" (by decide) (by decide)
  have h_not := abs "not" (by decide) (by decide)
  have h_properties := abs "properties" (by decide) (by decide)
  have h_patternProperties := abs "patternProperties" (by decide) (by decide)
  have h_required := abs "required" (by decide) (by decide)
  have h_dependencies := abs "dependencies" (by decide) (by decide)
  have h_additionalProperties := abs "additionalProperties" (by decide) (by decide)
  have h_minProperties := abs "minProperties" (by decide) (by decide)
  have h_maxProperties := abs "maxProperties" (by decide) (by decide)
  have h_items := abs "items" (by decide) (by decide)
  have h_minItems := abs "minItems" (by decide) (by decide)
  have h_maxItems := abs "maxItems" (by decide) (by decide)
  have h_additionalItems := abs "additionalItems" (by decide) (by decide)
  have h_minimum := abs "minimum" (by decide) (by decide)
  have h_maximum := abs "maximum" (by decide) (by decide)
  have h_exclusiveMinimum := abs "exclusiveMinimum" (by decide) (by decide)
  have h_exclusiveMaximum := abs "exclusiveMaximum" (by decide) (by decide)
  have h_multipleOf := abs "multipleOf" (by decide) (by decide)
  have hIL : itemsPart rx ms = some none := by
    simp [itemsPart, h_items]
  have hmask : typeMask ms = 1 <<< kStringSchemaType := by
    simp only [typeMask, htype, Json.IsString, if_true]
    decide
  have hp : (GetMember ms "pattern").bind (CreatePattern rx) = p.bind rx := by
    rw [hpat]
    cases p <;> rfl
  rw [make_obj_eq, makeElementsAt_of_get, makeElementsAt_of_get, makeElementsAt_of_get,
    makeAt_of_get, makeMembersAt_of_get, hIL, makeElementsAt_of_get]
  simp only [h_allOf, h_anyOf, h_oneOf, h_not, h_properties, h_items, patternPart,
    h_patternProperties, additionalPart, h_additionalProperties, Option.some_bind,
    Option.some.injEq]
  simp only [nodeOf, hmask, hp, stringNode, typeless, enumOf, requiredPart, dependenciesPart,
    numberOr, h_enum, h_required, h_dependencies, h_minimum, h_maximum, h_multipleOf,
    assignBool_absent _ ms _ h_additionalProperties, assignBool_absent _ ms _ h_additionalItems,
    assignBool_absent _ ms _ h_exclusiveMinimum, assignBool_absent _ ms _ h_exclusiveMaximum,
    assignSize_absent _ ms _ h_minProperties, assignSize_absent _ ms _ h_maxProperties,
    assignSize_absent _ ms _ h_minItems, assignSize_absent _ ms _ h_maxItems,
    assignSize_opt _ ms _ a ha hmin, assignSize_opt _ ms _ b hb hmax,
    Option.getD_none, Option.none_bind, Option.map_none', List.map_nil]

/-- The method `String` of a string node. -/
theorem string_method (a b : Nat) (p : Option Pattern) (c : Context) (s : String) :
    (stringNode a b p).String_ c s
      = ((stringNode a b p).CreateLogicValidators c,
          decide (a ≤ s.length) && decide (s.length ≤ b) && patternAccepts p s) := by
  have hmask : ((stringNode a b p).type_ &&& (1 <<< kStringSchemaType) == 0) = false := by
    show ((1 <<< kStringSchemaType) &&& (1 <<< kStringSchemaType) == 0) = false
    decide
  unfold BaseSchema.String_
  simp only [hmask, Bool.false_eq_true, if_false,
    show (stringNode a b p).minLength_ = a from rfl,
    show (stringNode a b p).maxLength_ = b from rfl,
    show (stringNode a b p).pattern_ = p from rfl,
    show (stringNode a b p).enum_ = Json.null from rfl, Json.IsArray, Bool.not_false,
    Bool.true_or]
  by_cases h1 : a ≤ s.length
  · by_cases h2 : s.length ≤ b
    · have h3 : ¬(s.length < a ∨ s.length > b) := by omega
      simp only [h3, if_false, h1, h2, decide_True, Bool.true_and]
      rcases p with _ | pat
      · rfl
      · simp only [patternAccepts]
        cases pat.search s <;> rfl
    · have h3 : s.length < a ∨ s.length > b := by omega
      simp [h3, h2]
  · have h3 : s.length < a ∨ s.length > b := by omega
    simp [h3, h1]


theorem findPattern_first (str : String) :
    ∀ (pats : List (PatternProperty BaseSchema)) (i : Nat) (pp : PatternProperty BaseSchema)
      (pat : Pattern), pats[i]? = some pp → pp.pattern = some pat → pat.search str = true →
      (∀ j q, j < i → pats[j]? = some q → ∀ qp, q.pattern = some qp → qp.search str = false) →
      findPatternProperty str pats = some pp.schema
  | [], i, pp, pat, hi, _, _, _ => by simp at hi
  | q :: pats, 0, pp, pat, hi, hp, hm, _ => by
    simp only [List.getElem?_cons_zero, Option.some.injEq] at hi
    subst hi
    simp only [findPatternProperty, hp, hm, if_true]
  | q :: pats, i + 1, pp, pat, hi, hp, hm, hfirst => by
    have ih := findPattern_first str pats i pp pat (by simpa using hi) hp hm
      (fun j r hj hr => hfirst (j + 1) r (Nat.succ_lt_succ hj) (by simpa using hr))
    simp only [findPatternProperty]
    rcases hq : q.pattern with _ | qp
    · exact ih
    · have := hfirst 0 q (Nat.succ_pos i) (by simp) qp hq
      simp only [this, Bool.false_eq_true, if_false]
      exact ih

theorem makeMembers_get (rx : RegexEngine) :
    ∀ (pj : List (String × Json)) (Ss : List (String × BaseSchema)),
      makeMembers rx pj = some Ss → ∀ (i : Nat) (name : String) (J : Json),
      pj[i]? = some (name, J) → ∃ S, Ss[i]? = some (name, S) ∧ BaseSchema.make rx J = some S
  | [], Ss, _, i, name, J, hi => by simp at hi
  | (k, v) :: pj, Ss, h, i, name, J, hi => by
    simp only [makeMembers, Option.bind_eq_bind, Option.pure_def] at h
    rcases h1 : BaseSchema.make rx v with _ | S
    · simp [h1] at h
    · rcases h2 : makeMembers rx pj with _ | ps
      · simp [h1, h2] at h
      · simp only [h1, h2, Option.some_bind, Option.some.injEq] at h
        subst h
        cases i with
        | zero =>
          simp only [List.getElem?_cons_zero, Option.some.injEq, Prod.mk.injEq] at hi
          obtain ⟨rfl, rfl⟩ := hi
          exact ⟨S, by simp, h1⟩
        | succ i =>
          obtain ⟨S1, hS1, hm⟩ := makeMembers_get rx pj ps h2 i name J (by simpa using hi)
          exact ⟨S1, by simpa using hS1, hm⟩

/-- The pattern properties of the compiled node: one for each member of
`patternProperties`, in order, with the compiled pattern of the name. -/
theorem make_patterns (rx : RegexEngine) (ms : List (String × Json)) (root : BaseSchema)
    (pj : List (String × Json))
    (h : BaseSchema.make rx (.obj ms) = some root)
    (hpp : GetMember ms "patternProperties" = some (.obj pj)) :
    ∃ Ss, makeMembers rx pj = some Ss ∧
      root.patternProperties_ = some (Ss.map (fun kv => { schema := kv.2, pattern := rx kv.1 })) := by
  obtain ⟨A, B, O, N, P, PP, AS, IL, IT, -, -, -, -, -, hPP, -, -, -, rfl⟩ :=
    make_obj_inv rx ms root h
  simp only [patternPart, hpp, Json.IsObject, if_true, makeMembersAt_of_get] at hPP
  rcases hm : makeMembers rx pj with _ | Ss
  · simp [hm] at hPP
  · simp only [hm, Option.map_some', Option.some.injEq] at hPP
    subst hPP
    exact ⟨Ss, rfl, rfl⟩


theorem required_names (req : List String) :
    ∀ (props : List (String × BaseSchema)),
      (props.map (requiredProperty req)).map (fun p => p.name) = props.map Prod.fst
  | [] => rfl
  | kv :: props => by
    simp only [List.map_cons, required_names req props]
    rfl

theorem setRequired_map (req : List String) (t : String) :
    ∀ (props : List (String × BaseSchema)) (i : Nat), (props.map Prod.fst).Nodup →
      (props.map Prod.fst)[i]? = some t →
      setRequired (props.map (requiredProperty req)) i
        = props.map (requiredProperty (t :: req))
  | [], i, _, h => by simp at h
  | kv :: props, 0, hn, h => by
    simp only [List.map_cons, List.getElem?_cons_zero, Option.some.injEq] at h
    have hnot : kv.1 ∉ props.map Prod.fst := by
      simp only [List.map_cons, List.nodup_cons] at hn
      exact hn.1
    simp only [List.map_cons, setRequired, List.cons.injEq]
    constructor
    · simp [requiredProperty, h]
    · apply List.map_congr_left
      intro x hx
      have hne : x.1 ≠ t := by
        intro hxt
        apply hnot
        rw [h, ← hxt]
        exact List.mem_map_of_mem Prod.fst hx
      simp [requiredProperty, hne]
  | kv :: props, i + 1, hn, h => by
    simp only [List.map_cons, List.nodup_cons] at hn
    have h1 : (props.map Prod.fst)[i]? = some t := by simpa using h
    have hne : kv.1 ≠ t := by
      intro hkt
      apply hn.1
      rw [hkt]
      exact List.getElem?_mem h1
    simp only [List.map_cons, setRequired, setRequired_map req t props i hn.2 h1,
      List.cons.injEq, and_true]
    simp [requiredProperty, hne]

theorem required_congr (props : List (String × BaseSchema)) (req req1 : List String)
    (h : ∀ x, x ∈ req ↔ x ∈ req1) :
    props.map (requiredProperty req) = props.map (requiredProperty req1) := by
  apply List.map_congr_left
  intro x _
  simp [requiredProperty, h]

/-- The loop over the `required` array, for entries that are strings: the
listed properties become required, and the count goes up once for every entry
that is declared. -/
theorem markRequired_eq (props : List (String × BaseSchema))
    (hn : (props.map Prod.fst).Nodup) :
    ∀ (req done : List String) (n : Nat),
      markRequired (props.map (requiredProperty done)) n (req.map Json.str)
        = (props.map (requiredProperty (req ++ done)),
            SizeType.succ^[(req.filter (fun r => decide (r ∈ props.map Prod.fst))).length] n)
  | [], done, n => rfl
  | r :: req, done, n => by
    have hspec := findValue_spec r (props.map (requiredProperty done)) 0
    rw [required_names] at hspec
    simp only [List.map_cons, markRequired, Json.IsString, if_true, FindPropertyIndexValue]
    rcases hf : FindPropertyIndexFrom (.str r) (props.map (requiredProperty done)) 0 with _ | idx
    · rw [hf] at hspec
      simp only
      rw [markRequired_eq props hn req done n]
      have hdec : decide (r ∈ props.map Prod.fst) = false := by simpa using hspec
      simp only [List.filter_cons, hdec, Bool.false_eq_true, if_false, Prod.mk.injEq, and_true]
      apply List.map_congr_left
      intro x hx
      have hne : x.1 ≠ r := by
        intro hxr
        apply hspec
        rw [← hxr]
        exact List.mem_map_of_mem Prod.fst hx
      simp [requiredProperty, hne]
    · rw [hf] at hspec
      obtain ⟨i, hi, hget⟩ := hspec
      have hidx : idx = i := by omega
      have hmem : r ∈ props.map Prod.fst := List.getElem?_mem hget
      simp only
      rw [hidx, setRequired_map done r props i hn hget, markRequired_eq props hn req (r :: done)]
      have hdec : decide (r ∈ props.map Prod.fst) = true := by simpa using hmem
      simp only [List.filter_cons, hdec, if_true, List.length_cons, Function.iterate_succ,
        Function.comp_apply, Prod.mk.injEq, and_true]
      apply required_congr
      intro x
      simp only [List.mem_append, List.mem_cons]
      tauto

theorem iterate_succ_small : ∀ (m n : Nat), n + m ≤ SizeTypeMax → SizeType.succ^[m] n = n + m
  | 0, n, _ => rfl
  | m + 1, n, h => by
    have h1 : SizeType.succ n = n + 1 := by
      have : SizeTypeMax = 2 ^ 32 - 1 := rfl
      simp only [SizeType.succ]
      omega
    rw [Function.iterate_succ, Function.comp_apply, h1, iterate_succ_small m (n + 1) (by omega)]
    omega


theorem filter_length_le_of_nodup (req names : List String) (hr : req.Nodup) :
    (req.filter (fun r => decide (r ∈ names))).length ≤ names.length := by
  have hnd : (req.filter (fun r => decide (r ∈ names))).Nodup := hr.filter _
  have hsub : (req.filter (fun r => decide (r ∈ names))) ⊆ names := by
    intro x hx
    simpa using (List.mem_filter.mp hx).2
  exact (List.subperm_of_subset hnd hsub).length_le

theorem make_required (rx : RegexEngine) (ms pj : List (String × Json))
    (props : List (String × BaseSchema)) (req : List String)
    (honly : onlyKeywords ["properties", "required"] ms = true)
    (hprops : GetMember ms "properties" = some (.obj pj))
    (hmake : makeMembers rx pj = some props)
    (hreq : GetMember ms "required" = some (.arr (req.map Json.str)))
    (hn : (pj.map Prod.fst).Nodup) (hr : req.Nodup) (hlen : pj.length ≤ SizeTypeMax) :
    BaseSchema.make rx (.obj ms) = some (requiredSchema props req) := by
  have abs := fun k hk hna => absent_of_only _ ms honly k hk hna
  have h_type := abs "type" (by decide) (by decide)
  have h_enum := abs "enum" (by decide) (by decide)
  have h_allOf := abs "allOf" (by decide) (by decide)
  have h_anyOf := abs "anyOf" (by decide) (by decide)
  have h_oneOf := abs "oneOf" (by decide) (by decide)
  have h_not := abs "not" (by decide) (by decide)
  have h_patternProperties := abs "patternProperties" (by decide) (by decide)
  have h_dependencies := abs "dependencies" (by decide) (by decide)
  have h_additionalProperties := abs "additionalProperties" (by decide) (by decide)
  have h_minProperties := abs "minProperties" (by decide) (by decide)
  have h_maxProperties := abs "maxProperties" (by decide) (by decide)
  have h_items := abs "items" (by decide) (by decide)
  have h_minItems := abs "minItems" (by decide) (by decide)
  have h_maxItems := abs "maxItems" (by decide) (by decide)
  have h_additionalItems := abs "additionalItems" (by decide) (by decide)
  have h_minLength := abs "minLength" (by decide) (by decide)
  have h_maxLength := abs "maxLength" (by decide) (by decide)
  have h_pattern := abs "pattern" (by decide) (by decide)
  have h_minimum := abs "minimum" (by decide) (by decide)
  have h_maximum := abs "maximum" (by decide) (by decide)
  have h_exclusiveMinimum := abs "exclusiveMinimum" (by decide) (by decide)
  have h_exclusiveMaximum := abs "exclusiveMaximum" (by decide) (by decide)
  have h_multipleOf := abs "multipleOf" (by decide) (by decide)
  have hnames := makeMembers_names rx pj props hmake
  have hIL : itemsPart rx ms = some none := by
    simp [itemsPart, h_items]
  have hP : makeMembersAt rx "properties" ms = some (some props) := by
    rw [makeMembersAt_of_get, hprops]
    simp only [hmake, Option.map_some']
  have hprops0 : props.map (fun kv => ({ name := kv.1, schema := kv.2 } : Property BaseSchema))
      = props.map (requiredProperty []) := by
    apply List.map_congr_left
    intro x _
    simp [requiredProperty]
  have hcount : (req.filter (fun r => decide (r ∈ props.map Prod.fst))).length
      ≤ SizeTypeMax := by
    have := filter_length_le_of_nodup req (props.map Prod.fst) hr
    have hl : (props.map Prod.fst).length = pj.length := by
      rw [hnames, List.length_map]
    omega
  have hrp : requiredPart ms (some props)
      = ((requiredSchema props req).properties_, (requiredSchema props req).requiredCount_) := by
    simp only [requiredPart, hreq, Option.getD_some, hprops0]
    rw [markRequired_eq props (hnames ▸ hn) req [] 0, List.append_nil,
      iterate_succ_small _ 0 (by omega), Nat.zero_add]
    rfl
  have hdp : dependenciesPart ms (some props)
      = ((requiredSchema props req).properties_, false) := by
    simp only [dependenciesPart, h_dependencies, hrp]
  rw [make_obj_eq, makeElementsAt_of_get, makeElementsAt_of_get, makeElementsAt_of_get,
    makeAt_of_get, hP, hIL, makeElementsAt_of_get]
  simp only [h_allOf, h_anyOf, h_oneOf, h_not, h_items, patternPart, h_patternProperties,
    additionalPart, h_additionalProperties, Option.some_bind, Option.some.injEq]
  simp only [nodeOf, hdp, hrp]
  simp only [typeless, enumOf, typeMask, numberOr,
    h_type, h_enum, h_pattern, h_minimum, h_maximum, h_multipleOf,
    assignBool_absent _ ms _ h_additionalProperties, assignBool_absent _ ms _ h_additionalItems,
    assignBool_absent _ ms _ h_exclusiveMinimum, assignBool_absent _ ms _ h_exclusiveMaximum,
    assignSize_absent _ ms _ h_minProperties, assignSize_absent _ ms _ h_maxProperties,
    assignSize_absent _ ms _ h_minLength, assignSize_absent _ ms _ h_maxLength,
    assignSize_absent _ ms _ h_minItems, assignSize_absent _ ms _ h_maxItems,
    Option.getD_none, Option.none_bind, Option.map_none', List.map_nil]
  rfl


theorem required_plain (props : List (String × BaseSchema)) (req : List String) :
    (requiredSchema props req).Plain := ⟨rfl, rfl, rfl, rfl⟩

theorem required_hasType (props : List (String × BaseSchema)) (req : List String) :
    (requiredSchema props req).hasType kObjectSchemaType = true :=
  typeless_hasType kObjectSchemaType (by decide)

theorem lookup_of_not_mem (k : String) :
    ∀ (props : List (String × BaseSchema)), k ∉ props.map Prod.fst → props.lookup k = none
  | [], _ => rfl
  | (k1, S1) :: props, h => by
    simp only [List.map_cons, List.mem_cons, not_or] at h
    have hb : (k == k1) = false := by simpa using h.1
    simp only [List.lookup, hb]
    exact lookup_of_not_mem k props h.2

/-- The method `Key` of the node with required properties: the schema of the
named property, or the typeless schema, and the count of required keys. -/
theorem required_key (props : List (String × BaseSchema)) (req : List String)
    (hn : (props.map Prod.fst).Nodup) (c : Context) (k : String) :
    (requiredSchema props req).Key c k
      = some ({ c with
                valueSchema := selected props none true k
                objectRequiredCount :=
                  if isRequiredKey props req k then SizeType.succ c.objectRequiredCount
                  else c.objectRequiredCount }, true) := by
  have hcreate := create_plain _ (required_plain props req) c
  have hspec := findStr_spec k (requiredSchema props req).properties_ 0
  rw [show (requiredSchema props req).properties_.map (fun p => p.name) = props.map Prod.fst
    from required_names req props] at hspec
  unfold BaseSchema.Key
  simp only [hcreate, hasType_object _ (required_hasType props req), if_false,
    BaseSchema.FindPropertyIndex, Bool.false_eq_true]
  rcases hf : FindPropertyIndexStrFrom k (requiredSchema props req).properties_ 0 with _ | idx
  · rw [hf] at hspec
    have hdec : decide (k ∈ props.map Prod.fst) = false := by simpa using hspec
    simp only [BaseSchema.KeyOther,
      show (requiredSchema props req).patternProperties_ = none from rfl,
      show (requiredSchema props req).additionalPropertySchema_ = none from rfl,
      show (requiredSchema props req).additionalProperty_ = true from rfl,
      Option.none_bind, if_true, selected, lookup_of_not_mem k props hspec, isRequiredKey, hdec,
      Bool.false_and, Bool.false_eq_true, if_false]
  · rw [hf] at hspec
    obtain ⟨i, hi, hget⟩ := hspec
    have hidx : idx = i := by omega
    subst hidx
    rw [List.getElem?_map] at hget
    rcases hkv : props[idx]? with _ | kv
    · simp [hkv] at hget
    · simp only [hkv, Option.map_some', Option.some.injEq] at hget
      have hmem : kv ∈ props := List.getElem?_mem hkv
      have hl : props.lookup k = some kv.2 :=
        lookup_of_nodup k props kv.2 hn (by rw [← hget]; exact hmem)
      have hprop : (requiredSchema props req).properties_[idx]?
          = some (requiredProperty req kv) := by
        show (props.map (requiredProperty req))[idx]? = _
        rw [List.getElem?_map, hkv]
        rfl
      have hdec : decide (k ∈ props.map Prod.fst) = true := by
        simp only [decide_eq_true_eq]
        rw [← hget]
        exact List.mem_map_of_mem Prod.fst hmem
      simp only [hprop, show (requiredSchema props req).hasDependencies_ = false from rfl,
        Bool.false_eq_true, if_false, selected, hl, isRequiredKey, hdec, Bool.true_and,
        show (requiredProperty req kv).required = decide (kv.1 ∈ req) from rfl,
        show (requiredProperty req kv).schema = kv.2 from rfl, hget]
      by_cases hr : k ∈ req <;> simp [hr]

/-- The members of an object on the node with required properties: whether
every member is accepted, and then the count of the keys that are required. -/
theorem required_fold (fuel : Nat) (props : List (String × BaseSchema)) (req : List String)
    (hn : (props.map Prod.fst).Nodup) :
    ∀ (dms : List ((String × Bool) × Doc)) (c : Context),
      ∃ cF : Context, membersFold fuel (requiredSchema props req) c dms
          = some (cF, dms.all (memberVerdict fuel props none true)) ∧
        (dms.all (memberVerdict fuel props none true) = true →
          cF.objectRequiredCount
            = SizeType.succ^[((dms.map (fun m => m.1.1)).filter
                (isRequiredKey props req)).length] c.objectRequiredCount)
  | [], c => ⟨c, rfl, fun _ => rfl⟩
  | (k, d) :: dms, c => by
    have hsel : ∃ S, selected props none true k.1 = some S := by
      simp only [selected]
      rcases props.lookup k.1 with _ | S
      · exact ⟨typeless, rfl⟩
      · exact ⟨S, rfl⟩
    obtain ⟨S, hS⟩ := hsel
    simp only [membersFold, required_key props req hn c k.1, hS, List.all_cons, memberVerdict]
    rcases hv : verdictOf fuel d S with _ | _
    · exact ⟨{ c with
          valueSchema := some S
          objectRequiredCount :=
            if isRequiredKey props req k.1 then SizeType.succ c.objectRequiredCount
            else c.objectRequiredCount }, by simp, fun h => by simp at h⟩
    · obtain ⟨cF, h1, h2⟩ := required_fold fuel props req hn dms
        { c with
          valueSchema := some S
          objectRequiredCount :=
            if isRequiredKey props req k.1 then SizeType.succ c.objectRequiredCount
            else c.objectRequiredCount }
      refine ⟨cF, by simpa using h1, ?_⟩
      intro hall
      simp only [Bool.true_and] at hall
      rw [h2 hall]
      simp only [List.map_cons, List.filter_cons]
      by_cases hr : isRequiredKey props req k.1 = true
      · simp only [hr, if_true, List.length_cons, Function.iterate_succ, Function.comp_apply]
      · simp only [hr, if_false, Bool.false_eq_true]

/-- The count of the distinct keys that are required equals the count of the
distinct listed names that are declared exactly when every such name is a
key. -/
theorem required_count_iff (props : List (String × BaseSchema)) (req keys : List String)
    (hr : req.Nodup) (hk : keys.Nodup) :
    (keys.filter (isRequiredKey props req)).length
        = (req.filter (fun r => decide (r ∈ props.map Prod.fst))).length
      ↔ ∀ r ∈ req, r ∈ props.map Prod.fst → r ∈ keys := by
  have hA : (keys.filter (isRequiredKey props req)).Nodup := hk.filter _
  have hB : (req.filter (fun r => decide (r ∈ props.map Prod.fst))).Nodup := hr.filter _
  have hAB : keys.filter (isRequiredKey props req)
      ⊆ req.filter (fun r => decide (r ∈ props.map Prod.fst)) := by
    intro x hx
    obtain ⟨-, hx2⟩ := List.mem_filter.mp hx
    simp only [isRequiredKey, Bool.and_eq_true, decide_eq_true_eq] at hx2
    exact List.mem_filter.mpr ⟨hx2.2, by simpa using hx2.1⟩
  constructor
  · intro hlen r hr1 hr2
    have hBA : req.filter (fun r => decide (r ∈ props.map Prod.fst))
        ⊆ keys.filter (isRequiredKey props req) := by
      have hsp := List.subperm_of_subset hA hAB
      have := (hsp.perm_of_length_le (by omega)).symm.subset
      exact this
    have := hBA (List.mem_filter.mpr ⟨hr1, by simpa using hr2⟩)
    exact (List.mem_filter.mp this).1
  · intro hall
    have hBA : req.filter (fun r => decide (r ∈ props.map Prod.fst))
        ⊆ keys.filter (isRequiredKey props req) := by
      intro x hx
      obtain ⟨hx1, hx2⟩ := List.mem_filter.mp hx
      have hx3 : x ∈ props.map Prod.fst := by simpa using hx2
      exact List.mem_filter.mpr ⟨hall x hx1 hx3, by simp [isRequiredKey, hx1, hx3]⟩
    exact Nat.le_antisymm (List.subperm_of_subset hA hAB).length_le
      (List.subperm_of_subset hB hBA).length_le

/-- The method `EndObject` of the node with required properties, after the
members of an object with distinct keys were all accepted. -/
theorem required_end (fuel : Nat) (props : List (String × BaseSchema)) (req : List String)
    (hn : (props.map Prod.fst).Nodup) (hr : req.Nodup)
    (dms : List ((String × Bool) × Doc)) (hk : (dms.map (fun m => m.1.1)).Nodup)
    (hlen : dms.length ≤ SizeTypeMax) :
    ∃ cF : Context,
      membersFold fuel (requiredSchema props req)
          (Context.startObject (requiredSchema props req)
            (Context.make (requiredSchema props req))) dms
        = some (cF, dms.all (memberVerdict fuel props none true)) ∧
      (∃ bE, (requiredSchema props req).EndObject cF dms.length = some (cF, bE)) ∧
      (dms.all (memberVerdict fuel props none true) = true →
        (requiredSchema props req).EndObject cF dms.length
          = some (cF, decide (∀ r ∈ req, r ∈ props.map Prod.fst →
              r ∈ dms.map (fun m => m.1.1)))) := by
  obtain ⟨cF, hfold, hcount⟩ := required_fold fuel props req hn dms
    (Context.startObject (requiredSchema props req) (Context.make (requiredSchema props req)))
  have ht1 : ¬((requiredSchema props req).type_ &&& (1 <<< kObjectSchemaType) == 0) = true := by
    have ht := required_hasType props req
    simp only [BaseSchema.hasType, bne_iff_ne, ne_eq] at ht
    simpa using ht
  have hmax : ¬ dms.length > SizeTypeMax := by omega
  have hend : (requiredSchema props req).EndObject cF dms.length
      = some (cF, decide (cF.objectRequiredCount = (requiredSchema props req).requiredCount_)) := by
    unfold BaseSchema.EndObject
    simp only [create_plain _ (required_plain props req), ht1, if_false,
      show (requiredSchema props req).minProperties_ = 0 from rfl,
      show (requiredSchema props req).maxProperties_ = SizeTypeMax from rfl,
      show (requiredSchema props req).hasDependencies_ = false from rfl,
      ne_eq, Nat.not_lt_zero, hmax, or_false, Bool.false_eq_true]
    by_cases hc : cF.objectRequiredCount = (requiredSchema props req).requiredCount_
    · simp [hc]
    · simp [hc]
  refine ⟨cF, hfold, ⟨_, hend⟩, ?_⟩
  intro hall
  rw [hend]
  have hle : ((dms.map (fun m => m.1.1)).filter (isRequiredKey props req)).length
      ≤ dms.length := by
    have := List.length_filter_le (isRequiredKey props req) (dms.map (fun m => m.1.1))
    simpa using this
  have hc := hcount hall
  rw [show (Context.startObject (requiredSchema props req)
      (Context.make (requiredSchema props req))).objectRequiredCount = 0 from rfl,
    iterate_succ_small _ 0 (by omega), Nat.zero_add] at hc
  have hiff := required_count_iff props req (dms.map (fun m => m.1.1)) hr hk
  have hrc : (requiredSchema props req).requiredCount_
      = (req.filter (fun r => decide (r ∈ props.map Prod.fst))).length := rfl
  rw [hc, hrc, decide_eq_decide.mpr hiff]

/-- The verdict of the node with required properties on an object with distinct
keys: every member is accepted and every listed declared name is a key. -/
theorem required_node (fuel : Nat) (props : List (String × BaseSchema)) (req : List String)
    (hn : (props.map Prod.fst).Nodup) (hr : req.Nodup)
    (dms : List ((String × Bool) × Doc)) (hk : (dms.map (fun m => m.1.1)).Nodup)
    (hfit : (Doc.Object dms).fits = true)
    (hsub : ∀ m ∈ dms, ∀ S, selected props none true m.1.1 = some S →
      (validate fuel S m.2).isSome = true) :
    validate fuel (requiredSchema props req) (.Object dms)
      = some (dms.all (memberVerdict fuel props none true) &&
          decide (∀ r ∈ req, r ∈ props.map Prod.fst → r ∈ dms.map (fun m => m.1.1))) := by
  simp only [Doc.fits, Bool.and_eq_true, decide_eq_true_eq] at hfit
  obtain ⟨cF, hfold, ⟨bE, hend⟩, hexact⟩ := required_end fuel props req hn hr dms hk hfit.1
  unfold validate
  rw [plain_object_run fuel (requiredSchema props req) (required_plain props req) dms
    nullOutputHandler_ (fun _ _ => rfl) ?_ (required_hasType props req) cF cF _ bE hfold hend]
  · rcases hall : dms.all (memberVerdict fuel props none true) with _ | _
    · rfl
    · have := hexact hall
      rw [hend] at this
      simp only [Option.some.injEq, Prod.mk.injEq, true_and] at this
      rw [this]
  · intro m hm c0 c1 S hkey hv
    rw [required_key props req hn c0 m.1.1] at hkey
    simp only [Option.some.injEq, Prod.mk.injEq, and_true] at hkey
    subst hkey
    exact hsub m hm S hv


theorem call_receive (out : OutputHandler) (e : Event) : (out.call e).1 = out.receive [e] := rfl

theorem HANDLE_END_forward (w w1 : GenericSchemaValidator) (e : Event)
    (h : w.HANDLE_END_ e = some (w1, true)) :
    w1.outputHandler_ = w.outputHandler_.receive [e] ∧ w1.root_ = w.root_ := by
  unfold HANDLE_END_ at h
  rcases hE : w.EndValue with _ | ⟨wE, _ | _⟩
  · simp [hE] at h
  · simp [hE] at h
  · simp only [hE, Option.some.injEq] at h
    obtain ⟨_, _, -, -, ho, hr, -, -⟩ := EndValue_inv w wE hE
    have h1 : (wE.HANDLE_OUTPUT_ e).1 = w1 := congrArg Prod.fst h
    rw [← h1]
    exact ⟨by rw [← ho]; rfl, hr⟩

theorem afterBegin_forward
    (sub : GenericSchemaValidator → Event → Option GenericSchemaValidator) (cl : Bool)
    (w w1 : GenericSchemaValidator) (e : Event) (h : afterBegin sub cl w e = some (w1, true)) :
    w1.outputHandler_ = w.outputHandler_.receive [e] ∧ w1.root_ = w.root_ := by
  unfold afterBegin at h
  rcases hcur : w.HANDLE_CURRENT_ e with _ | ⟨wA, _ | _⟩
  · simp [hcur] at h
  · simp [hcur] at h
  · obtain ⟨-, -, -, -, -, -, hoA, hrA, -⟩ := HANDLE_CURRENT_inv w wA e true hcur
    simp only [hcur] at h
    rcases hlog : HANDLE_LOGIC_ sub wA e with _ | wB
    · simp [hlog] at h
    · obtain ⟨-, hoB, hrB, -⟩ := HANDLE_LOGIC_inv sub wA wB e hlog
      simp only [hlog] at h
      cases cl with
      | true =>
        simp only [if_true] at h
        obtain ⟨h1, h2⟩ := HANDLE_END_forward wB w1 e h
        exact ⟨by rw [h1, hoB, hoA], by rw [h2, hrB, hrA]⟩
      | false =>
        simp only [Bool.false_eq_true, if_false, Option.some.injEq] at h
        have h1 : (wB.HANDLE_OUTPUT_ e).1 = w1 := congrArg Prod.fst h
        rw [← h1]
        exact ⟨by rw [← hoA, ← hoB]; rfl, by rw [← hrA, ← hrB]; rfl⟩

/-- An event method call that returns true has passed the event to the output
handler, once, and to nothing else of what the handler receives. -/
theorem handle_forward (sub : GenericSchemaValidator → Event → Option GenericSchemaValidator)
    (w w1 : GenericSchemaValidator) (e : Event) (h : handleWith sub w e = some (w1, true)) :
    w1.outputHandler_ = w.outputHandler_.receive [e] ∧ w1.root_ = w.root_ := by
  have hv1 := handleWith_valid sub w e w1 true h
  have hv := valid_of_handle sub w w1 e true h hv1
  rw [handleWith_eq sub w e hv] at h
  obtain ⟨hbo, hbr, -, -⟩ := BeginValue_fields w
  rcases he : e.isBegin with _ | _
  · simp only [he, Bool.false_eq_true, if_false] at h
    exact afterBegin_forward sub _ w w1 e h
  · simp only [he, if_true] at h
    rcases hb : w.BeginValue.2 with _ | _
    · simp [hb] at h
    · simp only [hb, Bool.not_true, Bool.false_eq_true, if_false] at h
      obtain ⟨h1, h2⟩ := afterBegin_forward sub _ _ w1 e h
      exact ⟨by rw [h1, hbo], by rw [h2, hbr]⟩

/-- A sequence of event method calls after which the validator is valid has
passed exactly these events to the output handler, in order, and every call
returned true. -/
theorem feed_forward (sub : GenericSchemaValidator → Event → Option GenericSchemaValidator)
    (es : List Event) :
    ∀ (w w1 : GenericSchemaValidator) (rs : List Bool),
      feedWith sub w es = some (w1, rs) → w1.valid_ = true →
      w1.outputHandler_ = w.outputHandler_.receive es ∧ w1.root_ = w.root_ ∧
        rs = List.replicate es.length true := by
  induction es with
  | nil =>
    intro w w1 rs h _
    simp only [feedWith, Option.some.injEq, Prod.mk.injEq] at h
    obtain ⟨rfl, rfl⟩ := h
    exact ⟨by simp [OutputHandler.receive], rfl, rfl⟩
  | cons e es ih =>
    intro w w1 rs h hv
    obtain ⟨wa, r, rsa, h1, h2, rfl⟩ := feedWith_cons_inv sub w w1 e es rs h
    have hva := valid_of_feed sub es wa w1 rsa h2 hv
    have hr : r = true := by rw [← handleWith_valid sub w e wa r h1]; exact hva
    subst hr
    obtain ⟨ha, hb⟩ := handle_forward sub w wa e h1
    obtain ⟨hc, hd, he⟩ := ih wa w1 rsa h2 hv
    refine ⟨?_, by rw [hd, hb], by rw [he]; rfl⟩
    rw [hc, ha, receive_receive]
    rfl


theorem over_nil (w : GenericSchemaValidator) (o : OutputHandler) :
    over w.root_ o [] w = w.withOutput o := by
  cases w
  simp [over, withOutput]

theorem withOutput_self (w : GenericSchemaValidator) : w.withOutput w.outputHandler_ = w := by
  cases w
  rfl

theorem withOutput_withOutput (w : GenericSchemaValidator) (o o1 : OutputHandler) :
    (w.withOutput o).withOutput o1 = w.withOutput o1 := rfl

theorem BeginValue_swap (w : GenericSchemaValidator) (o : OutputHandler) :
    (w.withOutput o).BeginValue = (w.BeginValue.1.withOutput o, w.BeginValue.2) := by
  rcases w with ⟨r, out, _ | ⟨c, rest⟩, v⟩
  · rfl
  · simp only [BeginValue, withOutput, PushSchema]
    split
    · rfl
    · split <;> rfl

theorem afterBegin_swap
    (sub : GenericSchemaValidator → Event → Option GenericSchemaValidator) (cl : Bool)
    (w w1 : GenericSchemaValidator) (e : Event) (r : Bool)
    (hwo : ∀ h e, w.outputHandler_.answer h e = true)
    (o : OutputHandler) (ho : ∀ h e, o.answer h e = true)
    (h : afterBegin sub cl w e = some (w1, r)) :
    ∃ o1, (∀ h e, o1.answer h e = true) ∧ (∀ h e, w1.outputHandler_.answer h e = true) ∧
      w1.root_ = w.root_ ∧ afterBegin sub cl (w.withOutput o) e = some (w1.withOutput o1, r) := by
  have hne : w.schemaStack_ ≠ [] := by
    intro hs
    simp [afterBegin, HANDLE_CURRENT_, hs] at h
  obtain ⟨o1, ho1, hw1, hM⟩ := afterBegin_over sub w.root_ o [] (fun _ hc => by cases hc)
    (fun _ hc => by cases hc) ho cl w w1 e r hne hwo h
  obtain ⟨o2, -, -, hN⟩ := afterBegin_over sub w.root_ w.outputHandler_ []
    (fun _ hc => by cases hc) (fun _ hc => by cases hc) hwo cl w w1 e r hne hwo h
  rw [over_nil, withOutput_self, h] at hN
  have hroot : w1.root_ = w.root_ := by
    have := congrArg (fun p => Option.map (fun q => q.1.root_) p) hN
    simpa [over] using this
  rw [over_nil, ← hroot, over_nil] at hM
  exact ⟨o1, ho1, hw1, hroot, hM⟩

/-- An event method call on a validator and on the same validator with another
accepting output handler: the same result, the same validator afterwards but
for the output handler. -/
theorem handle_swap (sub : GenericSchemaValidator → Event → Option GenericSchemaValidator)
    (w w1 : GenericSchemaValidator) (e : Event) (r : Bool)
    (hwo : ∀ h e, w.outputHandler_.answer h e = true)
    (o : OutputHandler) (ho : ∀ h e, o.answer h e = true)
    (h : handleWith sub w e = some (w1, r)) :
    ∃ o1, (∀ h e, o1.answer h e = true) ∧ (∀ h e, w1.outputHandler_.answer h e = true) ∧
      w1.root_ = w.root_ ∧ handleWith sub (w.withOutput o) e = some (w1.withOutput o1, r) := by
  rcases hv : w.valid_ with _ | _
  · rw [handleWith_of_invalid sub w e hv] at h
    cases h
    exact ⟨o, ho, hwo, rfl, handleWith_of_invalid sub _ e hv⟩
  · rw [handleWith_eq sub w e hv] at h
    rw [handleWith_eq sub _ e (show (w.withOutput o).valid_ = true from hv), BeginValue_swap]
    obtain ⟨hbo, hbr, -, -⟩ := BeginValue_fields w
    rcases he : e.isBegin with _ | _
    · simp only [he, Bool.false_eq_true, if_false] at h ⊢
      exact afterBegin_swap sub _ w w1 e r hwo o ho h
    · simp only [he, if_true] at h ⊢
      rcases hb : w.BeginValue.2 with _ | _
      · simp only [hb, Bool.not_false, if_true, Option.some.injEq, Prod.mk.injEq] at h ⊢
        obtain ⟨rfl, rfl⟩ := h
        exact ⟨o, ho, by show ∀ h e, w.BeginValue.1.outputHandler_.answer h e = true
                         rw [hbo]; exact hwo, hbr, rfl, rfl⟩
      · simp only [hb, Bool.not_true, Bool.false_eq_true, if_false] at h ⊢
        obtain ⟨o1, h1, h2, h3, h4⟩ := afterBegin_swap sub _ _ w1 e r (by rw [hbo]; exact hwo)
          o ho h
        exact ⟨o1, h1, h2, h3.trans hbr, h4⟩

/-- A sequence of event method calls on a validator and on the same validator
with another accepting output handler. -/
theorem feed_swap (sub : GenericSchemaValidator → Event → Option GenericSchemaValidator)
    (es : List Event) :
    ∀ (w w1 : GenericSchemaValidator) (rs : List Bool) (o : OutputHandler),
      (∀ h e, w.outputHandler_.answer h e = true) → (∀ h e, o.answer h e = true) →
      feedWith sub w es = some (w1, rs) →
      ∃ o1, (∀ h e, o1.answer h e = true) ∧ (∀ h e, w1.outputHandler_.answer h e = true) ∧
        w1.root_ = w.root_ ∧ feedWith sub (w.withOutput o) es = some (w1.withOutput o1, rs) := by
  induction es with
  | nil =>
    intro w w1 rs o hwo ho h
    simp only [feedWith, Option.some.injEq, Prod.mk.injEq] at h
    obtain ⟨rfl, rfl⟩ := h
    exact ⟨o, ho, hwo, rfl, rfl⟩
  | cons e es ih =>
    intro w w1 rs o hwo ho h
    obtain ⟨wa, r, rsa, h1, h2, rfl⟩ := feedWith_cons_inv sub w w1 e es rs h
    obtain ⟨oa, hoa, hwa, hra, hM⟩ := handle_swap sub w wa e r hwo o ho h1
    obtain ⟨o1, ho1, hw1, hr1, hN⟩ := ih wa w1 rsa oa hwa hoa h2
    exact ⟨o1, ho1, hw1, hr1.trans hra, feedWith_cons_some sub _ _ _ e es r rsa hM hN⟩

/-- The results and the flag of a run do not depend on which accepting output
handler the validator has. -/
theorem feed_swap_eq (sub : GenericSchemaValidator → Event → Option GenericSchemaValidator)
    (es : List Event) (w : GenericSchemaValidator) (o : OutputHandler)
    (hwo : ∀ h e, w.outputHandler_.answer h e = true) (ho : ∀ h e, o.answer h e = true) :
    (feedWith sub (w.withOutput o) es).map observed = (feedWith sub w es).map observed := by
  rcases h : feedWith sub w es with _ | ⟨w1, rs⟩
  · rcases h2 : feedWith sub (w.withOutput o) es with _ | ⟨w2, rs2⟩
    · rfl
    · obtain ⟨o1, -, -, -, h3⟩ := feed_swap sub es (w.withOutput o) w2 rs2 w.outputHandler_
        ho hwo h2
      rw [withOutput_withOutput, withOutput_self, h] at h3
      cases h3
  · obtain ⟨o1, -, -, -, h3⟩ := feed_swap sub es w w1 rs o hwo ho h
    rw [h3]
    rfl

/-- A valid run of the events of a document on a fresh validator leaves the
stack of contexts empty. -/
theorem fresh_run_stack (sub : GenericSchemaValidator → Event → Option GenericSchemaValidator)
    (S : BaseSchema) (out : OutputHandler) (hout : ∀ h e, out.answer h e = true) (d : Doc)
    (w1 : GenericSchemaValidator) (rs : List Bool)
    (h : feedWith sub (GenericSchemaValidator.make S out) d.events = some (w1, rs))
    (hv : w1.valid_ = true) : w1.schemaStack_ = [] := by
  obtain ⟨_, -, -, h3⟩ := fresh_over sub typeless nullOutputHandler_
    { Context.make typeless with valueSchema := some S } [] rfl
    (fun c hc => by
      simp only [List.mem_singleton] at hc
      subst hc
      exact ⟨rfl, rfl, rfl, rfl⟩)
    (fun c hc => by
      simp only [List.mem_singleton] at hc
      subst hc
      rfl)
    (fun _ _ => rfl) S rfl out hout d w1 rs h
  exact h3 hv


theorem trackAll_append (es1 es2 : List Event) :
    ∀ fs, Frame.trackAll fs (es1 ++ es2)
      = (Frame.trackAll fs es1).bind (fun fs1 => Frame.trackAll fs1 es2) := by
  induction es1 with
  | nil => intro fs; rfl
  | cons e es1 ih =>
    intro fs
    show (Frame.track fs e).bind (fun fs1 => Frame.trackAll fs1 (es1 ++ es2))
      = ((Frame.track fs e).bind (fun fs1 => Frame.trackAll fs1 es1)).bind
          (fun fs1 => Frame.trackAll fs1 es2)
    rcases Frame.track fs e with _ | fs1
    · rfl
    · exact ih fs1

mutual
/-- The events of a document can come where a value can begin, and leave open
what was open. -/
theorem track_doc : ∀ (d : Doc) (fs fs1 : List Frame), Frame.ready fs = some fs1 →
    Frame.trackAll fs d.events = some fs1
  | .Null, fs, fs1, h => by simp [Doc.events, Frame.trackAll, Frame.track, h]
  | .Bool_ _, fs, fs1, h => by simp [Doc.events, Frame.trackAll, Frame.track, h]
  | .Int_ _, fs, fs1, h => by simp [Doc.events, Frame.trackAll, Frame.track, h]
  | .Uint _, fs, fs1, h => by simp [Doc.events, Frame.trackAll, Frame.track, h]
  | .Int64 _, fs, fs1, h => by simp [Doc.events, Frame.trackAll, Frame.track, h]
  | .Uint64 _, fs, fs1, h => by simp [Doc.events, Frame.trackAll, Frame.track, h]
  | .Double _, fs, fs1, h => by simp [Doc.events, Frame.trackAll, Frame.track, h]
  | .String_ _ _, fs, fs1, h => by simp [Doc.events, Frame.trackAll, Frame.track, h]
  | .Object ms, fs, fs1, h => by
    have hm := track_members ms fs1
    simp only [Doc.events, Frame.trackAll, Frame.track, h, Option.map_some', Option.some_bind,
      trackAll_append, hm]
  | .Array ds, fs, fs1, h => by
    have hm := track_elements ds fs1
    simp only [Doc.events, Frame.trackAll, Frame.track, h, Option.map_some', Option.some_bind,
      trackAll_append, hm]
/-- The events of the members of an object can come in the object. -/
theorem track_members : ∀ (ms : List ((String × Bool) × Doc)) (r : List Frame),
    Frame.trackAll (.key :: r) (Doc.memberEvents ms) = some (.key :: r)
  | [], r => rfl
  | (k, d) :: ms, r => by
    have hd := track_doc d (.val :: r) (.key :: r) rfl
    have hm := track_members ms r
    simp only [Doc.memberEvents, Frame.trackAll, Frame.track, Option.some_bind, trackAll_append,
      hd, hm]
/-- The events of the elements of an array can come in the array. -/
theorem track_elements : ∀ (ds : List Doc) (r : List Frame),
    Frame.trackAll (.arr :: r) (Doc.elementEvents ds) = some (.arr :: r)
  | [], r => rfl
  | d :: ds, r => by
    have hd := track_doc d (.arr :: r) (.arr :: r) rfl
    have hm := track_elements ds r
    simp only [Doc.elementEvents, trackAll_append, hd, hm, Option.some_bind]
end


theorem ready_length (fs fs1 : List Frame) (h : Frame.ready fs = some fs1) :
    fs1.length = fs.length := by
  rcases fs with _ | ⟨_ | _ | _, r⟩ <;> simp [Frame.ready] at h <;> subst h <;> rfl

theorem track_length (fs fs1 : List Frame) (e : Event) (h : Frame.track fs e = some fs1) :
    fs1.length + (if e.closes then 1 else 0) = fs.length + (if e.opens then 1 else 0) := by
  cases e with
  | StartObject =>
    simp only [Frame.track, Option.map_eq_some'] at h
    obtain ⟨r, hr, rfl⟩ := h
    simp [Event.opens, Event.closes, ready_length fs r hr]
  | StartArray =>
    simp only [Frame.track, Option.map_eq_some'] at h
    obtain ⟨r, hr, rfl⟩ := h
    simp [Event.opens, Event.closes, ready_length fs r hr]
  | Key k cp =>
    rcases fs with _ | ⟨_ | _ | _, r⟩ <;> simp [Frame.track] at h
    subst h; simp [Event.opens, Event.closes]
  | EndObject n =>
    rcases fs with _ | ⟨_ | _ | _, r⟩ <;> simp [Frame.track] at h
    subst h; simp [Event.opens, Event.closes]
  | EndArray n =>
    rcases fs with _ | ⟨_ | _ | _, r⟩ <;> simp [Frame.track] at h
    subst h; simp [Event.opens, Event.closes]
  | Null => simpa [Event.opens, Event.closes] using ready_length fs fs1 h
  | Bool_ b => simpa [Event.opens, Event.closes] using ready_length fs fs1 h
  | Int_ i => simpa [Event.opens, Event.closes] using ready_length fs fs1 h
  | Uint i => simpa [Event.opens, Event.closes] using ready_length fs fs1 h
  | Int64 i => simpa [Event.opens, Event.closes] using ready_length fs fs1 h
  | Uint64 i => simpa [Event.opens, Event.closes] using ready_length fs fs1 h
  | Double i => simpa [Event.opens, Event.closes] using ready_length fs fs1 h
  | String_ s cp => simpa [Event.opens, Event.closes] using ready_length fs fs1 h

theorem trackAll_length (es : List Event) :
    ∀ (fs fs1 : List Frame), Frame.trackAll fs es = some fs1 →
      fs1.length + (es.filter Event.closes).length
        = fs.length + (es.filter Event.opens).length := by
  induction es with
  | nil =>
    intro fs fs1 h
    simp only [Frame.trackAll, Option.some.injEq] at h
    subst h; rfl
  | cons e es ih =>
    intro fs fs1 h
    simp only [Frame.trackAll] at h
    rcases ht : Frame.track fs e with _ | fs2
    · simp [ht] at h
    · simp only [ht, Option.some_bind] at h
      have h1 := track_length fs fs2 e ht
      have h2 := ih fs2 fs1 h
      simp only [List.filter_cons]
      rcases hc : e.closes with _ | _ <;> rcases ho : e.opens with _ | _ <;>
        simp only [hc, ho, if_true, if_false, Bool.false_eq_true, List.length_cons] at h1 ⊢ <;>
        omega

/-- The number of open containers after the events of a well-formed prefix. -/
theorem trackAll_open (es : List Event) (fs1 : List Frame)
    (h : Frame.trackAll [] es = some fs1) : fs1.length = openContainers es := by
  have := trackAll_length es [] fs1 h
  simp only [List.length_nil, Nat.zero_add] at this
  unfold openContainers
  omega

/-- A prefix of the events of a document is tracked, and so is the event after
it. -/
theorem track_prefix (d : Doc) (pre post : List Event) (h : d.events = pre ++ post) :
    ∃ fs, Frame.trackAll [] pre = some fs ∧
      ∀ e rest, post = e :: rest → ∃ fs1, Frame.track fs e = some fs1 := by
  have hd := track_doc d [] [] rfl
  rw [h, trackAll_append] at hd
  rcases hp : Frame.trackAll [] pre with _ | fs
  · simp [hp] at hd
  · refine ⟨fs, rfl, ?_⟩
    intro e rest hpost
    subst hpost
    simp only [hp, Option.some_bind, Frame.trackAll] at hd
    rcases ht : Frame.track fs e with _ | fs1
    · simp [ht] at hd
    · exact ⟨fs1, rfl⟩


theorem stepAll_length (f : GenericSchemaValidator → Option GenericSchemaValidator) :
    ∀ (ws ws1 : List GenericSchemaValidator), stepAll f ws = some ws1 → ws1.length = ws.length
  | [], ws1, h => by
    simp only [stepAll, Option.some.injEq] at h
    subst h; rfl
  | w :: ws, ws1, h => by
    have hcons : stepAll f (w :: ws)
        = match f w, stepAll f ws with
          | some w1, some ws1 => some (w1 :: ws1)
          | _, _ => none := rfl
    rw [hcons] at h
    rcases hw : f w with _ | w1
    · simp [hw] at h
    · rcases hs : stepAll f ws with _ | tl
      · simp [hw, hs] at h
      · simp only [hw, hs, Option.some.injEq] at h
        subst h
        simp [stepAll_length f ws tl hs]

theorem stepArray_length (f : GenericSchemaValidator → Option GenericSchemaValidator)
    (x a : Option (List GenericSchemaValidator)) (h : stepArray f x = some a)
    (ws : List GenericSchemaValidator) (hx : x = some ws) :
    ∃ ws1, a = some ws1 ∧ ws1.length = ws.length := by
  subst hx
  simp only [stepArray, Option.map_eq_some'] at h
  obtain ⟨ws1, h1, rfl⟩ := h
  exact ⟨ws1, rfl, stepAll_length f ws ws1 h1⟩

theorem createdSized_sized (c : Context) (h : c.CreatedSized) : c.Sized := by
  obtain ⟨h1, h2, h3, -⟩ := h
  refine ⟨?_, ?_, ?_⟩
  · intro L ws hL hws
    obtain ⟨ws1, ha, hb⟩ := h1 L hL
    rw [hws] at ha; cases ha; exact hb
  · intro L ws hL hws
    obtain ⟨ws1, ha, hb⟩ := h2 L hL
    rw [hws] at ha; cases ha; exact hb
  · intro L ws hL hws
    obtain ⟨ws1, ha, hb⟩ := h3 L hL
    rw [hws] at ha; cases ha; exact hb

theorem sized_make (s : BaseSchema) : (Context.make s).Sized :=
  ⟨fun _ _ _ h => (by cases h), fun _ _ _ h => (by cases h), fun _ _ _ h => (by cases h)⟩

theorem stepContext_created (f : GenericSchemaValidator → Option GenericSchemaValidator)
    (c c1 : Context) (h : stepContext f c = some c1) (hc : c.CreatedSized) :
    c1.CreatedSized := by
  obtain ⟨a, b, o, n, rfl, ha, hb, ho, hn⟩ := stepContext_eq_withSubs f c c1 h
  obtain ⟨h1, h2, h3, h4⟩ := hc
  refine ⟨?_, ?_, ?_, ?_⟩
  · intro L hL
    obtain ⟨ws, hws, hlen⟩ := h1 L hL
    obtain ⟨ws1, e1, e2⟩ := stepArray_length f _ a ha ws hws
    exact ⟨ws1, e1, e2.trans hlen⟩
  · intro L hL
    obtain ⟨ws, hws, hlen⟩ := h2 L hL
    obtain ⟨ws1, e1, e2⟩ := stepArray_length f _ b hb ws hws
    exact ⟨ws1, e1, e2.trans hlen⟩
  · intro L hL
    obtain ⟨ws, hws, hlen⟩ := h3 L hL
    obtain ⟨ws1, e1, e2⟩ := stepArray_length f _ o ho ws hws
    exact ⟨ws1, e1, e2.trans hlen⟩
  · intro hs
    show n.isSome = true
    rw [stepNot_isSome f _ n hn]
    exact h4 hs

theorem create_created (s : BaseSchema) (c : Context) (hs : c.schema = s) (hz : c.Sized) :
    (s.CreateLogicValidators c).CreatedSized := by
  obtain ⟨h1, h2, h3⟩ := hz
  subst hs
  refine ⟨?_, ?_, ?_, ?_⟩
  · intro L hL
    have hL : c.schema.allOf_ = some L := hL
    show ∃ ws, (match c.schema.allOf_ with
      | some schemas => CreateSchemaValidators c.allOfValidators schemas
      | none => c.allOfValidators) = some ws ∧ ws.length = L.length
    rw [hL]
    rcases hv : c.allOfValidators with _ | ws
    · exact ⟨_, rfl, by simp⟩
    · exact ⟨ws, rfl, h1 L ws hL hv⟩
  · intro L hL
    have hL : c.schema.anyOf_ = some L := hL
    show ∃ ws, (match c.schema.anyOf_ with
      | some schemas => CreateSchemaValidators c.anyOfValidators schemas
      | none => c.anyOfValidators) = some ws ∧ ws.length = L.length
    rw [hL]
    rcases hv : c.anyOfValidators with _ | ws
    · exact ⟨_, rfl, by simp⟩
    · exact ⟨ws, rfl, h2 L ws hL hv⟩
  · intro L hL
    have hL : c.schema.oneOf_ = some L := hL
    show ∃ ws, (match c.schema.oneOf_ with
      | some schemas => CreateSchemaValidators c.oneOfValidators schemas
      | none => c.oneOfValidators) = some ws ∧ ws.length = L.length
    rw [hL]
    rcases hv : c.oneOfValidators with _ | ws
    · exact ⟨_, rfl, by simp⟩
    · exact ⟨ws, rfl, h3 L ws hL hv⟩
  · intro hn
    have hn : c.schema.not_.isSome = true := hn
    show (match c.schema.not_, c.notValidator with
      | some n, none => some (GenericSchemaValidator.ofRoot n)
      | _, w => w).isSome = true
    rcases hs : c.schema.not_ with _ | n
    · rw [hs] at hn; cases hn
    · rcases hv : c.notValidator with _ | w <;> rfl

/-- The context after a schema method owns the validators the schema's
combinators ask for, with the lengths of the combinator lists. -/
theorem method_created (s : BaseSchema) (c c1 : Context) (e : Event) (b : Bool)
    (h : s.method c e = some (c1, b)) (hs : c.schema = s) (hz : c.Sized) :
    c1.CreatedSized := by
  obtain ⟨h1, h2, h3, h4⟩ := method_subs s c c1 e b h
  obtain ⟨hf, -⟩ := method_fields s c c1 e b h
  obtain ⟨g1, g2, g3, g4⟩ := create_created s c hs hz
  have hsc : (s.CreateLogicValidators c).schema = c1.schema := hf.symm
  unfold Context.CreatedSized
  rw [h1, h2, h3, h4, ← hsc]
  exact ⟨g1, g2, g3, g4⟩

theorem allOfLoop_isSome (ws : List GenericSchemaValidator) :
    ∀ (n i : Nat), i + n ≤ ws.length → (allOfLoop (some ws) n i).isSome = true
  | 0, _, _ => rfl
  | n + 1, i, h => by
    have hi : i < ws.length := by omega
    simp only [allOfLoop, Option.some_bind, List.getElem?_eq_getElem hi]
    split
    · rfl
    · exact allOfLoop_isSome ws n (i + 1) (by omega)

theorem anyOfLoop_isSome (ws : List GenericSchemaValidator) :
    ∀ (n i : Nat), i + n ≤ ws.length → (anyOfLoop (some ws) n i).isSome = true
  | 0, _, _ => rfl
  | n + 1, i, h => by
    have hi : i < ws.length := by omega
    simp only [anyOfLoop, Option.some_bind, List.getElem?_eq_getElem hi]
    split
    · rfl
    · exact anyOfLoop_isSome ws n (i + 1) (by omega)

theorem oneOfLoop_isSome (ws : List GenericSchemaValidator) :
    ∀ (n i : Nat) (b : Bool), i + n ≤ ws.length → (oneOfLoop (some ws) n i b).isSome = true
  | 0, _, _, _ => rfl
  | n + 1, i, b, h => by
    have hi : i < ws.length := by omega
    simp only [oneOfLoop, Option.some_bind, List.getElem?_eq_getElem hi]
    split
    · split
      · rfl
      · exact oneOfLoop_isSome ws n (i + 1) true (by omega)
    · exact oneOfLoop_isSome ws n (i + 1) b (by omega)

/-- The method `EndValue` of the schema reads only validators that exist when
the validators of the context are created with the lengths of the lists. -/
theorem endValue_isSome (c : Context) (h : c.CreatedSized) :
    (c.schema.EndValue c).isSome = true := by
  obtain ⟨h1, h2, h3, h4⟩ := h
  have e1 : (c.schema.EndValueAllOf c).isSome = true := by
    unfold BaseSchema.EndValueAllOf
    rcases hL : c.schema.allOf_ with _ | L
    · rfl
    · obtain ⟨ws, hws, hlen⟩ := h1 L hL
      simp only [hws]
      exact allOfLoop_isSome ws L.length 0 (by omega)
  have e2 : (c.schema.EndValueAnyOf c).isSome = true := by
    unfold BaseSchema.EndValueAnyOf
    rcases hL : c.schema.anyOf_ with _ | L
    · rfl
    · obtain ⟨ws, hws, hlen⟩ := h2 L hL
      simp only [hws]
      exact anyOfLoop_isSome ws L.length 0 (by omega)
  have e3 : (c.schema.EndValueOneOf c).isSome = true := by
    unfold BaseSchema.EndValueOneOf
    rcases hL : c.schema.oneOf_ with _ | L
    · rfl
    · obtain ⟨ws, hws, hlen⟩ := h3 L hL
      simp only [hws]
      exact oneOfLoop_isSome ws L.length 0 false (by omega)
  have e4 : (c.schema.EndValueNot c).isSome = true := by
    unfold BaseSchema.EndValueNot
    rcases hL : c.schema.not_ with _ | n
    · rfl
    · have := h4 (by rw [hL]; rfl)
      rcases hv : c.notValidator with _ | w
      · rw [hv] at this; cases this
      · rfl
  unfold BaseSchema.EndValue
  rcases g1 : c.schema.EndValueAllOf c with _ | _ | _
  · rw [g1] at e1; cases e1
  · rfl
  · rcases g2 : c.schema.EndValueAnyOf c with _ | _ | _
    · rw [g2] at e2; cases e2
    · rfl
    · rcases g3 : c.schema.EndValueOneOf c with _ | _ | _
      · rw [g3] at e3; cases e3
      · rfl
      · simpa [orReturnFalse] using e4

/-- The method `EndValue` of the validator reads a context that is there and
validators that exist. -/
theorem EndValue_isSome (v : GenericSchemaValidator) (c : Context) (tail : List Context)
    (hst : v.schemaStack_ = c :: tail) (hc : c.CreatedSized) : v.EndValue.isSome = true := by
  have := endValue_isSome c hc
  rcases hE : c.schema.EndValue c with _ | _ | _
  · rw [hE] at this; cases this
  · simp only [EndValue, hst, hE, Option.isSome_some]
  · rcases tail with _ | ⟨p, rest1⟩
    · simp only [EndValue, hst, hE, Option.isSome_some]
    · simp only [EndValue, hst, hE]
      split <;> rfl

/-- The context after the method `BeginValue` of its schema: what it is the
context of, and the validators it owns, are as before. -/
theorem bump_fields (s : BaseSchema) (c : Context) :
    (s.BeginValue c).1.schema = c.schema ∧ (s.BeginValue c).1.multiTypeSchema = c.multiTypeSchema ∧
    (s.BeginValue c).1.inArray = c.inArray ∧
    (s.BeginValue c).1.allOfValidators = c.allOfValidators ∧
    (s.BeginValue c).1.anyOfValidators = c.anyOfValidators ∧
    (s.BeginValue c).1.oneOfValidators = c.oneOfValidators ∧
    (s.BeginValue c).1.notValidator = c.notValidator := by
  unfold BaseSchema.BeginValue
  split
  · split
    · exact ⟨rfl, rfl, rfl, rfl, rfl, rfl, rfl⟩
    · split
      · exact ⟨rfl, rfl, rfl, rfl, rfl, rfl, rfl⟩
      · split <;> exact ⟨rfl, rfl, rfl, rfl, rfl, rfl, rfl⟩
    · exact ⟨rfl, rfl, rfl, rfl, rfl, rfl, rfl⟩
  · exact ⟨rfl, rfl, rfl, rfl, rfl, rfl, rfl⟩

theorem bump_created (s : BaseSchema) (c : Context) (h : c.CreatedSized) :
    (s.BeginValue c).1.CreatedSized := by
  obtain ⟨h1, -, -, h4, h5, h6, h7⟩ := bump_fields s c
  unfold Context.CreatedSized
  rw [h1, h4, h5, h6, h7]
  exact h


theorem frameOK_step (g : GenericSchemaValidator → Option GenericSchemaValidator)
    (f : Frame) (c c1 : Context) (h : stepContext g c = some c1) (hc : FrameOK f c) :
    FrameOK f c1 := by
  obtain ⟨hsh, hvs⟩ := stepContext_shape g c c1 h
  simp only [Context.shape, Prod.mk.injEq] at hsh
  obtain ⟨hm, hcr, hh⟩ := hc
  refine ⟨by rw [hsh.2.2, hm], stepContext_created g c c1 h hcr, ?_⟩
  cases f with
  | arr => exact hsh.2.1.trans hh
  | key => exact hsh.2.1.trans hh
  | val => exact ⟨hsh.2.1.trans hh.1, by rw [hvs]; exact hh.2⟩

theorem stepStack_cons_inv (g : GenericSchemaValidator → Option GenericSchemaValidator)
    (c : Context) (st st1 : List Context) (h : stepStack g (c :: st) = some st1) :
    ∃ c1 tl, st1 = c1 :: tl ∧ stepContext g c = some c1 ∧ stepStack g st = some tl := by
  have hcons : stepStack g (c :: st)
      = match stepContext g c, stepStack g st with
        | some context1, some rest1 => some (context1 :: rest1)
        | _, _ => none := rfl
  rw [hcons] at h
  rcases hc : stepContext g c with _ | c1
  · simp [hc] at h
  · rcases hs : stepStack g st with _ | tl
    · simp [hc, hs] at h
    · simp only [hc, hs, Option.some.injEq] at h
      subst h
      exact ⟨c1, tl, rfl, rfl, rfl⟩

theorem tracks_stepStack (g : GenericSchemaValidator → Option GenericSchemaValidator) :
    ∀ (fs : List Frame) (st st1 : List Context), stepStack g st = some st1 → Tracks fs st →
      Tracks fs st1
  | _, [], st1, h, ht => by
    simp only [stepStack, Option.some.injEq] at h
    subst h; exact ht
  | fs, c :: st, st1, h, ht => by
    obtain ⟨c1, tl, rfl, hc, hs⟩ := stepStack_cons_inv g c st st1 h
    cases ht with
    | cons hf htl =>
      exact List.Forall₂.cons (frameOK_step g _ c c1 hc hf) (tracks_stepStack g _ st tl hs htl)

theorem tracks_noMulti (fs : List Frame) (st : List Context) (h : Tracks fs st) : NoMulti st := by
  intro c hc
  induction h with
  | nil => cases hc
  | cons hf _ ih =>
    rcases List.mem_cons.mp hc with rfl | hc
    · exact hf.1
    · exact ih hc

theorem tracks_length (fs : List Frame) (st : List Context) (h : Tracks fs st) :
    st.length = fs.length := (List.Forall₂.length_eq h).symm

/-- The stack after `BeginValue` where a value can begin: the context of the
value on the contexts of the open containers. -/
theorem tracks_ready (w : GenericSchemaValidator) (fs fs1 : List Frame)
    (hI : Tracks fs w.schemaStack_) (hr : Frame.ready fs = some fs1)
    (hb : w.BeginValue.2 = true) :
    ∃ S st1, w.BeginValue.1.schemaStack_ = Context.make S :: st1 ∧ Tracks fs1 st1 := by
  rcases hst : w.schemaStack_ with _ | ⟨t, tail⟩
  · rw [hst] at hI
    cases hI
    simp only [Frame.ready, Option.some.injEq] at hr
    subst hr
    rw [BeginValue_fresh w hst]
    exact ⟨w.root_, [], rfl, List.Forall₂.nil⟩
  · rw [hst] at hI
    cases hI with
    | cons hf htl =>
      rename_i f r
      obtain ⟨hm, hcr, hh⟩ := hf
      obtain ⟨b1, b2, b3, -⟩ := bump_fields t.schema t
      have hready : t.inArray = true ∨ t.valueSchema.isSome = true := by
        cases f with
        | arr => exact Or.inl hh
        | key => simp [Frame.ready] at hr
        | val => exact Or.inr hh.2
      obtain ⟨S, hS⟩ := BeginValue_ready w t tail hst hready hb
      refine ⟨S, _, hS, ?_⟩
      cases f with
      | arr =>
        simp only [Frame.ready, Option.some.injEq] at hr
        subst hr
        exact List.Forall₂.cons ⟨b2.trans hm, bump_created _ t hcr, b3.trans hh⟩ htl
      | key => simp [Frame.ready] at hr
      | val =>
        simp only [Frame.ready, Option.some.injEq] at hr
        subst hr
        exact List.Forall₂.cons ⟨b2.trans hm, bump_created _ t hcr, b3.trans hh.1⟩ htl

/-- The stack after the schema method and `RAPIDJSON_SCHEMA_HANDLE_LOGIC_`: the
current context owns the validators its schema asks for. -/
theorem logic_tracks (sub : GenericSchemaValidator → Event → Option GenericSchemaValidator)
    (w vA vB : GenericSchemaValidator) (e : Event) (fs : List Frame) (t : Context)
    (tail : List Context) (hst : w.schemaStack_ = t :: tail) (htl : Tracks fs tail)
    (hz : t.Sized) (hcur : w.HANDLE_CURRENT_ e = some (vA, true))
    (hlog : HANDLE_LOGIC_ sub vA e = some vB) :
    ∃ (c1 c2 : Context) (tail2 : List Context),
      t.schema.method t e = some (c1, true) ∧ vB.schemaStack_ = c2 :: tail2 ∧
      c2.shape = c1.shape ∧ c2.valueSchema = c1.valueSchema ∧ c2.CreatedSized ∧
      Tracks fs tail2 := by
  obtain ⟨c0, rest0, c1, hst0, hm, hstA, -, -, -⟩ := HANDLE_CURRENT_inv w vA e true hcur
  rw [hst] at hst0
  cases hst0
  obtain ⟨hstep, -, -, -⟩ := HANDLE_LOGIC_inv sub vA vB e hlog
  rw [hstA] at hstep
  obtain ⟨c2, tl, hB, hc, hs⟩ := stepStack_cons_inv _ c1 tail _ hstep
  obtain ⟨hsh, hvs⟩ := stepContext_shape _ c1 c2 hc
  exact ⟨c1, c2, tl, hm, hB, hsh, hvs,
    stepContext_created _ c1 c2 hc (method_created t.schema t c1 e true hm rfl hz),
    tracks_stepStack _ fs tail tl hs htl⟩

theorem afterBegin_tracks (sub : GenericSchemaValidator → Event → Option GenericSchemaValidator)
    (cl : Bool) (w w1 : GenericSchemaValidator) (e : Event) (fs : List Frame) (t : Context)
    (tail : List Context) (hst : w.schemaStack_ = t :: tail) (htl : Tracks fs tail)
    (hz : t.Sized) (h : afterBegin sub cl w e = some (w1, true)) :
    ∃ (c1 c2 : Context) (tail2 : List Context),
      t.schema.method t e = some (c1, true) ∧ c2.shape = c1.shape ∧
      c2.valueSchema = c1.valueSchema ∧ c2.CreatedSized ∧ Tracks fs tail2 ∧
      w1.schemaStack_ = (if cl then tail2 else c2 :: tail2) := by
  unfold afterBegin at h
  rcases hcur : w.HANDLE_CURRENT_ e with _ | ⟨vA, _ | _⟩
  · simp [hcur] at h
  · simp [hcur] at h
  · simp only [hcur] at h
    rcases hlog : HANDLE_LOGIC_ sub vA e with _ | vB
    · simp [hlog] at h
    · simp only [hlog] at h
      obtain ⟨c1, c2, tail2, hm, hB, hsh, hvs, hcr, ht2⟩ :=
        logic_tracks sub w vA vB e fs t tail hst htl hz hcur hlog
      refine ⟨c1, c2, tail2, hm, hsh, hvs, hcr, ht2, ?_⟩
      cases cl with
      | false =>
        simp only [Bool.false_eq_true, if_false, Option.some.injEq] at h ⊢
        have h1 : (vB.HANDLE_OUTPUT_ e).1 = w1 := by rw [h]
        subst h1
        exact hB
      | true =>
        simp only [if_true] at h ⊢
        obtain ⟨c3, rest3, hst3, -, -, hpop⟩ := HANDLE_END_inv vB w1 e h
        rw [hB] at hst3
        cases hst3
        exact hpop (tracks_noMulti fs _ ht2)

theorem track_scalar (fs : List Frame) (e : Event) (hb : e.isBegin = true)
    (hc : e.isClose = true) : Frame.track fs e = Frame.ready fs := by
  cases e <;> first | rfl | contradiction

/-- One accepted event of a well-formed stream: the stack of contexts follows
the open containers. -/
theorem handle_tracks (sub : GenericSchemaValidator → Event → Option GenericSchemaValidator)
    (w w1 : GenericSchemaValidator) (e : Event) (fs fs1 : List Frame)
    (hv : w.valid_ = true) (hI : Tracks fs w.schemaStack_) (ha : Frame.track fs e = some fs1)
    (h : handleWith sub w e = some (w1, true)) : Tracks fs1 w1.schemaStack_ := by
  rw [handleWith_eq sub w e hv] at h
  rcases hbeg : e.isBegin with _ | _
  · simp only [hbeg, Bool.false_eq_true, if_false] at h
    rcases hst : w.schemaStack_ with _ | ⟨t, tail⟩
    · simp [afterBegin, HANDLE_CURRENT_, hst] at h
    · rw [hst] at hI
      cases hI with
      | cons hf htl =>
        rename_i f r
        obtain ⟨hm, hcr, hh⟩ := hf
        obtain ⟨c1, c2, tail2, hmeth, hsh, hvs, hcr2, ht2, hw1⟩ :=
          afterBegin_tracks sub _ w w1 e r t tail hst htl (createdSized_sized t hcr) h
        simp only [Context.shape, Prod.mk.injEq] at hsh
        obtain ⟨hf1, hf2⟩ := method_fields t.schema t c1 e true hmeth
        rw [hw1]
        cases e with
        | Key k cp =>
          obtain ⟨-, -, hin, hval⟩ := key_fields t.schema t c1 k true hmeth
          cases f with
          | key =>
            simp only [Frame.track, Option.some.injEq] at ha
            subst ha
            simp only [Event.isClose, Bool.false_eq_true, if_false]
            exact List.Forall₂.cons ⟨by rw [hsh.2.2, hf2, hm], hcr2,
              by show c2.inArray = false
                 rw [hsh.2.1, hin]; exact hh, by rw [hvs]; exact hval rfl⟩ ht2
          | arr => simp [Frame.track] at ha
          | val => simp [Frame.track] at ha
        | EndObject n =>
          cases f with
          | key =>
            simp only [Frame.track, Option.some.injEq] at ha
            subst ha
            simp only [Event.isClose, if_true]
            exact ht2
          | arr => simp [Frame.track] at ha
          | val => simp [Frame.track] at ha
        | EndArray n =>
          cases f with
          | arr =>
            simp only [Frame.track, Option.some.injEq] at ha
            subst ha
            simp only [Event.isClose, if_true]
            exact ht2
          | key => simp [Frame.track] at ha
          | val => simp [Frame.track] at ha
        | _ => cases hbeg
  · simp only [hbeg, if_true] at h
    rcases hb : w.BeginValue.2 with _ | _
    · simp [hb] at h
    · simp only [hb, Bool.not_true, Bool.false_eq_true, if_false] at h
      have hready : ∃ fs2, Frame.ready fs = some fs2 := by
        rcases hr : Frame.ready fs with _ | fs2
        · cases e <;> first | (simp [Frame.track, hr] at ha; done) | contradiction
        · exact ⟨fs2, rfl⟩
      obtain ⟨fs2, hr⟩ := hready
      obtain ⟨S, st1, hS, hT⟩ := tracks_ready w fs fs2 hI hr hb
      obtain ⟨c1, c2, tail2, hmeth, hsh, hvs, hcr2, ht2, hw1⟩ :=
        afterBegin_tracks sub _ _ w1 e fs2 _ st1 hS hT (sized_make S) h
      simp only [Context.shape, Prod.mk.injEq] at hsh
      obtain ⟨hf1, hf2⟩ := method_fields _ _ c1 e true hmeth
      rw [hw1]
      rcases hcl : e.isClose with _ | _
      · simp only [Bool.false_eq_true, if_false]
        cases e with
        | StartObject =>
          simp only [Frame.track, hr, Option.map_some', Option.some.injEq] at ha
          subst ha
          have hin := startObject_inArray _ _ c1 true hmeth
          exact List.Forall₂.cons ⟨by rw [hsh.2.2, hf2]; rfl, hcr2,
            by show c2.inArray = false
               rw [hsh.2.1, hin]; rfl⟩ ht2
        | StartArray =>
          simp only [Frame.track, hr, Option.map_some', Option.some.injEq] at ha
          subst ha
          have hin := startArray_inArray _ _ c1 hmeth
          exact List.Forall₂.cons ⟨by rw [hsh.2.2, hf2]; rfl, hcr2,
            by show c2.inArray = true
               rw [hsh.2.1, hin]⟩ ht2
        | _ => contradiction
      · simp only [if_true]
        rw [track_scalar fs e hbeg hcl, hr] at ha
        cases ha
        exact ht2

/-- The validator on which an event method calls `EndValue` has a current
context, which owns the validators its schema asks for. -/
theorem atEndValue_tracks (sub : GenericSchemaValidator → Event → Option GenericSchemaValidator)
    (w v2 : GenericSchemaValidator) (e : Event) (fs fs1 : List Frame)
    (hI : Tracks fs w.schemaStack_) (ha : Frame.track fs e = some fs1)
    (h : atEndValue sub w e = some v2) :
    handleWith sub w e = v2.HANDLE_END_ e ∧
    ∃ (c : Context) (tail : List Context),
      v2.schemaStack_ = c :: tail ∧ c.CreatedSized ∧ v2.EndValue.isSome = true := by
  unfold atEndValue at h
  rcases hv : w.valid_ with _ | _
  · simp [hv] at h
  rcases hcl : e.isClose with _ | _
  · simp [hcl] at h
  simp only [hv, hcl, Bool.not_true, Bool.or_self, Bool.false_eq_true, if_false] at h
  rcases hbeg : e.isBegin with _ | _
  · simp only [hbeg, Bool.false_eq_true, if_false] at h
    rcases hcur : w.HANDLE_CURRENT_ e with _ | ⟨vA, _ | _⟩
    · simp [hcur] at h
    · simp [hcur] at h
    · simp only [hcur] at h
      have hw : handleWith sub w e = v2.HANDLE_END_ e := by
        cases e <;> first
          | contradiction
          | contradiction
          | simp only [handleWith, HANDLE_CLOSE_, hv, hcur, h, Bool.not_true, Bool.false_eq_true,
              if_false]
      refine ⟨hw, ?_⟩
      rcases hst : w.schemaStack_ with _ | ⟨t, tail⟩
      · simp [HANDLE_CURRENT_, hst] at hcur
      · rw [hst] at hI
        cases hI with
        | cons hf htl =>
          obtain ⟨c1, c2, tail2, -, hB, -, -, hcr, -⟩ :=
            logic_tracks sub w vA v2 e _ t tail hst htl (createdSized_sized t hf.2.1) hcur h
          exact ⟨c2, tail2, hB, hcr, EndValue_isSome v2 c2 tail2 hB hcr⟩
  · simp only [hbeg, if_true] at h
    rcases hB : w.HANDLE_BEGIN_ e with _ | ⟨vA, _ | _⟩
    · simp [hB] at h
    · simp [hB] at h
    · simp only [hB] at h
      have hw : handleWith sub w e = v2.HANDLE_END_ e := by
        cases e <;> first
          | contradiction
          | contradiction
          | simp only [handleWith, HANDLE_VALUE_, hv, hB, h, Bool.not_true, Bool.false_eq_true,
              if_false]
      refine ⟨hw, ?_⟩
      rw [HANDLE_BEGIN_eq] at hB
      rcases hb : w.BeginValue.2 with _ | _
      · simp [hb] at hB
      · simp only [hb, Bool.not_true, Bool.false_eq_true, if_false] at hB
        have hready : ∃ fs2, Frame.ready fs = some fs2 := by
          rw [track_scalar fs e hbeg hcl] at ha
          exact ⟨fs1, ha⟩
        obtain ⟨fs2, hr⟩ := hready
        obtain ⟨S, st1, hS, hT⟩ := tracks_ready w fs fs2 hI hr hb
        obtain ⟨c1, c2, tail2, -, hB2, -, -, hcr, -⟩ :=
          logic_tracks sub _ vA v2 e _ _ st1 hS hT (sized_make S) hB h
        exact ⟨c2, tail2, hB2, hcr, EndValue_isSome v2 c2 tail2 hB2 hcr⟩

theorem track_current (fs fs1 : List Frame) (e : Event) (st : List Context)
    (hI : Tracks fs st) (ha : Frame.track fs e = some fs1) (hb : e.isBegin = false) :
    st ≠ [] := by
  intro hst
  subst hst
  cases hI
  cases e <;> first | (simp [Frame.track] at ha; done) | contradiction


theorem stepAll_mem (g : GenericSchemaValidator → Option GenericSchemaValidator) :
    ∀ (ws ws1 : List GenericSchemaValidator), stepAll g ws = some ws1 →
      ∀ x1 ∈ ws1, ∃ x ∈ ws, g x = some x1
  | [], ws1, h, x1, hx => by
    simp only [stepAll, Option.some.injEq] at h
    subst h; cases hx
  | w :: ws, ws1, h, x1, hx => by
    have hcons : stepAll g (w :: ws)
        = match g w, stepAll g ws with
          | some w1, some ws1 => some (w1 :: ws1)
          | _, _ => none := rfl
    rw [hcons] at h
    rcases hw : g w with _ | w1
    · simp [hw] at h
    · rcases hs : stepAll g ws with _ | tl
      · simp [hw, hs] at h
      · simp only [hw, hs, Option.some.injEq] at h
        subst h
        rcases List.mem_cons.mp hx with rfl | hx
        · exact ⟨w, List.mem_cons_self _ _, hw⟩
        · obtain ⟨x, hx1, hx2⟩ := stepAll_mem g ws tl hs x1 hx
          exact ⟨x, List.mem_cons_of_mem _ hx1, hx2⟩

theorem stepArray_mem (g : GenericSchemaValidator → Option GenericSchemaValidator)
    (x a : Option (List GenericSchemaValidator)) (h : stepArray g x = some a) :
    ∀ x1 ∈ a.getD [], ∃ x0 ∈ x.getD [], g x0 = some x1 := by
  cases x with
  | none =>
    simp only [stepArray, Option.some.injEq] at h
    subst h
    intro x1 hx; cases hx
  | some ws =>
    simp only [stepArray, Option.map_eq_some'] at h
    obtain ⟨ws1, h1, rfl⟩ := h
    exact stepAll_mem g ws ws1 h1

theorem stepNot_mem (g : GenericSchemaValidator → Option GenericSchemaValidator)
    (x a : Option GenericSchemaValidator) (h : stepNot g x = some a) :
    ∀ x1 ∈ a.toList, ∃ x0 ∈ x.toList, g x0 = some x1 := by
  cases x with
  | none =>
    simp only [stepNot, Option.some.injEq] at h
    subst h
    intro x1 hx; cases hx
  | some w =>
    simp only [stepNot, Option.map_eq_some'] at h
    obtain ⟨w1, h1, rfl⟩ := h
    intro x1 hx
    simp only [Option.toList, List.mem_singleton] at hx
    subst hx
    exact ⟨w, by simp [Option.toList], h1⟩

/-- The validators a context owns after `RAPIDJSON_SCHEMA_HANDLE_LOGIC_` are
the ones it owned, each after the call. -/
theorem stepContext_owned (g : GenericSchemaValidator → Option GenericSchemaValidator)
    (c c1 : Context) (h : stepContext g c = some c1) :
    ∀ x1 ∈ c1.owned, ∃ x ∈ c.owned, g x = some x1 := by
  obtain ⟨a, b, o, n, rfl, ha, hb, ho, hn⟩ := stepContext_eq_withSubs g c c1 h
  intro x1 hx
  have hx : x1 ∈ a.getD [] ++ b.getD [] ++ o.getD [] ++ n.toList := hx
  simp only [List.mem_append] at hx
  unfold Context.owned
  simp only [List.mem_append]
  rcases hx with ((hx | hx) | hx) | hx
  · obtain ⟨x, h1, h2⟩ := stepArray_mem g _ a ha x1 hx
    exact ⟨x, Or.inl (Or.inl (Or.inl h1)), h2⟩
  · obtain ⟨x, h1, h2⟩ := stepArray_mem g _ b hb x1 hx
    exact ⟨x, Or.inl (Or.inl (Or.inr h1)), h2⟩
  · obtain ⟨x, h1, h2⟩ := stepArray_mem g _ o ho x1 hx
    exact ⟨x, Or.inl (Or.inr h1), h2⟩
  · obtain ⟨x, h1, h2⟩ := stepNot_mem g _ n hn x1 hx
    exact ⟨x, Or.inr h1, h2⟩

/-- A property of the validators owned by the contexts of a stack, by position,
after `RAPIDJSON_SCHEMA_HANDLE_LOGIC_`. -/
theorem stepStack_owned (g : GenericSchemaValidator → Option GenericSchemaValidator)
    (P P1 : Nat → GenericSchemaValidator → Prop) :
    ∀ (st st1 : List Context) (k : Nat), stepStack g st = some st1 →
      (∀ i c, st[i]? = some c → ∀ x ∈ c.owned, P (k + i) x) →
      (∀ i x x1, i < st.length → P (k + i) x → g x = some x1 → P1 (k + i) x1) →
      ∀ i c1, st1[i]? = some c1 → ∀ x1 ∈ c1.owned, P1 (k + i) x1
  | [], st1, k, h, _, _, i, c1, hc1, x1, _ => by
    simp only [stepStack, Option.some.injEq] at h
    subst h
    simp at hc1
  | c :: st, st1, k, h, hP, hstep, i, c1, hc1, x1, hx1 => by
    obtain ⟨c2, tl, rfl, hc, hs⟩ := stepStack_cons_inv g c st st1 h
    cases i with
    | zero =>
      simp only [List.getElem?_cons_zero, Option.some.injEq] at hc1
      subst hc1
      obtain ⟨x, hx, hgx⟩ := stepContext_owned g c c2 hc x1 hx1
      exact hstep 0 x x1 (by simp) (hP 0 c (by simp) x hx) hgx
    | succ j =>
      simp only [List.getElem?_cons_succ] at hc1
      have := stepStack_owned g P P1 st tl (k + 1) hs
        (fun i c0 hc0 x hx => by
          have := hP (i + 1) c0 (by simpa using hc0) x hx
          rwa [show k + (i + 1) = k + 1 + i by omega] at this)
        (fun i x x0 hi hp hg => by
          have := hstep (i + 1) x x0 (by simp; omega)
            (by rwa [show k + (i + 1) = k + 1 + i by omega]) hg
          rwa [show k + (i + 1) = k + 1 + i by omega] at this)
        j c1 hc1 x1 hx1
      rwa [show k + 1 + j = k + (j + 1) by omega] at this

theorem create_of_created (s : BaseSchema) (c : Context) (hs : c.schema = s)
    (hc : c.CreatedSized) : s.CreateLogicValidators c = c := by
  subst hs
  obtain ⟨h1, h2, h3, h4⟩ := hc
  have e1 : (c.schema.CreateLogicValidators c).allOfValidators = c.allOfValidators := by
    rcases hL : c.schema.allOf_ with _ | L
    · simp only [BaseSchema.CreateLogicValidators, hL]
    · obtain ⟨ws, hws, -⟩ := h1 L hL
      simp only [BaseSchema.CreateLogicValidators, hL, hws, CreateSchemaValidators]
  have e2 : (c.schema.CreateLogicValidators c).anyOfValidators = c.anyOfValidators := by
    rcases hL : c.schema.anyOf_ with _ | L
    · simp only [BaseSchema.CreateLogicValidators, hL]
    · obtain ⟨ws, hws, -⟩ := h2 L hL
      simp only [BaseSchema.CreateLogicValidators, hL, hws, CreateSchemaValidators]
  have e3 : (c.schema.CreateLogicValidators c).oneOfValidators = c.oneOfValidators := by
    rcases hL : c.schema.oneOf_ with _ | L
    · simp only [BaseSchema.CreateLogicValidators, hL]
    · obtain ⟨ws, hws, -⟩ := h3 L hL
      simp only [BaseSchema.CreateLogicValidators, hL, hws, CreateSchemaValidators]
  have e4 : (c.schema.CreateLogicValidators c).notValidator = c.notValidator := by
    rcases hL : c.schema.not_ with _ | n
    · simp only [BaseSchema.CreateLogicValidators, hL]
    · have := h4 (by rw [hL]; rfl)
      rcases hv : c.notValidator with _ | w
      · rw [hv] at this; cases this
      · simp only [BaseSchema.CreateLogicValidators, hL, hv]
  have hrest : c.schema.CreateLogicValidators c
      = { c with
          allOfValidators := (c.schema.CreateLogicValidators c).allOfValidators
          anyOfValidators := (c.schema.CreateLogicValidators c).anyOfValidators
          oneOfValidators := (c.schema.CreateLogicValidators c).oneOfValidators
          notValidator := (c.schema.CreateLogicValidators c).notValidator } := rfl
  rw [hrest, e1, e2, e3, e4]

/-- The validators a fresh context owns after `CreateLogicValidators` are fresh
validators. -/
theorem create_fresh (S : BaseSchema) :
    ∀ x ∈ (S.CreateLogicValidators (Context.make S)).owned, ∃ S1, x = ofRoot S1 := by
  intro x hx
  unfold Context.owned at hx
  simp only [List.mem_append] at hx
  have hmap : ∀ L : List BaseSchema, x ∈ L.map ofRoot → ∃ S1, x = ofRoot S1 := by
    intro L h
    obtain ⟨S1, -, rfl⟩ := List.mem_map.mp h
    exact ⟨S1, rfl⟩
  rcases hx with ((hx | hx) | hx) | hx
  · have hx : x ∈ (match S.allOf_ with
        | some schemas => CreateSchemaValidators none schemas
        | none => none).getD [] := hx
    rcases hL : S.allOf_ with _ | L
    · simp [hL] at hx
    · simp only [hL, CreateSchemaValidators, Option.getD_some] at hx
      exact hmap L hx
  · have hx : x ∈ (match S.anyOf_ with
        | some schemas => CreateSchemaValidators none schemas
        | none => none).getD [] := hx
    rcases hL : S.anyOf_ with _ | L
    · simp [hL] at hx
    · simp only [hL, CreateSchemaValidators, Option.getD_some] at hx
      exact hmap L hx
  · have hx : x ∈ (match S.oneOf_ with
        | some schemas => CreateSchemaValidators none schemas
        | none => none).getD [] := hx
    rcases hL : S.oneOf_ with _ | L
    · simp [hL] at hx
    · simp only [hL, CreateSchemaValidators, Option.getD_some] at hx
      exact hmap L hx
  · have hx : x ∈ (match S.not_, (none : Option GenericSchemaValidator) with
        | some n, none => some (GenericSchemaValidator.ofRoot n)
        | _, w => w).toList := hx
    rcases hL : S.not_ with _ | n
    · simp [hL] at hx
    · simp only [hL, Option.toList, List.mem_singleton] at hx
      exact ⟨n, hx⟩

theorem method_owned (s : BaseSchema) (c c1 : Context) (e : Event) (b : Bool)
    (h : s.method c e = some (c1, b)) : c1.owned = (s.CreateLogicValidators c).owned := by
  obtain ⟨h1, h2, h3, h4⟩ := method_subs s c c1 e b h
  unfold Context.owned
  rw [h1, h2, h3, h4]

theorem bump_owned (s : BaseSchema) (c : Context) : (s.BeginValue c).1.owned = c.owned := by
  obtain ⟨-, -, -, h4, h5, h6, h7⟩ := bump_fields s c
  unfold Context.owned
  rw [h4, h5, h6, h7]

/-- The containers an owned validator has open after an event that begins a
value: those of the `i` innermost containers before the event. -/
theorem track_take_lo (fs fs1 : List Frame) (e : Event) (hb : e.isBegin = true)
    (h : Frame.track fs e = some fs1) (i : Nat) :
    Frame.track (fs.take i) e = some (fs1.take (i + if e.isClose then 0 else 1)) := by
  have hready : ∀ fs2, Frame.ready fs = some fs2 →
      Frame.ready (fs.take i) = some (fs2.take i) := by
    intro fs2 hr
    rcases fs with _ | ⟨f, r⟩
    · simp only [Frame.ready, Option.some.injEq] at hr
      subst hr
      simp [Frame.ready]
    · cases i with
      | zero => simp [Frame.ready]
      | succ j =>
        cases f <;> simp only [Frame.ready, Option.some.injEq] at hr
        · subst hr; simp [Frame.ready]
        · cases hr
        · subst hr; simp [Frame.ready]
  cases e with
  | StartObject =>
    simp only [Frame.track, Option.map_eq_some'] at h
    obtain ⟨fs2, hr, rfl⟩ := h
    simp [Frame.track, hready fs2 hr, Event.isClose]
  | StartArray =>
    simp only [Frame.track, Option.map_eq_some'] at h
    obtain ⟨fs2, hr, rfl⟩ := h
    simp [Frame.track, hready fs2 hr, Event.isClose]
  | Key k cp => cases hb
  | EndObject n => cases hb
  | EndArray n => cases hb
  | Null => simpa [Frame.track, Event.isClose] using hready fs1 h
  | Bool_ b => simpa [Frame.track, Event.isClose] using hready fs1 h
  | Int_ x => simpa [Frame.track, Event.isClose] using hready fs1 h
  | Uint x => simpa [Frame.track, Event.isClose] using hready fs1 h
  | Int64 x => simpa [Frame.track, Event.isClose] using hready fs1 h
  | Uint64 x => simpa [Frame.track, Event.isClose] using hready fs1 h
  | Double x => simpa [Frame.track, Event.isClose] using hready fs1 h
  | String_ x cp => simpa [Frame.track, Event.isClose] using hready fs1 h

/-- The containers an owned validator has open after a `Key`, `EndObject` or
`EndArray`. -/
theorem track_take_hi (fs fs1 : List Frame) (e : Event) (hb : e.isBegin = false)
    (h : Frame.track fs e = some fs1) (i : Nat) :
    Frame.track (fs.take (i + 1)) e = some (fs1.take (i + if e.isClose then 0 else 1)) := by
  cases e with
  | Key k cp =>
    rcases fs with _ | ⟨_ | _ | _, r⟩ <;> simp [Frame.track] at h
    subst h
    simp [Frame.track, Event.isClose]
  | EndObject n =>
    rcases fs with _ | ⟨_ | _ | _, r⟩ <;> simp [Frame.track] at h
    subst h
    simp [Frame.track, Event.isClose]
  | EndArray n =>
    rcases fs with _ | ⟨_ | _ | _, r⟩ <;> simp [Frame.track] at h
    subst h
    simp [Frame.track, Event.isClose]
  | _ => cases hb

theorem afterBegin_inv (sub : GenericSchemaValidator → Event → Option GenericSchemaValidator)
    (cl : Bool) (w w1 : GenericSchemaValidator) (e : Event) (fs : List Frame) (t : Context)
    (tail : List Context) (hst : w.schemaStack_ = t :: tail) (htl : Tracks fs tail)
    (h : afterBegin sub cl w e = some (w1, true)) :
    ∃ (c1 c2 : Context) (tail2 : List Context),
      t.schema.method t e = some (c1, true) ∧
      stepStack (fun x => sub x e) (c1 :: tail) = some (c2 :: tail2) ∧
      w1.schemaStack_ = (if cl then tail2 else c2 :: tail2) := by
  unfold afterBegin at h
  rcases hcur : w.HANDLE_CURRENT_ e with _ | ⟨vA, _ | _⟩
  · simp [hcur] at h
  · simp [hcur] at h
  · simp only [hcur] at h
    rcases hlog : HANDLE_LOGIC_ sub vA e with _ | vB
    · simp [hlog] at h
    · simp only [hlog] at h
      obtain ⟨c0, rest0, c1, hst0, hm, hstA, -, -, -⟩ := HANDLE_CURRENT_inv w vA e true hcur
      rw [hst] at hst0
      cases hst0
      obtain ⟨hstep, -, -, -⟩ := HANDLE_LOGIC_inv sub vA vB e hlog
      rw [hstA] at hstep
      obtain ⟨c2, tl, hB, hc, hs⟩ := stepStack_cons_inv _ c1 tail _ hstep
      refine ⟨c1, c2, tl, hm, by rw [hstep, hB], ?_⟩
      cases cl with
      | false =>
        simp only [Bool.false_eq_true, if_false, Option.some.injEq] at h ⊢
        have h1 : (vB.HANDLE_OUTPUT_ e).1 = w1 := by rw [h]
        subst h1
        exact hB
      | true =>
        simp only [if_true] at h ⊢
        obtain ⟨c3, rest3, hst3, -, -, hpop⟩ := HANDLE_END_inv vB w1 e h
        rw [hB] at hst3
        cases hst3
        exact hpop (tracks_noMulti fs _ (tracks_stepStack _ fs tail _ hs htl))

/-- The validators owned by the contexts below the context of a value that
begins are the ones owned before `BeginValue`. -/
theorem ready_owned (Q : List Frame → GenericSchemaValidator → Prop)
    (w : GenericSchemaValidator) (fs : List Frame) (S : BaseSchema) (st1 : List Context)
    (hI : Tracks fs w.schemaStack_) (hO : OwnedAll Q fs w.schemaStack_)
    (hr : (Frame.ready fs).isSome = true) (hb : w.BeginValue.2 = true)
    (hS : w.BeginValue.1.schemaStack_ = Context.make S :: st1) :
    OwnedAll Q fs st1 := by
  rcases hst : w.schemaStack_ with _ | ⟨t, tail⟩
  · rw [BeginValue_fresh w hst] at hS
    simp only [List.cons.injEq] at hS
    obtain ⟨-, rfl⟩ := hS
    intro i c hc
    simp at hc
  · rw [hst] at hI hO
    cases hI with
    | cons hf htl =>
      rename_i f r
      obtain ⟨hm, hcr, hh⟩ := hf
      have hready : t.inArray = true ∨ t.valueSchema.isSome = true := by
        cases f with
        | arr => exact Or.inl hh
        | key => simp [Frame.ready] at hr
        | val => exact Or.inr hh.2
      obtain ⟨S1, hS1⟩ := BeginValue_ready w t tail hst hready hb
      rw [hS1] at hS
      simp only [List.cons.injEq] at hS
      obtain ⟨-, rfl⟩ := hS
      intro i c hc x hx
      cases i with
      | zero =>
        simp only [List.getElem?_cons_zero, Option.some.injEq] at hc
        subst hc
        rw [bump_owned] at hx
        exact hO 0 t (by simp) x hx
      | succ j =>
        exact hO (j + 1) c (by simpa using hc) x hx

/-- One accepted event of a well-formed stream: the validators owned by the
contexts of the stack keep a property that the calls on them keep. -/
theorem handle_owned (sub : GenericSchemaValidator → Event → Option GenericSchemaValidator)
    (Q : List Frame → GenericSchemaValidator → Prop)
    (hQ : ∀ (gs gs1 : List Frame) (e : Event) (x x1 : GenericSchemaValidator), Q gs x →
      Frame.track gs e = some gs1 → sub x e = some x1 → Q gs1 x1)
    (hfresh : ∀ S, Q [] (ofRoot S))
    (w w1 : GenericSchemaValidator) (e : Event) (fs fs1 : List Frame)
    (hv : w.valid_ = true) (hI : Tracks fs w.schemaStack_) (hO : OwnedAll Q fs w.schemaStack_)
    (ha : Frame.track fs e = some fs1)
    (h : handleWith sub w e = some (w1, true)) : OwnedAll Q fs1 w1.schemaStack_ := by
  rw [handleWith_eq sub w e hv] at h
  rcases hbeg : e.isBegin with _ | _
  · simp only [hbeg, Bool.false_eq_true, if_false] at h
    rcases hst : w.schemaStack_ with _ | ⟨t, tail⟩
    · simp [afterBegin, HANDLE_CURRENT_, hst] at h
    · rw [hst] at hI hO
      cases hI with
      | cons hf htl =>
        rename_i f r
        obtain ⟨c1, c2, tail2, hmeth, hstep, hw1⟩ :=
          afterBegin_inv sub _ w w1 e r t tail hst htl h
        have hown : c1.owned = Context.owned t := by
          rw [method_owned t.schema t c1 e true hmeth, create_of_created t.schema t rfl hf.2.1]
        have key := stepStack_owned (fun x => sub x e)
          (fun i x => Q ((f :: r).take (i + 1)) x)
          (fun i x => Q (fs1.take (i + if e.isClose then 0 else 1)) x)
          (c1 :: tail) (c2 :: tail2) 0 hstep
          (fun i c hc x hx => by
            simp only [Nat.zero_add]
            cases i with
            | zero =>
              simp only [List.getElem?_cons_zero, Option.some.injEq] at hc
              subst hc
              rw [hown] at hx
              exact hO 0 t (by simp) x hx
            | succ j => exact hO (j + 1) c (by simpa using hc) x hx)
          (fun i x x1 _ hq hs => by
            simp only [Nat.zero_add] at hq ⊢
            exact hQ _ _ e x x1 hq (track_take_hi _ fs1 e hbeg ha i) hs)
        rw [hw1]
        intro i c hc x hx
        rcases hcl : e.isClose with _ | _
        · simp only [hcl, Bool.false_eq_true, if_false] at hc
          have := key i c hc x hx
          simpa [hcl] using this
        · simp only [hcl, if_true] at hc
          have := key (i + 1) c (by simpa using hc) x hx
          simpa [hcl] using this
  · simp only [hbeg, if_true] at h
    rcases hb : w.BeginValue.2 with _ | _
    · simp [hb] at h
    · simp only [hb, Bool.not_true, Bool.false_eq_true, if_false] at h
      have hready : ∃ fs2, Frame.ready fs = some fs2 := by
        rcases hr : Frame.ready fs with _ | fs2
        · cases e <;> first | (simp [Frame.track, hr] at ha; done) | contradiction
        · exact ⟨fs2, rfl⟩
      obtain ⟨fs2, hr⟩ := hready
      obtain ⟨S, st1, hS, hT⟩ := tracks_ready w fs fs2 hI hr hb
      have hO1 := ready_owned Q w fs S st1 hI hO (by rw [hr]; rfl) hb hS
      obtain ⟨c1, c2, tail2, hmeth, hstep, hw1⟩ :=
        afterBegin_inv sub _ _ w1 e fs2 _ st1 hS hT h
      have hown : c1.owned = (S.CreateLogicValidators (Context.make S)).owned :=
        method_owned _ _ c1 e true hmeth
      have key := stepStack_owned (fun x => sub x e)
        (fun i x => Q (fs.take i) x)
        (fun i x => Q (fs1.take (i + if e.isClose then 0 else 1)) x)
        (c1 :: st1) (c2 :: tail2) 0 hstep
        (fun i c hc x hx => by
          simp only [Nat.zero_add]
          cases i with
          | zero =>
            simp only [List.getElem?_cons_zero, Option.some.injEq] at hc
            subst hc
            rw [hown] at hx
            obtain ⟨S1, rfl⟩ := create_fresh S x hx
            simpa using hfresh S1
          | succ j => exact hO1 j c (by simpa using hc) x hx)
        (fun i x x1 _ hq hs => by
          simp only [Nat.zero_add] at hq ⊢
          exact hQ _ _ e x x1 hq (track_take_lo fs fs1 e hbeg ha i) hs)
      rw [hw1]
      intro i c hc x hx
      rcases hcl : e.isClose with _ | _
      · simp only [hcl, Bool.false_eq_true, if_false] at hc
        have := key i c hc x hx
        simpa [hcl] using this
      · simp only [hcl, if_true] at hc
        have := key (i + 1) c (by simpa using hc) x hx
        simpa [hcl] using this

theorem safeAt_fresh (n : Nat) (S : BaseSchema) : SafeAt n [] (ofRoot S) := by
  cases n with
  | zero => trivial
  | succ n =>
    intro _
    refine ⟨List.Forall₂.nil, ?_⟩
    intro i c hc
    simp [ofRoot, GenericSchemaValidator.make] at hc

/-- An event of a well-formed stream keeps a validator safe, to every depth. -/
theorem safeAt_step : ∀ (n m : Nat) (x x1 : GenericSchemaValidator) (e : Event) (r : Bool)
    (fs fs1 : List Frame), SafeAt n fs x → Frame.track fs e = some fs1 →
    handleWith (subAt m) x e = some (x1, r) → SafeAt n fs1 x1
  | 0, _, _, _, _, _, _, _, _, _, _ => trivial
  | n + 1, m, x, x1, e, r, fs, fs1, hS, ha, h => by
    intro hv1
    have hr : r = true := by rw [← handleWith_valid _ x e x1 r h]; exact hv1
    subst hr
    have hv := valid_of_handle _ x x1 e true h hv1
    obtain ⟨hT, hO⟩ := hS hv
    refine ⟨handle_tracks _ x x1 e fs fs1 hv hT ha h,
      handle_owned (subAt m) (SafeAt n) ?_ (safeAt_fresh n) x x1 e fs fs1 hv hT hO ha h⟩
    intro gs gs1 e1 y y1 hy hg hs
    cases m with
    | zero => cases hs
    | succ k =>
      simp only [subAt, Option.map_eq_some'] at hs
      obtain ⟨⟨y2, r2⟩, h2, rfl⟩ := hs
      exact safeAt_step n k y y2 e1 r2 gs gs1 hy hg h2

/-- The events of a well-formed stream keep a validator safe, to every depth. -/
theorem safeAt_feed (n m : Nat) (es : List Event) :
    ∀ (w w1 : GenericSchemaValidator) (rs : List Bool) (fs fs1 : List Frame),
      SafeAt n fs w → Frame.trackAll fs es = some fs1 →
      feedWith (subAt m) w es = some (w1, rs) → SafeAt n fs1 w1 := by
  induction es with
  | nil =>
    intro w w1 rs fs fs1 hS ha h
    simp only [feedWith, Option.some.injEq, Prod.mk.injEq] at h
    simp only [Frame.trackAll, Option.some.injEq] at ha
    obtain ⟨rfl, -⟩ := h
    subst ha
    exact hS
  | cons e es ih =>
    intro w w1 rs fs fs1 hS ha h
    obtain ⟨wa, r, rsa, h1, h2, -⟩ := feedWith_cons_inv _ w w1 e es rs h
    simp only [Frame.trackAll] at ha
    rcases ht : Frame.track fs e with _ | fs2
    · simp [ht] at ha
    · simp only [ht, Option.some_bind] at ha
      exact ih wa w1 rsa fs2 fs1 (safeAt_step n m w wa e r fs fs2 hS ht h1) ha h2


theorem safeAt_one (n : Nat) (gs : List Frame) (x : GenericSchemaValidator)
    (h : SafeAt (n + 1) gs x) : SafeAt 1 gs x :=
  fun hv => ⟨(h hv).1, fun _ _ _ _ _ => trivial⟩

/-- The validators within a safe validator are safe with open containers from
which the next event of the stream can come. -/
theorem within_safe (e : Event) : ∀ (n : Nat) (gs : List Frame) (x : GenericSchemaValidator),
    SafeAt (n + 1) gs x → (Frame.track gs e).isSome = true →
    ∀ y ∈ within n x, ∃ gs1, (Frame.track gs1 e).isSome = true ∧ SafeAt 1 gs1 y
  | 0, gs, x, hS, hT, y, hy => by
    simp only [within, List.mem_singleton] at hy
    subst hy
    exact ⟨gs, hT, hS⟩
  | n + 1, gs, x, hS, hT, y, hy => by
    simp only [within, List.mem_cons] at hy
    rcases hy with rfl | hy
    · exact ⟨gs, hT, safeAt_one (n + 1) gs _ hS⟩
    · rcases hv : x.valid_ with _ | _
      · simp [hv] at hy
      · simp only [hv, if_true, List.mem_flatMap] at hy
        obtain ⟨c, hc, z, hz, hyz⟩ := hy
        obtain ⟨i, hi⟩ := List.mem_iff_getElem?.mp hc
        obtain ⟨-, hO⟩ := hS hv
        have hSz : SafeAt (n + 1) (gs.take (i + 1)) z := hO i c hi z hz
        have hTz : (Frame.track (gs.take (i + 1)) e).isSome = true := by
          obtain ⟨gs1, hg⟩ := Option.isSome_iff_exists.mp hT
          rcases hb : e.isBegin with _ | _
          · rw [track_take_hi gs gs1 e hb hg i]; rfl
          · rw [track_take_lo gs gs1 e hb hg (i + 1)]; rfl
        exact within_safe e n _ z hSz hTz y hyz

theorem tracks_created (fs : List Frame) (st : List Context) (h : Tracks fs st) :
    ∀ c ∈ st, Context.CreatedSized c := by
  intro c hc
  induction h with
  | nil => cases hc
  | cons hf _ ih =>
    rcases List.mem_cons.mp hc with rfl | hc
    · exact hf.2.1
    · exact ih hc

end GenericSchemaValidator

theorem AddType_nameBits (s : String) : AddType 0 (.str s) = nameBits s := by
  rw [AddType_str]
  unfold nameBits
  split_ifs <;> rfl

theorem AddType_nonString (x : Json) (h : ∀ s, x ≠ .str s) : AddType 0 x = 0 := by
  cases x with
  | str s => exact absurd rfl (h s)
  | null => simp [AddType, Json.eq]
  | bool b => simp [AddType, Json.eq]
  | int i => simp [AddType, Json.eq]
  | double d => simp [AddType, Json.eq]
  | arr xs => simp [AddType, Json.eq]
  | obj ms => simp [AddType, Json.eq]

theorem foldl_nameBits (names : List String) :
    ∀ m : Nat, names.foldl (fun (m : Nat) (s : String) => m ||| nameBits s) m
      = m ||| maskOfNames names := by
  induction names with
  | nil => intro m; simp [maskOfNames]
  | cons s names ih =>
    intro m
    unfold maskOfNames
    rw [List.foldl_cons, List.foldl_cons, ih, ih (0 ||| nameBits s), Nat.zero_or, Nat.or_assoc]

/-- The loop of `AddType` over the elements of an array gives the union of the
bits of the strings among them. -/
theorem foldl_AddType_names : ∀ (xs : List Json) (m : Nat),
    xs.foldl AddType m = m ||| maskOfNames (namesGiven (.arr xs))
  | [], m => by simp [namesGiven, maskOfNames]
  | x :: xs, m => by
    rw [List.foldl_cons, foldl_AddType_names xs, AddType_or]
    cases x with
    | str s =>
      have : namesGiven (.arr (.str s :: xs)) = s :: namesGiven (.arr xs) := rfl
      rw [this, AddType_nameBits]
      conv_rhs => rw [maskOfNames, List.foldl_cons, foldl_nameBits, Nat.zero_or]
      rw [Nat.or_assoc]
    | null =>
      have : namesGiven (.arr (.null :: xs)) = namesGiven (.arr xs) := rfl
      rw [this, AddType_nonString _ (fun s h => by cases h), Nat.or_zero]
    | bool b =>
      have : namesGiven (.arr (.bool b :: xs)) = namesGiven (.arr xs) := rfl
      rw [this, AddType_nonString _ (fun s h => by cases h), Nat.or_zero]
    | int i =>
      have : namesGiven (.arr (.int i :: xs)) = namesGiven (.arr xs) := rfl
      rw [this, AddType_nonString _ (fun s h => by cases h), Nat.or_zero]
    | double d =>
      have : namesGiven (.arr (.double d :: xs)) = namesGiven (.arr xs) := rfl
      rw [this, AddType_nonString _ (fun s h => by cases h), Nat.or_zero]
    | arr ys =>
      have : namesGiven (.arr (.arr ys :: xs)) = namesGiven (.arr xs) := rfl
      rw [this, AddType_nonString _ (fun s h => by cases h), Nat.or_zero]
    | obj ms =>
      have : namesGiven (.arr (.obj ms :: xs)) = namesGiven (.arr xs) := rfl
      rw [this, AddType_nonString _ (fun s h => by cases h), Nat.or_zero]

/-- The mask a `type` member gives is the union of the bits of the names it
gives. -/
theorem typeMask_names (ms : List (String × Json)) (v : Json)
    (h : GetMember ms "type" = some v) : typeMask ms = maskOfNames (namesGiven v) := by
  simp only [typeMask, h]
  cases v with
  | str s =>
    simp only [Json.IsString, if_true]
    rw [AddType_nameBits]
    simp [namesGiven, maskOfNames]
  | arr xs =>
    simp only [Json.IsString, Json.IsArray, Bool.false_eq_true, if_false, if_true, Json.elements]
    rw [foldl_AddType_names, Nat.zero_or]
  | null => rfl
  | bool b => rfl
  | int i => rfl
  | double d => rfl
  | obj ms1 => rfl

theorem nameBits_testBit (s : String) (k : Nat) :
    (nameBits s).testBit k = (decide (k < 7) && namesSetBit [s] k) := by
  by_cases hk : k < 7
  · rw [← AddType_nameBits, AddType_str_testBit s k hk]
    simp [hk]
  · have hlt : nameBits s < 2 ^ 7 := by
      unfold nameBits
      split_ifs <;> decide
    have hk7 : 7 ≤ k := by omega
    rw [Nat.testBit_lt_two_pow (lt_of_lt_of_le hlt (Nat.pow_le_pow_right (by decide) hk7))]
    simp [hk]

/-- The bits of the union of the bits of a list of names: bit `k` is set when
`k` is one of the seven kinds and a name of the list sets it. -/
theorem maskOfNames_testBit (names : List String) (k : Nat) :
    (maskOfNames names).testBit k = (decide (k < 7) && namesSetBit names k) := by
  induction names with
  | nil =>
    have : maskOfNames [] = 0 := rfl
    rw [this, Nat.zero_testBit]
    by_cases hk : k < 7
    · interval_cases k <;> rfl
    · simp [hk]
  | cons s names ih =>
    have : maskOfNames (s :: names) = nameBits s ||| maskOfNames names := by
      unfold maskOfNames
      rw [List.foldl_cons, foldl_nameBits, Nat.zero_or]
      rfl
    rw [this, Nat.testBit_or, ih, nameBits_testBit, namesSetBit_cons s names k,
      Bool.and_or_distrib_left]

/-! ## The claims -/

/-- C1, sticky failure: in every state of a validator of every schema in which
`IsValid()` is false, every event method with any payload returns false and
leaves the whole validator as it was, so the flag, the context stack, the
validators the contexts own and the events the output handler received; the
same holds for every sequence of events; `Reset` makes the validator valid
again, with an empty context stack. -/
theorem sticky_failure (fuel : Nat) (v : GenericSchemaValidator) (h : v.IsValid = false) :
    (∀ e, GenericSchemaValidator.handle fuel v e = some (v, false)) ∧
    (∀ es, GenericSchemaValidator.feed fuel v es = some (v, List.replicate es.length false)) ∧
    v.Reset.IsValid = true ∧ v.Reset.schemaStack_ = [] :=
  ⟨fun e => GenericSchemaValidator.handleWith_of_invalid _ v e h,
   fun es => GenericSchemaValidator.feedWith_of_invalid _ v h es, rfl, rfl⟩

/-- The validator of `{"type":"integer"}` fails on `String("x")`, and in the
state it reaches a `Null` and an `Int(1)` return false and change nothing. -/
theorem sticky_failure_witness :
    GenericSchemaValidator.handle 0 (GenericSchemaValidator.ofRoot integerSchema)
        (.String_ "x" false) = some (failedValidator, false) ∧
    failedValidator.IsValid = false ∧
    GenericSchemaValidator.handle 0 failedValidator .Null = some (failedValidator, false) ∧
    GenericSchemaValidator.feed 0 failedValidator [.Null, .Int_ 1]
      = some (failedValidator, [false, false]) ∧
    failedValidator.Reset.IsValid = true :=
  ⟨rfl, rfl, (sticky_failure 0 failedValidator rfl).1 .Null,
   (sticky_failure 0 failedValidator rfl).2.1 [.Null, .Int_ 1],
   (sticky_failure 0 failedValidator rfl).2.2.1⟩

/-- C2, typeless schemas accept everything: a schema value that is the empty
object or is not an object compiles to the typeless node, and a fresh validator
of it whose output handler accepts every event returns true for every event of
every well-formed document, forwards each event, and ends valid with an empty
context stack. -/
theorem typeless_accepts_everything (rx : RegexEngine) (j : Json) (d : Doc)
    (out : OutputHandler) (fuel : Nat) (hj : j = Json.obj [] ∨ j.IsObject = false)
    (hd : d.fits = true) (hout : ∀ h e, out.answer h e = true) :
    GenericSchema.make rx j = some typeless ∧
    GenericSchemaValidator.feed fuel (GenericSchemaValidator.make typeless out) d.events
      = some (⟨typeless, out.receive d.events, [], true⟩,
          List.replicate d.events.length true) ∧
    validateWith fuel typeless out d = some true := by
  have hrun : GenericSchemaValidator.feed fuel (GenericSchemaValidator.make typeless out)
      d.events = some (⟨typeless, out.receive d.events, [], true⟩,
          List.replicate d.events.length true) := by
    obtain ⟨vF, rs, h1, h2, h3⟩ :=
      GenericSchemaValidator.type_run (GenericSchemaValidator.subAt fuel) d hd 127 out hout
    rw [admits_full] at h2
    obtain ⟨h4, h5⟩ := h3 h2
    rw [h4, h5] at h1
    exact h1
  refine ⟨?_, hrun, ?_⟩
  · rcases hj with rfl | h
    · exact make_empty rx
    · exact make_nonObject rx j h
  · simp [validateWith, hrun, GenericSchemaValidator.IsValid]

/-- The schema `{}` on the document `[1, {"a": null}, "x"]`. -/
theorem typeless_accepts_everything_witness :
    sampleDocument.fits = true ∧
    GenericSchema.make noRegex (.obj []) = some typeless ∧
    GenericSchemaValidator.feed 0 (GenericSchemaValidator.make typeless nullOutputHandler_)
        sampleDocument.events
      = some (⟨typeless, nullOutputHandler_.receive sampleDocument.events, [], true⟩,
          List.replicate sampleDocument.events.length true) ∧
    validateWith 0 typeless nullOutputHandler_ sampleDocument = some true :=
  ⟨by decide, typeless_accepts_everything noRegex (.obj []) sampleDocument nullOutputHandler_ 0
    (Or.inl rfl) (by decide) (fun _ _ => rfl)⟩

/-- C3, `allOf` is conjunction: a schema whose only keyword is `allOf` with the
schemas `S1..Sn`, `n ≥ 0`, compiles to the node that has these children and no
other constraint, and a fresh validator of it reports a well-formed document
valid exactly when a fresh validator of every `Si`, on its own, reports the
document valid; with the empty list every document is valid. Each `Si` is one
that comes to a verdict on the document on its own. -/
theorem allOf_conjunction (rx : RegexEngine) (js : List Json) (Ss : List BaseSchema) (d : Doc)
    (fuel : Nat) (hmake : makeList rx js = some Ss) (hd : d.fits = true)
    (hsub : ∀ S ∈ Ss, (validate fuel S d).isSome = true) :
    GenericSchema.make rx (.obj [("allOf", .arr js)])
      = some (logicSchema 127 (if Ss.isEmpty then none else some Ss) none none none) ∧
    validate (fuel + 1) (logicSchema 127 (if Ss.isEmpty then none else some Ss) none none none) d
      = some (Ss.all (verdictOf fuel d)) ∧
    (js = [] → validate (fuel + 1)
      (logicSchema 127 (if Ss.isEmpty then none else some Ss) none none none) d = some true) := by
  have hv : validate (fuel + 1)
      (logicSchema 127 (if Ss.isEmpty then none else some Ss) none none none) d
      = some (Ss.all (verdictOf fuel d)) := by
    unfold validate
    rw [GenericSchemaValidator.logic_validate fuel d hd 127 _ none none none nullOutputHandler_
      (fun _ _ => rfl)
      (fun Ss1 h S hS => by
        cases Ss with
        | nil => simp at h
        | cons a l =>
          simp only [List.isEmpty_cons, Bool.false_eq_true, if_false, Option.some.injEq] at h
          subst h; exact hsub S hS)
      (fun _ h => by cases h) (fun _ h => by cases h) (fun _ h => by cases h), admits_full]
    cases Ss with
    | nil => simp [combine]
    | cons a l => simp [combine, GenericSchemaValidator.all_map_id]
  refine ⟨?_, hv, ?_⟩
  · rw [GenericSchema.make, make_allOf, hmake]; rfl
  · intro hjs
    subst hjs
    simp only [makeList, Option.some.injEq] at hmake
    subst hmake
    rw [hv]; rfl

/-- The schema `{"allOf":[{"type":"integer"},{"type":"number"}]}` accepts the
integer 3. -/
theorem allOf_conjunction_witness :
    makeList noRegex integerNumberJson = some integerNumberSchemas ∧
    (Doc.Int_ 3).fits = true ∧
    validate 1 (logicSchema 127 (some integerNumberSchemas) none none none) (.Int_ 3)
      = some true :=
  ⟨rfl, rfl, (allOf_conjunction noRegex integerNumberJson integerNumberSchemas (.Int_ 3) 0 rfl rfl
    (fun S hS => by
      simp only [integerNumberSchemas, List.mem_cons, List.mem_singleton, List.not_mem_nil,
        or_false] at hS
      rcases hS with rfl | rfl <;> rfl)).2.1.trans rfl⟩

/-- C4, `anyOf` is disjunction: a schema whose only keyword is `anyOf` with a
non-empty list of schemas `S1..Sn` compiles to the node that has these children
and no other constraint, and a fresh validator of it reports a well-formed
document valid exactly when a fresh validator of at least one `Si`, on its own,
reports the document valid. Each `Si` is one that comes to a verdict on the
document on its own. -/
theorem anyOf_disjunction (rx : RegexEngine) (js : List Json) (Ss : List BaseSchema) (d : Doc)
    (fuel : Nat) (hjs : js ≠ []) (hmake : makeList rx js = some Ss) (hd : d.fits = true)
    (hsub : ∀ S ∈ Ss, (validate fuel S d).isSome = true) :
    GenericSchema.make rx (.obj [("anyOf", .arr js)])
      = some (logicSchema 127 none (some Ss) none none) ∧
    validate (fuel + 1) (logicSchema 127 none (some Ss) none none) d
      = some (Ss.any (verdictOf fuel d)) := by
  have hne : Ss.isEmpty = false := by
    have hl := makeList_length rx js Ss hmake
    cases Ss with
    | nil => cases js with
      | nil => exact absurd rfl hjs
      | cons a l => simp at hl
    | cons a l => rfl
  refine ⟨?_, ?_⟩
  · rw [GenericSchema.make, make_anyOf, hmake]; simp [hne]
  · unfold validate
    rw [GenericSchemaValidator.logic_validate fuel d hd 127 none (some Ss) none none
      nullOutputHandler_ (fun _ _ => rfl) (fun _ h => by cases h)
      (fun Ss1 h S hS => by cases h; exact hsub S hS)
      (fun _ h => by cases h) (fun _ h => by cases h), admits_full]
    simp [combine, GenericSchemaValidator.any_map_id]

/-- The schema `{"anyOf":[{"type":"integer"},{"type":"number"}]}` accepts the
integer 3. -/
theorem anyOf_disjunction_witness :
    integerNumberJson ≠ [] ∧
    makeList noRegex integerNumberJson = some integerNumberSchemas ∧
    (Doc.Int_ 3).fits = true ∧
    validate 1 (logicSchema 127 none (some integerNumberSchemas) none none) (.Int_ 3)
      = some true :=
  ⟨List.cons_ne_nil _ _, rfl, rfl,
    (anyOf_disjunction noRegex integerNumberJson integerNumberSchemas (.Int_ 3) 0
      (List.cons_ne_nil _ _)
      rfl rfl
      (fun S hS => by
        simp only [integerNumberSchemas, List.mem_cons, List.mem_singleton, List.not_mem_nil,
          or_false] at hS
        rcases hS with rfl | rfl <;> rfl)).2.trans rfl⟩

/-- C5, `oneOf` is exactly-one: a schema whose only keyword is `oneOf` with a
non-empty list of schemas `S1..Sn` compiles to the node that has these children
and no other constraint, and a fresh validator of it reports a well-formed
document valid exactly when exactly one index `i` has a fresh validator of
`Si`, on its own, report the document valid; so `oneOf:[S]` reports what `S`
reports. Each `Si` is one that comes to a verdict on the document on its own. -/
theorem oneOf_exactly_one (rx : RegexEngine) (js : List Json) (Ss : List BaseSchema) (d : Doc)
    (fuel : Nat) (hjs : js ≠ []) (hmake : makeList rx js = some Ss) (hd : d.fits = true)
    (hsub : ∀ S ∈ Ss, (validate fuel S d).isSome = true) :
    GenericSchema.make rx (.obj [("oneOf", .arr js)])
      = some (logicSchema 127 none none (some Ss) none) ∧
    validate (fuel + 1) (logicSchema 127 none none (some Ss) none) d
      = some ((Ss.map (verdictOf fuel d)).count true == 1) ∧
    (∀ S, Ss = [S] →
      validate (fuel + 1) (logicSchema 127 none none (some Ss) none) d = validate fuel S d) := by
  have hne : Ss.isEmpty = false := by
    have hl := makeList_length rx js Ss hmake
    cases Ss with
    | nil => cases js with
      | nil => exact absurd rfl hjs
      | cons a l => simp at hl
    | cons a l => rfl
  have hv : validate (fuel + 1) (logicSchema 127 none none (some Ss) none) d
      = some ((Ss.map (verdictOf fuel d)).count true == 1) := by
    unfold validate
    rw [GenericSchemaValidator.logic_validate fuel d hd 127 none none (some Ss) none
      nullOutputHandler_ (fun _ _ => rfl) (fun _ h => by cases h) (fun _ h => by cases h)
      (fun Ss1 h S hS => by cases h; exact hsub S hS) (fun _ h => by cases h), admits_full]
    simp [combine]
  refine ⟨?_, hv, ?_⟩
  · rw [GenericSchema.make, make_oneOf, hmake]; simp [hne]
  · intro S hS
    rw [hv]
    subst hS
    have h1 := hsub S (List.mem_singleton.mpr rfl)
    rcases hr : validate fuel S d with _ | b
    · simp [hr] at h1
    · cases b <;> simp [verdictOf, hr]

/-- The schema `{"oneOf":[{"type":"integer"},{"type":"number"}]}` rejects the
integer 3. -/
theorem oneOf_exactly_one_witness :
    integerNumberJson ≠ [] ∧
    makeList noRegex integerNumberJson = some integerNumberSchemas ∧
    (Doc.Int_ 3).fits = true ∧
    GenericSchema.make noRegex (.obj [("oneOf", .arr integerNumberJson)])
      = some (logicSchema 127 none none (some integerNumberSchemas) none) ∧
    validate 1 (logicSchema 127 none none (some integerNumberSchemas) none) (.Int_ 3)
      = some false :=
  ⟨List.cons_ne_nil _ _, rfl, rfl,
    (oneOf_exactly_one noRegex integerNumberJson integerNumberSchemas (.Int_ 3) 0
      (List.cons_ne_nil _ _)
      rfl rfl
      (fun S hS => by
        simp only [integerNumberSchemas, List.mem_cons, List.mem_singleton, List.not_mem_nil,
          or_false] at hS
        rcases hS with rfl | rfl <;> rfl)).1,
    (oneOf_exactly_one noRegex integerNumberJson integerNumberSchemas (.Int_ 3) 0
      (List.cons_ne_nil _ _)
      rfl rfl
      (fun S hS => by
        simp only [integerNumberSchemas, List.mem_cons, List.mem_singleton, List.not_mem_nil,
          or_false] at hS
        rcases hS with rfl | rfl <;> rfl)).2.1.trans rfl⟩

/-- C6, `not` is negation: a schema whose only keyword is `not` with the child
`S` compiles to the node that has this child and no other constraint, and a
fresh validator of it reports a well-formed document valid exactly when a fresh
validator of `S`, on its own, reports the document not valid. `S` is one that
comes to a verdict on the document on its own. -/
theorem not_negation (rx : RegexEngine) (j : Json) (S : BaseSchema) (d : Doc) (fuel : Nat)
    (hmake : BaseSchema.make rx j = some S) (hd : d.fits = true)
    (hsub : (validate fuel S d).isSome = true) :
    GenericSchema.make rx (.obj [("not", j)]) = some (logicSchema 127 none none none (some S)) ∧
    validate (fuel + 1) (logicSchema 127 none none none (some S)) d
      = some (validate fuel S d == some false) := by
  refine ⟨?_, ?_⟩
  · rw [GenericSchema.make, make_not, hmake]; rfl
  · unfold validate
    rw [GenericSchemaValidator.logic_validate fuel d hd 127 none none none (some S)
      nullOutputHandler_ (fun _ _ => rfl) (fun _ h => by cases h) (fun _ h => by cases h)
      (fun _ h => by cases h) (fun S1 h => by cases h; exact hsub), admits_full]
    rcases hr : validate fuel S d with _ | b
    · simp [hr] at hsub
    · have hr1 : validateWith fuel S nullOutputHandler_ d = some b := hr
      cases b <;> simp [combine, verdictOf, hr, hr1]

/-- The schema `{"not":{"type":"string"}}` accepts 7. -/
theorem not_negation_witness :
    BaseSchema.make noRegex (.obj [("type", .str "string")]) = some stringSchema ∧
    (Doc.Uint 7).fits = true ∧
    GenericSchema.make noRegex (.obj [("not", .obj [("type", .str "string")])])
      = some (logicSchema 127 none none none (some stringSchema)) ∧
    validate 1 (logicSchema 127 none none none (some stringSchema)) (.Uint 7) = some true :=
  ⟨rfl, rfl,
    (not_negation noRegex (.obj [("type", .str "string")]) stringSchema (.Uint 7) 0 rfl rfl rfl).1,
    (not_negation noRegex (.obj [("type", .str "string")]) stringSchema (.Uint 7) 0 rfl rfl
      rfl).2.trans rfl⟩

/-- C7, the `type` keyword: a schema whose only keyword is `type`, given as a
string or as an array of strings that name the set `L`, compiles to the node
with the mask of `L` and no other constraint, and a fresh validator of it
reports a well-formed document valid exactly when `L` admits the kind of the
root value: null, boolean, object, array and string when their name is in `L`,
an integer event when `integer` or `number` is in `L`, a double when `number`
is in `L`. The values inside the root value have no part in the verdict. -/
theorem type_keyword (rx : RegexEngine) (names : List String) (v : Json) (d : Doc) (fuel : Nat)
    (hv : v = .arr (names.map Json.str) ∨ ∃ name, names = [name] ∧ v = .str name)
    (hd : d.fits = true) :
    GenericSchema.make rx (.obj [("type", v)])
      = some (logicSchema (typeMask [("type", v)]) none none none none) ∧
    validate fuel (logicSchema (typeMask [("type", v)]) none none none none) d
      = some (admitsNames names d.first) := by
  have hmask : typeMask [("type", v)] = typeMask [("type", .arr (names.map Json.str))] := by
    rcases hv with rfl | ⟨name, rfl, rfl⟩
    · rfl
    · exact typeMask_str name
  refine ⟨make_type rx v, ?_⟩
  rw [hmask]
  obtain ⟨vF, rs, h1, h2, -⟩ := GenericSchemaValidator.type_run
    (GenericSchemaValidator.subAt fuel) d hd (typeMask [("type", .arr (names.map Json.str))])
    nullOutputHandler_ (fun _ _ => rfl)
  have hfirst : d.first.isScalar = true ∨ d.first = .StartObject ∨ d.first = .StartArray := by
    cases d <;> simp [Doc.first, Event.isScalar]
  rw [admits_typeMask names d.first hfirst] at h2
  simp [validate, validateWith, GenericSchemaValidator.feed, h1, GenericSchemaValidator.IsValid,
    h2]

/-- The schema `{"type":["string","number"]}` accepts the integer 3. -/
theorem type_keyword_witness :
    (Doc.Uint 3).fits = true ∧
    validate 0 (logicSchema (typeMask [("type", .arr [.str "string", .str "number"])])
      none none none none) (.Uint 3) = some true :=
  ⟨rfl, (type_keyword noRegex ["string", "number"] (.arr [.str "string", .str "number"])
    (.Uint 3) 0 (Or.inl rfl) rfl).2.trans (by decide)⟩

/-- C8, at the input where the code leaves the claim: the validator of the
schema `{"enum":[1]}` reports the document `{}` valid, and the document `[]`
too, although neither is equal to 1. No method of an object or of an array
reads the `enum` of the schema. -/
theorem enum_not_checked_for_containers :
    (GenericSchema.make noRegex enumOneSchema).bind (fun root => validate 0 root (.Object []))
      = some true ∧
    (GenericSchema.make noRegex enumOneSchema).bind (fun root => validate 0 root (.Array []))
      = some true ∧
    Json.eq (Doc.value (.Object [])) (.int 1) = false ∧
    Json.eq (Doc.value (.Array [])) (.int 1) = false ∧
    (GenericSchema.make noRegex enumOneSchema).bind (fun root => validate 0 root (.Uint 2))
      = some false := by
  refine ⟨?_, ?_, ?_, ?_, ?_⟩ <;> decide

/-- C9, at the input where the code leaves the claim: with the schema
`{"properties":{"a":{},"b":{}},"required":["a","b"]}`, in which `b` is declared
and required, the document `{"a":1,"a":2}`, which has no key `b`, is reported
valid. -/
theorem required_missing_accepted :
    (GenericSchema.make noRegex requiredABSchema).map
        (fun root => root.properties_.map (fun p => (p.name, p.required)))
      = some [("a", true), ("b", true)] ∧
    (GenericSchema.make noRegex requiredABSchema).map (fun root => root.requiredCount_)
      = some 2 ∧
    (GenericSchema.make noRegex requiredABSchema).bind
        (fun root => validate 0 root duplicateKeyDocument) = some true := by
  refine ⟨?_, ?_, ?_⟩ <;> decide

/-- C10, at the inputs where the code leaves the claim: with the schema
`{"properties":{"a":{}},"required":["a"]}` the document `{"a":1,"a":2}`, in
which the one required property occurs, is reported not valid, and with the
schema `{"properties":{"a":{}},"required":["a","a"]}` so is the document
`{"a":1}`; the same documents are valid without the `required` keyword. -/
theorem required_present_rejected :
    (GenericSchema.make noRegex requiredASchema).bind
        (fun root => validate 0 root duplicateKeyDocument) = some false ∧
    (GenericSchema.make noRegex requiredAASchema).bind
        (fun root => validate 0 root singleKeyDocument) = some false ∧
    (GenericSchema.make noRegex (.obj [("properties", .obj [("a", .obj [])])])).bind
        (fun root => validate 0 root duplicateKeyDocument) = some true ∧
    (GenericSchema.make noRegex (.obj [("properties", .obj [("a", .obj [])])])).bind
        (fun root => validate 0 root singleKeyDocument) = some true := by
  refine ⟨?_, ?_, ?_, ?_⟩ <;> decide

/-- C11, named properties: a schema whose only keyword is `properties`,
declaring distinct names with schemas, compiles to the node with these
properties and nothing else; a fresh validator of it reports a well-formed
object document valid exactly when, for every member whose key is a declared
name, the value is valid by a fresh validator of the schema of that name on the
value alone (members with other keys are unconstrained), and it reports every
well-formed document that is not an object valid. -/
theorem named_properties (rx : RegexEngine) (ms pj : List (String × Json))
    (props : List (String × BaseSchema)) (dms : List ((String × Bool) × Doc)) (fuel : Nat)
    (honly : onlyKeywords ["properties"] ms = true)
    (hprops : GetMember ms "properties" = some (.obj pj))
    (hmake : makeMembers rx pj = some props)
    (hnodup : (pj.map Prod.fst).Nodup)
    (hfit : (Doc.Object dms).fits = true)
    (hsub : ∀ m ∈ dms, ∀ p ∈ props, p.1 = m.1.1 → (validate fuel p.2 m.2).isSome = true) :
    GenericSchema.make rx (.obj ms) = some (objectSchema 127 props none true) ∧
    props.map Prod.fst = pj.map Prod.fst ∧
    validate fuel (objectSchema 127 props none true) (.Object dms)
      = some (decide (∀ m ∈ dms, ∀ p ∈ props, p.1 = m.1.1 → verdictOf fuel m.2 p.2 = true)) ∧
    (∀ d : Doc, d.fits = true → (∀ xs, d ≠ .Object xs) →
      validate fuel (objectSchema 127 props none true) d = some true) := by
  have hnames := GenericSchemaValidator.makeMembers_names rx pj props hmake
  have hfits : ∀ m ∈ dms, m.2.fits = true := by
    simp only [Doc.fits, Bool.and_eq_true, decide_eq_true_eq] at hfit
    exact GenericSchemaValidator.fits_of_mem_members dms hfit.2
  refine ⟨?_, hnames, ?_, ?_⟩
  · have honly3 := GenericSchemaValidator.only_mono ["properties"]
      ["type", "properties", "additionalProperties"] ms honly (by decide)
    have htype := absent_of_only ["properties"] ms honly "type" (by decide) (by decide)
    have hadd := absent_of_only ["properties"] ms honly "additionalProperties" (by decide)
      (by decide)
    have hP : makeMembersAt rx "properties" ms = some (some props) := by
      rw [makeMembersAt_of_get, hprops]
      simp only [hmake, Option.map_some']
    have hA : additionalPart rx ms = some none := by
      simp only [additionalPart, hadd]
    have h := GenericSchemaValidator.make_object rx ms (some props) none honly3 hP hA
    rw [GenericSchema.make, h]
    simp only [typeMask, htype, AssignIfExistBool, hadd, Option.getD_some]
    rfl
  · rw [GenericSchemaValidator.object_node fuel 127 props none true
      (GenericSchemaValidator.typeless_hasType kObjectSchemaType (by decide)) dms hfit ?_]
    · rw [GenericSchemaValidator.members_all_iff fuel props (hnames ▸ hnodup) dms hfits]
    · intro m hm S hS
      simp only [selected] at hS
      rcases hl : props.lookup m.1.1 with _ | S1
      · simp only [hl, if_true, Option.some.injEq] at hS
        subst hS
        rw [GenericSchemaValidator.validate_typeless fuel m.2 (hfits m hm)]; rfl
      · simp only [hl, Option.some.injEq] at hS
        subst hS
        exact hsub m hm (m.1.1, S1) (GenericSchemaValidator.lookup_mem _ props S1 hl) rfl
  · intro d hd hno
    exact GenericSchemaValidator.nonobject_valid fuel _ ⟨rfl, rfl, rfl, rfl⟩ rfl rfl rfl rfl rfl
      rfl rfl rfl rfl rfl rfl rfl rfl rfl d hd hno

/-- The schema `{"properties":{"a":{"type":"string"}}}` accepts `{"a":"x","b":1}`
and rejects `{"a":1}`. -/
theorem named_properties_witness :
    onlyKeywords ["properties"] namedPropertyJson = true ∧
    GenericSchema.make noRegex (.obj namedPropertyJson)
      = some (objectSchema 127 [("a", stringSchema)] none true) ∧
    validate 0 (objectSchema 127 [("a", stringSchema)] none true)
      (.Object [(("a", true), .String_ "x" true), (("b", true), .Uint 1)]) = some true ∧
    validate 0 (objectSchema 127 [("a", stringSchema)] none true)
      (.Object [(("a", true), .Uint 1)]) = some false :=
  have h1 := named_properties noRegex namedPropertyJson [("a", .obj [("type", .str "string")])]
    [("a", stringSchema)] [(("a", true), .String_ "x" true), (("b", true), .Uint 1)] 0
    (by decide) rfl rfl (by decide) rfl
    (fun m hm p hp _ => by
      simp only [List.mem_cons, List.mem_singleton, List.not_mem_nil, or_false] at hm hp
      subst hp
      rcases hm with rfl | rfl <;> rfl)
  have h2 := named_properties noRegex namedPropertyJson [("a", .obj [("type", .str "string")])]
    [("a", stringSchema)] [(("a", true), .Uint 1)] 0
    (by decide) rfl rfl (by decide) rfl
    (fun m hm p hp _ => by
      simp only [List.mem_cons, List.mem_singleton, List.not_mem_nil, or_false] at hm hp
      subst hp
      subst hm
      rfl)
  ⟨by decide, h1.1, h1.2.2.1.trans (by decide), h2.2.2.1.trans (by decide)⟩

/-- C12, dependencies: a schema whose keywords are `properties`, declaring
distinct names with the empty schema, and `dependencies`, an object that maps
distinct declared names to arrays of declared names, compiles to the node with
these properties and dependency bits; a fresh validator of it reports a
well-formed object document valid exactly when, for every key `s` of the
document that has a dependency array, every name `t` of that array is also a
key of the document. -/
theorem dependencies_between_properties (rx : RegexEngine) (ms : List (String × Json))
    (names : List String) (deps : List (String × List String))
    (dms : List ((String × Bool) × Doc)) (fuel : Nat)
    (honly : onlyKeywords ["properties", "dependencies"] ms = true)
    (hprops : GetMember ms "properties" = some (.obj (emptyProperties names)))
    (hdeps : GetMember ms "dependencies" = some (.obj (dependenciesJson deps)))
    (hn : names.Nodup) (hd : (deps.map Prod.fst).Nodup)
    (hdecl : ∀ d ∈ deps, d.1 ∈ names ∧ ∀ t ∈ d.2, t ∈ names)
    (hfit : (Doc.Object dms).fits = true) :
    GenericSchema.make rx (.obj ms) = some (dependenciesSchema names deps) ∧
    validate fuel (dependenciesSchema names deps) (.Object dms)
      = some (decide (∀ d ∈ deps, d.1 ∈ dms.map (fun m => m.1.1) →
          ∀ t ∈ d.2, t ∈ dms.map (fun m => m.1.1))) :=
  ⟨GenericSchemaValidator.make_dependencies rx ms names deps honly hprops hdeps hn hd
      (fun d hm => (hdecl d hm).1),
   GenericSchemaValidator.dep_node fuel names hn deps hd hdecl dms hfit⟩

/-- The schema `{"properties":{"a":{},"b":{}},"dependencies":{"a":["b"]}}`
rejects `{"a":1}` and accepts `{"a":1,"b":2}` and `{"b":2}`. -/
theorem dependencies_between_properties_witness :
    GenericSchema.make noRegex (.obj dependencyABJson)
      = some (dependenciesSchema ["a", "b"] [("a", ["b"])]) ∧
    validate 0 (dependenciesSchema ["a", "b"] [("a", ["b"])])
      (.Object [(("a", true), .Uint 1)]) = some false ∧
    validate 0 (dependenciesSchema ["a", "b"] [("a", ["b"])])
      (.Object [(("a", true), .Uint 1), (("b", true), .Uint 2)]) = some true ∧
    validate 0 (dependenciesSchema ["a", "b"] [("a", ["b"])])
      (.Object [(("b", true), .Uint 2)]) = some true :=
  have h := fun dms hfit => dependencies_between_properties noRegex dependencyABJson ["a", "b"]
    [("a", ["b"])] dms 0 (by decide) rfl rfl (by decide) (by decide) (by decide) hfit
  ⟨(h [] rfl).1, ((h [(("a", true), .Uint 1)] rfl).2).trans (by decide),
   ((h [(("a", true), .Uint 1), (("b", true), .Uint 2)] rfl).2).trans (by decide),
   ((h [(("b", true), .Uint 2)] rfl).2).trans (by decide)⟩

/-- C13, property-dispatch precedence: for every schema node that admits
objects and has pattern properties, and every name that is the name of a
declared property (the first of that name, at index `i`) and is also matched by
a pattern property, the method `Key`, in the state `StartObject` leaves, returns
true and selects the schema of the named property for the value; it counts the
property when it is required and sets bit `i` of the seen properties when the
schema has dependencies; the schema of the matching pattern property, which
would be selected without the named property, is not selected. -/
theorem property_dispatch_precedence (s : BaseSchema) (c : Context) (str : String) (i : Nat)
    (p : Property BaseSchema) (seen : List Bool) (pats : List (PatternProperty BaseSchema))
    (S : BaseSchema)
    (ht : s.hasType kObjectSchemaType = true)
    (hp : s.properties_[i]? = some p) (hname : p.name = str)
    (hfirst : ∀ j q, j < i → s.properties_[j]? = some q → q.name ≠ str)
    (hpats : s.patternProperties_ = some pats)
    (hmatch : findPatternProperty str pats = some S)
    (hseen : s.hasDependencies_ = true →
      c.objectDependencies = some seen ∧ seen.length = s.propertyCount_) :
    (∃ c1 : Context, s.Key c str = some (c1, true) ∧
      c1.valueSchema = some p.schema ∧
      c1.objectRequiredCount
        = (if p.required then SizeType.succ c.objectRequiredCount else c.objectRequiredCount) ∧
      c1.objectDependencies
        = (if s.hasDependencies_ then some (setBit seen i) else c.objectDependencies)) ∧
    (s.KeyOther c str).1.valueSchema = some S := by
  refine ⟨⟨_, GenericSchemaValidator.key_named s c str i p seen ht hp hname hfirst hseen,
    rfl, rfl, rfl⟩, ?_⟩
  simp only [BaseSchema.KeyOther, hpats, Option.some_bind, hmatch]

/-- The schema `{"properties":{"a":{"type":"string"}},
"patternProperties":{"a":{"type":"integer"}}}`: the key `a` selects the schema
of the property, `{"type":"string"}`, so `{"a":"x"}` is valid and `{"a":1}` is
not. -/
theorem property_dispatch_precedence_witness :
    GenericSchema.make literalRegex precedenceJson = some precedenceSchema ∧
    (∃ c1 : Context, precedenceSchema.Key (Context.make precedenceSchema) "a" = some (c1, true) ∧
      c1.valueSchema = some stringSchema) ∧
    (precedenceSchema.KeyOther (Context.make precedenceSchema) "a").1.valueSchema
      = some integerSchema ∧
    validate 0 precedenceSchema (.Object [(("a", true), .String_ "x" true)]) = some true ∧
    validate 0 precedenceSchema (.Object [(("a", true), .Uint 1)]) = some false :=
  have h := property_dispatch_precedence precedenceSchema (Context.make precedenceSchema) "a" 0
    { name := "a", schema := stringSchema } []
    [{ schema := integerSchema, pattern := literalRegex "a" }] integerSchema
    (by decide) rfl rfl (fun j q hj => absurd hj (Nat.not_lt_zero j)) rfl rfl
    (fun hd => by cases hd)
  ⟨rfl, h.1.elim (fun c1 hc1 => ⟨c1, hc1.1, hc1.2.1⟩), h.2, rfl, rfl⟩

/-- C14, additional-property policy: for a compiled schema that admits objects
and a name that is not a declared property and is matched by no pattern
property, the method `Key` selects the schema `A` for the value when
`additionalProperties` is the schema object `A`; it returns false when
`additionalProperties` is `false`; it selects the typeless schema, which
accepts every value, when `additionalProperties` is `true`, absent or of
another kind. With `additionalProperties: false` and no `patternProperties`, an
object the validator reports valid has only declared names as keys. For a
schema of the keywords `type`, `properties` and `additionalProperties`, an
object is reported valid exactly when every member is accepted: its key
selects a schema, by name or by the policy, and a fresh validator of that
schema reports the value valid. -/
theorem additional_property_policy (rx : RegexEngine) (ms : List (String × Json))
    (root : BaseSchema) (c : Context) (str : String) (fuel : Nat)
    (dms : List ((String × Bool) × Doc))
    (hmake : GenericSchema.make rx (.obj ms) = some root)
    (ht : root.hasType kObjectSchemaType = true)
    (hnone : str ∉ declaredNames ms)
    (hpat : ∀ pats, root.patternProperties_ = some pats →
      ∀ pp ∈ pats, ∀ pat, pp.pattern = some pat → pat.search str = false) :
    (∀ am, GetMember ms "additionalProperties" = some (.obj am) →
      ∃ A, GenericSchema.make rx (.obj am) = some A ∧
        root.Key c str = some ({ root.CreateLogicValidators c with valueSchema := some A }, true)) ∧
    (GetMember ms "additionalProperties" = some (.bool false) →
      root.Key c str = some (root.CreateLogicValidators c, false)) ∧
    ((∀ am, GetMember ms "additionalProperties" ≠ some (.obj am)) →
      GetMember ms "additionalProperties" ≠ some (.bool false) →
      root.Key c str
        = some ({ root.CreateLogicValidators c with valueSchema := some typeless }, true)) ∧
    (GetMember ms "additionalProperties" = some (.bool false) →
      GetMember ms "patternProperties" = none →
      validate fuel root (.Object dms) = some true → ∀ m ∈ dms, m.1.1 ∈ declaredNames ms) ∧
    (onlyKeywords ["type", "properties", "additionalProperties"] ms = true →
      (Doc.Object dms).fits = true →
      ∃ props, props.map Prod.fst = declaredNames ms ∧
        root = objectSchema (typeMask ms) props root.additionalPropertySchema_
          root.additionalProperty_ ∧
        ((∀ m ∈ dms, ∀ S, selected props root.additionalPropertySchema_
            root.additionalProperty_ m.1.1 = some S → (validate fuel S m.2).isSome = true) →
          validate fuel root (.Object dms)
            = some (dms.all (memberVerdict fuel props root.additionalPropertySchema_
                root.additionalProperty_)))) := by
  have hnames := GenericSchemaValidator.make_names rx ms root hmake
  have hno : ∀ p ∈ root.properties_, p.name ≠ str := by
    intro p hp hn
    apply hnone
    rw [← hnames, ← hn]
    exact List.mem_map_of_mem (fun p => p.name) hp
  have hpn : root.patternProperties_.bind (findPatternProperty str) = none := by
    rcases hpp : root.patternProperties_ with _ | pats
    · rfl
    · exact GenericSchemaValidator.findPattern_none str pats (hpat pats hpp)
  have hkey := GenericSchemaValidator.key_additional root c str ht hno hpn
  obtain ⟨hobj, hbool, hother⟩ := GenericSchemaValidator.make_additional rx ms root hmake
  refine ⟨?_, ?_, ?_, ?_, ?_⟩
  · intro am hg
    obtain ⟨h1, h2⟩ := hobj am hg
    rcases hA : root.additionalPropertySchema_ with _ | A
    · rw [hA] at h2; cases h2
    · refine ⟨A, by rw [GenericSchema.make, h1, hA], ?_⟩
      rw [hkey, hA]
  · intro hg
    obtain ⟨h1, h2⟩ := hbool false hg
    rw [hkey, h1, h2]
    rfl
  · intro h1 h2
    have : root.additionalPropertySchema_ = none ∧ root.additionalProperty_ = true := by
      by_cases hb : ∃ b, GetMember ms "additionalProperties" = some (.bool b)
      · obtain ⟨b, hb⟩ := hb
        cases b
        · exact absurd hb h2
        · exact hbool true hb
      · exact hother h1 (fun b hb1 => hb ⟨b, hb1⟩)
    rw [hkey, this.1, this.2]
    rfl
  · intro hadd hpp hv
    exact GenericSchemaValidator.closed_object_keys rx ms root fuel dms hmake hadd hpp hv
  · intro honly hfit
    obtain ⟨A, B, O, N, P, PP, AS, IL, IT, -, -, -, -, hP, -, hA, -, -, hroot⟩ :=
      make_obj_inv rx ms root hmake
    have hobjS := GenericSchemaValidator.make_object rx ms P AS honly hP hA
    have hroot1 : root = objectSchema (typeMask ms) (P.getD []) AS
        (AssignIfExistBool true ms "additionalProperties") := by
      have := hmake
      rw [GenericSchema.make, hobjS] at this
      exact (Option.some.inj this).symm
    have hAS : root.additionalPropertySchema_ = AS := by rw [hroot]; rfl
    have hAB : root.additionalProperty_ = AssignIfExistBool true ms "additionalProperties" := by
      rw [hroot]; rfl
    refine ⟨P.getD [], ?_, ?_, ?_⟩
    · rw [← hnames, hroot1]
      simp [objectSchema, propertyOf, Function.comp_def]
    · rw [hAS, hAB]; exact hroot1
    · intro hsub
      rw [hAS, hAB] at hsub ⊢
      have ht1 : (objectSchema (typeMask ms) (P.getD []) AS
          (AssignIfExistBool true ms "additionalProperties")).hasType kObjectSchemaType = true := by
        rw [← hroot1]; exact ht
      have := GenericSchemaValidator.object_node fuel _ _ _ _ ht1 dms hfit hsub
      rw [← hroot1] at this
      exact this

/-- The schema `{"type":"object","properties":{"a":{}},
"additionalProperties":false}` refuses the key `b`, so `{"b":1}` is not valid,
and `{"a":1}` is valid. -/
theorem additional_property_policy_witness :
    GenericSchema.make noRegex (.obj closedObjectJson) = some closedObjectSchema ∧
    closedObjectSchema.Key (Context.make closedObjectSchema) "b"
      = some (Context.make closedObjectSchema, false) ∧
    validate 0 closedObjectSchema (.Object [(("b", true), .Uint 1)]) = some false ∧
    validate 0 closedObjectSchema (.Object [(("a", true), .Uint 1)]) = some true :=
  have h := additional_property_policy noRegex closedObjectJson closedObjectSchema
    (Context.make closedObjectSchema) "b" 0 [(("b", true), .Uint 1)] rfl (by decide)
    (by decide) (fun pats hp => by cases hp)
  ⟨rfl, h.2.1 rfl, rfl, rfl⟩

/-- C15, tuple items: a schema whose keywords are `items`, an array of `k`
schemas, and optionally `additionalItems`, compiles to the node with these `k`
tuple schemas and the policy of `additionalItems` (forbidden for the boolean
`false`, allowed when it is `true`, absent or not a boolean); a fresh validator
of it reports a well-formed array document of `n` elements valid exactly when
each of the first `min n k` elements is valid by a fresh validator of the
schema at its position and, when additional items are forbidden, `n ≤ k`. -/
theorem tuple_items (rx : RegexEngine) (ms : List (String × Json)) (js : List Json)
    (Ss : List BaseSchema) (extra : Option Json) (ds : List Doc) (fuel : Nat)
    (honly : onlyKeywords ["items", "additionalItems"] ms = true)
    (hitems : GetMember ms "items" = some (.arr js)) (hSs : makeList rx js = some Ss)
    (hextra : GetMember ms "additionalItems" = extra)
    (hfit : (Doc.Array ds).fits = true)
    (hsub : ∀ d ∈ ds, ∀ S ∈ Ss, (validate fuel S d).isSome = true) :
    GenericSchema.make rx (.obj ms) = some (tupleSchema Ss (additionalAllowed extra)) ∧
    Ss.length = js.length ∧
    (additionalAllowed extra = false ↔ extra = some (.bool false)) ∧
    validate fuel (tupleSchema Ss (additionalAllowed extra)) (.Array ds)
      = some ((List.zipWith (fun d S => verdictOf fuel d S) ds Ss).all id &&
          (additionalAllowed extra || decide (ds.length ≤ Ss.length))) := by
  refine ⟨GenericSchemaValidator.make_tuple rx ms js Ss extra honly hitems hSs hextra,
    makeList_length rx js Ss hSs, ?_,
    GenericSchemaValidator.tuple_node fuel Ss _ ds hfit hsub⟩
  rcases extra with _ | j
  · simp [additionalAllowed]
  · cases j <;> simp [additionalAllowed]

/-- The schema `{"items":[{"type":"integer"},{"type":"string"}],
"additionalItems":false}` accepts `[1, "x"]` and rejects `[1, "x", true]`. -/
theorem tuple_items_witness :
    onlyKeywords ["items", "additionalItems"] tupleItemsJson = true ∧
    GenericSchema.make noRegex (.obj tupleItemsJson)
      = some (tupleSchema [integerSchema, stringSchema] false) ∧
    validate 0 (tupleSchema [integerSchema, stringSchema] false)
      (.Array [.Uint 1, .String_ "x" true]) = some true ∧
    validate 0 (tupleSchema [integerSchema, stringSchema] false)
      (.Array [.Uint 1, .String_ "x" true, .Bool_ true]) = some false :=
  have hsub : ∀ d ∈ [Doc.Uint 1, .String_ "x" true, .Bool_ true],
      ∀ S ∈ [integerSchema, stringSchema], (validate 0 S d).isSome = true := by
    intro d hd S hS
    simp only [List.mem_cons, List.mem_singleton, List.not_mem_nil, or_false] at hd hS
    rcases hd with rfl | rfl | rfl <;> rcases hS with rfl | rfl <;> rfl
  have h2 := tuple_items noRegex tupleItemsJson
    [.obj [("type", .str "integer")], .obj [("type", .str "string")]]
    [integerSchema, stringSchema] (some (.bool false)) [.Uint 1, .String_ "x" true] 0
    (by decide) rfl rfl rfl rfl
    (fun d hd => hsub d (by
      simp only [List.mem_cons, List.mem_singleton, List.not_mem_nil, or_false] at hd ⊢
      rcases hd with rfl | rfl <;> simp))
  have h3 := tuple_items noRegex tupleItemsJson
    [.obj [("type", .str "integer")], .obj [("type", .str "string")]]
    [integerSchema, stringSchema] (some (.bool false))
    [.Uint 1, .String_ "x" true, .Bool_ true] 0 (by decide) rfl rfl rfl rfl hsub
  ⟨by decide, h2.1, h2.2.2.2.trans rfl, h3.2.2.2.trans rfl⟩

/-- C16, list items and array size: a schema whose keywords are among `items`
(a schema object `S`), `minItems` (`a`) and `maxItems` (`b`), the bounds being
`SizeType` values, compiles to the node with list-item schema `S` and these
bounds, the defaults being 0 and the largest `SizeType`; a fresh validator of it
reports a well-formed array document of `n` elements valid exactly when
`a ≤ n`, `n ≤ b` when `maxItems` is given (`withinBound`), and every element is
valid by a fresh validator of `S` on the element alone; without `items` the
elements are unconstrained (`verdictIf`). -/
theorem list_items_and_size (rx : RegexEngine) (ms : List (String × Json))
    (items : Option (List (String × Json))) (S : Option BaseSchema) (a b : Option Nat)
    (ds : List Doc) (fuel : Nat)
    (honly : onlyKeywords ["items", "minItems", "maxItems"] ms = true)
    (hitems : GetMember ms "items" = items.map Json.obj)
    (hS : compileOptional rx items = some S)
    (ha : ∀ n, a = some n → n ≤ SizeTypeMax) (hb : ∀ n, b = some n → n ≤ SizeTypeMax)
    (hmin : GetMember ms "minItems" = a.map sizeJson)
    (hmax : GetMember ms "maxItems" = b.map sizeJson)
    (hfit : (Doc.Array ds).fits = true)
    (hsub : ∀ d ∈ ds, ∀ S0, S = some S0 → (validate fuel S0 d).isSome = true) :
    GenericSchema.make rx (.obj ms) = some (listSchema S (a.getD 0) (b.getD SizeTypeMax)) ∧
    validate fuel (listSchema S (a.getD 0) (b.getD SizeTypeMax)) (.Array ds)
      = some (decide (a.getD 0 ≤ ds.length) && withinBound b ds.length &&
          ds.all (verdictIf fuel S)) := by
  refine ⟨GenericSchemaValidator.make_list rx ms items S a b honly hitems hS ha hb hmin hmax, ?_⟩
  rw [GenericSchemaValidator.list_node fuel S _ _ ds hfit hsub]
  have hlen : ds.length ≤ SizeTypeMax := by
    simp only [Doc.fits, Bool.and_eq_true, decide_eq_true_eq] at hfit
    exact hfit.1
  cases b with
  | none => simp [hlen, withinBound]
  | some n => rfl

/-- The schema `{"items":{"type":"integer"},"minItems":1,"maxItems":2}` accepts
`[1, 2]`. -/
theorem list_items_and_size_witness :
    onlyKeywords ["items", "minItems", "maxItems"] listItemsJson = true ∧
    (Doc.Array [.Uint 1, .Uint 2]).fits = true ∧
    GenericSchema.make noRegex (.obj listItemsJson) = some (listSchema (some integerSchema) 1 2) ∧
    validate 0 (listSchema (some integerSchema) 1 2) (.Array [.Uint 1, .Uint 2]) = some true :=
  have h := list_items_and_size noRegex listItemsJson (some [("type", .str "integer")])
    (some integerSchema) (some 1) (some 2) [.Uint 1, .Uint 2] 0 (by decide) rfl rfl
    (fun n hn => by cases hn; decide) (fun n hn => by cases hn; decide) rfl rfl rfl
    (fun d hd S0 hS0 => by
      cases hS0
      simp only [List.mem_cons, List.mem_singleton, List.not_mem_nil, or_false] at hd
      rcases hd with rfl | rfl <;> rfl)
  ⟨by decide, rfl, h.1, h.2.trans rfl⟩

/-- C17, the numeric check on integers: a schema whose keywords are among
`type`, `minimum` and `maximum` (integers), `exclusiveMinimum` and
`exclusiveMaximum` (booleans, false when absent) and `multipleOf` (an integer
that is not zero), all of magnitude at most `2 ^ 53`, compiles to the node with
these numeric fields; a fresh validator of it reports an integer document `i`
of magnitude at most `2 ^ 53`, given by any of the four integer events, valid
exactly when the type mask admits integers (as it does without `type`) and `i`
is above the minimum (strictly when exclusive), below the maximum (strictly
when exclusive) and a multiple of `multipleOf` when that is given. -/
theorem numeric_check_on_integers (rx : RegexEngine) (ms : List (String × Json))
    (a b k : Option Int) (x y : Option Bool) (i : Int) (fuel : Nat)
    (honly : onlyKeywords ["type", "minimum", "maximum", "exclusiveMinimum", "exclusiveMaximum",
      "multipleOf"] ms = true)
    (hmin : GetMember ms "minimum" = a.map Json.int)
    (hmax : GetMember ms "maximum" = b.map Json.int)
    (hx : GetMember ms "exclusiveMinimum" = x.map Json.bool)
    (hy : GetMember ms "exclusiveMaximum" = y.map Json.bool)
    (hk : GetMember ms "multipleOf" = k.map Json.int)
    (ha : ∀ n, a = some n → n.natAbs ≤ 2 ^ 53) (hb : ∀ n, b = some n → n.natAbs ≤ 2 ^ 53)
    (hk0 : ∀ n, k = some n → n ≠ 0 ∧ n.natAbs ≤ 2 ^ 53) (hi : i.natAbs ≤ 2 ^ 53) :
    GenericSchema.make rx (.obj ms)
      = some (numericSchema (typeMask ms) a b (x.getD false) (y.getD false) k) ∧
    (GetMember ms "type" = none →
      ((typeMask ms).testBit kIntegerSchemaType || (typeMask ms).testBit kNumberSchemaType)
        = true) ∧
    (∀ d : Doc, (d = .Int_ i ∨ d = .Int64 i ∨ d = .Uint i.toNat ∧ 0 ≤ i
        ∨ d = .Uint64 i.toNat ∧ 0 ≤ i) →
      validate fuel (numericSchema (typeMask ms) a b (x.getD false) (y.getD false) k) d
        = some (((typeMask ms).testBit kIntegerSchemaType
              || (typeMask ms).testBit kNumberSchemaType)
            && integerInRange a b (x.getD false) (y.getD false) k i)) := by
  refine ⟨GenericSchemaValidator.make_numeric rx ms a b k x y honly hmin hmax hx hy hk, ?_, ?_⟩
  · intro ht
    simp only [typeMask, ht]
    decide
  · intro d hd
    have key := fun e he => GenericSchemaValidator.numeric_node fuel (typeMask ms) a b
      (x.getD false) (y.getD false) k i ha hb hk0 hi e he
    rcases hd with rfl | rfl | ⟨rfl, h0⟩ | ⟨rfl, h0⟩
    · exact key (.Int_ i) (Or.inl rfl)
    · exact key (.Int64 i) (Or.inr (Or.inl rfl))
    · exact key (.Uint i.toNat) (Or.inr (Or.inr (Or.inl ⟨rfl, h0⟩)))
    · exact key (.Uint64 i.toNat) (Or.inr (Or.inr (Or.inr ⟨rfl, h0⟩)))

/-- The schema `{"type":"integer","minimum":0,"maximum":10}` accepts 5 and
rejects 11; the schema `{"minimum":3,"exclusiveMinimum":true}` rejects 3. -/
theorem numeric_check_on_integers_witness :
    GenericSchema.make noRegex (.obj zeroToTenJson)
      = some (numericSchema (1 <<< kIntegerSchemaType) (some 0) (some 10) false false none) ∧
    validate 0 (numericSchema (1 <<< kIntegerSchemaType) (some 0) (some 10) false false none)
      (.Uint 5) = some true ∧
    validate 0 (numericSchema (1 <<< kIntegerSchemaType) (some 0) (some 10) false false none)
      (.Uint 11) = some false ∧
    validate 0 (numericSchema 127 (some 3) none true false none) (.Int_ 3) = some false :=
  have h5 := numeric_check_on_integers noRegex zeroToTenJson (some 0) (some 10) none none none 5 0
    (by decide) rfl rfl rfl rfl rfl (fun n hn => by cases hn; decide)
    (fun n hn => by cases hn; decide) (fun n hn => by cases hn) (by decide)
  have h11 := numeric_check_on_integers noRegex zeroToTenJson (some 0) (some 10) none none none 11
    0 (by decide) rfl rfl rfl rfl rfl (fun n hn => by cases hn; decide)
    (fun n hn => by cases hn; decide) (fun n hn => by cases hn) (by decide)
  have h3 := numeric_check_on_integers noRegex aboveThreeJson (some 3) none none (some true) none
    3 0 (by decide) rfl rfl rfl rfl rfl (fun n hn => by cases hn; decide)
    (fun n hn => by cases hn) (fun n hn => by cases hn) (by decide)
  ⟨h5.1, (h5.2.2 (.Uint 5) (Or.inr (Or.inr (Or.inl ⟨rfl, by decide⟩)))).trans (by decide),
   (h11.2.2 (.Uint 11) (Or.inr (Or.inr (Or.inl ⟨rfl, by decide⟩)))).trans (by decide),
   (h3.2.2 (.Int_ 3) (Or.inl rfl)).trans (by decide)⟩

/-- C18, where the claim fails: the schemas `{"type":[]}`, `{"type":"foo"}`,
`{"type":["foo"]}` and `{"type":1}` compile to nodes whose type mask is 0, with
no bit set, not to nodes whose mask has all seven bits. -/
theorem type_mask_may_be_zero :
    (GenericSchema.make noRegex (.obj [("type", .arr [])])).map (fun r => r.type_) = some 0 ∧
    (GenericSchema.make noRegex (.obj [("type", .str "foo")])).map (fun r => r.type_) = some 0 ∧
    (GenericSchema.make noRegex (.obj [("type", .arr [.str "foo"])])).map (fun r => r.type_)
      = some 0 ∧
    (GenericSchema.make noRegex (.obj [("type", .int 1)])).map (fun r => r.type_) = some 0 := by
  refine ⟨?_, ?_, ?_, ?_⟩ <;> rw [GenericSchema.make, make_type] <;> decide

/-- C18 as amended: when the compiler yields a node for a JSON value, the mask
of the node has all seven bits set if the value is not an object or has no
`type` member; if it has a `type` member, the mask is the union of the bits of
the type names the member gives, a string or the strings among the elements of
an array, where `number` gives the bits of `number` and of `integer`: bit `k`
is set exactly when `k` is one of the seven kinds and a name given sets it; so
the mask has at least one bit set exactly when the member is the string of a
recognised type name or an array with such a string among its elements, and
the mask is 0 otherwise. -/
theorem type_mask_of_schema (rx : RegexEngine) (j : Json) (root : BaseSchema)
    (h : GenericSchema.make rx j = some root) :
    (j.IsObject = false → root.type_ = 127) ∧
    (∀ ms, j = .obj ms → GetMember ms "type" = none → root.type_ = 127) ∧
    (∀ ms v, j = .obj ms → GetMember ms "type" = some v →
      root.type_ = maskOfNames (namesGiven v) ∧
      (∀ k, root.type_.testBit k = (decide (k < 7) && namesSetBit (namesGiven v) k)) ∧
      (root.type_ ≠ 0 ↔ namesRecognisedType v = true)) := by
  refine ⟨?_, ?_, ?_⟩
  · intro hj
    rw [GenericSchema.make, make_nonObject rx j hj] at h
    cases h
    rfl
  · rintro ms rfl hm
    rw [make_type_ rx ms root h]
    simp only [typeMask, hm]
    rfl
  · rintro ms v rfl hm
    have hmask : root.type_ = maskOfNames (namesGiven v) := by
      rw [make_type_ rx ms root h, typeMask_names ms v hm]
    refine ⟨hmask, ?_, ?_⟩
    · intro k
      rw [hmask, maskOfNames_testBit]
    · rw [make_type_ rx ms root h, ← typeMask_ne_zero ms v hm]
      simp

/-- The schema `{"type":["string","foo"]}` compiles to a node whose mask is the
bit of `string`, 16, the name `foo` giving no bit; the schema
`{"type":"number"}` compiles to a node whose mask has the bits of `number` and
of `integer`, 96. -/
theorem type_mask_of_schema_witness :
    GenericSchema.make noRegex stringFooJson = some stringSchema ∧
    namesRecognisedType (.arr [.str "string", .str "foo"]) = true ∧
    stringSchema.type_ = 16 ∧ stringSchema.type_ ≠ 0 ∧
    GenericSchema.make noRegex (.obj [("type", .str "number")]) = some numberSchema ∧
    numberSchema.type_ = 96 ∧
    numberSchema.type_.testBit kIntegerSchemaType = true :=
  have h1 := (type_mask_of_schema noRegex stringFooJson stringSchema rfl).2.2
    [("type", .arr [.str "string", .str "foo"])] (.arr [.str "string", .str "foo"]) rfl rfl
  have h2 := (type_mask_of_schema noRegex (.obj [("type", .str "number")]) numberSchema
    rfl).2.2 [("type", .str "number")] (.str "number") rfl rfl
  ⟨rfl, by decide, h1.1.trans (by decide), h1.2.2.mpr (by decide), rfl,
   h2.1.trans (by decide), (h2.2.1 kIntegerSchemaType).trans (by decide)⟩

/-- C19, at the input where the code leaves the claim: the constructor on the
schema `{"patternProperties":1}` calls `MemberCount()` and `MemberBegin()` on
the number 1, whose precondition `IsObject()` fails, so no node is made; the
statements for `properties` and `dependencies` beside it test `IsObject()` first
and make a node for the same value. -/
theorem patternProperties_not_guarded :
    GenericSchema.make noRegex (.obj [("patternProperties", .int 1)]) = none ∧
    GenericSchema.make noRegex (.obj [("patternProperties", .arr [])]) = none ∧
    (GenericSchema.make noRegex (.obj [("properties", .int 1)])).isSome = true ∧
    (GenericSchema.make noRegex (.obj [("dependencies", .int 1)])).isSome = true ∧
    (GenericSchema.make noRegex (.obj [("patternProperties", .obj [])])).isSome = true :=
  ⟨rfl, rfl, rfl, rfl, rfl⟩

/-- C20, the event return value is the cumulative flag: in every state of a
validator of every schema, when an event method call completes, the boolean it
returns is the value `IsValid()` returns immediately afterwards. -/
theorem event_return_is_flag (fuel : Nat) (v : GenericSchemaValidator) (e : Event)
    (v1 : GenericSchemaValidator) (r : Bool)
    (h : GenericSchemaValidator.handle fuel v e = some (v1, r)) : v1.IsValid = r :=
  GenericSchemaValidator.handleWith_valid _ v e v1 r h

/-- The validator of `{"type":"integer"}` returns false for `String("x")` and
`IsValid()` is false afterwards; it returns true for `Int(1)` and `IsValid()` is
true afterwards. -/
theorem event_return_is_flag_witness :
    GenericSchemaValidator.handle 0 (GenericSchemaValidator.ofRoot integerSchema)
        (.String_ "x" false) = some (failedValidator, false) ∧
    failedValidator.IsValid = false ∧
    (∀ w, GenericSchemaValidator.handle 0 (GenericSchemaValidator.ofRoot integerSchema)
        (.Int_ 1) = some (w, true) → w.IsValid = true) :=
  ⟨rfl, event_return_is_flag 0 (GenericSchemaValidator.ofRoot integerSchema)
      (.String_ "x" false) failedValidator false rfl,
   fun w hw => event_return_is_flag 0 (GenericSchemaValidator.ofRoot integerSchema)
      (.Int_ 1) w true hw⟩

/-- C21, `Reset` restores the initial state: in every state of a validator,
after `Reset` the stack of contexts is empty, `IsValid()` is true, and the
validator is the one the constructor makes for the same schema and the same
output handler; and for every schema, in every state reached from a fresh
validator with an accepting output handler by any events, valid or failed, with
any contexts on the stack, the events of any well-formed document delivered
after `Reset` have the same return values and the same final verdict as when
they are delivered to the fresh validator. -/
theorem reset_restores_initial_state (fuel : Nat) (root : BaseSchema) (out : OutputHandler)
    (hout : ∀ h e, out.answer h e = true) (es0 : List Event) (v : GenericSchemaValidator)
    (rs0 : List Bool)
    (h0 : GenericSchemaValidator.feed fuel (GenericSchemaValidator.make root out) es0
      = some (v, rs0))
    (d : Doc) :
    (∀ w : GenericSchemaValidator, w.Reset.schemaStack_ = [] ∧ w.Reset.IsValid = true ∧
      w.Reset = GenericSchemaValidator.make w.root_ w.outputHandler_) ∧
    v.Reset = GenericSchemaValidator.make root v.outputHandler_ ∧
    (GenericSchemaValidator.feed fuel v.Reset d.events).map GenericSchemaValidator.observed
      = (GenericSchemaValidator.feed fuel (GenericSchemaValidator.make root out) d.events).map
          GenericSchemaValidator.observed := by
  obtain ⟨o1, -, hv, hroot, -⟩ := GenericSchemaValidator.feed_swap _ es0 _ v rs0 out hout hout h0
  have hreset : v.Reset = GenericSchemaValidator.make root v.outputHandler_ := by
    have hroot : v.root_ = root := hroot
    rw [← hroot]
    rfl
  refine ⟨fun w => ⟨rfl, rfl, rfl⟩, hreset, ?_⟩
  rw [hreset]
  exact GenericSchemaValidator.feed_swap_eq _ d.events (GenericSchemaValidator.make root out)
    v.outputHandler_ hout hv

/-- The validator of `{"type":"integer"}` that failed on `String("x")`: after
`Reset` it is valid, and `Int(1)` returns true and leaves it valid, as on a
fresh validator. -/
theorem reset_restores_initial_state_witness :
    GenericSchemaValidator.feed 0 (GenericSchemaValidator.make integerSchema nullOutputHandler_)
        [.String_ "x" false] = some (failedValidator, [false]) ∧
    failedValidator.IsValid = false ∧
    failedValidator.Reset.IsValid = true ∧
    (GenericSchemaValidator.feed 0 failedValidator.Reset (Doc.Int_ 1).events).map
        GenericSchemaValidator.observed = some ([true], true) :=
  have h := reset_restores_initial_state 0 integerSchema nullOutputHandler_ (fun _ _ => rfl)
    [.String_ "x" false] failedValidator [false] rfl (.Int_ 1)
  ⟨rfl, rfl, (h.1 failedValidator).2.1, h.2.2.trans rfl⟩

/-- C22, determinism: for every schema and every well-formed document, two
fresh validators, whatever accepting output handlers they have, give the same
return values and the same verdict; and when the events of the document are
delivered a second time to the same validator without `Reset`, the verdict is
again the same: after a valid run the stack of contexts is empty and the
validator is a fresh one, so the second run returns the same values, and after
an invalid run the validator stays as it is and every call returns false. -/
theorem validation_deterministic (fuel : Nat) (root : BaseSchema) (out1 out2 : OutputHandler)
    (hout1 : ∀ h e, out1.answer h e = true) (hout2 : ∀ h e, out2.answer h e = true) (d : Doc) :
    (GenericSchemaValidator.feed fuel (GenericSchemaValidator.make root out1) d.events).map
        GenericSchemaValidator.observed
      = (GenericSchemaValidator.feed fuel (GenericSchemaValidator.make root out2) d.events).map
          GenericSchemaValidator.observed ∧
    validateWith fuel root out1 d = validateWith fuel root out2 d ∧
    ∀ (vF : GenericSchemaValidator) (rs : List Bool),
      GenericSchemaValidator.feed fuel (GenericSchemaValidator.make root out1) d.events
          = some (vF, rs) →
      (vF.IsValid = true →
        vF.schemaStack_ = [] ∧ vF = GenericSchemaValidator.make root vF.outputHandler_) ∧
      (vF.IsValid = false → GenericSchemaValidator.feed fuel vF d.events
        = some (vF, List.replicate d.events.length false)) ∧
      ∃ (vG : GenericSchemaValidator) (rs2 : List Bool),
        GenericSchemaValidator.feed fuel vF d.events = some (vG, rs2) ∧
          vG.IsValid = vF.IsValid ∧ (vF.IsValid = true → rs2 = rs) := by
  have hobs := GenericSchemaValidator.feed_swap_eq (GenericSchemaValidator.subAt fuel) d.events
    (GenericSchemaValidator.make root out1) out2 hout1 hout2
  have hobs : (GenericSchemaValidator.feed fuel (GenericSchemaValidator.make root out1)
        d.events).map GenericSchemaValidator.observed
      = (GenericSchemaValidator.feed fuel (GenericSchemaValidator.make root out2) d.events).map
          GenericSchemaValidator.observed := hobs.symm
  refine ⟨hobs, ?_, ?_⟩
  · have := congrArg (Option.map Prod.snd) hobs
    simp only [Option.map_map] at this
    exact this
  · intro vF rs h
    obtain ⟨o1, -, hvo, hroot, -⟩ :=
      GenericSchemaValidator.feed_swap _ d.events _ vF rs out1 hout1 hout1 h
    have hfresh : vF.IsValid = true →
        vF.schemaStack_ = [] ∧ vF = GenericSchemaValidator.make root vF.outputHandler_ := by
      intro hv
      have hst := GenericSchemaValidator.fresh_run_stack _ root out1 hout1 d vF rs h hv
      refine ⟨hst, ?_⟩
      obtain ⟨r, o, st, x⟩ := vF
      simp only [GenericSchemaValidator.IsValid] at hv hst hroot
      subst hv hst
      rw [show r = root from hroot]
      rfl
    have hstay : vF.IsValid = false → GenericSchemaValidator.feed fuel vF d.events
        = some (vF, List.replicate d.events.length false) :=
      fun hv => GenericSchemaValidator.feedWith_of_invalid _ vF hv d.events
    refine ⟨hfresh, hstay, ?_⟩
    rcases hv : vF.IsValid with _ | _
    · exact ⟨vF, _, hstay hv, hv, fun h => by cases h⟩
    · obtain ⟨o2, -, -, -, h2⟩ :=
        GenericSchemaValidator.feed_swap _ d.events _ vF rs vF.outputHandler_ hout1 hvo h
      have h2 : GenericSchemaValidator.feed fuel
          (GenericSchemaValidator.make root vF.outputHandler_) d.events
            = some (vF.withOutput o2, rs) := h2
      rw [← (hfresh hv).2] at h2
      exact ⟨vF.withOutput o2, rs, h2, hv, fun _ => rfl⟩

/-- The validator of `{"type":"integer"}` on the document `1`: a validator whose
output handler has received an event gives the verdict of a fresh one, and the
events delivered again to the validator that ended valid return true again. -/
theorem validation_deterministic_witness :
    validateWith 0 integerSchema nullOutputHandler_ (.Int_ 1)
      = validateWith 0 integerSchema (nullOutputHandler_.receive [.Null]) (.Int_ 1) ∧
    validateWith 0 integerSchema nullOutputHandler_ (.Int_ 1) = some true ∧
    ∃ (vG : GenericSchemaValidator) (rs2 : List Bool),
      GenericSchemaValidator.feed 0
          ⟨integerSchema, nullOutputHandler_.receive [.Int_ 1], [], true⟩ (Doc.Int_ 1).events
        = some (vG, rs2) ∧ vG.IsValid = true ∧ (true = true → rs2 = [true]) :=
  have h := validation_deterministic 0 integerSchema nullOutputHandler_
    (nullOutputHandler_.receive [.Null]) (fun _ _ => rfl) (fun _ _ => rfl) (.Int_ 1)
  ⟨h.2.1, rfl,
    (h.2.2 ⟨integerSchema, nullOutputHandler_.receive [.Int_ 1], [], true⟩ [true] rfl).2.2⟩

/-- C23, pass-through on valid documents: for every schema, every well-formed
document and every output handler, when the events of the document have been
delivered to a fresh validator and the validator is valid, every event method
returned true and the output handler has received, after what it had received
before, exactly the events of the document, in their order, each once; the
events sent to the validators owned by the contexts are not among them. -/
theorem pass_through_on_valid (fuel : Nat) (root : BaseSchema) (out : OutputHandler) (d : Doc)
    (vF : GenericSchemaValidator) (rs : List Bool)
    (h : GenericSchemaValidator.feed fuel (GenericSchemaValidator.make root out) d.events
      = some (vF, rs))
    (hv : vF.IsValid = true) :
    vF.outputHandler_.received = out.received ++ d.events ∧
    vF.outputHandler_.answer = out.answer ∧
    rs = List.replicate d.events.length true := by
  obtain ⟨h1, -, h3⟩ := GenericSchemaValidator.feed_forward _ d.events _ vF rs h hv
  refine ⟨?_, ?_, h3⟩
  · rw [h1]; rfl
  · rw [h1]; rfl

/-- The validator of `{"allOf":[{}]}`, whose root context owns a validator, on
the document `[1, {"a": null}, "x"]`: it ends valid and the output handler has
received the eight events of the document. -/
theorem pass_through_on_valid_witness :
    (GenericSchemaValidator.feed 1 (GenericSchemaValidator.make allOfAnySchema nullOutputHandler_)
        sampleDocument.events).isSome = true ∧
    (∀ vF rs, GenericSchemaValidator.feed 1
        (GenericSchemaValidator.make allOfAnySchema nullOutputHandler_) sampleDocument.events
          = some (vF, rs) → vF.IsValid = true →
      vF.outputHandler_.received
        = [.StartArray, .Int_ 1, .StartObject, .Key "a" false, .Null, .EndObject 1,
           .String_ "x" true, .EndArray 3]) ∧
    validateWith 1 allOfAnySchema nullOutputHandler_ sampleDocument = some true :=
  ⟨rfl, fun vF rs h hv =>
    (pass_through_on_valid 1 allOfAnySchema nullOutputHandler_ sampleDocument vF rs h hv).1,
   rfl⟩

/-- C24, the string check: a schema of type `string` whose other keywords are
among `minLength` (`a`), `maxLength` (`b`), the bounds being `SizeType` values,
and `pattern` (a string `p`) compiles to the node with these bounds, the
defaults being 0 and the largest `SizeType`, and with the compiled pattern, or
none when `p` is absent or does not compile; the method `String` accepts a
string of `n` code units, and a fresh validator reports the string document
valid, exactly when `a ≤ n`, `n ≤ b` when `maxLength` is given, and the compiled
pattern, when there is one, is found in the string by the library's search. -/
theorem string_check (rx : RegexEngine) (ms : List (String × Json)) (a b : Option Nat)
    (p : Option String) (s : String) (copy : Bool) (c : Context) (fuel : Nat)
    (honly : onlyKeywords ["type", "minLength", "maxLength", "pattern"] ms = true)
    (htype : GetMember ms "type" = some (.str "string"))
    (ha : ∀ n, a = some n → n ≤ SizeTypeMax) (hb : ∀ n, b = some n → n ≤ SizeTypeMax)
    (hmin : GetMember ms "minLength" = a.map sizeJson)
    (hmax : GetMember ms "maxLength" = b.map sizeJson)
    (hpat : GetMember ms "pattern" = p.map Json.str)
    (hfit : (Doc.String_ s copy).fits = true) :
    GenericSchema.make rx (.obj ms)
      = some (stringNode (a.getD 0) (b.getD SizeTypeMax) (p.bind rx)) ∧
    ((stringNode (a.getD 0) (b.getD SizeTypeMax) (p.bind rx)).String_ c s).2
      = (decide (a.getD 0 ≤ s.length) && withinBound b s.length
          && patternAccepts (p.bind rx) s) ∧
    validate fuel (stringNode (a.getD 0) (b.getD SizeTypeMax) (p.bind rx)) (.String_ s copy)
      = some (decide (a.getD 0 ≤ s.length) && withinBound b s.length
          && patternAccepts (p.bind rx) s) := by
  have hlen : s.length ≤ SizeTypeMax := by
    simpa [Doc.fits] using hfit
  have hbound : decide (s.length ≤ b.getD SizeTypeMax) = withinBound b s.length := by
    cases b with
    | none => simp [withinBound, hlen]
    | some n => rfl
  have hmethod := GenericSchemaValidator.string_method (a.getD 0) (b.getD SizeTypeMax)
    (p.bind rx)
  refine ⟨GenericSchemaValidator.make_string rx ms a b p honly htype ha hb hmin hmax hpat, ?_, ?_⟩
  · rw [hmethod c s, hbound]
  · have hm : (stringNode (a.getD 0) (b.getD SizeTypeMax) (p.bind rx)).method
        (Context.make (stringNode (a.getD 0) (b.getD SizeTypeMax) (p.bind rx))) (.String_ s copy)
        = some (_, _) := congrArg some (hmethod _ s)
    have := GenericSchemaValidator.plain_scalar_run fuel _ ⟨rfl, rfl, rfl, rfl⟩
      nullOutputHandler_ (fun _ _ => rfl) (.String_ s copy) rfl _ _ hm
    rw [hbound] at this
    exact this

/-- The schema `{"type":"string","pattern":"^f","minLength":2}` accepts `"foo"`
and rejects `"f"` and `"bar"`. -/
theorem string_check_witness :
    GenericSchema.make caretRegex (.obj startsWithFJson)
      = some (stringNode 2 SizeTypeMax (caretRegex "^f")) ∧
    validate 0 (stringNode 2 SizeTypeMax (caretRegex "^f")) (.String_ "foo" true) = some true ∧
    validate 0 (stringNode 2 SizeTypeMax (caretRegex "^f")) (.String_ "f" true) = some false ∧
    validate 0 (stringNode 2 SizeTypeMax (caretRegex "^f")) (.String_ "bar" true) = some false :=
  have h := fun s hs => string_check caretRegex startsWithFJson (some 2) none (some "^f") s true
    (Context.make typeless) 0 (by decide) rfl (fun n hn => by cases hn; decide)
    (fun n hn => by cases hn) rfl rfl rfl hs
  ⟨(h "foo" rfl).1, (h "foo" rfl).2.2.trans (by decide), (h "f" rfl).2.2.trans (by decide),
   (h "bar" rfl).2.2.trans (by decide)⟩

/-- C25, the size keywords: the node compiled from a schema object has, for
each of `minProperties`, `maxProperties`, `minItems`, `maxItems`, `minLength`
and `maxLength`, the value of the keyword as its bound when that value is a
non-negative integer not exceeding `2 ^ 32 - 1`, and the default (0 for the
minima, `2 ^ 32 - 1` for the maxima) for every other value and without the
keyword; and when the value of a size keyword is out of range, the schema
compiles to the same node as the schema without that keyword. -/
theorem size_keywords_keep_defaults (rx : RegexEngine) (ms : List (String × Json))
    (root : BaseSchema) (h : GenericSchema.make rx (.obj ms) = some root) :
    root.minProperties_ = boundOf 0 (GetMember ms "minProperties") ∧
    root.maxProperties_ = boundOf (2 ^ 32 - 1) (GetMember ms "maxProperties") ∧
    root.minItems_ = boundOf 0 (GetMember ms "minItems") ∧
    root.maxItems_ = boundOf (2 ^ 32 - 1) (GetMember ms "maxItems") ∧
    root.minLength_ = boundOf 0 (GetMember ms "minLength") ∧
    root.maxLength_ = boundOf (2 ^ 32 - 1) (GetMember ms "maxLength") ∧
    (∀ kw ∈ sizeKeywords, ∀ v, GetMember ms kw = some v → inSizeRange v = false →
      GenericSchema.make rx (.obj (withoutMember kw ms)) = some root) := by
  obtain ⟨A, B, O, N, P, PP, AS, IL, IT, -, -, -, -, -, -, -, -, -, hroot⟩ :=
    make_obj_inv rx ms root h
  refine ⟨?_, ?_, ?_, ?_, ?_, ?_, ?_⟩
  · rw [hroot]; exact GenericSchemaValidator.assignSize_bound _ ms _
  · rw [hroot]; exact GenericSchemaValidator.assignSize_bound _ ms _
  · rw [hroot]; exact GenericSchemaValidator.assignSize_bound _ ms _
  · rw [hroot]; exact GenericSchemaValidator.assignSize_bound _ ms _
  · rw [hroot]; exact GenericSchemaValidator.assignSize_bound _ ms _
  · rw [hroot]; exact GenericSchemaValidator.assignSize_bound _ ms _
  · intro kw hkw v hv hbad
    rw [GenericSchema.make, GenericSchemaValidator.make_without rx ms kw hkw v hv hbad]
    exact h

/-- The schema `{"minItems":-1,"maxItems":4294967296,"minLength":1.5}` compiles
to the typeless node, as the schema without `minItems` does; the schema
`{"items":{"type":"integer"},"minItems":1,"maxItems":2}` has the bounds 1 and
2. -/
theorem size_keywords_keep_defaults_witness :
    GenericSchema.make noRegex (.obj outOfRangeJson) = some typeless ∧
    typeless.minItems_ = 0 ∧ typeless.maxItems_ = 2 ^ 32 - 1 ∧ typeless.minLength_ = 0 ∧
    GenericSchema.make noRegex (.obj (withoutMember "minItems" outOfRangeJson)) = some typeless ∧
    (listSchema (some integerSchema) 1 2).minItems_ = 1 ∧
    (listSchema (some integerSchema) 1 2).maxItems_ = 2 :=
  have h := size_keywords_keep_defaults noRegex outOfRangeJson typeless rfl
  have h2 := size_keywords_keep_defaults noRegex listItemsJson
    (listSchema (some integerSchema) 1 2) rfl
  ⟨rfl, h.2.2.1.trans rfl, h.2.2.2.1.trans rfl, h.2.2.2.2.1.trans rfl,
   h.2.2.2.2.2.2 "minItems" (by decide) (.int (-1)) rfl rfl, h2.2.2.1.trans rfl,
   h2.2.2.2.1.trans rfl⟩

/-- C26, pattern-property first match: for a compiled schema that admits
objects, with the members `(p1, J1) .. (pn, Jn)` of `patternProperties` in
order, and a name that no named property declares, when `pi` compiles and is
found in the name by the library's search and no `pj` before it both compiles
and is found in the name, the method `Key` returns true and selects for the
value the node compiled from `Ji`, whatever the pattern properties after it
are; a pattern that does not compile is passed over. -/
theorem pattern_property_first_match (rx : RegexEngine) (ms pj : List (String × Json))
    (root : BaseSchema) (c : Context) (str : String) (i : Nat) (name : String) (J : Json)
    (pat : Pattern)
    (hmake : GenericSchema.make rx (.obj ms) = some root)
    (ht : root.hasType kObjectSchemaType = true)
    (hpp : GetMember ms "patternProperties" = some (.obj pj))
    (hnone : str ∉ declaredNames ms)
    (hi : pj[i]? = some (name, J)) (hrx : rx name = some pat) (hm : pat.search str = true)
    (hfirst : ∀ j q, j < i → pj[j]? = some q → ∀ qp, rx q.1 = some qp → qp.search str = false) :
    ∃ S, GenericSchema.make rx J = some S ∧
      root.Key c str = some ({ root.CreateLogicValidators c with valueSchema := some S }, true) := by
  obtain ⟨Ss, hSs, hpats⟩ := GenericSchemaValidator.make_patterns rx ms root pj hmake hpp
  obtain ⟨S, hS, hJ⟩ := GenericSchemaValidator.makeMembers_get rx pj Ss hSs i name J hi
  refine ⟨S, hJ, ?_⟩
  have hnames := GenericSchemaValidator.make_names rx ms root hmake
  have hno : ∀ p ∈ root.properties_, p.name ≠ str := by
    intro p hp hn
    apply hnone
    rw [← hnames, ← hn]
    exact List.mem_map_of_mem (fun p => p.name) hp
  have hf : root.FindPropertyIndex str = none :=
    (GenericSchemaValidator.find_none str root.properties_ 0).mpr hno
  have hfind : findPatternProperty str
      (Ss.map (fun kv => ({ schema := kv.2, pattern := rx kv.1 } : PatternProperty BaseSchema)))
      = some S := by
    refine GenericSchemaValidator.findPattern_first str _ i
      { schema := S, pattern := rx name } pat ?_ hrx hm ?_
    · rw [List.getElem?_map, hS]; rfl
    · intro j q hj hq qp hqp
      rw [List.getElem?_map] at hq
      rcases hS1 : Ss[j]? with _ | kv
      · simp [hS1] at hq
      · simp only [hS1, Option.map_some', Option.some.injEq] at hq
        subst hq
        have hnm : (pj.map Prod.fst)[j]? = some kv.1 := by
          rw [← GenericSchemaValidator.makeMembers_names rx pj Ss hSs, List.getElem?_map, hS1]
          rfl
        rw [List.getElem?_map] at hnm
        rcases hpj : pj[j]? with _ | m
        · simp [hpj] at hnm
        · simp only [hpj, Option.map_some', Option.some.injEq] at hnm
          exact hfirst j m hj hpj qp (by rw [hnm]; exact hqp)
  unfold BaseSchema.Key
  simp only [GenericSchemaValidator.hasType_object root ht, if_false, hf, BaseSchema.KeyOther,
    hpats, Option.some_bind, hfind, Bool.false_eq_true]

/-- The schema `{"patternProperties":{"(":{"type":"string"},"a":{"type":"integer"},
"b":{"type":"string"}}}`, with a library that does not compile `(`: the key `ab`
selects the schema of `a`, so `{"ab":1}` is valid and `{"ab":"x"}` is not. -/
theorem pattern_property_first_match_witness :
    GenericSchema.make strictRegex (.obj patternOrderJson) = some patternOrderSchema ∧
    strictRegex "(" = none ∧
    (∃ S, GenericSchema.make strictRegex (.obj [("type", .str "integer")]) = some S ∧
      patternOrderSchema.Key (Context.make patternOrderSchema) "ab"
        = some ({ Context.make patternOrderSchema with valueSchema := some S }, true)) ∧
    validate 0 patternOrderSchema (.Object [(("ab", true), .Uint 1)]) = some true ∧
    validate 0 patternOrderSchema (.Object [(("ab", true), .String_ "x" true)]) = some false :=
  ⟨rfl, rfl,
   pattern_property_first_match strictRegex patternOrderJson _ patternOrderSchema
    (Context.make patternOrderSchema) "ab" 1 "a" (.obj [("type", .str "integer")])
    ⟨fun str => decide ("a".toList <:+: str.toList)⟩ rfl (by decide) rfl (by decide) rfl rfl
    (by decide)
    (fun j q hj hq qp hqp => by
      have hj0 : j = 0 := by omega
      subst hj0
      simp only [List.getElem?_cons_zero, Option.some.injEq] at hq
      subst hq
      cases hqp),
   rfl, rfl⟩

/-- C27, stack safety on well-formed input: for every schema, when a prefix of
the events of a well-formed document has been delivered to a fresh validator
and every event was accepted, the height of the stack of contexts is the number
of objects and arrays that are open; and for the next event of the document and
every validator that receives it, the validator itself and the validators owned
by the contexts to any depth, while valid: its stack is not empty when the
event is `Key`, `EndObject` or `EndArray`, whose methods read the current
context first; every context of its stack owns the validators the combinators
of its schema ask for, for `allOf`, `anyOf` and `oneOf` exactly as many as the
keyword has schemas; and when the method of the event calls `EndValue`, the
stack is not empty there, the current context owns these validators, and
`EndValue` reads nothing that is not there. -/
theorem stack_safety (fuel : Nat) (root : BaseSchema) (out : OutputHandler) (d : Doc)
    (pre post : List Event) (w : GenericSchemaValidator) (rs : List Bool)
    (hd : d.events = pre ++ post)
    (hrun : GenericSchemaValidator.feed fuel (GenericSchemaValidator.make root out) pre
      = some (w, rs))
    (hv : w.IsValid = true) :
    w.schemaStack_.length = openContainers pre ∧
    ∀ (e : Event) (rest : List Event), post = e :: rest →
      ∀ (n : Nat), ∀ x ∈ GenericSchemaValidator.within n w, x.IsValid = true →
        (e.isBegin = false → x.schemaStack_ ≠ []) ∧
        (∀ c ∈ x.schemaStack_, Context.CreatedSized c) ∧
        ∀ (sub : GenericSchemaValidator → Event → Option GenericSchemaValidator)
          (v2 : GenericSchemaValidator),
          GenericSchemaValidator.atEndValue sub x e = some v2 →
          GenericSchemaValidator.handleWith sub x e = v2.HANDLE_END_ e ∧
          ∃ (c : Context) (tail : List Context), v2.schemaStack_ = c :: tail ∧
            c.CreatedSized ∧ (c.schema.EndValue c).isSome = true ∧
            v2.EndValue.isSome = true := by
  obtain ⟨fs, hpre, hnext⟩ := GenericSchemaValidator.track_prefix d pre post hd
  have hfresh : ∀ n, SafeAt n [] (GenericSchemaValidator.make root out) := by
    intro n
    cases n with
    | zero => trivial
    | succ n =>
      intro _
      refine ⟨List.Forall₂.nil, ?_⟩
      intro i c hc
      simp [GenericSchemaValidator.make] at hc
  have hS : ∀ n, SafeAt n fs w := fun n =>
    GenericSchemaValidator.safeAt_feed n fuel pre _ w rs [] fs (hfresh n) hpre hrun
  refine ⟨?_, ?_⟩
  · rw [GenericSchemaValidator.tracks_length fs _ ((hS 1) hv).1]
    exact GenericSchemaValidator.trackAll_open pre fs hpre
  · intro e rest hpost n x hx hxv
    obtain ⟨fs1, hstep⟩ := hnext e rest hpost
    obtain ⟨gs, hg, hSx⟩ := GenericSchemaValidator.within_safe e n fs w (hS (n + 1))
      (by rw [hstep]; rfl) x hx
    obtain ⟨gs1, hg1⟩ := Option.isSome_iff_exists.mp hg
    have hT : Tracks gs x.schemaStack_ := (hSx hxv).1
    refine ⟨GenericSchemaValidator.track_current gs gs1 e _ hT hg1,
      GenericSchemaValidator.tracks_created gs _ hT, ?_⟩
    intro sub v2 h2
    obtain ⟨h3, c, tail, h4, h5, h6⟩ :=
      GenericSchemaValidator.atEndValue_tracks sub x v2 e gs gs1 hT hg1 h2
    exact ⟨h3, c, tail, h4, h5, GenericSchemaValidator.endValue_isSome c h5, h6⟩

/-- The validator of `{"allOf":[{}]}` after `StartArray`, `Int(1)` and
`StartObject` of the document `[1, {"a": null}, "x"]`: two containers are open
and the stack has two contexts, and the next event, `Key`, finds a context in
the validator and in the validator its root context owns. -/
theorem stack_safety_witness :
    (GenericSchemaValidator.feed 1
      (GenericSchemaValidator.make allOfAnySchema nullOutputHandler_)
      [.StartArray, .Int_ 1, .StartObject]).isSome = true ∧
    ∀ (w : GenericSchemaValidator) (rs : List Bool),
      GenericSchemaValidator.feed 1
        (GenericSchemaValidator.make allOfAnySchema nullOutputHandler_)
        [.StartArray, .Int_ 1, .StartObject] = some (w, rs) → w.IsValid = true →
      w.schemaStack_.length = 2 ∧
      ∀ x ∈ GenericSchemaValidator.within 1 w, x.IsValid = true → x.schemaStack_ ≠ [] :=
  ⟨rfl, fun w rs h hv =>
    have h1 := stack_safety 1 allOfAnySchema nullOutputHandler_
      sampleDocument [.StartArray, .Int_ 1, .StartObject]
      [.Key "a" false, .Null, .EndObject 1, .String_ "x" true, .EndArray 3] w rs rfl h hv
    ⟨h1.1, fun x hx hxv => (h1.2 (.Key "a" false) _ rfl 1 x hx hxv).1 rfl⟩⟩

/-- C28, the required check is exact when names are distinct: a schema whose
only keywords are `properties`, with pairwise distinct names, and `required`,
an array of pairwise distinct strings, compiles to the node with these
properties marked; on a well-formed object with pairwise distinct keys whose
members were all accepted, the method `EndObject` passes exactly when every
name that is listed in `required` and declared in `properties` is a key of the
object, so a listed name that is not declared imposes nothing, and the verdict
of a fresh validator is that of the members together with this condition. -/
theorem required_exact_when_distinct (rx : RegexEngine) (ms pj : List (String × Json))
    (props : List (String × BaseSchema)) (req : List String)
    (dms : List ((String × Bool) × Doc)) (fuel : Nat)
    (honly : onlyKeywords ["properties", "required"] ms = true)
    (hprops : GetMember ms "properties" = some (.obj pj))
    (hmake : makeMembers rx pj = some props)
    (hreq : GetMember ms "required" = some (.arr (req.map Json.str)))
    (hn : (pj.map Prod.fst).Nodup) (hr : req.Nodup) (hlen : pj.length ≤ SizeTypeMax)
    (hk : (dms.map (fun m => m.1.1)).Nodup)
    (hfit : (Doc.Object dms).fits = true)
    (hsub : ∀ m ∈ dms, ∀ p ∈ props, p.1 = m.1.1 → (validate fuel p.2 m.2).isSome = true) :
    GenericSchema.make rx (.obj ms) = some (requiredSchema props req) ∧
    (∃ cF : Context,
      membersFold fuel (requiredSchema props req)
          (Context.startObject (requiredSchema props req)
            (Context.make (requiredSchema props req))) dms
        = some (cF, decide (∀ m ∈ dms, ∀ p ∈ props, p.1 = m.1.1 →
            verdictOf fuel m.2 p.2 = true)) ∧
      ((∀ m ∈ dms, ∀ p ∈ props, p.1 = m.1.1 → verdictOf fuel m.2 p.2 = true) →
        (requiredSchema props req).EndObject cF dms.length
          = some (cF, decide (∀ r ∈ req, r ∈ pj.map Prod.fst →
              r ∈ dms.map (fun m => m.1.1))))) ∧
    validate fuel (requiredSchema props req) (.Object dms)
      = some (decide (∀ m ∈ dms, ∀ p ∈ props, p.1 = m.1.1 → verdictOf fuel m.2 p.2 = true) &&
          decide (∀ r ∈ req, r ∈ pj.map Prod.fst → r ∈ dms.map (fun m => m.1.1))) := by
  have hnames := GenericSchemaValidator.makeMembers_names rx pj props hmake
  have hn1 : (props.map Prod.fst).Nodup := hnames ▸ hn
  have hfit0 := hfit
  simp only [Doc.fits, Bool.and_eq_true, decide_eq_true_eq] at hfit0
  have hfits : ∀ m ∈ dms, m.2.fits = true :=
    GenericSchemaValidator.fits_of_mem_members dms hfit0.2
  have hall := GenericSchemaValidator.members_all_iff fuel props hn1 dms hfits
  refine ⟨?_, ?_, ?_⟩
  · rw [GenericSchema.make,
      GenericSchemaValidator.make_required rx ms pj props req honly hprops hmake hreq hn hr hlen]
  · obtain ⟨cF, h1, -, h3⟩ :=
      GenericSchemaValidator.required_end fuel props req hn1 hr dms hk hfit0.1
    rw [hall] at h1 h3
    rw [hnames] at h3
    exact ⟨cF, h1, fun h => h3 (by simpa using h)⟩
  · rw [GenericSchemaValidator.required_node fuel props req hn1 hr dms hk hfit ?_, hall, hnames]
    intro m hm S hS
    simp only [selected] at hS
    rcases hl : props.lookup m.1.1 with _ | S1
    · simp only [hl, if_true, Option.some.injEq] at hS
      subst hS
      rw [GenericSchemaValidator.validate_typeless fuel m.2 (hfits m hm)]; rfl
    · simp only [hl, Option.some.injEq] at hS
      subst hS
      exact hsub m hm (m.1.1, S1) (GenericSchemaValidator.lookup_mem _ props S1 hl) rfl

/-- The schema `{"properties":{"a":{},"b":{}},"required":["a","c"]}` accepts the
object `{"a":1}`, where the undeclared name `c` is absent, and rejects
`{"b":1}`, where the declared and listed name `a` is absent. -/
theorem required_exact_when_distinct_witness :
    onlyKeywords ["properties", "required"] requiredACJson = true ∧
    GenericSchema.make noRegex (.obj requiredACJson)
      = some (requiredSchema [("a", typeless), ("b", typeless)] ["a", "c"]) ∧
    validate 0 (requiredSchema [("a", typeless), ("b", typeless)] ["a", "c"])
      (.Object [(("a", true), .Uint 1)]) = some true ∧
    validate 0 (requiredSchema [("a", typeless), ("b", typeless)] ["a", "c"])
      (.Object [(("b", true), .Uint 1)]) = some false :=
  have h1 := required_exact_when_distinct noRegex requiredACJson
    [("a", .obj []), ("b", .obj [])] [("a", typeless), ("b", typeless)] ["a", "c"]
    [(("a", true), .Uint 1)] 0 (by decide) rfl rfl rfl (by decide) (by decide) (by decide)
    (by decide) rfl
    (fun m hm p hp _ => by
      simp only [List.mem_cons, List.mem_singleton, List.not_mem_nil, or_false] at hm hp
      subst hm
      rcases hp with rfl | rfl <;> rfl)
  have h2 := required_exact_when_distinct noRegex requiredACJson
    [("a", .obj []), ("b", .obj [])] [("a", typeless), ("b", typeless)] ["a", "c"]
    [(("b", true), .Uint 1)] 0 (by decide) rfl rfl rfl (by decide) (by decide) (by decide)
    (by decide) rfl
    (fun m hm p hp _ => by
      simp only [List.mem_cons, List.mem_singleton, List.not_mem_nil, or_false] at hm hp
      subst hm
      rcases hp with rfl | rfl <;> rfl)
  ⟨by decide, h1.1, h1.2.2.trans (by decide), h2.2.2.trans (by decide)⟩

end RapidJson
